import Mathlib

/-!
# ARIES multigrid agglomeration (GEOM_GeometryMultigrid.cpp)

Shallow embedding of the coarse-level constructor `GEOM_GeometryMultigrid::GEOM_GeometryMultigrid`
and of its helpers `SetBoundAgglomeration`, `SetSuitableNeighbors` and `SetControlVolume`.

Conventions of the embedding:
* per-point data of the fine grid and of the coarse grid are total maps indexed by `Nat`
  (`fine_grid->node[i]->GetX()` is `X i`); array writes are `Function.update`;
* loop counters (`unsigned short`, `unsigned long`) are unbounded naturals: the embedding describes
  runs in which no counter wraps around;
* volumes, coordinates and normals are rationals and their sums are exact; where the code
  compares a `double` with `0.0` (the test for null area), the underflow of the squares is part
  of the embedding (`doubleSquare`);
* the result of `GeometricalCheck` is a Boolean per fine point: the function reads only data that
  the constructor never writes (the point's volume, the domain volume, `nDim`), and computes in
  `double` with `pow`;
* the array `node` of the coarse grid has as many entries as the fine grid has points (line 73):
  the total functions of the reconciliation describe the writes for indices within the array,
  and the functions whose names end in `_checked` return `none` when an index is not, or when
  the serial exchange reads past the end of a send buffer.
-/

namespace ARIES

/-! ## Data model -/

/-- Configuration values read by the constructor. `TBOX_Config` and the `TBOX` constants are not in
the source tree, so the constants it compares against are fields here. -/
structure Config where
  SEND_RECEIVE : Nat
  HEXAHEDRON : Nat
  RECTANGLE : Nat
  MESH_1 : Nat
  nMarker_All : Nat
  Marker_All_KindBC : Nat → Nat
  Marker_All_SendRecv : Nat → Int

/-- The fine grid as the constructor receives it: the accessors of `GEOM_Geometry` and of
`GRID_DGPoint` that the constructor calls, one field per accessor. `vertex m` is the list of
`vertex[m][iVertex]->GetNode()`, `Point p` the adjacency list of `node[p]`, `Vertex p m` is
`node[p]->GetVertex(m)` (`-1` for none), `elem` lists `(GetVTK_Type(), nodes)` per element.
`Agglomerate`, `Parent_CV` and `Agglomerate_Indirect` are the values on entry of the fields the
constructor overwrites. -/
structure FineGrid where
  nPoint : Nat
  nMarker : Nat
  vertex : Nat → List Nat
  Point : Nat → List Nat
  elem : List (Nat × List Nat)
  Volume : Nat → ℚ
  Domain : Nat → Bool
  Boundary : Nat → Bool
  Vertex : Nat → Nat → Int
  GeometricalCheck : Nat → Bool
  Agglomerate_Indirect : Nat → Bool
  Agglomerate : Nat → Bool
  Parent_CV : Nat → Nat

/-- Mutable data of the construction. Fields starting with `f` belong to the points of the fine
grid (`fine_grid->node[p]`), the others to the points of the coarse grid (`node[c]`):
`Children_CV c i` is `node[c]->GetChildren_CV(i)`, `nChildren_CV c` is `node[c]->GetnChildren_CV()`,
`cPoint c` the coarse adjacency list filled by `node[c]->SetPoint`, `cDomain c` is
`node[c]->GetDomain()`, `cIndirect c` is `node[c]->GetAgglomerate_Indirect()`. -/
structure MGState where
  fAgglomerate : Nat → Bool
  fParent_CV : Nat → Nat
  fIndirect : Nat → Bool
  Children_CV : Nat → Nat → Nat
  nChildren_CV : Nat → Nat
  cIndirect : Nat → Bool
  cPoint : Nat → List Nat
  cDomain : Nat → Bool
  cVolume : Nat → ℚ
  Index_CoarseCV : Nat
  nPointDomain : Nat
  nPoint : Nat

/-- Modelled from the spec: `GRID_DGPoint::SetParent_CV` is not in the source tree. A fine point has
"(after agglomeration) a single parent coarse-CV index", and a point is unagglomerated until it
is given a parent: the setter stores the parent and marks the point agglomerated. -/
def MGState.SetParent_CV (st : MGState) (p c : Nat) : MGState :=
  { st with fParent_CV := Function.update st.fParent_CV p c,
            fAgglomerate := Function.update st.fAgglomerate p true }

/-- Write of child slot `i` of coarse point `c`: `node[c]->SetChildren_CV(i, p)`. -/
def MGState.SetChildren_CV (st : MGState) (c i p : Nat) : MGState :=
  { st with Children_CV := Function.update st.Children_CV c (Function.update (st.Children_CV c) i p) }

/-- Write of the child count of coarse point `c`: `node[c]->SetnChildren_CV(n)`. -/
def MGState.SetnChildren_CV (st : MGState) (c n : Nat) : MGState :=
  { st with nChildren_CV := Function.update st.nChildren_CV c n }

/-- Write of the indirect flag of coarse point `c`: `node[c]->SetAgglomerate_Indirect(b)`. -/
def MGState.SetAgglomerate_Indirect (st : MGState) (c : Nat) (b : Bool) : MGState :=
  { st with cIndirect := Function.update st.cIndirect c b }

/-! ## SetBoundAgglomeration (lines 646-720) -/

/-- The markers collected in `copy_marker`: every `jMarker < nMarker` with
`node[p]->GetVertex(jMarker) != -1`, in increasing order; `counter` is its length. -/
def copy_marker (fg : FineGrid) (p : Nat) : List Nat :=
  (List.range fg.nMarker).filter (fun jMarker => fg.Vertex p jMarker != -1)

/-- Embedding of `SetBoundAgglomeration(CVPoint, marker_seed, fine_grid, config)`. -/
def SetBoundAgglomeration (fg : FineGrid) (cfg : Config) (st : MGState)
    (CVPoint marker_seed : Nat) : Bool :=
  let agglomerate_CV := false
  if st.fAgglomerate CVPoint == false && fg.Domain CVPoint && fg.GeometricalCheck CVPoint then
    if fg.Boundary CVPoint then
      let cm := copy_marker fg CVPoint
      let counter := cm.length
      let a1 := if counter = 1 ∧ cm.getD 0 0 = marker_seed then true else agglomerate_CV
      let a2 := if counter = 1 ∧ cfg.Marker_All_KindBC (cm.getD 0 0) = cfg.SEND_RECEIVE
        then true else a1
      let a3 := if counter = 2 ∧ cfg.Marker_All_KindBC marker_seed ≠ cfg.SEND_RECEIVE ∧
          ((cm.getD 0 0 = marker_seed ∧ cfg.Marker_All_KindBC (cm.getD 1 0) = cfg.SEND_RECEIVE) ∨
           (cfg.Marker_All_KindBC (cm.getD 0 0) = cfg.SEND_RECEIVE ∧ cm.getD 1 0 = marker_seed))
        then true else a2
      a3
    else true
  else agglomerate_CV

/-! ## SetSuitableNeighbors (lines 754-879) -/

/-- The call `sort(v.begin(), v.end())` on a vector of point indices. -/
def std_sort (l : List Nat) : List Nat := l.insertionSort (· ≤ ·)

/-- The call `unique` followed by `resize`: every run of equal consecutive entries is reduced to
one entry. -/
def std_unique : List Nat → List Nat
  | [] => []
  | [a] => [a]
  | a :: b :: t => if a = b then std_unique (b :: t) else a :: std_unique (b :: t)

/-- First_Neighbor_Points as built in lines 763-769: the seed, then its neighbours. -/
def First_Neighbor_Points (fg : FineGrid) (iPoint : Nat) : List Nat :=
  iPoint :: fg.Point iPoint

/-- The pairs `(Second_Neighbor_Points[n], Second_Origin_Points[n])` pushed in lines 774-797. -/
def Second_Neighbor_Pairs (fg : FineGrid) (iPoint : Nat) : List (Nat × Nat) :=
  (fg.Point iPoint).foldl (fun acc jPoint =>
    (fg.Point jPoint).foldl (fun acc2 kPoint =>
      if (First_Neighbor_Points fg iPoint).contains kPoint then acc2
      else acc2 ++ [(kPoint, jPoint)]) acc) []

/-- The double loop of lines 800-812 (and 864-873): for every index pair `i < j` with equal
points and different origins, the point at `i` is pushed. -/
def repeatedNeighbors (prs : List (Nat × Nat)) : List Nat :=
  (List.range prs.length).foldl (fun acc iNeighbor =>
    (List.range prs.length).foldl (fun acc2 jNeighbor =>
      if (prs.getD iNeighbor (0, 0)).1 = (prs.getD jNeighbor (0, 0)).1 ∧
         (prs.getD iNeighbor (0, 0)).2 ≠ (prs.getD jNeighbor (0, 0)).2 ∧
         iNeighbor < jNeighbor
      then acc2 ++ [(prs.getD iNeighbor (0, 0)).1] else acc2) acc) []

/-- Suitable_Second_Neighbors after the sort and unique of lines 816-818. -/
def Suitable_Second_Neighbors (fg : FineGrid) (iPoint : Nat) : List Nat :=
  std_unique (std_sort (repeatedNeighbors (Second_Neighbor_Pairs fg iPoint)))

/-- The pairs `(Third_Neighbor_Points[n], Third_Origin_Points[n])` pushed in lines 828-861; the
first-neighbour list has been sorted and made unique (lines 821-823) before it is searched. -/
def Third_Neighbor_Pairs (fg : FineGrid) (iPoint : Nat) : List (Nat × Nat) :=
  (Suitable_Second_Neighbors fg iPoint).foldl (fun acc kPoint =>
    (fg.Point kPoint).foldl (fun acc2 lPoint =>
      if (std_unique (std_sort (First_Neighbor_Points fg iPoint))).contains lPoint ||
         (Suitable_Second_Neighbors fg iPoint).contains lPoint then acc2
      else acc2 ++ [(lPoint, kPoint)]) acc) []

/-- Embedding of `SetSuitableNeighbors(&Suitable_Indirect_Neighbors, iPoint, Index_CoarseCV,
fine_grid)`: the value of the output vector on return, given its value on entry. -/
def SetSuitableNeighbors (fg : FineGrid) (Suitable_Indirect_Neighbors : List Nat)
    (iPoint : Nat) : List Nat :=
  std_unique (std_sort (Suitable_Indirect_Neighbors
    ++ repeatedNeighbors (Second_Neighbor_Pairs fg iPoint)
    ++ repeatedNeighbors (Third_Neighbor_Pairs fg iPoint)))

/-! ## The constructor (lines 13-640) -/

/-- Lines 50-68: on the first coarse level the indirect flag of every fine point is cleared and
then set for the nodes of every hexahedron and rectangle; on other levels it is left as found. -/
def SetIndirectFlags (fg : FineGrid) (cfg : Config) (iMesh : Nat) : Nat → Bool :=
  if iMesh = cfg.MESH_1 then
    fg.elem.foldl (fun flags e =>
      if e.1 = cfg.HEXAHEDRON ∨ e.1 = cfg.RECTANGLE then
        e.2.foldl (fun fl iPoint => Function.update fl iPoint true) flags
      else flags)
      (fun p => if p < fg.nPoint then false else fg.Agglomerate_Indirect p)
  else fg.Agglomerate_Indirect

/-- Modelled from the spec: the constructor of `GRID_DGPoint` is not in the source tree. Lines
71-86 create one coarse point per fine point; a new coarse point has no children (count 0), no
neighbours, volume 0, is domain-owned ("false for CVs wholly owned by a remote partition") and
its indirect flag is cleared (line 83). The fine-point fields are those of the fine grid. -/
def initState (fg : FineGrid) (cfg : Config) (iMesh : Nat) : MGState :=
  { fAgglomerate := fg.Agglomerate
    fParent_CV := fg.Parent_CV
    fIndirect := SetIndirectFlags fg cfg iMesh
    Children_CV := fun _ _ => 0
    nChildren_CV := fun _ => 0
    cIndirect := fun _ => false
    cPoint := fun _ => []
    cDomain := fun _ => true
    cVolume := fun _ => 0
    Index_CoarseCV := 0
    nPointDomain := 0
    nPoint := 0 }

/-- Lines 115-139: whether the seed of a boundary coarse CV may take further points. -/
def agglomerate_seed (fg : FineGrid) (cfg : Config) (iPoint : Nat) : Bool :=
  let cm := copy_marker fg iPoint
  let counter := cm.length
  let a0 := true
  let a1 := if counter = 1 then true else a0
  let a2 := if counter = 2 then
      (if cfg.Marker_All_KindBC (cm.getD 0 0) = cfg.SEND_RECEIVE ∨
          cfg.Marker_All_KindBC (cm.getD 1 0) = cfg.SEND_RECEIVE then true else false)
    else a1
  let a3 := if counter > 2 then false else a2
  a3

/-- Lines 151-166: one direct neighbour of a boundary seed. The accumulator is the state together
with the local variable `nChildren`. -/
def boundDirectStep (fg : FineGrid) (cfg : Config) (marker_seed : Nat)
    (acc : MGState × Nat) (CVPoint : Nat) : MGState × Nat :=
  if SetBoundAgglomeration fg cfg acc.1 CVPoint marker_seed then
    (((acc.1.SetParent_CV CVPoint acc.1.Index_CoarseCV).SetChildren_CV
        acc.1.Index_CoarseCV acc.2 CVPoint), acc.2 + 1)
  else acc

/-- Lines 179-195: one indirect neighbour of a boundary seed. -/
def boundIndirectStep (fg : FineGrid) (cfg : Config) (marker_seed : Nat)
    (acc : MGState × Nat) (CVPoint : Nat) : MGState × Nat :=
  if SetBoundAgglomeration fg cfg acc.1 CVPoint marker_seed then
    let s1 := acc.1.SetParent_CV CVPoint acc.1.Index_CoarseCV
    let s2 := if s1.fIndirect CVPoint then s1.SetAgglomerate_Indirect s1.Index_CoarseCV true else s1
    (s2.SetChildren_CV s2.Index_CoarseCV acc.2 CVPoint, acc.2 + 1)
  else acc

/-- Lines 93-203: the body of the first boundary pass for the vertex of marker `iMarker` whose
node is `iPoint`. -/
def boundSeed (fg : FineGrid) (cfg : Config) (iMarker : Nat) (st : MGState) (iPoint : Nat) :
    MGState :=
  if st.fAgglomerate iPoint == false && fg.Domain iPoint && fg.GeometricalCheck iPoint then
    let s1 := (st.SetParent_CV iPoint st.Index_CoarseCV).SetChildren_CV st.Index_CoarseCV 0 iPoint
    let acc : MGState × Nat :=
      if agglomerate_seed fg cfg iPoint then
        let acc1 := (fg.Point iPoint).foldl (boundDirectStep fg cfg iMarker) (s1, 1)
        let Suitable_Indirect_Neighbors :=
          if acc1.1.fIndirect iPoint then SetSuitableNeighbors fg [] iPoint else []
        Suitable_Indirect_Neighbors.foldl (boundIndirectStep fg cfg iMarker) acc1
      else (s1, 1)
    let s2 := acc.1.SetnChildren_CV acc.1.Index_CoarseCV acc.2
    { s2 with Index_CoarseCV := s2.Index_CoarseCV + 1 }
  else st

/-- Lines 89-205: the first boundary pass, over every marker and every vertex of it in order. -/
def BoundarySeeding (fg : FineGrid) (cfg : Config) (st : MGState) : MGState :=
  (List.range fg.nMarker).foldl (fun s iMarker =>
    (fg.vertex iMarker).foldl (boundSeed fg cfg iMarker) s) st

/-- Lines 214-222: a boundary point left over by the first pass becomes a coarse CV of its own. -/
def singletonSeed (fg : FineGrid) (st : MGState) (iPoint : Nat) : MGState :=
  if st.fAgglomerate iPoint == false && fg.Domain iPoint then
    let s1 := (st.SetParent_CV iPoint st.Index_CoarseCV).SetChildren_CV st.Index_CoarseCV 0 iPoint
    let s2 := s1.SetnChildren_CV s1.Index_CoarseCV 1
    { s2 with Index_CoarseCV := s2.Index_CoarseCV + 1 }
  else st

/-- Lines 211-223: the second boundary pass. -/
def BoundarySingletons (fg : FineGrid) (st : MGState) : MGState :=
  (List.range fg.nMarker).foldl (fun s iMarker =>
    (fg.vertex iMarker).foldl (singletonSeed fg) s) st

/-! ### The candidate-priority queue -/

/-- Modelled from the spec: `GEOM_GeometryMultigridQueue` is not in the source tree. The queue holds
the points still present, each with its priority, in the order in which they were last put into
their priority class ("ties broken by insertion/index order"); it is "initialized over all
fine-point IDs with priority 0". -/
structure MGQueue where
  entries : List (Nat × Int)

/-- Modelled from the spec: the queue constructor, "initialized over all fine-point IDs with
priority 0". -/
def MGQueue.init (nPoint : Nat) : MGQueue :=
  ⟨(List.range nPoint).map (fun iPoint => (iPoint, 0))⟩

/-- Modelled from the spec: `RemoveCV(id)`, "drop a point once it is agglomerated". -/
def MGQueue.RemoveCV (q : MGQueue) (id : Nat) : MGQueue :=
  ⟨q.entries.filter (fun e => e.1 != id)⟩

/-- Priority of a point that is present in the queue. -/
def MGQueue.priority (q : MGQueue) (id : Nat) : Option Int :=
  (q.entries.find? (fun e => e.1 == id)).map (fun e => e.2)

/-- Modelled from the spec: `MoveCV(id, priority)`, "reset a point's priority (used both to set
an explicit value and to demote with a sentinel lowest value when a seed attempt fails)". The
point is put last in its new priority class; a point that is not present stays absent. -/
def MGQueue.MoveCV (q : MGQueue) (id : Nat) (priority : Int) : MGQueue :=
  match q.priority id with
  | some _ => ⟨(q.RemoveCV id).entries ++ [(id, priority)]⟩
  | none => q

/-- Increment of the priority of a point that is present (part of `Update`). -/
def MGQueue.IncrPriorityCV (q : MGQueue) (id : Nat) : MGQueue :=
  match q.priority id with
  | some pr => ⟨(q.RemoveCV id).entries ++ [(id, pr + 1)]⟩
  | none => q

/-- Modelled from the spec: `Update(id, meshAdjacency)`, "remove `id` and increment the priority
of every still-present neighbor by one". -/
def MGQueue.Update (q : MGQueue) (id : Nat) (fg : FineGrid) : MGQueue :=
  (fg.Point id).foldl (fun q2 jPoint => q2.IncrPriorityCV jPoint) (q.RemoveCV id)

/-- Modelled from the spec: `EmptyQueue()`. -/
def MGQueue.EmptyQueue (q : MGQueue) : Bool := q.entries.isEmpty

/-- Modelled from the spec: `NextCV()`, "return an unagglomerated point of maximum priority, ties
broken by insertion/index order" (the earliest entry of maximum priority; 0 on an empty queue,
which the constructor never asks for). -/
def MGQueue.NextCV (q : MGQueue) : Nat :=
  match q.entries with
  | [] => 0
  | e :: t => (t.foldl (fun best x => if best.2 < x.2 then x else best) e).1

/-- Lines 226-246: the queue is brought in line with the boundary passes. -/
def seedQueue (fg : FineGrid) (st : MGState) (q : MGQueue) : MGQueue :=
  (List.range fg.nPoint).foldl (fun q2 iPoint =>
    if st.fAgglomerate iPoint = true then q2.RemoveCV iPoint
    else
      let priority := (fg.Point iPoint).foldl (fun pr jPoint =>
        if st.fAgglomerate jPoint = true then pr + 1 else pr) (0 : Nat)
      q2.MoveCV iPoint (priority : Int)) q

/-! ### Interior seeding (lines 248-354) -/

/-- Lines 279-297: one direct neighbour of an interior seed. The accumulator is the state, the
queue and the local variable `nChildren`. -/
def interiorDirectStep (fg : FineGrid) (acc : MGState × MGQueue × Nat) (CVPoint : Nat) :
    MGState × MGQueue × Nat :=
  if acc.1.fAgglomerate CVPoint == false && fg.Domain CVPoint && fg.GeometricalCheck CVPoint then
    (((acc.1.SetParent_CV CVPoint acc.1.Index_CoarseCV).SetChildren_CV
        acc.1.Index_CoarseCV acc.2.2 CVPoint), acc.2.1.Update CVPoint fg, acc.2.2 + 1)
  else acc

/-- Lines 310-337: one indirect neighbour of an interior seed. -/
def interiorIndirectStep (fg : FineGrid) (acc : MGState × MGQueue × Nat) (CVPoint : Nat) :
    MGState × MGQueue × Nat :=
  if acc.1.fAgglomerate CVPoint == false && fg.Domain CVPoint then
    let s1 := acc.1.SetParent_CV CVPoint acc.1.Index_CoarseCV
    let s2 := if s1.fIndirect CVPoint then s1.SetAgglomerate_Indirect s1.Index_CoarseCV true else s1
    (s2.SetChildren_CV s2.Index_CoarseCV acc.2.2 CVPoint, acc.2.1.Update CVPoint fg, acc.2.2 + 1)
  else acc

/-- Lines 252-352: the body of the interior loop. -/
def interiorBody (fg : FineGrid) (sq : MGState × MGQueue) : MGState × MGQueue :=
  let st := sq.1
  let iPoint := sq.2.NextCV
  if st.fAgglomerate iPoint == false && fg.Domain iPoint && fg.GeometricalCheck iPoint then
    let s1 := (st.SetParent_CV iPoint st.Index_CoarseCV).SetChildren_CV st.Index_CoarseCV 0 iPoint
    let q1 := sq.2.Update iPoint fg
    let acc1 := (fg.Point iPoint).foldl (interiorDirectStep fg) (s1, q1, 1)
    let Suitable_Indirect_Neighbors :=
      if acc1.1.fIndirect iPoint then SetSuitableNeighbors fg [] iPoint else []
    let acc2 := Suitable_Indirect_Neighbors.foldl (interiorIndirectStep fg) acc1
    let s2 := acc2.1.SetnChildren_CV acc2.1.Index_CoarseCV acc2.2.2
    ({ s2 with Index_CoarseCV := s2.Index_CoarseCV + 1 }, acc2.2.1)
  else (st, sq.2.MoveCV iPoint (-1))

/-- Lines 249-354: `while (!EmptyQueue() && iteration < nPoint)`; the first argument is the number
of iterations that the bound on `iteration` still allows. -/
def interiorLoop (fg : FineGrid) : Nat → MGState × MGQueue → MGState × MGQueue
  | 0, sq => sq
  | fuel + 1, sq => if sq.2.EmptyQueue then sq else interiorLoop fg fuel (interiorBody fg sq)

/-- Lines 225-354: queue seeding and interior loop. -/
def InteriorSeeding (fg : FineGrid) (st : MGState) : MGState :=
  (interiorLoop fg fg.nPoint (st, seedQueue fg st (MGQueue.init fg.nPoint))).1

/-! ### Leftover sweep (lines 356-374) -/

/-- Lines 360-371: the body of the leftover sweep for fine point `iPoint`. -/
def leftoverStep (fg : FineGrid) (st : MGState) (iPoint : Nat) : MGState :=
  if st.fAgglomerate iPoint == false && fg.Domain iPoint then
    let s1 := st.SetParent_CV iPoint st.Index_CoarseCV
    let s2 := if s1.fIndirect iPoint then s1.SetAgglomerate_Indirect s1.Index_CoarseCV true else s1
    let s3 := s2.SetChildren_CV s2.Index_CoarseCV 0 iPoint
    let s4 := s3.SetnChildren_CV s3.Index_CoarseCV 1
    { s4 with Index_CoarseCV := s4.Index_CoarseCV + 1 }
  else st

/-- Lines 358-372: the leftover sweep over all fine points. -/
def LeftoverSweep (fg : FineGrid) (st : MGState) : MGState :=
  (List.range fg.nPoint).foldl (leftoverStep fg) st

/-! ### Hanging-node repair (lines 376-469) -/

/-- Modelled from the spec: `GRID_DGPoint::SetPoint` is not in the source tree. The coarse adjacency
holds each coarse neighbour once (a CV "with exactly one coarse neighbor" is one whose list has
length 1): a neighbour already listed is not added again. -/
def MGState.SetPoint (st : MGState) (c iParent : Nat) : MGState :=
  if (st.cPoint c).contains iParent then st
  else { st with cPoint := Function.update st.cPoint c (st.cPoint c ++ [iParent]) }

/-- Lines 383-395 (and 887-899): coarse adjacency of the coarse points below `n`, by projection
of the fine adjacency through the parent map. -/
def projectAdjacency (fg : FineGrid) (n : Nat) (st : MGState) : MGState :=
  (List.range n).foldl (fun s iCoarsePoint =>
    (List.range (s.nChildren_CV iCoarsePoint)).foldl (fun s2 iChildren =>
      (fg.Point (s2.Children_CV iCoarsePoint iChildren)).foldl (fun s3 iFinePoint_Neighbor =>
        let iParent := s3.fParent_CV iFinePoint_Neighbor
        if iParent ≠ iCoarsePoint then s3.SetPoint iCoarsePoint iParent else s3) s2) s) st

/-- Lines 416-422: one child of an isolated coarse point moves to `iCoarsePoint_Complete`. -/
def mergeChild (iCoarsePoint iCoarsePoint_Complete : Nat) (acc : MGState × Nat)
    (iChildren : Nat) : MGState × Nat :=
  let iFinePoint := acc.1.Children_CV iCoarsePoint iChildren
  let s1 := acc.1.SetChildren_CV iCoarsePoint_Complete acc.2 iFinePoint
  (s1.SetParent_CV iFinePoint iCoarsePoint_Complete, acc.2 + 1)

/-- Lines 402-429: the body of the merge loop for coarse point `iCoarsePoint`. -/
def mergeIsolated (st : MGState) (iCoarsePoint : Nat) : MGState :=
  if (st.cPoint iCoarsePoint).length = 1 then
    let iCoarsePoint_Complete := (st.cPoint iCoarsePoint).getD 0 0
    let acc := (List.range (st.nChildren_CV iCoarsePoint)).foldl
      (mergeChild iCoarsePoint iCoarsePoint_Complete)
      (st, st.nChildren_CV iCoarsePoint_Complete)
    (acc.1.SetnChildren_CV iCoarsePoint_Complete acc.2).SetnChildren_CV iCoarsePoint 0
  else st

/-- Lines 466-469: `ResetPoint` on every coarse point below `nPointDomain`. -/
def resetPoints (st : MGState) : MGState :=
  { st with cPoint := fun c => if c < st.nPointDomain then [] else st.cPoint c }

/-- Lines 374-469: `nPointDomain` is fixed, the coarse adjacency is projected, isolated coarse
points are merged into their neighbour, and the adjacency is cleared. -/
def HangingNodeRepair (fg : FineGrid) (st : MGState) : MGState :=
  let s0 := { st with nPointDomain := st.Index_CoarseCV }
  let s1 := projectAdjacency fg s0.nPointDomain s0
  resetPoints ((List.range s1.nPointDomain).foldl mergeIsolated s1)

/-! ### Partition reconciliation (lines 471-600), serial build -/

/-- Write of the domain flag of coarse point `c`: `node[c]->SetDomain(b)`. -/
def MGState.SetDomain (st : MGState) (c : Nat) (b : Bool) : MGState :=
  { st with cDomain := Function.update st.cDomain c b }

/-- Lines 500-505: the parents sent for marker `MarkerS`, one per vertex of the marker. -/
def Buffer_Send_Parent (fg : FineGrid) (st : MGState) (MarkerS : Nat) : List Nat :=
  (fg.vertex MarkerS).map (fun iPoint => st.fParent_CV iPoint)

/-- Lines 514-519 (build without MPI): the receive buffer is a copy of the first `nVertexR`
entries of the send buffer. A read past the end of the send buffer is given the value 0. -/
def Buffer_Receive_Parent (fg : FineGrid) (st : MGState) (MarkerS MarkerR : Nat) : List Nat :=
  (List.range (fg.vertex MarkerR).length).map (fun iVertex =>
    (Buffer_Send_Parent fg st MarkerS).getD iVertex 0)

/-- Lines 529-535: the received parents, sorted and without repetition. -/
def Aux_Parent (Buffer_Receive_Parent : List Nat) : List Nat :=
  std_unique (std_sort Buffer_Receive_Parent)

/-- Lines 548-559: the local coarse index given to a received parent. -/
def Parent_Local (Aux : List Nat) (Index_CoarseCV Parent_Remote : Nat) : Nat :=
  Aux.indexOf Parent_Remote + Index_CoarseCV

/-- Lines 573-582: the writes that place one received vertex in its local coarse point. The
accumulator is the state and the array `nChildren_MPI`; `pc` is `(Parent_Local[iVertex],
Children_Local[iVertex])`. The writes go to `node[Parent_Local[iVertex]]`, and the array `node`
has `fine_grid->GetnPoint()` entries (line 73): this definition gives the writes for an index
within the array, and `finalStructureStep_checked` tests the index. -/
def finalStructureStep (acc : MGState × (Nat → Nat)) (pc : Nat × Nat) : MGState × (Nat → Nat) :=
  let s1 := acc.1.SetParent_CV pc.2 pc.1
  let s2 := s1.SetChildren_CV pc.1 (acc.2 pc.1) pc.2
  let nChildren_MPI := Function.update acc.2 pc.1 (acc.2 pc.1 + 1)
  let s3 := s2.SetnChildren_CV pc.1 (nChildren_MPI pc.1)
  (s3.SetDomain pc.1 false, nChildren_MPI)

/-- Lines 480-596: reconciliation of the marker pair `(MarkerS, MarkerS + 1)`, given the
received parents. -/
def reconcileWith (fg : FineGrid) (MarkerR : Nat) (Buffer_Receive_Parent : List Nat)
    (st : MGState) : MGState :=
  let Aux := Aux_Parent Buffer_Receive_Parent
  let pcs := (List.range (fg.vertex MarkerR).length).map (fun iVertex =>
    (Parent_Local Aux st.Index_CoarseCV (Buffer_Receive_Parent.getD iVertex 0),
     (fg.vertex MarkerR).getD iVertex 0))
  let s1 := { st with Index_CoarseCV := st.Index_CoarseCV + Aux.length }
  (pcs.foldl finalStructureStep (s1, fun _ => 0)).1

/-- Lines 475-597: the body of the marker loop. -/
def reconcileMarker (fg : FineGrid) (cfg : Config) (st : MGState) (iMarker : Nat) : MGState :=
  if cfg.Marker_All_KindBC iMarker = cfg.SEND_RECEIVE ∧ cfg.Marker_All_SendRecv iMarker > 0 then
    reconcileWith fg (iMarker + 1) (Buffer_Receive_Parent fg st iMarker (iMarker + 1)) st
  else st

/-- Lines 475-600: reconciliation over all markers, then `nPoint = Index_CoarseCV`. -/
def PartitionReconciliation (fg : FineGrid) (cfg : Config) (st : MGState) : MGState :=
  let s1 := (List.range cfg.nMarker_All).foldl (reconcileMarker fg cfg) st
  { s1 with nPoint := s1.Index_CoarseCV }

/-- The three agglomeration passes (lines 86-372): boundary seeding, boundary singletons, interior
seeding and leftover sweep. -/
def agglomerationPasses (fg : FineGrid) (cfg : Config) (iMesh : Nat) : MGState :=
  LeftoverSweep fg (InteriorSeeding fg (BoundarySingletons fg
    (BoundarySeeding fg cfg (initState fg cfg iMesh))))

/-- The state after hanging-node repair (lines 86-469). -/
def repaired (fg : FineGrid) (cfg : Config) (iMesh : Nat) : MGState :=
  HangingNodeRepair fg (agglomerationPasses fg cfg iMesh)

/-- Embedding of the constructor `GEOM_GeometryMultigrid(geometry, config_container, iMesh,
iZone)` up to line 600. The remaining lines (602-637) compute the agglomeration ratio and a CFL
number in floating point and write them to the configuration or the console; they change neither
grid. -/
def GEOM_GeometryMultigrid (fg : FineGrid) (cfg : Config) (iMesh : Nat) : MGState :=
  PartitionReconciliation fg cfg (repaired fg cfg iMesh)

/-! ## SetControlVolume, volumes (lines 1092-1103) -/

/-- Lines 1096-1101: `Coarse_Volume` after the loop over the children of `iCoarsePoint`. -/
def Coarse_Volume (fg : FineGrid) (st : MGState) (iCoarsePoint : Nat) : ℚ :=
  (List.range (st.nChildren_CV iCoarsePoint)).foldl (fun v iChildren =>
    v + fg.Volume (st.Children_CV iCoarsePoint iChildren)) 0

/-- Lines 1093-1103: the volume of every coarse point below `nPoint` is set to the sum over its
children. -/
def SetControlVolume (fg : FineGrid) (st : MGState) : MGState :=
  (List.range st.nPoint).foldl (fun s iCoarsePoint =>
    { s with cVolume := Function.update s.cVolume iCoarsePoint (Coarse_Volume fg s iCoarsePoint) })
    st

/-! ## Example grids -/

/-- A fine grid of `n` points with no marker, no edge and no element; every point is
domain-owned, interior, admissible, unagglomerated and of volume 1. -/
def plainGrid (n : Nat) : FineGrid :=
  { nPoint := n
    nMarker := 0
    vertex := fun _ => []
    Point := fun _ => []
    elem := []
    Volume := fun _ => 1
    Domain := fun _ => true
    Boundary := fun _ => false
    Vertex := fun _ _ => -1
    GeometricalCheck := fun _ => true
    Agglomerate_Indirect := fun _ => false
    Agglomerate := fun _ => false
    Parent_CV := fun _ => 0 }

/-- A configuration with `n` markers, all of kind 0, where kind 99 is the partition interface. -/
def plainConfig (n : Nat) : Config :=
  { SEND_RECEIVE := 99
    HEXAHEDRON := 12
    RECTANGLE := 9
    MESH_1 := 1
    nMarker_All := n
    Marker_All_KindBC := fun _ => 0
    Marker_All_SendRecv := fun _ => 0 }

/-- One fine point, flagged boundary as `b` says, carrying a vertex on each of the first `k` of
three markers; it is domain-owned, admissible and unagglomerated. -/
def markerGrid (b : Bool) (k : Nat) : FineGrid :=
  { plainGrid 1 with
    nMarker := 3
    Boundary := fun _ => b
    Vertex := fun _ jMarker => if jMarker < k then 0 else -1 }

/-! ## Invariants of the construction -/

/-- Child count of coarse point `c` while the coarse point `Index_CoarseCV` is being filled and
holds `n` children in the local variable `nChildren`. -/
def cnt (st : MGState) (n c : Nat) : Nat :=
  if c = st.Index_CoarseCV then n else st.nChildren_CV c

/-- Fine point `p` carries a vertex on marker `m`, and `m` is a physical (non SEND_RECEIVE)
marker. -/
def carriesPhys (fg : FineGrid) (cfg : Config) (p m : Nat) : Prop :=
  m < fg.nMarker ∧ fg.Vertex p m ≠ -1 ∧ cfg.Marker_All_KindBC m ≠ cfg.SEND_RECEIVE

/-- Parent map and children lists agree on the child slots singled out by `live`: a live slot
holds an agglomerated point whose parent is the slot's coarse point, no point is in two live
slots of a coarse point, and every agglomerated point is in a live slot of its parent. -/
structure GInv (st : MGState) (live : Nat → Nat → Prop) : Prop where
  child : ∀ c i, live c i →
    st.fAgglomerate (st.Children_CV c i) = true ∧ st.fParent_CV (st.Children_CV c i) = c
  inj : ∀ c i j, live c i → live c j → st.Children_CV c i = st.Children_CV c j → i = j
  parent : ∀ p, st.fAgglomerate p = true →
    ∃ i, live (st.fParent_CV p) i ∧ st.Children_CV (st.fParent_CV p) i = p

/-- Marker bookkeeping of a fine grid is consistent: the node of a vertex of marker `m` carries
a vertex index on `m`, a point carrying a vertex index on `m` is the node of a vertex of `m`,
and it is flagged boundary. -/
structure WFM (fg : FineGrid) : Prop where
  listed : ∀ m p, m < fg.nMarker → p ∈ fg.vertex m → fg.Vertex p m ≠ -1
  carried : ∀ m p, m < fg.nMarker → fg.Vertex p m ≠ -1 → p ∈ fg.vertex m
  flagged : ∀ m p, m < fg.nMarker → fg.Vertex p m ≠ -1 → fg.Boundary p = true

/-- Point indices stored in the fine grid are below its point count. -/
structure WFR (fg : FineGrid) : Prop where
  adj : ∀ p q, q ∈ fg.Point p → q < fg.nPoint
  vert : ∀ m p, m < fg.nMarker → p ∈ fg.vertex m → p < fg.nPoint

/-- The children held so far by the coarse point being filled carry no physical marker other
than `s` (on a grid with consistent marker bookkeeping). -/
def Pend (fg : FineGrid) (cfg : Config) (st : MGState) (n s : Nat) : Prop :=
  WFM fg → ∀ i, i < n → ∀ m, carriesPhys fg cfg (st.Children_CV st.Index_CoarseCV i) m → m = s

/-- Invariant of the three agglomeration passes, with `n` children pending in the coarse point
`Index_CoarseCV`. -/
structure PInv (fg : FineGrid) (cfg : Config) (st : MGState) (n : Nat) : Prop where
  ginv : GInv st (fun c i => i < cnt st n c)
  above : ∀ c, st.Index_CoarseCV ≤ c → st.nChildren_CV c = 0
  unagg : ∀ p, st.fAgglomerate p = false → st.fParent_CV p = 0
  nopoint : ∀ c, st.cPoint c = []
  range : WFR fg → ∀ p, st.fAgglomerate p = true → p < fg.nPoint
  mark : WFM fg → ∀ c, c < st.Index_CoarseCV → 2 ≤ st.nChildren_CV c →
    ∃ s, ∀ i, i < st.nChildren_CV c → ∀ m, carriesPhys fg cfg (st.Children_CV c i) m → m = s

/-- Points agglomerated in the first state are agglomerated in the second. -/
def Grew (st st2 : MGState) : Prop :=
  ∀ p, st.fAgglomerate p = true → st2.fAgglomerate p = true

/-- State of a coarse point being filled: the accumulator `(state, nChildren)` of the loops over
the neighbours of a seed satisfies the invariant of the passes, its children carry no physical
marker other than `s`, the coarse index is still the one of `st0`, and no point agglomerated in
`st0` has been lost. -/
def Filling (fg : FineGrid) (cfg : Config) (st0 : MGState) (s : Nat) (acc : MGState × Nat) :
    Prop :=
  PInv fg cfg acc.1 acc.2 ∧ Pend fg cfg acc.1 acc.2 s ∧
    acc.1.Index_CoarseCV = st0.Index_CoarseCV ∧ Grew st0 acc.1

/-- Every point held by the queue is a point of the fine grid. -/
def QR (fg : FineGrid) (q : MGQueue) : Prop :=
  ∀ e, e ∈ q.entries → e.1 < fg.nPoint

/-- No unagglomerated domain-owned point carries a vertex on a marker (on a grid with consistent
marker bookkeeping); this holds once the boundary passes are over. -/
def NoMark (fg : FineGrid) (st : MGState) : Prop :=
  WFM fg → ∀ p, st.fAgglomerate p = false → fg.Domain p = true →
    ∀ m, m < fg.nMarker → fg.Vertex p m = -1

/-- The fine grid is handed over fresh: no point is agglomerated and every parent index is 0. -/
structure Fresh (fg : FineGrid) : Prop where
  agg : ∀ p, fg.Agglomerate p = false
  par : ∀ p, fg.Parent_CV p = 0

/-- Invariant of the hanging-node repair: parent map and children lists agree on the slots
below the child counts, coarse points from `Index_CoarseCV` on are empty, unagglomerated points
have parent index 0, and every recorded coarse neighbour of `c` differs from `c` and is below
`Index_CoarseCV`. -/
structure RInv (fg : FineGrid) (st : MGState) : Prop where
  ginv : GInv st (fun c i => i < st.nChildren_CV c)
  above : ∀ c, st.Index_CoarseCV ≤ c → st.nChildren_CV c = 0
  unagg : ∀ p, st.fAgglomerate p = false → st.fParent_CV p = 0
  adj : ∀ c T, T ∈ st.cPoint c → T ≠ c ∧ T < st.Index_CoarseCV
  range : WFR fg → ∀ p, st.fAgglomerate p = true → p < fg.nPoint

/-- Live child slots while coarse point `c` is merged into `T` and `k` children have moved:
slots `k ..` of `c`, the old slots of `T` and the `k` slots appended to it, and the slots below
the child count elsewhere. -/
def mergeLive (st0 : MGState) (c T k : Nat) : Nat → Nat → Prop :=
  fun c2 i =>
    if c2 = c then k ≤ i ∧ i < st0.nChildren_CV c
    else if c2 = T then i < st0.nChildren_CV T + k
    else i < st0.nChildren_CV c2

instance carriesPhys_decidable (fg : FineGrid) (cfg : Config) (p m : Nat) :
    Decidable (carriesPhys fg cfg p m) := by
  unfold carriesPhys
  infer_instance

/-- Three fine points in a row, 0 - 1 - 2, without markers. -/
def pathGrid : FineGrid :=
  { plainGrid 3 with
    Point := fun p => if p = 0 then [1] else if p = 1 then [0, 2] else if p = 2 then [1] else [] }

/-- Two adjacent fine points, both on the physical marker 0. -/
def wallGrid : FineGrid :=
  { plainGrid 2 with
    nMarker := 1
    vertex := fun m => if m = 0 then [0, 1] else []
    Point := fun p => if p = 0 then [1] else if p = 1 then [0] else []
    Boundary := fun p => decide (p < 2)
    Vertex := fun p m => if p < 2 ∧ m = 0 then (p : Int) else -1 }

/-- Three fine points and two physical markers: point 0 lies on marker 0, point 1 on marker 1,
they are adjacent; point 2 is a corner lying on both markers, with no neighbour. -/
def cornerGrid : FineGrid :=
  { plainGrid 3 with
    nMarker := 2
    vertex := fun m => if m = 0 then [0, 2] else if m = 1 then [1, 2] else []
    Point := fun p => if p = 0 then [1] else if p = 1 then [0] else []
    Boundary := fun p => decide (p < 3)
    Vertex := fun p m =>
      if p = 0 ∧ m = 0 then 0 else if p = 2 ∧ m = 0 then 1
      else if p = 1 ∧ m = 1 then 0 else if p = 2 ∧ m = 1 then 1 else -1 }

/-- Fine point `x` is the node of a vertex of the receive marker of a marker pair that the
reconciliation loop processes (`MarkerR = iMarker + 1` for a SEND_RECEIVE marker `iMarker` with
positive `GetMarker_All_SendRecv`). -/
def onReceive (fg : FineGrid) (cfg : Config) (x : Nat) : Prop :=
  ∃ m, m < cfg.nMarker_All ∧ cfg.Marker_All_KindBC m = cfg.SEND_RECEIVE ∧
    cfg.Marker_All_SendRecv m > 0 ∧ x ∈ fg.vertex (m + 1)

/-- Invariant of the reconciliation started in `st0`: the coarse points below the counter of
`st0` keep their children, and the children of the coarse points from there on are nodes of
receive markers. -/
def RecInv (fg : FineGrid) (cfg : Config) (st0 s : MGState) : Prop :=
  st0.Index_CoarseCV ≤ s.Index_CoarseCV ∧
  (∀ c, c < st0.Index_CoarseCV →
    s.nChildren_CV c = st0.nChildren_CV c ∧ s.Children_CV c = st0.Children_CV c) ∧
  (∀ c, st0.Index_CoarseCV ≤ c → ∀ i, i < s.nChildren_CV c →
    onReceive fg cfg (s.Children_CV c i))

/-- Two adjacent fine points of a partitioned grid: point 0 is domain-owned and is the node of
the vertex of the send marker 0; point 1 is a halo point (not domain-owned) and is the node of
the vertex of the receive marker 1. -/
def haloGrid : FineGrid :=
  { plainGrid 2 with
    nMarker := 2
    vertex := fun m => if m = 0 then [0] else if m = 1 then [1] else []
    Point := fun p => if p = 0 then [1] else if p = 1 then [0] else []
    Domain := fun p => decide (p = 0)
    Boundary := fun p => decide (p < 2)
    Vertex := fun p m => if p = 0 ∧ m = 0 then 0 else if p = 1 ∧ m = 1 then 0 else -1 }

/-- Two markers of kind SEND_RECEIVE: marker 0 sends to rank 0, marker 1 receives from it. -/
def interfaceConfig : Config :=
  { plainConfig 2 with
    Marker_All_KindBC := fun _ => 99
    Marker_All_SendRecv := fun m => if m = 0 then 1 else -1 }

/-- Adjacency lists of the 4 x 4 structured quadrilateral grid, point `4 * row + column`. -/
def quadAdjacency : List (List Nat) :=
  [[1, 4], [0, 2, 5], [1, 3, 6], [2, 7],
   [0, 5, 8], [1, 4, 6, 9], [2, 5, 7, 10], [3, 6, 11],
   [4, 9, 12], [5, 8, 10, 13], [6, 9, 11, 14], [7, 10, 15],
   [8, 13], [9, 12, 14], [10, 13, 15], [11, 14]]

/-- The 4 x 4 structured quadrilateral fine grid: 16 points of volume 1, one marker whose
vertices are the 12 points of the outer ring; every point is domain-owned and admissible, none
is flagged for indirect agglomeration. -/
def quadGrid : FineGrid :=
  { plainGrid 16 with
    nMarker := 1
    vertex := fun m => if m = 0 then [0, 1, 2, 3, 7, 11, 15, 14, 13, 12, 8, 4] else []
    Point := fun p => quadAdjacency.getD p []
    Boundary := fun p => [0, 1, 2, 3, 7, 11, 15, 14, 13, 12, 8, 4].contains p
    Vertex := fun p m =>
      if m = 0 ∧ [0, 1, 2, 3, 7, 11, 15, 14, 13, 12, 8, 4].contains p then
        ([0, 1, 2, 3, 7, 11, 15, 14, 13, 12, 8, 4].indexOf p : Int)
      else -1 }

/-- Seven fine points: the seed 0 with neighbours 1, 2, 3; point 4 is adjacent to 1 and 2, point
5 to 2 and 3, and point 6 to 1, 4 and 5. The adjacency is symmetric. -/
def ringGrid : FineGrid :=
  { plainGrid 7 with
    Point := fun p =>
      [[1, 2, 3], [0, 4, 6], [0, 4, 5], [0, 5], [1, 2, 6], [2, 3, 6], [1, 4, 5]].getD p [] }

/-! ## The seeds accepted by the passes -/

/-- The seed test of the first boundary pass and of the interior pass (lines 98-100 and
258-260), on the state in which the candidate seed is looked at. -/
def seedAccepted (fg : FineGrid) (st : MGState) (iPoint : Nat) : Bool :=
  st.fAgglomerate iPoint == false && fg.Domain iPoint && fg.GeometricalCheck iPoint

/-- The seed test of the second boundary pass and of the leftover sweep (lines 215-216 and
360). -/
def singletonAccepted (fg : FineGrid) (st : MGState) (iPoint : Nat) : Bool :=
  st.fAgglomerate iPoint == false && fg.Domain iPoint

/-- A body step of a pass run together with a record of the seeds accepted so far: the state is
stepped as in the pass, and the candidate is appended to the record when the seed test of the
pass holds for it. -/
def logSeed (accepted : MGState → Nat → Bool) (step : MGState → Nat → MGState)
    (acc : MGState × List Nat) (iPoint : Nat) : MGState × List Nat :=
  (step acc.1 iPoint, if accepted acc.1 iPoint then acc.2 ++ [iPoint] else acc.2)

/-- The interior loop run together with the record of accepted seeds. -/
def interiorLoop_log (fg : FineGrid) :
    Nat → (MGState × MGQueue) × List Nat → (MGState × MGQueue) × List Nat
  | 0, a => a
  | fuel + 1, a =>
    if a.1.2.EmptyQueue then a
    else interiorLoop_log fg fuel (interiorBody fg a.1,
      if seedAccepted fg a.1.1 a.1.2.NextCV then a.2 ++ [a.1.2.NextCV] else a.2)

/-- The three agglomeration passes run together with the record of accepted seeds, in the order
in which the passes accept them. -/
def passesWithLog (fg : FineGrid) (cfg : Config) (iMesh : Nat) : MGState × List Nat :=
  let a1 := (List.range fg.nMarker).foldl (fun a iMarker =>
    (fg.vertex iMarker).foldl (logSeed (seedAccepted fg) (boundSeed fg cfg iMarker)) a)
    (initState fg cfg iMesh, [])
  let a2 := (List.range fg.nMarker).foldl (fun a iMarker =>
    (fg.vertex iMarker).foldl (logSeed (singletonAccepted fg) (singletonSeed fg)) a) a1
  let a3 := interiorLoop_log fg fg.nPoint
    ((a2.1, seedQueue fg a2.1 (MGQueue.init fg.nPoint)), a2.2)
  (List.range fg.nPoint).foldl (logSeed (singletonAccepted fg) (leftoverStep fg)) (a3.1.1, a3.2)

/-- The record `log` lists the seeds of the coarse points opened so far: the coarse index counter
is its length, and its entry `n` is child 0 of coarse point `n`, which has at least one child;
the entry is agglomerated with parent `n`. -/
def LInv (st : MGState) (log : List Nat) : Prop :=
  st.Index_CoarseCV = log.length ∧
  ∀ n, n < log.length →
    st.Children_CV n 0 = log.getD n 0 ∧ 1 ≤ st.nChildren_CV n ∧
    st.fAgglomerate (log.getD n 0) = true ∧ st.fParent_CV (log.getD n 0) = n

/-- The coarse point `st0.Index_CoarseCV` has been opened with seed `p` and is being filled: the
accumulator `(state, nChildren)` has the seed in slot 0 with its parent set, at least one child
pending, and nothing else of what `LInv` reads has changed since `st0`. -/
structure Opened (st0 : MGState) (p : Nat) (acc : MGState × Nat) : Prop where
  idx : acc.1.Index_CoarseCV = st0.Index_CoarseCV
  pos : 1 ≤ acc.2
  seed : acc.1.Children_CV st0.Index_CoarseCV 0 = p
  agg : acc.1.fAgglomerate p = true
  par : acc.1.fParent_CV p = st0.Index_CoarseCV
  nch : acc.1.nChildren_CV = st0.nChildren_CV
  low : ∀ c, c ≠ st0.Index_CoarseCV → acc.1.Children_CV c = st0.Children_CV c
  keep : ∀ x, st0.fAgglomerate x = true →
    acc.1.fAgglomerate x = true ∧ acc.1.fParent_CV x = st0.fParent_CV x

/-- The state of the hanging-node repair after the projection of the fine adjacency (lines
374-395) and before the merge loop. -/
def projected (fg : FineGrid) (cfg : Config) (iMesh : Nat) : MGState :=
  projectAdjacency fg (agglomerationPasses fg cfg iMesh).Index_CoarseCV
    { agglomerationPasses fg cfg iMesh with
      nPointDomain := (agglomerationPasses fg cfg iMesh).Index_CoarseCV }

/-- The list `l` with `m` appended unless it is there already: the effect of `SetPoint` on one
adjacency list. -/
def addNeighbour (l : List Nat) (m : Nat) : List Nat :=
  if l.contains m then l else l ++ [m]

/-- The parents of the fine neighbours of the children of coarse point `c`, other than `c`, in
the order in which lines 383-395 visit them. -/
def projectedParents (fg : FineGrid) (st : MGState) (c : Nat) : List Nat :=
  ((List.range (st.nChildren_CV c)).flatMap
    (fun i => (fg.Point (st.Children_CV c i)).map st.fParent_CV)).filter (fun m => decide (m ≠ c))

/-- The state with the adjacency list of coarse point `c` replaced by `l`. -/
def MGState.withPoint (st : MGState) (c : Nat) (l : List Nat) : MGState :=
  { st with cPoint := Function.update st.cPoint c l }

/-! ### The reconciliation with the array bounds checked -/

/-- Lines 514-519 with every read of the send buffer checked against its length `nVertexS`: the
loop copies `Buffer_Send_Parent[iVertex]` for every `iVertex < nVertexR`; the result is `none`
when one of these reads is at an index that is not below `nVertexS`. The source has no test of
`nVertexS` against `nVertexR` and no other way to stop. -/
def serialExchange (fg : FineGrid) (st : MGState) (MarkerS MarkerR : Nat) : Option (List Nat) :=
  (List.range (fg.vertex MarkerR).length).foldl (fun acc iVertex =>
    match acc, (Buffer_Send_Parent fg st MarkerS)[iVertex]? with
    | some Buffer_Receive, some x => some (Buffer_Receive ++ [x])
    | _, _ => none) (some [])

/-- Lines 573-582 with the index into the array `node` of the coarse grid checked. The array is
allocated at line 73 with `fine_grid->GetnPoint()` entries, and lines 578, 580 and 581 access
`node[Parent_Local[iVertex]]`: the result is `none` when `Parent_Local[iVertex]` is not below
that count. The source has no such test. -/
def finalStructureStep_checked (nPointFine : Nat) (acc : Option (MGState × (Nat → Nat)))
    (pc : Nat × Nat) : Option (MGState × (Nat → Nat)) :=
  match acc with
  | none => none
  | some a => if pc.1 < nPointFine then some (finalStructureStep a pc) else none

/-- Lines 480-596 for one marker pair, given the received parents, with the index into the
array `node` checked at every received vertex. -/
def reconcileWith_checked (fg : FineGrid) (MarkerR : Nat) (Buffer_Receive_Parent : List Nat)
    (st : MGState) : Option MGState :=
  let Aux := Aux_Parent Buffer_Receive_Parent
  let pcs := (List.range (fg.vertex MarkerR).length).map (fun iVertex =>
    (Parent_Local Aux st.Index_CoarseCV (Buffer_Receive_Parent.getD iVertex 0),
     (fg.vertex MarkerR).getD iVertex 0))
  let s1 := { st with Index_CoarseCV := st.Index_CoarseCV + Aux.length }
  (pcs.foldl (finalStructureStep_checked fg.nPoint) (some (s1, fun _ => 0))).map Prod.fst

/-- The body of the marker loop (lines 475-597) over `serialExchange` and
`reconcileWith_checked`. -/
def reconcileMarker_checked (fg : FineGrid) (cfg : Config) (acc : Option MGState)
    (iMarker : Nat) : Option MGState :=
  match acc with
  | none => none
  | some st =>
    if cfg.Marker_All_KindBC iMarker = cfg.SEND_RECEIVE ∧ cfg.Marker_All_SendRecv iMarker > 0 then
      match serialExchange fg st iMarker (iMarker + 1) with
      | some Buffer_Receive => reconcileWith_checked fg (iMarker + 1) Buffer_Receive st
      | none => none
    else some st

/-- Lines 475-600 with the reads of the send buffers and the indices into the array `node`
checked: `some` coarse grid unless a read of a send buffer was past its end or a received
vertex was given a local coarse index that is not below the number of fine points. -/
def PartitionReconciliation_checked (fg : FineGrid) (cfg : Config) (st : MGState) :
    Option MGState :=
  ((List.range cfg.nMarker_All).foldl (reconcileMarker_checked fg cfg) (some st)).map
    (fun s1 => { s1 with nPoint := s1.Index_CoarseCV })

/-- The constructor up to line 600 with the array accesses of the reconciliation checked. In
the three passes and the repair the indices into `node` are below the coarse index counter or
equal to it when a coarse point is opened, and a coarse point is opened for a domain-owned fine
point that was not agglomerated before, so that these indices are below the number of fine
points on a fine grid whose stored point indices are below its point count. -/
def GEOM_GeometryMultigrid_checked (fg : FineGrid) (cfg : Config) (iMesh : Nat) :
    Option MGState :=
  PartitionReconciliation_checked fg cfg (repaired fg cfg iMesh)

/-- The nodes of the vertices of the receive markers that the reconciliation processes, in the
order in which it places them: for every SEND_RECEIVE marker `iMarker` with positive
`GetMarker_All_SendRecv`, the nodes of the vertices of marker `iMarker + 1`. -/
def receiveNodes (fg : FineGrid) (cfg : Config) (nMarker_All : Nat) : List Nat :=
  ((List.range nMarker_All).map (fun iMarker =>
    if cfg.Marker_All_KindBC iMarker = cfg.SEND_RECEIVE ∧ cfg.Marker_All_SendRecv iMarker > 0
    then fg.vertex (iMarker + 1) else [])).flatten

/-- Three fine points in a row, 0 - 1 - 2: points 0 and 1 are domain-owned and are the nodes of
the two vertices of the send marker 0; point 2 is a halo point and is the node of the single
vertex of the receive marker 1. -/
def mismatchGrid : FineGrid :=
  { plainGrid 3 with
    nMarker := 2
    vertex := fun m => if m = 0 then [0, 1] else if m = 1 then [2] else []
    Point := fun p => if p = 0 then [1] else if p = 1 then [0, 2] else if p = 2 then [1] else []
    Domain := fun p => decide (p < 2)
    Boundary := fun p => decide (p < 3)
    Vertex := fun p m =>
      if m = 0 ∧ p < 2 then (p : Int) else if m = 1 ∧ p = 2 then 0 else -1 }

/-! ## Geometric data of the fine grid and boundary data of the coarse grid -/

/-- The accessors of the fine grid read by `SetVertex` and by the restriction functions, beyond
those of `FineGrid`: `Rotation_Type m v` is `vertex[m][v]->GetRotation_Type()`,
`VertexNormal m v` is `vertex[m][v]->GetNormal()`, `FindEdge p q` is `FindEdge(p, q)`,
`EdgeNormal e` is `edge[e]->GetNormal()`, `Coord p` is `node[p]->GetCoord()` and `GridVel p` is
`node[p]->GetGridVel()`. A vector is the function giving its component `iDim`. -/
structure FineGeometry where
  nDim : Nat
  Rotation_Type : Nat → Nat → Nat
  VertexNormal : Nat → Nat → Nat → ℚ
  FindEdge : Nat → Nat → Nat
  EdgeNormal : Nat → Nat → ℚ
  Coord : Nat → Nat → ℚ
  GridVel : Nat → Nat → ℚ

/-- Boundary data of the coarse grid: `cBoundary c` is `node[c]->GetBoundary()`, `cVertex c m` is
`node[c]->GetVertex(m)` (`-1` for none), `nVertex m` is `nVertex[m]`, and `vertexNode m v`,
`vertexRotation m v` are `GetNode()` and `GetRotation_Type()` of `vertex[m][v]`. -/
structure CoarseBoundary where
  cBoundary : Nat → Bool
  cVertex : Nat → Nat → Int
  nVertex : Nat → Nat
  vertexNode : Nat → Nat → Nat
  vertexRotation : Nat → Nat → Nat

/-- Modelled from the spec: the constructor of `GRID_DGPoint` is not in the source tree. A coarse
point gets its "boundary flag, per-marker vertex index" only "post-restriction": a new coarse
point is not flagged boundary and has no vertex on any marker. -/
def freshBoundary : CoarseBoundary :=
  { cBoundary := fun _ => false
    cVertex := fun _ _ => -1
    nVertex := fun _ => 0
    vertexNode := fun _ _ => 0
    vertexRotation := fun _ _ => 0 }

/-- Modelled from the spec: `GRID_DGPoint::SetBoundary` is not in the source tree; "a coarse CV is
boundary iff any child is boundary", so the call at line 923 flags the coarse point boundary. -/
def CoarseBoundary.SetBoundary (v : CoarseBoundary) (c : Nat) : CoarseBoundary :=
  { v with cBoundary := Function.update v.cBoundary c true }

/-- Write of the vertex index of coarse point `c` on marker `m`: `node[c]->SetVertex(x, m)`. -/
def CoarseBoundary.SetVertex (v : CoarseBoundary) (c : Nat) (x : Int) (m : Nat) :
    CoarseBoundary :=
  { v with cVertex := Function.update v.cVertex c (Function.update (v.cVertex c) m x) }

/-- Lines 917-926: a coarse point below `nPoint` is flagged boundary at its first child that is
flagged boundary on the fine grid (the loop over the children stops there). -/
def SetVertex_flags (fg : FineGrid) (st : MGState) (v : CoarseBoundary) : CoarseBoundary :=
  (List.range st.nPoint).foldl (fun v iCoarsePoint =>
    if (List.range (st.nChildren_CV iCoarsePoint)).any
        (fun iChildren => fg.Boundary (st.Children_CV iCoarsePoint iChildren)) then
      v.SetBoundary iCoarsePoint
    else v) v

/-- Lines 947-952: the body of the counting loop for coarse point `c`, child `iFinePoint` and
marker `iMarker`. -/
def countVertexStep (fg : FineGrid) (c iFinePoint : Nat) (v : CoarseBoundary) (iMarker : Nat) :
    CoarseBoundary :=
  if fg.Vertex iFinePoint iMarker ≠ -1 ∧ v.cVertex c iMarker = -1 then
    let iVertex := v.nVertex iMarker
    { v.SetVertex c (iVertex : Int) iMarker with
      nVertex := Function.update v.nVertex iMarker (v.nVertex iMarker + 1) }
  else v

/-- Lines 978-989: the body of the loop that creates the coarse vertices, for coarse point `c`,
child `iFinePoint` and marker `iMarker`. -/
def createVertexStep (fg : FineGrid) (fd : FineGeometry) (c iFinePoint : Nat)
    (v : CoarseBoundary) (iMarker : Nat) : CoarseBoundary :=
  if fg.Vertex iFinePoint iMarker ≠ -1 ∧ v.cVertex c iMarker = -1 then
    let iVertex := v.nVertex iMarker
    let ChildVertex := (fg.Vertex iFinePoint iMarker).toNat
    let RotationKind := fd.Rotation_Type iMarker ChildVertex
    { v.SetVertex c (iVertex : Int) iMarker with
      vertexNode := Function.update v.vertexNode iMarker
        (Function.update (v.vertexNode iMarker) iVertex c)
      vertexRotation := Function.update v.vertexRotation iMarker
        (Function.update (v.vertexRotation iMarker) iVertex RotationKind)
      nVertex := Function.update v.nVertex iMarker (v.nVertex iMarker + 1) }
  else v

/-- The loop nest of lines 938-956 and 971-991: for every coarse point below `nPoint` that is
flagged boundary, every child and every marker below `nMarker`, the body `step`. -/
def overBoundaryChildren (fg : FineGrid) (st : MGState)
    (step : Nat → Nat → CoarseBoundary → Nat → CoarseBoundary) (v : CoarseBoundary) :
    CoarseBoundary :=
  (List.range st.nPoint).foldl (fun v iCoarsePoint =>
    if v.cBoundary iCoarsePoint then
      (List.range (st.nChildren_CV iCoarsePoint)).foldl (fun v iChildren =>
        (List.range fg.nMarker).foldl
          (step iCoarsePoint (st.Children_CV iCoarsePoint iChildren)) v) v
    else v) v

/-- Lines 964-967: the vertex indices of the coarse points flagged boundary are reset. -/
def resetVertices (fg : FineGrid) (st : MGState) (v : CoarseBoundary) : CoarseBoundary :=
  (List.range st.nPoint).foldl (fun v iCoarsePoint =>
    if v.cBoundary iCoarsePoint then
      (List.range fg.nMarker).foldl (fun v iMarker => v.SetVertex iCoarsePoint (-1) iMarker) v
    else v) v

/-- Embedding of `SetVertex(fine_grid, config)` (lines 907-992) on the coarse grid `st` with
boundary data `v`: flags, counting pass, reset, and creation of the coarse vertices. The arrays
`nVertex` and `vertex` are allocated at lines 928-929 and 960; `Tag_to_Marker` is not modelled. -/
def SetVertex (fg : FineGrid) (fd : FineGeometry) (st : MGState) (v : CoarseBoundary) :
    CoarseBoundary :=
  let v1 := SetVertex_flags fg st v
  let v2 := overBoundaryChildren fg st (countVertexStep fg) { v1 with nVertex := fun _ => 0 }
  let v3 := resetVertices fg st { v2 with nVertex := fun _ => 0 }
  overBoundaryChildren fg st (createVertexStep fg fd) { v3 with nVertex := fun _ => 0 }

/-- Two adjacent fine points on marker 0 with rotation tags and unit data, for the examples of
the restriction functions. -/
def wallGeometry : FineGeometry :=
  { nDim := 2
    Rotation_Type := fun _ _ => 0
    VertexNormal := fun _ v iDim => if iDim = 0 then 1 else (v : ℚ)
    FindEdge := fun _ _ => 0
    EdgeNormal := fun _ iDim => if iDim = 0 then 1 else 0
    Coord := fun p iDim => if iDim = 0 then (p : ℚ) else 0
    GridVel := fun _ iDim => if iDim = 0 then 1 else 0 }

/-- The geometry of two adjacent fine points on marker 0 whose vertex normals are
`(2^-600, 0)`: a `double` that is not zero and whose square underflows. -/
def tinyGeometry : FineGeometry :=
  { wallGeometry with
    VertexNormal := fun _ _ iDim => if iDim = 0 then 1 / 2 ^ 600 else 0 }

/-! ## SetCoord (lines 1203-1227) and SetRestricted_GridVelocity (lines 1321-1353) -/

/-- Division in exact arithmetic: no rational results from a division by zero (in floating
point the quotient is an infinity or a NaN). -/
def checkedDiv (x y : ℚ) : Option ℚ :=
  if y = 0 then none else some (x / y)

/-- Lines 1215-1222 (and 1340-1347) for one component `iDim`: starting from 0, every child adds
`field[iDim] * Area_Children / Area_Parent`, with `Area_Parent` the stored volume of the coarse
point. The result is `none` when one of the divisions evaluated is a division by zero. -/
def childrenAverage (fg : FineGrid) (st : MGState) (field : Nat → Nat → ℚ)
    (Point_Coarse iDim : Nat) : Option ℚ :=
  (List.range (st.nChildren_CV Point_Coarse)).foldl (fun acc iChildren =>
    let Point_Fine := st.Children_CV Point_Coarse iChildren
    let Area_Children := fg.Volume Point_Fine
    match acc, checkedDiv (field Point_Fine iDim * Area_Children) (st.cVolume Point_Coarse) with
    | some s, some t => some (s + t)
    | _, _ => none) (some 0)

/-- Embedding of `SetCoord(geometry)`: every coarse point below `nPoint` gets, in each of its
`nDim` coordinates, the value accumulated over its children. -/
def SetCoord (fg : FineGrid) (fd : FineGeometry) (st : MGState)
    (cCoord : Nat → Nat → Option ℚ) : Nat → Nat → Option ℚ :=
  (List.range st.nPoint).foldl (fun C Point_Coarse =>
    Function.update C Point_Coarse (fun iDim =>
      if iDim < fd.nDim then childrenAverage fg st fd.Coord Point_Coarse iDim
      else C Point_Coarse iDim)) cCoord

/-- Embedding of `SetRestricted_GridVelocity(fine_mesh, config)`: every coarse point below
`nPoint` gets, in each of its `nDim` grid-velocity components, the value accumulated over its
children. -/
def SetRestricted_GridVelocity (fg : FineGrid) (fd : FineGeometry) (st : MGState)
    (cGridVel : Nat → Nat → Option ℚ) : Nat → Nat → Option ℚ :=
  (List.range st.nPoint).foldl (fun G Point_Coarse =>
    Function.update G Point_Coarse (fun iDim =>
      if iDim < fd.nDim then childrenAverage fg st fd.GridVel Point_Coarse iDim
      else G Point_Coarse iDim)) cGridVel

/-! ## Normals: SetControlVolume (lines 1105-1155) and SetBoundControlVolume (lines 1159-1201) -/

/-- The edges of the coarse grid: `nEdge`, and `FindEdge(a, b)` of `GEOM_Geometry` (not in the
source tree), the index of the edge between the coarse points `a` and `b`. -/
structure CoarseEdges where
  nEdge : Nat
  FindEdge : Nat → Nat → Nat

/-- The product `x * x` of lines 1152 and 1197, which the code computes in `double`, as far as
the comparison of `Area` with `0.0` depends on it: in binary64 arithmetic with rounding to
nearest the product is rounded to zero exactly when `x * x` is at most `2^-1075`, half the
smallest positive `double` (a tie goes to the even neighbour, which is zero), and to a positive
`double` otherwise. Rounding of a product that is not rounded to zero is not modelled. -/
def doubleSquare (x : ℚ) : ℚ :=
  if x * x ≤ 1 / 2 ^ 1075 then 0 else x * x

/-- Lines 1151-1154 (and 1196-1199): `Area` is the square root of the sum of the squares of the
`nDim` components of `NormalFace`; when `Area == 0.0` every component is set to `EPS*EPS`. The
squares are those of `double` arithmetic (`doubleSquare`), so that a component whose square
underflows counts as zero in the test; a sum of non-negative terms is zero exactly when every
term is, and the square root of a non-negative number is zero exactly when the number is, so
the test made here on the sum is the test `Area == 0.0` made after `Area = sqrt(Area)`. `EPS` is
a constant of `TBOX`, not in the source tree. -/
def clampNormal (EPS : ℚ) (nDim : Nat) (NormalFace : Nat → ℚ) : Nat → ℚ :=
  let Area := (List.range nDim).foldl (fun Area iDim =>
    Area + doubleSquare (NormalFace iDim)) 0
  if Area = 0 then fun iDim => if iDim < nDim then EPS * EPS else NormalFace iDim
  else NormalFace

/-- Lines 1120-1142: the body of the loop over the neighbours of the child `iFinePoint` of the
coarse point `iCoarsePoint`. `E` holds the normals of the coarse edges; `AddNormal` (edge class,
not in the source tree) adds a vector to the normal of an edge. -/
def edgeNormalStep (fd : FineGeometry) (st : MGState) (ce : CoarseEdges)
    (iCoarsePoint iFinePoint : Nat) (E : Nat → Nat → ℚ) (iFinePoint_Neighbor : Nat) :
    Nat → Nat → ℚ :=
  let iParent := st.fParent_CV iFinePoint_Neighbor
  if iParent ≠ iCoarsePoint ∧ iParent < iCoarsePoint then
    let FineEdge := fd.FindEdge iFinePoint iFinePoint_Neighbor
    let change_face_orientation := decide (iFinePoint < iFinePoint_Neighbor)
    let CoarseEdge := ce.FindEdge iParent iCoarsePoint
    let Normal := fd.EdgeNormal FineEdge
    if change_face_orientation then
      Function.update E CoarseEdge (E CoarseEdge + (-Normal))
    else
      Function.update E CoarseEdge (E CoarseEdge + Normal)
  else E

/-- Lines 1105-1144: the normals of the coarse edges before the test for null area. Unless
`action` is `ALLOCATE` the normals of the edges below `nEdge` are set to zero first
(`SetZeroValues`); then every child of every coarse point below `nPoint` adds the normals of
the fine edges to its neighbours in coarse points of lower index. -/
def SetControlVolume_sums (fg : FineGrid) (fd : FineGeometry) (st : MGState) (ce : CoarseEdges)
    (ALLOCATE action : Nat) (E : Nat → Nat → ℚ) : Nat → Nat → ℚ :=
  let E0 : Nat → Nat → ℚ :=
    if action ≠ ALLOCATE then fun iEdge => if iEdge < ce.nEdge then 0 else E iEdge else E
  (List.range st.nPoint).foldl (fun E iCoarsePoint =>
    (List.range (st.nChildren_CV iCoarsePoint)).foldl (fun E iChildren =>
      (fg.Point (st.Children_CV iCoarsePoint iChildren)).foldl
        (edgeNormalStep fd st ce iCoarsePoint (st.Children_CV iCoarsePoint iChildren)) E) E) E0

/-- Lines 1105-1155: the normals of the coarse edges after `SetControlVolume`. -/
def SetControlVolume_normals (fg : FineGrid) (fd : FineGeometry) (st : MGState)
    (ce : CoarseEdges) (EPS : ℚ) (ALLOCATE action : Nat) (E : Nat → Nat → ℚ) : Nat → Nat → ℚ :=
  (List.range ce.nEdge).foldl (fun E iEdge =>
    Function.update E iEdge (clampNormal EPS fd.nDim (E iEdge)))
    (SetControlVolume_sums fg fd st ce ALLOCATE action E)

/-- Lines 1178-1187: the body of the loop over the children of the coarse point of the coarse
vertex `iVertex` of marker `iMarker`. `N` holds the normals of the coarse vertices. -/
def vertexNormalStep (fg : FineGrid) (fd : FineGeometry) (st : MGState)
    (iMarker iVertex iCoarsePoint : Nat) (N : Nat → Nat → Nat → ℚ) (iChildren : Nat) :
    Nat → Nat → Nat → ℚ :=
  let iFinePoint := st.Children_CV iCoarsePoint iChildren
  if fg.Vertex iFinePoint iMarker ≠ -1 then
    let FineVertex := (fg.Vertex iFinePoint iMarker).toNat
    let Normal := fd.VertexNormal iMarker FineVertex
    Function.update N iMarker (Function.update (N iMarker) iVertex (N iMarker iVertex + Normal))
  else N

/-- Lines 1167-1188: the normals of the coarse vertices before the test for null area. Unless
`action` is `ALLOCATE` the normals of the coarse vertices are set to zero first. -/
def SetBoundControlVolume_sums (fg : FineGrid) (fd : FineGeometry) (st : MGState)
    (v : CoarseBoundary) (ALLOCATE action : Nat) (N : Nat → Nat → Nat → ℚ) :
    Nat → Nat → Nat → ℚ :=
  let N0 : Nat → Nat → Nat → ℚ :=
    if action ≠ ALLOCATE then
      fun iMarker iVertex => if iMarker < fg.nMarker ∧ iVertex < v.nVertex iMarker then 0
        else N iMarker iVertex
    else N
  (List.range fg.nMarker).foldl (fun N iMarker =>
    (List.range (v.nVertex iMarker)).foldl (fun N iVertex =>
      let iCoarsePoint := v.vertexNode iMarker iVertex
      (List.range (st.nChildren_CV iCoarsePoint)).foldl
        (vertexNormalStep fg fd st iMarker iVertex iCoarsePoint) N) N) N0

/-- Embedding of `SetBoundControlVolume(config, fine_grid, action)`: the normals of the coarse
vertices after the test for null area. -/
def SetBoundControlVolume (fg : FineGrid) (fd : FineGeometry) (st : MGState)
    (v : CoarseBoundary) (EPS : ℚ) (ALLOCATE action : Nat) (N : Nat → Nat → Nat → ℚ) :
    Nat → Nat → Nat → ℚ :=
  (List.range fg.nMarker).foldl (fun N iMarker =>
    (List.range (v.nVertex iMarker)).foldl (fun N iVertex =>
      Function.update N iMarker
        (Function.update (N iMarker) iVertex (clampNormal EPS fd.nDim (N iMarker iVertex)))) N)
    (SetBoundControlVolume_sums fg fd st v ALLOCATE action N)

/-- One coarse edge, found whatever the end points. -/
def oneEdge : CoarseEdges :=
  { nEdge := 1
    FindEdge := fun _ _ => 0 }

/-- The vector added at lines 1131-1141 for the child `iFinePoint` and its neighbour
`iFinePoint_Neighbor`: the stored normal of the fine edge between them, negated when
`iFinePoint < iFinePoint_Neighbor`. With the stored normal of a fine edge pointing from its
lower-numbered to its higher-numbered point, this is the normal pointing from the neighbour to
the child. -/
def orientedNormal (fd : FineGeometry) (iFinePoint iFinePoint_Neighbor : Nat) : Nat → ℚ :=
  if iFinePoint < iFinePoint_Neighbor then
    -(fd.EdgeNormal (fd.FindEdge iFinePoint iFinePoint_Neighbor))
  else fd.EdgeNormal (fd.FindEdge iFinePoint iFinePoint_Neighbor)

/-- Geometric data for the seven-point ring grid: the fine edge between `p` and `q` has index
`7 * min p q + max p q`; the edges 2-5 and 3-5 have the opposite normals `(1, 0)` and `(-1, 0)`,
every other edge has the normal `(0, 0)`. -/
def ringGeometry : FineGeometry :=
  { nDim := 2
    Rotation_Type := fun _ _ => 0
    VertexNormal := fun _ _ _ => 0
    FindEdge := fun p q => 7 * min p q + max p q
    EdgeNormal := fun e iDim =>
      if iDim = 0 then (if e = 19 then 1 else if e = 26 then -1 else 0) else 0
    Coord := fun _ _ => 0
    GridVel := fun _ _ => 0 }

/-- Coarse edges for a coarse grid of three points: the edge between `a` and `b` has index
`3 * a + b`. -/
def ringEdges : CoarseEdges :=
  { nEdge := 9
    FindEdge := fun a b => 3 * a + b }

/-- Embedding of `SetPoint_Connectivity(fine_grid)` (lines 881-905): the coarse adjacency of the
coarse points below `nPoint`, by the projection of lines 887-899. `SetnNeighbor` stores the
length of each list and is not modelled. -/
def SetPoint_Connectivity (fg : FineGrid) (st : MGState) : MGState :=
  projectAdjacency fg st.nPoint st

/-! ## SetGridVelocity (lines 1278-1319) -/

/-- The accessors of `TBOX_Config` that `SetGridVelocity` calls, and the two constants of `TBOX`
it compares with (not in the source tree): `GetUnsteady_Simulation()`, `DT_STEPPING_1ST`,
`DT_STEPPING_2ND` and `GetDelta_UnstTimeND()`. -/
structure TimeStepping where
  Unsteady_Simulation : Nat
  DT_STEPPING_1ST : Nat
  DT_STEPPING_2ND : Nat
  Delta_UnstTimeND : ℚ

/-- The coordinates of the coarse points at the three time levels: `GetCoord()` (level n+1),
`GetCoord_n()` and `GetCoord_n1()`, by coarse point and component. -/
structure CoarseMotion where
  Coord : Nat → Nat → ℚ
  Coord_n : Nat → Nat → ℚ
  Coord_n1 : Nat → Nat → ℚ

/-- Lines 1307-1315 for one component `iDim` of `Point_Coarse`: the two tests in sequence on the
local `GridVel`, which keeps its value when neither holds, then `SetGridVel(iDim, GridVel)`. The
first component of the pair is the local `GridVel`, the second the stored velocities. -/
def gridVelStep (tc : TimeStepping) (cm : CoarseMotion) (Point_Coarse : Nat)
    (acc : Option ℚ × (Nat → Nat → Option ℚ)) (iDim : Nat) :
    Option ℚ × (Nat → Nat → Option ℚ) :=
  let TimeStep := tc.Delta_UnstTimeND
  let GridVel1 :=
    if tc.Unsteady_Simulation = tc.DT_STEPPING_1ST then
      checkedDiv (cm.Coord Point_Coarse iDim - cm.Coord_n Point_Coarse iDim) TimeStep
    else acc.1
  let GridVel2 :=
    if tc.Unsteady_Simulation = tc.DT_STEPPING_2ND then
      checkedDiv (3 * cm.Coord Point_Coarse iDim - 4 * cm.Coord_n Point_Coarse iDim
        + 1 * cm.Coord_n1 Point_Coarse iDim) (2 * TimeStep)
    else GridVel1
  (GridVel2, Function.update acc.2 Point_Coarse
    (Function.update (acc.2 Point_Coarse) iDim GridVel2))

/-- Embedding of `SetGridVelocity(config, iter)`: `GridVel` starts at `0.0` (line 1284) and is
carried through the loops over the `nPoint` coarse points and the `nDim` components. -/
def SetGridVelocity (tc : TimeStepping) (cm : CoarseMotion) (nDim nPoint : Nat)
    (cGridVel : Nat → Nat → Option ℚ) : Nat → Nat → Option ℚ :=
  ((List.range nPoint).foldl (fun acc Point_Coarse =>
    (List.range nDim).foldl (gridVelStep tc cm Point_Coarse) acc) (some 0, cGridVel)).2

/-- A point in two dimensions at (2, 2), (1, 1) and (0, 0) at the three time levels. -/
def steadyMotion : CoarseMotion :=
  { Coord := fun _ _ => 2, Coord_n := fun _ _ => 1, Coord_n1 := fun _ _ => 0 }

/-- Second-order time stepping with time step 1/2. -/
def secondOrder : TimeStepping :=
  { Unsteady_Simulation := 2, DT_STEPPING_1ST := 1, DT_STEPPING_2ND := 2,
    Delta_UnstTimeND := 1 / 2 }

/-- State of the second boundary pass started in `s1`: the coarse index counter has not gone
down and no agglomerated point is lost, every coarse point opened since `s1` has one child,
which was unagglomerated in `s1` and has that coarse point as parent, and every point
agglomerated since `s1` is a domain-owned node of a marker vertex whose parent is a coarse point
opened since `s1`. -/
def SecondPass (fg : FineGrid) (s1 s : MGState) : Prop :=
  s1.Index_CoarseCV ≤ s.Index_CoarseCV ∧ Grew s1 s ∧
  (∀ c, s1.Index_CoarseCV ≤ c → c < s.Index_CoarseCV →
    s.nChildren_CV c = 1 ∧ s1.fAgglomerate (s.Children_CV c 0) = false ∧
    s.fAgglomerate (s.Children_CV c 0) = true ∧ s.fParent_CV (s.Children_CV c 0) = c) ∧
  (∀ p, s1.fAgglomerate p = false → s.fAgglomerate p = true →
    (∃ m, m < fg.nMarker ∧ p ∈ fg.vertex m) ∧ fg.Domain p = true ∧
    s1.Index_CoarseCV ≤ s.fParent_CV p ∧ s.fParent_CV p < s.Index_CoarseCV)

/-- Two adjacent fine points on the physical marker 0; point 1 is not admissible. -/
def bigCellGrid : FineGrid :=
  { wallGrid with GeometricalCheck := fun p => decide (p ≠ 1) }

/-- Number of fine points below `nPoint` that are domain-owned and agglomerated in `st`. -/
def nAgglomerated (fg : FineGrid) (st : MGState) : Nat :=
  ((Finset.range fg.nPoint).filter
    (fun p => st.fAgglomerate p = true ∧ fg.Domain p = true)).card

/-- Number of domain-owned fine points below `nPoint`. -/
def nDomainOwned (fg : FineGrid) : Nat :=
  ((Finset.range fg.nPoint).filter (fun p => fg.Domain p = true)).card

/-- What a body step of a pass does with its candidate `p`: no agglomerated point is lost; when
the seed test holds, `p` was unagglomerated, is agglomerated afterwards, and the coarse index
counter has gone up by one; when it fails, the state is as before. -/
def Opens (st st2 : MGState) (p : Nat) (accepted : Bool) : Prop :=
  Grew st st2 ∧
  (accepted = true → st.fAgglomerate p = false ∧ st2.fAgglomerate p = true ∧
    st2.Index_CoarseCV = st.Index_CoarseCV + 1) ∧
  (accepted = false → st2 = st)

/-- Five fine points in a row, 0 - 1 - 2 - 3 - 4, without markers. -/
def chainGrid : FineGrid :=
  { plainGrid 5 with
    Point := fun p => [[1], [0, 2], [1, 3], [2, 4], [3]].getD p [] }

/-- The nine quadrilateral elements of the 4 x 4 structured grid, of VTK type 9 (`RECTANGLE` in
`plainConfig`), with their nodes. -/
def quadElements : List (Nat × List Nat) :=
  [(9, [0, 1, 5, 4]), (9, [1, 2, 6, 5]), (9, [2, 3, 7, 6]),
   (9, [4, 5, 9, 8]), (9, [5, 6, 10, 9]), (9, [6, 7, 11, 10]),
   (9, [8, 9, 13, 12]), (9, [9, 10, 14, 13]), (9, [10, 11, 15, 14])]

/-- The 4 x 4 structured quadrilateral fine grid with its elements: points numbered row by row,
one marker whose vertex list runs around the outer ring from the corner 0. -/
def quadMesh : FineGrid := { quadGrid with elem := quadElements }

/-- Lines 249-354 with the loop counter: `iteration = 0; while (!EmptyQueue() && iteration <
nPoint) { iPoint = NextCV(); iteration++; ... }`. The result is the state and queue on exit
together with the value of `iteration`, the number of times the body has run. -/
def interiorWhile (fg : FineGrid) (sq : MGState × MGQueue) (iteration : Nat) :
    (MGState × MGQueue) × Nat :=
  if sq.2.EmptyQueue = false ∧ iteration < fg.nPoint then
    interiorWhile fg (interiorBody fg sq) (iteration + 1)
  else (sq, iteration)
termination_by fg.nPoint - iteration
decreasing_by omega

/-- One domain-owned fine point that is not admissible. -/
def stuckGrid : FineGrid :=
  { plainGrid 1 with GeometricalCheck := fun _ => false }

/-- The two vertex maps of the coarse grid agree: a coarse point with a vertex index on marker
`m` has an index below `nVertex m` whose vertex has the coarse point as node and carries the
rotation tag of the fine vertex of the first child of the coarse point that has a vertex on `m`;
and the node of every vertex below `nVertex m` has that vertex as its index on `m`. -/
structure VertexMaps (fg : FineGrid) (fd : FineGeometry) (st : MGState) (w : CoarseBoundary) :
    Prop where
  point : ∀ c m, w.cVertex c m ≠ -1 →
    ∃ iv : Nat, w.cVertex c m = (iv : Int) ∧ iv < w.nVertex m ∧ w.vertexNode m iv = c ∧
      ∃ i, i < st.nChildren_CV c ∧ fg.Vertex (st.Children_CV c i) m ≠ -1 ∧
        (∀ j, j < i → fg.Vertex (st.Children_CV c j) m = -1) ∧
        w.vertexRotation m iv = fd.Rotation_Type m (fg.Vertex (st.Children_CV c i) m).toNat
  vertex : ∀ m iv, iv < w.nVertex m → w.cVertex (w.vertexNode m iv) m = (iv : Int)

/-- Lines 237-243: the number of entries of the adjacency list of `iPoint` that are agglomerated
in `st`. -/
def agglomeratedNeighbors (fg : FineGrid) (st : MGState) (iPoint : Nat) : Nat :=
  (fg.Point iPoint).foldl (fun pr jPoint =>
    if st.fAgglomerate jPoint = true then pr + 1 else pr) (0 : Nat)

/-- The interior loop run together with the record of the demoted points: the candidate is
appended to the record when the seed test fails and the point is moved to priority `-1` (line
351). -/
def interiorLoop_demoted (fg : FineGrid) :
    Nat → (MGState × MGQueue) × List Nat → (MGState × MGQueue) × List Nat
  | 0, a => a
  | fuel + 1, a =>
    if a.1.2.EmptyQueue then a
    else interiorLoop_demoted fg fuel (interiorBody fg a.1,
      if seedAccepted fg a.1.1 a.1.2.NextCV then a.2 else a.2 ++ [a.1.2.NextCV])

/-- Every point that is in the queue and is not in the record `D` of demoted points has as
priority the number of its agglomerated neighbours. -/
def PriorityInv (fg : FineGrid) (st : MGState) (q : MGQueue) (D : List Nat) : Prop :=
  ∀ p pr, q.priority p = some pr → p ∉ D → pr = (agglomeratedNeighbors fg st p : Int)



/-- Every point agglomerated in `st` was agglomerated in `st0` or is domain-owned. -/
def Owned (fg : FineGrid) (st0 st : MGState) : Prop :=
  ∀ p, st.fAgglomerate p = true → st0.fAgglomerate p = true ∨ fg.Domain p = true

/-- The child slots of the coarse points from `I0` on hold exactly the points of the list `V`,
each of them once. -/
def NewSlots (I0 : Nat) (V : List Nat) (s : MGState) : Prop :=
  (∀ c j, I0 ≤ c → j < s.nChildren_CV c → s.Children_CV c j ∈ V) ∧
  (∀ c j c2 j2, I0 ≤ c → I0 ≤ c2 → j < s.nChildren_CV c → j2 < s.nChildren_CV c2 →
    s.Children_CV c j = s.Children_CV c2 j2 → c = c2 ∧ j = j2) ∧
  (∀ x, x ∈ V → ∃ c j, I0 ≤ c ∧ j < s.nChildren_CV c ∧ s.Children_CV c j = x)





/-! ### Facts about `copy_marker` -/

theorem mem_copy_marker (fg : FineGrid) (p j : Nat) :
    j ∈ copy_marker fg p ↔ j < fg.nMarker ∧ fg.Vertex p j ≠ -1 := by
  simp [copy_marker]

theorem copy_marker_sorted (fg : FineGrid) (p : Nat) :
    (copy_marker fg p).Sorted (· < ·) := by
  unfold copy_marker
  exact List.Pairwise.filter _ (List.pairwise_lt_range fg.nMarker)

theorem copy_marker_nodup (fg : FineGrid) (p : Nat) : (copy_marker fg p).Nodup :=
  (copy_marker_sorted fg p).nodup

/-- A strictly increasing list with the same members is the list `copy_marker`. -/
theorem copy_marker_eq (fg : FineGrid) (p : Nat) (l : List Nat) (hl : l.Sorted (· < ·))
    (hmem : ∀ j, j ∈ l ↔ j < fg.nMarker ∧ fg.Vertex p j ≠ -1) : copy_marker fg p = l := by
  apply List.eq_of_perm_of_sorted _ (copy_marker_sorted fg p) hl
  rw [List.perm_ext_iff_of_nodup (copy_marker_nodup fg p) hl.nodup]
  intro j
  rw [mem_copy_marker, hmem]

/-- Three markers carried by a point make `counter` at least 3. -/
theorem copy_marker_length_ge_three (fg : FineGrid) (p m1 m2 m3 : Nat)
    (h12 : m1 < m2) (h23 : m2 < m3) (h3 : m3 < fg.nMarker)
    (v1 : fg.Vertex p m1 ≠ -1) (v2 : fg.Vertex p m2 ≠ -1) (v3 : fg.Vertex p m3 ≠ -1) :
    3 ≤ (copy_marker fg p).length := by
  have hnd : [m1, m2, m3].Nodup := by
    simp only [List.nodup_cons, List.mem_cons, List.mem_singleton, List.not_mem_nil,
      List.nodup_nil, not_false_eq_true, and_true, not_or]
    omega
  have hsub : [m1, m2, m3] ⊆ copy_marker fg p := by
    intro j hj
    rw [mem_copy_marker]
    simp only [List.mem_cons, List.mem_singleton, List.not_mem_nil, or_false] at hj
    rcases hj with rfl | rfl | rfl
    · exact ⟨by omega, v1⟩
    · exact ⟨by omega, v2⟩
    · exact ⟨h3, v3⟩
  exact (List.subperm_of_subset hnd hsub).length_le

/-! ## Effect of the leftover sweep and of the volume loop -/

/-- What `leftoverStep` does when the point is taken as a seed. -/
theorem leftoverStep_seed (fg : FineGrid) (st : MGState) (p : Nat)
    (h1 : st.fAgglomerate p = false) (h2 : fg.Domain p = true) :
    (leftoverStep fg st p).Index_CoarseCV = st.Index_CoarseCV + 1 ∧
    (leftoverStep fg st p).nChildren_CV =
      Function.update st.nChildren_CV st.Index_CoarseCV 1 ∧
    (leftoverStep fg st p).Children_CV = Function.update st.Children_CV st.Index_CoarseCV
      (Function.update (st.Children_CV st.Index_CoarseCV) 0 p) ∧
    (leftoverStep fg st p).fParent_CV = Function.update st.fParent_CV p st.Index_CoarseCV ∧
    (leftoverStep fg st p).fAgglomerate = Function.update st.fAgglomerate p true := by
  unfold leftoverStep
  simp only [h1, h2, beq_self_eq_true, Bool.and_self, if_true]
  by_cases h : st.fIndirect p <;>
    simp [MGState.SetParent_CV, MGState.SetChildren_CV, MGState.SetnChildren_CV,
      MGState.SetAgglomerate_Indirect, h]

/-- What `leftoverStep` does when the point is skipped. -/
theorem leftoverStep_skip (fg : FineGrid) (st : MGState) (p : Nat)
    (h : ¬ (st.fAgglomerate p = false ∧ fg.Domain p = true)) :
    leftoverStep fg st p = st := by
  unfold leftoverStep
  by_cases h1 : st.fAgglomerate p = false <;> by_cases h2 : fg.Domain p = true <;>
    simp_all

/-- Effect of the leftover sweep over a list of distinct points. -/
theorem leftover_fold (fg : FineGrid) (l : List Nat) (hl : l.Nodup) (s : MGState) :
    s.Index_CoarseCV ≤ (l.foldl (leftoverStep fg) s).Index_CoarseCV ∧
    (∀ c, c < s.Index_CoarseCV →
      (l.foldl (leftoverStep fg) s).nChildren_CV c = s.nChildren_CV c ∧
      (l.foldl (leftoverStep fg) s).Children_CV c = s.Children_CV c) ∧
    (∀ p, s.fAgglomerate p = true →
      (l.foldl (leftoverStep fg) s).fAgglomerate p = true ∧
      (l.foldl (leftoverStep fg) s).fParent_CV p = s.fParent_CV p) ∧
    (∀ p, p ∈ l → s.fAgglomerate p = false → fg.Domain p = true →
      ∃ c, s.Index_CoarseCV ≤ c ∧ c < (l.foldl (leftoverStep fg) s).Index_CoarseCV ∧
        (l.foldl (leftoverStep fg) s).nChildren_CV c = 1 ∧
        (l.foldl (leftoverStep fg) s).Children_CV c 0 = p ∧
        (l.foldl (leftoverStep fg) s).fParent_CV p = c ∧
        (l.foldl (leftoverStep fg) s).fAgglomerate p = true) := by
  induction l generalizing s with
  | nil => simp
  | cons a l ih =>
    have hal : a ∉ l := (List.nodup_cons.mp hl).1
    have hl2 : l.Nodup := (List.nodup_cons.mp hl).2
    obtain ⟨i1, i2, i3, i4⟩ := ih hl2 (leftoverStep fg s a)
    simp only [List.foldl_cons]
    by_cases hs : s.fAgglomerate a = false ∧ fg.Domain a = true
    · obtain ⟨e1, e2, e3, e4, e5⟩ := leftoverStep_seed fg s a hs.1 hs.2
      have hK : s.Index_CoarseCV < (leftoverStep fg s a).Index_CoarseCV := by omega
      refine ⟨by omega, ?_, ?_, ?_⟩
      · intro c hc
        obtain ⟨j1, j2⟩ := i2 c (by omega)
        rw [j1, j2, e2, e3]
        have : c ≠ s.Index_CoarseCV := by omega
        simp [Function.update, this]
      · intro p hp
        have hpa : p ≠ a := by
          rintro rfl
          rw [hs.1] at hp
          exact Bool.noConfusion hp
        obtain ⟨j1, j2⟩ := i3 p (by rw [e5]; simp [Function.update, hpa, hp])
        refine ⟨j1, ?_⟩
        rw [j2, e4]
        simp [Function.update, hpa]
      · intro p hp hpa hpd
        rcases List.mem_cons.mp hp with rfl | hpl
        · refine ⟨s.Index_CoarseCV, le_refl _, ?_, ?_, ?_, ?_, ?_⟩
          · omega
          · rw [(i2 _ hK).1, e2]; simp
          · rw [(i2 _ hK).2, e3]; simp
          · rw [(i3 p (by rw [e5]; simp)).2, e4]; simp
          · exact (i3 p (by rw [e5]; simp)).1
        · have hne : p ≠ a := fun h => hal (h ▸ hpl)
          obtain ⟨c, c1, c2, c3, c4, c5, c6⟩ :=
            i4 p hpl (by rw [e5]; simp [Function.update, hne, hpa]) hpd
          exact ⟨c, by omega, c2, c3, c4, c5, c6⟩
    · rw [leftoverStep_skip fg s a hs] at i1 i2 i3 i4 ⊢
      refine ⟨i1, i2, i3, ?_⟩
      intro p hp hpa hpd
      rcases List.mem_cons.mp hp with rfl | hpl
      · exact absurd ⟨hpa, hpd⟩ hs
      · exact i4 p hpl hpa hpd

/-- After the leftover sweep every domain-owned fine point is agglomerated. -/
theorem LeftoverSweep_agg (fg : FineGrid) (st : MGState) (p : Nat)
    (hp : p < fg.nPoint) (hd : fg.Domain p = true) :
    (LeftoverSweep fg st).fAgglomerate p = true := by
  obtain ⟨_, _, i3, i4⟩ := leftover_fold fg (List.range fg.nPoint) (List.nodup_range _) st
  cases h : st.fAgglomerate p with
  | true => exact (i3 p h).1
  | false =>
    obtain ⟨c, _, _, _, _, _, c6⟩ := i4 p (List.mem_range.mpr hp) h hd
    exact c6

/-- A left fold that adds `f i` for `i < n` computes the sum of `f` over `range n`. -/
theorem foldl_add_range (f : Nat → ℚ) (n : Nat) :
    (List.range n).foldl (fun v i => v + f i) 0 = ∑ i in Finset.range n, f i := by
  induction n with
  | zero => simp
  | succ n ih => rw [List.range_succ, List.foldl_append, ih, Finset.sum_range_succ]; simp

/-- The volume loop of `SetControlVolume` over a list of coarse points: only `cVolume` changes,
and it changes exactly at the listed points. -/
theorem SetControlVolume_fold (fg : FineGrid) (l : List Nat) (s : MGState) :
    (l.foldl (fun s c =>
        { s with cVolume := Function.update s.cVolume c (Coarse_Volume fg s c) }) s).Children_CV
      = s.Children_CV ∧
    (l.foldl (fun s c =>
        { s with cVolume := Function.update s.cVolume c (Coarse_Volume fg s c) }) s).nChildren_CV
      = s.nChildren_CV ∧
    (l.foldl (fun s c =>
        { s with cVolume := Function.update s.cVolume c (Coarse_Volume fg s c) }) s).nPoint
      = s.nPoint ∧
    ∀ c, (l.foldl (fun s c =>
        { s with cVolume := Function.update s.cVolume c (Coarse_Volume fg s c) }) s).cVolume c
      = if c ∈ l then Coarse_Volume fg s c else s.cVolume c := by
  induction l generalizing s with
  | nil => simp
  | cons a l ih =>
    obtain ⟨i1, i2, i3, i4⟩ :=
      ih { s with cVolume := Function.update s.cVolume a (Coarse_Volume fg s a) }
    simp only [List.foldl_cons]
    refine ⟨i1, i2, i3, ?_⟩
    intro c
    rw [i4 c]
    by_cases hc : c ∈ l
    · simp [hc, Coarse_Volume]
    · by_cases hca : c = a
      · subst hca
        simp [hc]
      · simp [hc, hca, Function.update]

/-! ## Folds and the indirect-neighbour list -/

/-- A property that holds at the start of a left fold and is kept by every step holds at its
end. -/
theorem foldl_inv {α β : Type} (P : β → Prop) (f : β → α → β) (l : List α) (b : β)
    (hb : P b) (hf : ∀ b a, a ∈ l → P b → P (f b a)) : P (l.foldl f b) := by
  induction l generalizing b with
  | nil => exact hb
  | cons a l ih =>
    simp only [List.foldl_cons]
    apply ih
    · exact hf b a (List.mem_cons_self a l) hb
    · intro b2 a2 ha2 hb2
      exact hf b2 a2 (List.mem_cons_of_mem a ha2) hb2

/-- Entries kept by `std_unique` are entries of the list. -/
theorem mem_of_mem_std_unique (x : Nat) : ∀ l : List Nat, x ∈ std_unique l → x ∈ l
  | [] => fun h => h
  | [_] => fun h => h
  | a :: b :: t => by
    intro h
    simp only [std_unique] at h
    by_cases hab : a = b
    · rw [if_pos hab] at h
      exact List.mem_cons_of_mem a (mem_of_mem_std_unique x (b :: t) h)
    · rw [if_neg hab] at h
      rcases List.mem_cons.mp h with rfl | h2
      · exact List.mem_cons_self _ _
      · exact List.mem_cons_of_mem a (mem_of_mem_std_unique x (b :: t) h2)

/-- Entries of the sorted list are entries of the list. -/
theorem mem_std_sort (x : Nat) (l : List Nat) : x ∈ std_sort l ↔ x ∈ l :=
  (List.perm_insertionSort (· ≤ ·) l).mem_iff

/-- Every point pushed by the double loop is the point of one of the pairs. -/
theorem mem_repeatedNeighbors (prs : List (Nat × Nat)) (x : Nat)
    (h : x ∈ repeatedNeighbors prs) : ∃ pr, pr ∈ prs ∧ pr.1 = x := by
  unfold repeatedNeighbors at h
  revert x
  apply foldl_inv (fun acc : List Nat => ∀ x, x ∈ acc → ∃ pr, pr ∈ prs ∧ pr.1 = x)
  · intro x hx
    simp at hx
  · intro acc i hi hacc
    apply foldl_inv (fun acc : List Nat => ∀ x, x ∈ acc → ∃ pr, pr ∈ prs ∧ pr.1 = x)
    · exact hacc
    · intro acc2 j _ hacc2 x hx
      split at hx
      · rcases List.mem_append.mp hx with h1 | h1
        · exact hacc2 x h1
        · simp only [List.mem_singleton] at h1
          have hlt : i < prs.length := List.mem_range.mp hi
          refine ⟨prs.getD i (0, 0), ?_, h1.symm⟩
          rw [List.getD_eq_getElem prs (0, 0) hlt]
          exact List.getElem_mem hlt
      · exact hacc2 x hx

/-- Every second-ring pair `(k, j)` has `k` in the adjacency list of `j`. -/
theorem mem_Second_Neighbor_Pairs (fg : FineGrid) (iPoint : Nat) (pr : Nat × Nat)
    (h : pr ∈ Second_Neighbor_Pairs fg iPoint) : pr.1 ∈ fg.Point pr.2 := by
  unfold Second_Neighbor_Pairs at h
  revert pr
  apply foldl_inv (fun acc : List (Nat × Nat) => ∀ pr, pr ∈ acc → pr.1 ∈ fg.Point pr.2)
  · intro pr hpr
    simp at hpr
  · intro acc j _ hacc
    apply foldl_inv (fun acc : List (Nat × Nat) => ∀ pr, pr ∈ acc → pr.1 ∈ fg.Point pr.2)
    · exact hacc
    · intro acc2 k hk hacc2 pr hpr
      split at hpr
      · exact hacc2 pr hpr
      · rcases List.mem_append.mp hpr with h1 | h1
        · exact hacc2 pr h1
        · simp only [List.mem_singleton] at h1
          subst h1
          exact hk

/-- Every third-ring pair `(l, k)` has `l` in the adjacency list of `k`. -/
theorem mem_Third_Neighbor_Pairs (fg : FineGrid) (iPoint : Nat) (pr : Nat × Nat)
    (h : pr ∈ Third_Neighbor_Pairs fg iPoint) : pr.1 ∈ fg.Point pr.2 := by
  unfold Third_Neighbor_Pairs at h
  revert pr
  apply foldl_inv (fun acc : List (Nat × Nat) => ∀ pr, pr ∈ acc → pr.1 ∈ fg.Point pr.2)
  · intro pr hpr
    simp at hpr
  · intro acc j _ hacc
    apply foldl_inv (fun acc : List (Nat × Nat) => ∀ pr, pr ∈ acc → pr.1 ∈ fg.Point pr.2)
    · exact hacc
    · intro acc2 k hk hacc2 pr hpr
      split at hpr
      · exact hacc2 pr hpr
      · rcases List.mem_append.mp hpr with h1 | h1
        · exact hacc2 pr h1
        · simp only [List.mem_singleton] at h1
          subst h1
          exact hk

/-- Every point returned by `SetSuitableNeighbors` on an empty list is in the adjacency list of
some point. -/
theorem mem_SetSuitableNeighbors (fg : FineGrid) (iPoint x : Nat)
    (h : x ∈ SetSuitableNeighbors fg [] iPoint) : ∃ q, x ∈ fg.Point q := by
  unfold SetSuitableNeighbors at h
  have h2 := (mem_std_sort x _).mp (mem_of_mem_std_unique x _ h)
  simp only [List.nil_append, List.mem_append] at h2
  rcases h2 with h3 | h3
  · obtain ⟨pr, hpr, rfl⟩ := mem_repeatedNeighbors _ x h3
    exact ⟨pr.2, mem_Second_Neighbor_Pairs fg iPoint pr hpr⟩
  · obtain ⟨pr, hpr, rfl⟩ := mem_repeatedNeighbors _ x h3
    exact ⟨pr.2, mem_Third_Neighbor_Pairs fg iPoint pr hpr⟩

/-! ## Parent map and children lists -/

/-- Two live slots that hold the same point are the same slot. -/
theorem GInv.slot_unique {st : MGState} {live : Nat → Nat → Prop} (h : GInv st live)
    {c i c2 i2 : Nat} (h1 : live c i) (h2 : live c2 i2)
    (he : st.Children_CV c i = st.Children_CV c2 i2) : c = c2 ∧ i = i2 := by
  have e1 := (h.child c i h1).2
  have e2 := (h.child c2 i2 h2).2
  rw [he] at e1
  have hc : c = c2 := by rw [← e1, e2]
  subst hc
  exact ⟨rfl, h.inj c i i2 h1 h2 he⟩

/-- The invariant only depends on the live slots up to equivalence. -/
theorem GInv.congr {st : MGState} {live live2 : Nat → Nat → Prop} (h : GInv st live)
    (he : ∀ c i, live2 c i ↔ live c i) : GInv st live2 := by
  refine ⟨?_, ?_, ?_⟩
  · intro c i hl
    exact h.child c i ((he c i).mp hl)
  · intro c i j hi hj
    exact h.inj c i j ((he c i).mp hi) ((he c j).mp hj)
  · intro p hp
    obtain ⟨i, hi, hc⟩ := h.parent p hp
    exact ⟨i, (he _ i).mpr hi, hc⟩

/-- Placing point `p` in the free slot `j` of coarse point `K` and making `K` its parent keeps
parent map and children lists in agreement; every slot that held `p` stops being live. -/
theorem GInv.place {st st2 : MGState} {live : Nat → Nat → Prop} (h : GInv st live)
    (p K j : Nat) (hfree : ¬ live K j)
    (hA : st2.fAgglomerate = Function.update st.fAgglomerate p true)
    (hP : st2.fParent_CV = Function.update st.fParent_CV p K)
    (hC : st2.Children_CV = Function.update st.Children_CV K
      (Function.update (st.Children_CV K) j p)) :
    GInv st2 (fun c i => (live c i ∧ st.Children_CV c i ≠ p) ∨ (c = K ∧ i = j)) := by
  have hold : ∀ c i, live c i → st2.Children_CV c i = st.Children_CV c i := by
    intro c i hl
    rw [hC]
    by_cases hc : c = K
    · subst hc
      have hij : i ≠ j := fun e => hfree (e ▸ hl)
      simp [Function.update, hij]
    · simp [Function.update, hc]
  have hnew : st2.Children_CV K j = p := by
    rw [hC]; simp
  refine ⟨?_, ?_, ?_⟩
  · rintro c i (⟨hl, hne⟩ | ⟨rfl, rfl⟩)
    · rw [hold c i hl, hA, hP]
      simp only [Function.update, hne, eq_rec_constant, dite_eq_ite, if_false]
      exact h.child c i hl
    · rw [hnew, hA, hP]
      simp
  · rintro c i i2 (⟨hl, hne⟩ | ⟨rfl, rfl⟩) (⟨hl2, hne2⟩ | ⟨e1, e2⟩) he
    · rw [hold c i hl, hold c i2 hl2] at he
      exact h.inj c i i2 hl hl2 he
    · subst e1; subst e2
      rw [hold c i hl, hnew] at he
      exact absurd he hne
    · rw [hold c i2 hl2, hnew] at he
      exact absurd he.symm hne2
    · exact e2.symm
  · intro x hx
    by_cases hxp : x = p
    · subst hxp
      refine ⟨j, ?_, ?_⟩
      · right
        rw [hP]
        simp
      · rw [hP]
        simp only [Function.update_same]
        exact hnew
    · have hx2 : st.fAgglomerate x = true := by
        rw [hA] at hx
        simpa [Function.update, hxp] using hx
      have hpar : st2.fParent_CV x = st.fParent_CV x := by
        rw [hP]; simp [Function.update, hxp]
      obtain ⟨i, hi, hc⟩ := h.parent x hx2
      rw [hpar]
      refine ⟨i, Or.inl ⟨hi, by rw [hc]; exact hxp⟩, ?_⟩
      rw [hold _ i hi, hc]

/-- The invariant of the passes only reads six fields of the state. -/
theorem PInv.transfer {fg : FineGrid} {cfg : Config} {st st2 : MGState} {n : Nat}
    (h : PInv fg cfg st n)
    (hA : st2.fAgglomerate = st.fAgglomerate) (hP : st2.fParent_CV = st.fParent_CV)
    (hC : st2.Children_CV = st.Children_CV) (hN : st2.nChildren_CV = st.nChildren_CV)
    (hI : st2.Index_CoarseCV = st.Index_CoarseCV) (hQ : st2.cPoint = st.cPoint) :
    PInv fg cfg st2 n := by
  obtain ⟨⟨g1, g2, g3⟩, h2, h3, h4, h5, h6⟩ := h
  refine ⟨⟨?_, ?_, ?_⟩, ?_, ?_, ?_, ?_, ?_⟩
  · simpa only [cnt, hA, hP, hC, hN, hI] using g1
  · simpa only [cnt, hA, hP, hC, hN, hI] using g2
  · simpa only [cnt, hA, hP, hC, hN, hI] using g3
  · simpa only [hN, hI] using h2
  · simpa only [hA, hP] using h3
  · simpa only [hQ] using h4
  · simpa only [hA] using h5
  · simpa only [hC, hN, hI] using h6

/-- Taking an unagglomerated point as child number `n` of the coarse point being filled keeps
the invariant of the passes. -/
theorem PInv.take {fg : FineGrid} {cfg : Config} {st st2 : MGState} {n : Nat}
    (h : PInv fg cfg st n) (p : Nat)
    (hp : st.fAgglomerate p = false) (hr : WFR fg → p < fg.nPoint)
    (hA : st2.fAgglomerate = Function.update st.fAgglomerate p true)
    (hP : st2.fParent_CV = Function.update st.fParent_CV p st.Index_CoarseCV)
    (hC : st2.Children_CV = Function.update st.Children_CV st.Index_CoarseCV
      (Function.update (st.Children_CV st.Index_CoarseCV) n p))
    (hN : st2.nChildren_CV = st.nChildren_CV) (hI : st2.Index_CoarseCV = st.Index_CoarseCV)
    (hQ : st2.cPoint = st.cPoint) : PInv fg cfg st2 (n + 1) := by
  have hfree : ¬ (fun c i => i < cnt st n c) st.Index_CoarseCV n := by
    simp [cnt]
  have g := h.ginv.place p st.Index_CoarseCV n hfree hA hP hC
  refine ⟨?_, ?_, ?_, ?_, ?_, ?_⟩
  · apply g.congr
    intro c i
    simp only [cnt, hI, hN]
    constructor
    · intro hi
      by_cases hc : c = st.Index_CoarseCV
      · subst hc
        rw [if_pos rfl] at hi
        by_cases hin : i = n
        · exact Or.inr ⟨rfl, hin⟩
        · left
          have hlt : i < n := by omega
          refine ⟨by rw [if_pos rfl]; exact hlt, ?_⟩
          intro he
          have := (h.ginv.child st.Index_CoarseCV i (by simp [cnt, hlt])).1
          rw [he, hp] at this
          exact Bool.noConfusion this
      · simp only [hc, if_false] at hi ⊢
        left
        refine ⟨hi, ?_⟩
        intro he
        have := (h.ginv.child c i (by simp [cnt, hc, hi])).1
        rw [he, hp] at this
        exact Bool.noConfusion this
    · rintro (⟨hl, _⟩ | ⟨rfl, rfl⟩)
      · by_cases hc : c = st.Index_CoarseCV
        · subst hc
          simp only [if_true] at hl ⊢
          omega
        · simpa only [hc, if_false] using hl
      · simp
  · intro c hc
    rw [hN]
    exact h.above c (by omega)
  · intro x hx
    have hxp : x ≠ p := by
      rintro rfl
      rw [hA] at hx
      simp at hx
    rw [hP]
    rw [hA] at hx
    simp only [Function.update, hxp, eq_rec_constant, dite_eq_ite, if_false] at hx ⊢
    exact h.unagg x hx
  · intro c
    rw [hQ]
    exact h.nopoint c
  · intro hw x hx
    by_cases hxp : x = p
    · subst hxp
      exact hr hw
    · rw [hA] at hx
      simp only [Function.update, hxp, eq_rec_constant, dite_eq_ite, if_false] at hx
      exact h.range hw x hx
  · intro hw c hc h2
    rw [hI] at hc
    have hne : c ≠ st.Index_CoarseCV := by omega
    rw [hN] at h2 ⊢
    obtain ⟨s, hs⟩ := h.mark hw c hc h2
    refine ⟨s, ?_⟩
    intro i hi m hm
    rw [hC] at hm
    simp only [Function.update, hne, eq_rec_constant, dite_eq_ite, if_false] at hm
    exact hs i hi m hm

/-- Taking a point whose physical markers are all `s` keeps the pending marker bound. -/
theorem Pend.take_marked {fg : FineGrid} {cfg : Config} {st st2 : MGState} {n s : Nat}
    (h : Pend fg cfg st n s) (p : Nat)
    (hm : WFM fg → ∀ m, carriesPhys fg cfg p m → m = s)
    (hC : st2.Children_CV = Function.update st.Children_CV st.Index_CoarseCV
      (Function.update (st.Children_CV st.Index_CoarseCV) n p))
    (hI : st2.Index_CoarseCV = st.Index_CoarseCV) : Pend fg cfg st2 (n + 1) s := by
  intro hw i hi m hc
  rw [hI, hC] at hc
  by_cases hin : i = n
  · subst hin
    rw [Function.update_same, Function.update_same] at hc
    exact hm hw m hc
  · rw [Function.update_same, Function.update_noteq hin] at hc
    exact h hw i (by omega) m hc

/-- Storing the pending child count and moving on to the next coarse index keeps the invariant
of the passes, when the closed coarse point has one child or its children carry at most one
physical marker. -/
theorem PInv.store {fg : FineGrid} {cfg : Config} {st st2 : MGState} {n : Nat}
    (h : PInv fg cfg st n) (hpend : n ≤ 1 ∨ ∃ s, Pend fg cfg st n s)
    (hA : st2.fAgglomerate = st.fAgglomerate) (hP : st2.fParent_CV = st.fParent_CV)
    (hC : st2.Children_CV = st.Children_CV)
    (hN : st2.nChildren_CV = Function.update st.nChildren_CV st.Index_CoarseCV n)
    (hI : st2.Index_CoarseCV = st.Index_CoarseCV + 1)
    (hQ : st2.cPoint = st.cPoint) : PInv fg cfg st2 0 := by
  have hcnt : ∀ c, cnt st2 0 c = cnt st n c := by
    intro c
    simp only [cnt, hI, hN]
    by_cases h1 : c = st.Index_CoarseCV
    · subst h1
      simp
    · by_cases h2 : c = st.Index_CoarseCV + 1
      · subst h2
        simp [h.above (st.Index_CoarseCV + 1) (by omega)]
      · simp [h1, h2, Function.update]
  obtain ⟨⟨g1, g2, g3⟩, h2, h3, h4, h5, h6⟩ := h
  refine ⟨⟨?_, ?_, ?_⟩, ?_, ?_, ?_, ?_, ?_⟩
  · simpa only [hcnt, hA, hP, hC] using g1
  · simpa only [hcnt, hA, hP, hC] using g2
  · simpa only [hcnt, hA, hP, hC] using g3
  · intro c hc
    rw [hI] at hc
    rw [hN]
    have : c ≠ st.Index_CoarseCV := by omega
    simp only [Function.update, this, eq_rec_constant, dite_eq_ite, if_false]
    exact h2 c (by omega)
  · simpa only [hA, hP] using h3
  · simpa only [hQ] using h4
  · simpa only [hA] using h5
  · intro hw c hc hc2
    rw [hI] at hc
    rw [hN] at hc2 ⊢
    rw [hC]
    by_cases hk : c = st.Index_CoarseCV
    · subst hk
      simp only [Function.update_same] at hc2 ⊢
      rcases hpend with h1 | ⟨s, hs⟩
      · omega
      · exact ⟨s, fun i hi m hm => hs hw i hi m hm⟩
    · simp only [Function.update, hk, eq_rec_constant, dite_eq_ite, if_false] at hc2 ⊢
      exact h6 hw c (by omega) hc2

/-! ## The first boundary pass -/

/-- A point carrying a physical marker has that marker in `copy_marker`. -/
theorem carriesPhys_mem {fg : FineGrid} {cfg : Config} {p m : Nat}
    (h : carriesPhys fg cfg p m) : m ∈ copy_marker fg p :=
  (mem_copy_marker fg p m).mpr ⟨h.1, h.2.1⟩

/-- A candidate accepted by `SetBoundAgglomeration` is unagglomerated. -/
theorem SetBoundAgglomeration_unagg {fg : FineGrid} {cfg : Config} {st : MGState}
    {p seed : Nat} (h : SetBoundAgglomeration fg cfg st p seed = true) :
    st.fAgglomerate p = false := by
  unfold SetBoundAgglomeration at h
  cases hA : st.fAgglomerate p with
  | false => rfl
  | true => simp [hA] at h

/-- On a grid with consistent marker bookkeeping, every physical marker carried by a candidate
accepted by `SetBoundAgglomeration` is the seed marker. -/
theorem SetBoundAgglomeration_phys {fg : FineGrid} {cfg : Config} {st : MGState}
    {p seed : Nat} (h : SetBoundAgglomeration fg cfg st p seed = true) (hw : WFM fg)
    (m : Nat) (hm : carriesPhys fg cfg p m) :
    m = seed ∧ cfg.Marker_All_KindBC seed ≠ cfg.SEND_RECEIVE := by
  have hb : fg.Boundary p = true := hw.flagged m p hm.1 hm.2.1
  have hmem := carriesPhys_mem hm
  have hk := hm.2.2
  unfold SetBoundAgglomeration at h
  rcases hcm : copy_marker fg p with _ | ⟨x, _ | ⟨y, _ | ⟨z, t⟩⟩⟩
  · rw [hcm] at hmem
    simp at hmem
  · rw [hcm] at hmem
    simp only [List.mem_singleton] at hmem
    subst hmem
    simp only [hb, hcm, List.length_singleton, List.getD_cons_zero, true_and,
      OfNat.one_ne_ofNat, false_and, if_false, if_true] at h
    by_cases h1 : m = seed
    · exact ⟨h1, h1 ▸ hk⟩
    · simp [h1, hk] at h
  · rw [hcm] at hmem
    simp only [List.mem_cons, List.mem_singleton, List.not_mem_nil, or_false] at hmem
    simp only [hb, hcm, List.length_cons, List.length_nil, List.getD_cons_zero,
      List.getD_cons_succ] at h
    by_cases hs : cfg.Marker_All_KindBC seed = cfg.SEND_RECEIVE
    · simp [hs] at h
    · refine ⟨?_, hs⟩
      rcases hmem with rfl | rfl
      · by_cases h1 : m = seed
        · exact h1
        · simp [h1, hk, hs] at h
      · by_cases h1 : m = seed
        · exact h1
        · simp [h1, hk, hs] at h
  · simp [hb, hcm] at h

/-- A seed that may take further points carries at most one physical marker; when the seed
marker is physical, it is that marker. -/
theorem agglomerate_seed_phys {fg : FineGrid} {cfg : Config} {iPoint iMarker : Nat}
    (h : agglomerate_seed fg cfg iPoint = true) (hmem : iMarker ∈ copy_marker fg iPoint) :
    ∃ s, (∀ m, carriesPhys fg cfg iPoint m → m = s) ∧
      (cfg.Marker_All_KindBC iMarker ≠ cfg.SEND_RECEIVE → s = iMarker) := by
  unfold agglomerate_seed at h
  rcases hcm : copy_marker fg iPoint with _ | ⟨x, _ | ⟨y, _ | ⟨z, t⟩⟩⟩
  · rw [hcm] at hmem
    simp at hmem
  · rw [hcm] at hmem
    simp only [List.mem_singleton] at hmem
    subst hmem
    refine ⟨iMarker, ?_, fun _ => rfl⟩
    intro m hm
    have := carriesPhys_mem hm
    rw [hcm] at this
    simpa using this
  · rw [hcm] at hmem
    simp only [List.mem_cons, List.mem_singleton, List.not_mem_nil, or_false] at hmem
    simp only [hcm, List.length_cons, List.length_nil, List.getD_cons_zero,
      List.getD_cons_succ] at h
    have hxy : cfg.Marker_All_KindBC x = cfg.SEND_RECEIVE ∨
        cfg.Marker_All_KindBC y = cfg.SEND_RECEIVE := by
      by_contra hne
      simp [hne] at h
    have hmem2 : ∀ m, carriesPhys fg cfg iPoint m → m = x ∨ m = y := by
      intro m hm
      have := carriesPhys_mem hm
      rw [hcm] at this
      simpa using this
    by_cases hx : cfg.Marker_All_KindBC x = cfg.SEND_RECEIVE
    · refine ⟨y, ?_, ?_⟩
      · intro m hm
        rcases hmem2 m hm with rfl | rfl
        · exact absurd hx hm.2.2
        · rfl
      · intro hk
        rcases hmem with rfl | rfl
        · exact absurd hx hk
        · rfl
    · have hy : cfg.Marker_All_KindBC y = cfg.SEND_RECEIVE := hxy.resolve_left hx
      refine ⟨x, ?_, ?_⟩
      · intro m hm
        rcases hmem2 m hm with rfl | rfl
        · rfl
        · exact absurd hy hm.2.2
      · intro hk
        rcases hmem with rfl | rfl
        · rfl
        · exact absurd hy hk
  · simp [hcm] at h

theorem Grew.refl (st : MGState) : Grew st st := fun _ h => h

theorem Grew.trans {a b c : MGState} (h1 : Grew a b) (h2 : Grew b c) : Grew a c :=
  fun p h => h2 p (h1 p h)

/-- Marking one more point agglomerated keeps the others agglomerated. -/
theorem Grew.update {st st2 : MGState} (p : Nat)
    (hA : st2.fAgglomerate = Function.update st.fAgglomerate p true) : Grew st st2 := by
  intro x hx
  rw [hA]
  by_cases hxp : x = p
  · subst hxp
    simp
  · simp [Function.update, hxp, hx]

/-- Taking one more point into the coarse point being filled. -/
theorem Filling.absorb {fg : FineGrid} {cfg : Config} {st0 st2 : MGState} {s : Nat}
    {acc : MGState × Nat} (h : Filling fg cfg st0 s acc) (p : Nat)
    (hp : acc.1.fAgglomerate p = false) (hr : WFR fg → p < fg.nPoint)
    (hm : WFM fg → ∀ m, carriesPhys fg cfg p m → m = s)
    (hA : st2.fAgglomerate = Function.update acc.1.fAgglomerate p true)
    (hP : st2.fParent_CV = Function.update acc.1.fParent_CV p acc.1.Index_CoarseCV)
    (hC : st2.Children_CV = Function.update acc.1.Children_CV acc.1.Index_CoarseCV
      (Function.update (acc.1.Children_CV acc.1.Index_CoarseCV) acc.2 p))
    (hN : st2.nChildren_CV = acc.1.nChildren_CV)
    (hI : st2.Index_CoarseCV = acc.1.Index_CoarseCV)
    (hQ : st2.cPoint = acc.1.cPoint) : Filling fg cfg st0 s (st2, acc.2 + 1) := by
  obtain ⟨h1, h2, h3, h4⟩ := h
  exact ⟨h1.take p hp hr hA hP hC hN hI hQ, h2.take_marked p hm hC hI, hI.trans h3,
    h4.trans (Grew.update p hA)⟩

/-- One direct neighbour of a boundary seed keeps the coarse point being filled in order. -/
theorem boundDirectStep_inv {fg : FineGrid} {cfg : Config} {st0 : MGState} {s seed : Nat}
    (hs : WFM fg → cfg.Marker_All_KindBC seed ≠ cfg.SEND_RECEIVE → s = seed)
    (acc : MGState × Nat) (x : Nat) (hx : WFR fg → x < fg.nPoint)
    (h : Filling fg cfg st0 s acc) :
    Filling fg cfg st0 s (boundDirectStep fg cfg seed acc x) := by
  unfold boundDirectStep
  split
  · rename_i hacc
    refine h.absorb x (SetBoundAgglomeration_unagg hacc) hx ?_ rfl rfl rfl rfl rfl rfl
    intro hw m hm
    obtain ⟨e1, e2⟩ := SetBoundAgglomeration_phys hacc hw m hm
    rw [e1, hs hw e2]
  · exact h

/-- One indirect neighbour of a boundary seed keeps the coarse point being filled in order. -/
theorem boundIndirectStep_inv {fg : FineGrid} {cfg : Config} {st0 : MGState} {s seed : Nat}
    (hs : WFM fg → cfg.Marker_All_KindBC seed ≠ cfg.SEND_RECEIVE → s = seed)
    (acc : MGState × Nat) (x : Nat) (hx : WFR fg → x < fg.nPoint)
    (h : Filling fg cfg st0 s acc) :
    Filling fg cfg st0 s (boundIndirectStep fg cfg seed acc x) := by
  unfold boundIndirectStep
  split
  · rename_i hacc
    have hm : WFM fg → ∀ m, carriesPhys fg cfg x m → m = s := by
      intro hw m hm
      obtain ⟨e1, e2⟩ := SetBoundAgglomeration_phys hacc hw m hm
      rw [e1, hs hw e2]
    by_cases hi : (acc.1.SetParent_CV x acc.1.Index_CoarseCV).fIndirect x = true
    · simp only [hi, if_true]
      exact h.absorb x (SetBoundAgglomeration_unagg hacc) hx hm rfl rfl rfl rfl rfl rfl
    · simp only [hi, if_false]
      exact h.absorb x (SetBoundAgglomeration_unagg hacc) hx hm rfl rfl rfl rfl rfl rfl
  · exact h

/-- Opening a coarse point with an unagglomerated seed. -/
theorem Filling.seed {fg : FineGrid} {cfg : Config} {st : MGState} (h : PInv fg cfg st 0)
    (p s : Nat) (hp : st.fAgglomerate p = false) (hr : WFR fg → p < fg.nPoint)
    (hm : WFM fg → ∀ m, carriesPhys fg cfg p m → m = s) :
    Filling fg cfg st s
      ((st.SetParent_CV p st.Index_CoarseCV).SetChildren_CV st.Index_CoarseCV 0 p, 1) := by
  have h0 : Filling fg cfg st s (st, 0) :=
    ⟨h, fun _ i hi => absurd hi (Nat.not_lt_zero i), rfl, Grew.refl st⟩
  exact h0.absorb p hp hr hm rfl rfl rfl rfl rfl rfl

/-- Closing the coarse point being filled. -/
theorem Filling.close {fg : FineGrid} {cfg : Config} {st0 : MGState} {s : Nat}
    {acc : MGState × Nat} (h : Filling fg cfg st0 s acc) :
    PInv fg cfg { (acc.1.SetnChildren_CV acc.1.Index_CoarseCV acc.2) with
      Index_CoarseCV := (acc.1.SetnChildren_CV acc.1.Index_CoarseCV acc.2).Index_CoarseCV + 1 } 0 ∧
    Grew st0 { (acc.1.SetnChildren_CV acc.1.Index_CoarseCV acc.2) with
      Index_CoarseCV := (acc.1.SetnChildren_CV acc.1.Index_CoarseCV acc.2).Index_CoarseCV + 1 } :=
  ⟨h.1.store (Or.inr ⟨s, h.2.1⟩) rfl rfl rfl rfl rfl rfl, h.2.2.2⟩

/-- The body of the first boundary pass keeps the invariant of the passes and loses no
agglomerated point. -/
theorem boundSeed_inv {fg : FineGrid} {cfg : Config} {st : MGState} {iMarker iPoint : Nat}
    (hM : iMarker < fg.nMarker) (hv : iPoint ∈ fg.vertex iMarker) (h : PInv fg cfg st 0) :
    PInv fg cfg (boundSeed fg cfg iMarker st iPoint) 0 ∧
      Grew st (boundSeed fg cfg iMarker st iPoint) := by
  unfold boundSeed
  split
  · rename_i hcond
    have hp : st.fAgglomerate iPoint = false := by
      cases hA : st.fAgglomerate iPoint with
      | false => rfl
      | true => simp [hA] at hcond
    have hr : WFR fg → iPoint < fg.nPoint := fun hw => hw.vert iMarker iPoint hM hv
    by_cases hseed : agglomerate_seed fg cfg iPoint = true
    · simp only [hseed, if_true]
      have hex : ∃ s, (WFM fg → ∀ m, carriesPhys fg cfg iPoint m → m = s) ∧
          (WFM fg → cfg.Marker_All_KindBC iMarker ≠ cfg.SEND_RECEIVE → s = iMarker) := by
        by_cases hw : WFM fg
        · have hmem : iMarker ∈ copy_marker fg iPoint :=
            (mem_copy_marker fg iPoint iMarker).mpr ⟨hM, hw.listed iMarker iPoint hM hv⟩
          obtain ⟨s, s1, s2⟩ := agglomerate_seed_phys hseed hmem
          exact ⟨s, fun _ => s1, fun _ => s2⟩
        · exact ⟨0, fun hw2 => absurd hw2 hw, fun hw2 => absurd hw2 hw⟩
      obtain ⟨s, s1, s2⟩ := hex
      have h1 := Filling.seed h iPoint s hp hr s1
      have h2 : Filling fg cfg st s ((fg.Point iPoint).foldl (boundDirectStep fg cfg iMarker)
          ((st.SetParent_CV iPoint st.Index_CoarseCV).SetChildren_CV st.Index_CoarseCV 0 iPoint,
            1)) := by
        apply foldl_inv (Filling fg cfg st s) _ _ _ h1
        intro acc x hx hacc
        exact boundDirectStep_inv s2 acc x (fun hw => hw.adj iPoint x hx) hacc
      have h3 : ∀ l : List Nat, (∀ x, x ∈ l → ∃ q, x ∈ fg.Point q) →
          Filling fg cfg st s (l.foldl (boundIndirectStep fg cfg iMarker)
            ((fg.Point iPoint).foldl (boundDirectStep fg cfg iMarker)
              ((st.SetParent_CV iPoint st.Index_CoarseCV).SetChildren_CV
                st.Index_CoarseCV 0 iPoint, 1))) := by
        intro l hl
        apply foldl_inv (Filling fg cfg st s) _ _ _ h2
        intro acc x hx hacc
        obtain ⟨q, hq⟩ := hl x hx
        exact boundIndirectStep_inv s2 acc x (fun hw => hw.adj q x hq) hacc
      split
      · exact (h3 _ (fun x hx => mem_SetSuitableNeighbors fg iPoint x hx)).close
      · exact (h3 [] (fun x hx => absurd hx (List.not_mem_nil x))).close
    · simp only [hseed]
      have h1 : PInv fg cfg ((st.SetParent_CV iPoint st.Index_CoarseCV).SetChildren_CV
          st.Index_CoarseCV 0 iPoint) (0 + 1) := h.take iPoint hp hr rfl rfl rfl rfl rfl rfl
      exact ⟨h1.store (Or.inl (le_refl 1)) rfl rfl rfl rfl rfl rfl, Grew.update iPoint rfl⟩
  · exact ⟨h, Grew.refl st⟩

/-- In a left fold, a property that every step establishes for its own element and that later
steps keep holds for all elements at the end. -/
theorem foldl_post {α β : Type} (P : β → Prop) (Q : α → β → Prop) (f : β → α → β)
    (l : List α) (b : β) (hb : P b)
    (hstep : ∀ b a, a ∈ l → P b → P (f b a) ∧ Q a (f b a))
    (hstable : ∀ b a a2, a2 ∈ l → P b → Q a b → Q a (f b a2)) :
    P (l.foldl f b) ∧ ∀ a, a ∈ l → Q a (l.foldl f b) := by
  induction l generalizing b with
  | nil => exact ⟨hb, fun a ha => absurd ha (List.not_mem_nil a)⟩
  | cons x l ih =>
    simp only [List.foldl_cons]
    obtain ⟨p1, q1⟩ := hstep b x (List.mem_cons_self x l) hb
    obtain ⟨i1, i2⟩ := ih (f b x) p1
      (fun b2 a ha hb2 => hstep b2 a (List.mem_cons_of_mem x ha) hb2)
      (fun b2 a a2 ha2 hb2 hq => hstable b2 a a2 (List.mem_cons_of_mem x ha2) hb2 hq)
    refine ⟨i1, ?_⟩
    intro a ha
    rcases List.mem_cons.mp ha with rfl | hal
    · have stab : ∀ (l2 : List α) (b2 : β), (∀ y, y ∈ l2 → y ∈ l) → P b2 → Q a b2 →
          Q a (l2.foldl f b2) := by
        intro l2
        induction l2 with
        | nil => intro b2 _ _ hq; exact hq
        | cons y l2 ih2 =>
          intro b2 hsub hp hq
          simp only [List.foldl_cons]
          have hy : y ∈ l := hsub y (List.mem_cons_self y l2)
          exact ih2 (f b2 y) (fun z hz => hsub z (List.mem_cons_of_mem y hz))
            (hstep b2 y (List.mem_cons_of_mem a hy) hp).1
            (hstable b2 a y (List.mem_cons_of_mem a hy) hp hq)
      exact stab l (f b a) (fun y hy => hy) p1 q1
    · exact i2 a hal

/-- A fold over every marker and every vertex of it keeps a property that each body step
keeps. -/
theorem markerFold_inv (fg : FineGrid) (P : MGState → Prop) (f : Nat → MGState → Nat → MGState)
    (st : MGState) (h : P st)
    (hf : ∀ s iMarker iPoint, iMarker < fg.nMarker → iPoint ∈ fg.vertex iMarker → P s →
      P (f iMarker s iPoint)) :
    P ((List.range fg.nMarker).foldl (fun s iMarker => (fg.vertex iMarker).foldl (f iMarker) s)
      st) := by
  apply foldl_inv P _ _ _ h
  intro s iMarker hi hs
  apply foldl_inv P _ _ _ hs
  intro s2 iPoint hp hs2
  exact hf s2 iMarker iPoint (List.mem_range.mp hi) hp hs2

/-- The first boundary pass keeps the invariant of the passes and loses no agglomerated
point. -/
theorem BoundarySeeding_inv {fg : FineGrid} {cfg : Config} {st : MGState}
    (h : PInv fg cfg st 0) :
    PInv fg cfg (BoundarySeeding fg cfg st) 0 ∧ Grew st (BoundarySeeding fg cfg st) := by
  unfold BoundarySeeding
  apply markerFold_inv fg (fun s => PInv fg cfg s 0 ∧ Grew st s) (boundSeed fg cfg) st
    ⟨h, Grew.refl st⟩
  intro s iMarker iPoint hM hv hs
  obtain ⟨h1, h2⟩ := boundSeed_inv hM hv hs.1
  exact ⟨h1, hs.2.trans h2⟩

/-! ## The second boundary pass -/

/-- What `singletonSeed` does when the point is taken as a seed. -/
theorem singletonSeed_inv {fg : FineGrid} {cfg : Config} {st : MGState} {iPoint : Nat}
    (hr : WFR fg → iPoint < fg.nPoint) (h : PInv fg cfg st 0) :
    PInv fg cfg (singletonSeed fg st iPoint) 0 ∧ Grew st (singletonSeed fg st iPoint) ∧
      (fg.Domain iPoint = true → (singletonSeed fg st iPoint).fAgglomerate iPoint = true) := by
  unfold singletonSeed
  split
  · rename_i hcond
    have hp : st.fAgglomerate iPoint = false := by
      cases hA : st.fAgglomerate iPoint with
      | false => rfl
      | true => simp [hA] at hcond
    have h1 : PInv fg cfg ((st.SetParent_CV iPoint st.Index_CoarseCV).SetChildren_CV
        st.Index_CoarseCV 0 iPoint) (0 + 1) := h.take iPoint hp hr rfl rfl rfl rfl rfl rfl
    refine ⟨h1.store (Or.inl (le_refl 1)) rfl rfl rfl rfl rfl rfl, Grew.update iPoint rfl, ?_⟩
    intro _
    simp [MGState.SetParent_CV, MGState.SetChildren_CV, MGState.SetnChildren_CV]
  · rename_i hcond
    refine ⟨h, Grew.refl st, ?_⟩
    intro hd
    cases hA : st.fAgglomerate iPoint with
    | false => simp [hA, hd] at hcond
    | true => rfl

/-- The second boundary pass keeps the invariant of the passes, loses no agglomerated point,
and leaves no domain-owned node of a marker vertex unagglomerated. -/
theorem BoundarySingletons_inv {fg : FineGrid} {cfg : Config} {st : MGState}
    (h : PInv fg cfg st 0) :
    PInv fg cfg (BoundarySingletons fg st) 0 ∧ Grew st (BoundarySingletons fg st) ∧
    (∀ m p, m < fg.nMarker → p ∈ fg.vertex m → fg.Domain p = true →
      (BoundarySingletons fg st).fAgglomerate p = true) := by
  unfold BoundarySingletons
  have key := foldl_post (fun s => PInv fg cfg s 0 ∧ Grew st s)
    (fun m s => ∀ p, p ∈ fg.vertex m → fg.Domain p = true → s.fAgglomerate p = true)
    (fun s iMarker => (fg.vertex iMarker).foldl (singletonSeed fg) s)
    (List.range fg.nMarker) st ⟨h, Grew.refl st⟩ ?_ ?_
  · refine ⟨key.1.1, key.1.2, ?_⟩
    intro m p hm hp hd
    exact key.2 m (List.mem_range.mpr hm) p hp hd
  · intro s m hm hs
    have hM := List.mem_range.mp hm
    have key2 := foldl_post (fun s2 => PInv fg cfg s2 0 ∧ Grew st s2)
      (fun p s2 => fg.Domain p = true → s2.fAgglomerate p = true)
      (singletonSeed fg) (fg.vertex m) s hs ?_ ?_
    · exact ⟨key2.1, fun p hp hd => key2.2 p hp hd⟩
    · intro s2 p hp hs2
      obtain ⟨a1, a2, a3⟩ := singletonSeed_inv (fun hw => hw.vert m p hM hp) hs2.1
      exact ⟨⟨a1, hs2.2.trans a2⟩, a3⟩
    · intro s2 p p2 hp2 hs2 hq hd
      obtain ⟨_, a2, _⟩ := singletonSeed_inv (fun hw => hw.vert m p2 hM hp2) hs2.1
      exact a2 p (hq hd)
  · intro s m m2 hm2 hs hq p hp hd
    have hM := List.mem_range.mp hm2
    have hg : Grew s ((fg.vertex m2).foldl (singletonSeed fg) s) := by
      have key3 := foldl_inv (fun s2 => PInv fg cfg s2 0 ∧ Grew s s2) (singletonSeed fg)
        (fg.vertex m2) s ⟨hs.1, Grew.refl s⟩ ?_
      · exact key3.2
      · intro s2 p2 hp2 hs2
        obtain ⟨a1, a2, _⟩ := singletonSeed_inv (fun hw => hw.vert m2 p2 hM hp2) hs2.1
        exact ⟨a1, hs2.2.trans a2⟩
    exact hg p (hq p hp hd)

/-! ## The interior pass -/

theorem QR.init (fg : FineGrid) : QR fg (MGQueue.init fg.nPoint) := by
  intro e he
  simp only [MGQueue.init, List.mem_map, List.mem_range] at he
  obtain ⟨i, hi, rfl⟩ := he
  exact hi

theorem QR.RemoveCV {fg : FineGrid} {q : MGQueue} (h : QR fg q) (id : Nat) :
    QR fg (q.RemoveCV id) := by
  intro e he
  simp only [MGQueue.RemoveCV, List.mem_filter] at he
  exact h e he.1

/-- A point with a priority is held by the queue. -/
theorem MGQueue.mem_of_priority {q : MGQueue} {id : Nat} {pr : Int}
    (h : q.priority id = some pr) : ∃ e, e ∈ q.entries ∧ e.1 = id := by
  unfold MGQueue.priority at h
  cases hf : q.entries.find? (fun e => e.1 == id) with
  | none => rw [hf] at h; simp at h
  | some e =>
    refine ⟨e, List.mem_of_find?_eq_some hf, ?_⟩
    have := List.find?_some hf
    simpa using this

theorem QR.MoveCV {fg : FineGrid} {q : MGQueue} (h : QR fg q) (id : Nat) (pr : Int) :
    QR fg (q.MoveCV id pr) := by
  unfold MGQueue.MoveCV
  cases hp : q.priority id with
  | none => exact h
  | some v =>
    obtain ⟨e0, he0, rfl⟩ := MGQueue.mem_of_priority hp
    intro e he
    simp only [List.mem_append, List.mem_singleton] at he
    rcases he with h1 | rfl
    · exact h.RemoveCV _ e h1
    · exact h e0 he0

theorem QR.IncrPriorityCV {fg : FineGrid} {q : MGQueue} (h : QR fg q) (id : Nat) :
    QR fg (q.IncrPriorityCV id) := by
  unfold MGQueue.IncrPriorityCV
  cases hp : q.priority id with
  | none => exact h
  | some v =>
    obtain ⟨e0, he0, rfl⟩ := MGQueue.mem_of_priority hp
    intro e he
    simp only [List.mem_append, List.mem_singleton] at he
    rcases he with h1 | rfl
    · exact h.RemoveCV _ e h1
    · exact h e0 he0

theorem QR.Update {fg : FineGrid} {q : MGQueue} (h : QR fg q) (id : Nat) :
    QR fg (q.Update id fg) := by
  unfold MGQueue.Update
  apply foldl_inv (QR fg) _ _ _ (h.RemoveCV id)
  intro q2 j _ hq2
  exact hq2.IncrPriorityCV j

theorem QR.seeded {fg : FineGrid} {q : MGQueue} (h : QR fg q) (st : MGState) :
    QR fg (seedQueue fg st q) := by
  unfold seedQueue
  apply foldl_inv (QR fg) _ _ _ h
  intro q2 i _ hq2
  split
  · exact hq2.RemoveCV i
  · exact hq2.MoveCV i _

/-- The point returned by `NextCV` on a queue that is not empty is held by the queue. -/
theorem MGQueue.NextCV_mem {q : MGQueue} (h : q.EmptyQueue = false) :
    ∃ e, e ∈ q.entries ∧ e.1 = q.NextCV := by
  unfold MGQueue.NextCV
  unfold MGQueue.EmptyQueue at h
  cases hq : q.entries with
  | nil => rw [hq] at h; simp at h
  | cons e t =>
    simp only
    have key : ∀ (l : List (Nat × Int)) (b : Nat × Int), b ∈ e :: t → (∀ x, x ∈ l → x ∈ e :: t) →
        l.foldl (fun best x => if best.2 < x.2 then x else best) b ∈ e :: t := by
      intro l
      induction l with
      | nil => intro b hb _; exact hb
      | cons y l ih =>
        intro b hb hsub
        simp only [List.foldl_cons]
        apply ih
        · split
          · exact hsub y (List.mem_cons_self y l)
          · exact hb
        · intro x hx
          exact hsub x (List.mem_cons_of_mem y hx)
    exact ⟨_, key t e (List.mem_cons_self e t) (fun x hx => List.mem_cons_of_mem e hx), rfl⟩

/-- The marker-free property of unagglomerated points survives further agglomeration. -/
theorem NoMark.grew {fg : FineGrid} {st st2 : MGState} (h : NoMark fg st) (hg : Grew st st2) :
    NoMark fg st2 := by
  intro hw p hp hd m hm
  apply h hw p _ hd m hm
  cases hA : st.fAgglomerate p with
  | false => rfl
  | true => rw [hg p hA] at hp; exact Bool.noConfusion hp

/-- A point without marker carries no physical marker. -/
theorem NoMark.phys {fg : FineGrid} {st : MGState} (h : NoMark fg st) (cfg : Config) {p : Nat}
    (hp : st.fAgglomerate p = false) (hd : fg.Domain p = true) (s : Nat) :
    WFM fg → ∀ m, carriesPhys fg cfg p m → m = s := by
  intro hw m hm
  exact absurd (h hw p hp hd m hm.1) hm.2.1

/-- One direct neighbour of an interior seed. -/
theorem interiorDirectStep_inv {fg : FineGrid} {cfg : Config} {st0 : MGState}
    (hn : NoMark fg st0) (acc : MGState × MGQueue × Nat) (x : Nat)
    (hx : WFR fg → x < fg.nPoint)
    (h : Filling fg cfg st0 0 (acc.1, acc.2.2) ∧ QR fg acc.2.1) :
    Filling fg cfg st0 0 ((interiorDirectStep fg acc x).1, (interiorDirectStep fg acc x).2.2) ∧
      QR fg (interiorDirectStep fg acc x).2.1 := by
  unfold interiorDirectStep
  split
  · rename_i hcond
    simp only [Bool.and_eq_true, beq_iff_eq] at hcond
    have hm := (hn.grew h.1.2.2.2).phys cfg hcond.1.1 hcond.1.2 0
    exact ⟨@Filling.absorb fg cfg st0 _ 0 (acc.1, acc.2.2) h.1 x hcond.1.1 hx hm rfl rfl rfl rfl rfl rfl,
      h.2.Update x⟩
  · exact h

/-- One indirect neighbour of an interior seed. -/
theorem interiorIndirectStep_inv {fg : FineGrid} {cfg : Config} {st0 : MGState}
    (hn : NoMark fg st0) (acc : MGState × MGQueue × Nat) (x : Nat)
    (hx : WFR fg → x < fg.nPoint)
    (h : Filling fg cfg st0 0 (acc.1, acc.2.2) ∧ QR fg acc.2.1) :
    Filling fg cfg st0 0 ((interiorIndirectStep fg acc x).1,
        (interiorIndirectStep fg acc x).2.2) ∧
      QR fg (interiorIndirectStep fg acc x).2.1 := by
  unfold interiorIndirectStep
  split
  · rename_i hcond
    simp only [Bool.and_eq_true, beq_iff_eq] at hcond
    have hm := (hn.grew h.1.2.2.2).phys cfg hcond.1 hcond.2 0
    by_cases hi : (acc.1.SetParent_CV x acc.1.Index_CoarseCV).fIndirect x = true
    · simp only [hi, if_true]
      exact ⟨@Filling.absorb fg cfg st0 _ 0 (acc.1, acc.2.2) h.1 x hcond.1 hx hm rfl rfl rfl rfl rfl rfl,
        h.2.Update x⟩
    · simp only [hi, if_false]
      exact ⟨@Filling.absorb fg cfg st0 _ 0 (acc.1, acc.2.2) h.1 x hcond.1 hx hm rfl rfl rfl rfl rfl rfl,
        h.2.Update x⟩
  · exact h

/-- The body of the interior loop keeps the invariant of the passes, loses no agglomerated
point and keeps the queue within the fine grid. -/
theorem interiorBody_inv {fg : FineGrid} {cfg : Config} {sq : MGState × MGQueue}
    (hq : sq.2.EmptyQueue = false) (h : PInv fg cfg sq.1 0) (hn : NoMark fg sq.1)
    (hr : QR fg sq.2) :
    PInv fg cfg (interiorBody fg sq).1 0 ∧ Grew sq.1 (interiorBody fg sq).1 ∧
      QR fg (interiorBody fg sq).2 := by
  unfold interiorBody
  simp only
  split
  · rename_i hcond
    simp only [Bool.and_eq_true, beq_iff_eq] at hcond
    obtain ⟨e, he, hen⟩ := MGQueue.NextCV_mem hq
    have hlt : sq.2.NextCV < fg.nPoint := hen ▸ hr e he
    have h1 := Filling.seed h sq.2.NextCV 0 hcond.1.1 (fun _ => hlt)
      (hn.phys cfg hcond.1.1 hcond.1.2 0)
    have h2 := foldl_inv
      (fun acc : MGState × MGQueue × Nat =>
        Filling fg cfg sq.1 0 (acc.1, acc.2.2) ∧ QR fg acc.2.1)
      (interiorDirectStep fg) (fg.Point sq.2.NextCV)
      ((sq.1.SetParent_CV sq.2.NextCV sq.1.Index_CoarseCV).SetChildren_CV
          sq.1.Index_CoarseCV 0 sq.2.NextCV, sq.2.Update sq.2.NextCV fg, 1)
      ⟨h1, hr.Update _⟩
      (fun acc x hx hacc =>
        interiorDirectStep_inv hn acc x (fun hw => hw.adj _ x hx) hacc)
    have h3 : ∀ l : List Nat, (∀ x, x ∈ l → ∃ q, x ∈ fg.Point q) →
        (fun acc : MGState × MGQueue × Nat =>
          Filling fg cfg sq.1 0 (acc.1, acc.2.2) ∧ QR fg acc.2.1)
        (l.foldl (interiorIndirectStep fg) ((fg.Point sq.2.NextCV).foldl (interiorDirectStep fg)
          ((sq.1.SetParent_CV sq.2.NextCV sq.1.Index_CoarseCV).SetChildren_CV
            sq.1.Index_CoarseCV 0 sq.2.NextCV, sq.2.Update sq.2.NextCV fg, 1))) := by
      intro l hl
      refine foldl_inv (fun acc : MGState × MGQueue × Nat =>
        Filling fg cfg sq.1 0 (acc.1, acc.2.2) ∧ QR fg acc.2.1) (interiorIndirectStep fg) l _
        h2 ?_
      intro acc x hx hacc
      obtain ⟨q, hq2⟩ := hl x hx
      exact interiorIndirectStep_inv hn acc x (fun hw => hw.adj q x hq2) hacc
    split
    · have h4 := h3 _ (fun x hx => mem_SetSuitableNeighbors fg sq.2.NextCV x hx)
      exact ⟨(Filling.close h4.1).1, (Filling.close h4.1).2, h4.2⟩
    · have h4 := h3 [] (fun x hx => absurd hx (List.not_mem_nil x))
      exact ⟨(Filling.close h4.1).1, (Filling.close h4.1).2, h4.2⟩
  · exact ⟨h, Grew.refl _, hr.MoveCV _ _⟩

/-- The interior loop keeps the invariant of the passes, whatever the number of iterations. -/
theorem interiorLoop_inv {fg : FineGrid} {cfg : Config} (fuel : Nat) (sq : MGState × MGQueue)
    (h : PInv fg cfg sq.1 0) (hn : NoMark fg sq.1) (hr : QR fg sq.2) :
    PInv fg cfg (interiorLoop fg fuel sq).1 0 ∧ Grew sq.1 (interiorLoop fg fuel sq).1 := by
  induction fuel generalizing sq with
  | zero => exact ⟨h, Grew.refl _⟩
  | succ fuel ih =>
    unfold interiorLoop
    cases hq : sq.2.EmptyQueue with
    | true => exact ⟨h, Grew.refl _⟩
    | false =>
      simp only [Bool.false_eq_true, if_false]
      obtain ⟨a1, a2, a3⟩ := interiorBody_inv hq h hn hr
      obtain ⟨b1, b2⟩ := ih (interiorBody fg sq) a1 (hn.grew a2) a3
      exact ⟨b1, a2.trans b2⟩

/-- Interior seeding keeps the invariant of the passes and loses no agglomerated point. -/
theorem InteriorSeeding_inv {fg : FineGrid} {cfg : Config} {st : MGState}
    (h : PInv fg cfg st 0) (hn : NoMark fg st) :
    PInv fg cfg (InteriorSeeding fg st) 0 ∧ Grew st (InteriorSeeding fg st) := by
  unfold InteriorSeeding
  exact interiorLoop_inv fg.nPoint (st, seedQueue fg st (MGQueue.init fg.nPoint)) h hn
    ((QR.init fg).seeded st)

/-! ## The leftover sweep and the three passes together -/

/-- The body of the leftover sweep keeps the invariant of the passes. -/
theorem leftoverStep_inv {fg : FineGrid} {cfg : Config} {st : MGState} {iPoint : Nat}
    (hr : iPoint < fg.nPoint) (h : PInv fg cfg st 0) :
    PInv fg cfg (leftoverStep fg st iPoint) 0 ∧ Grew st (leftoverStep fg st iPoint) := by
  unfold leftoverStep
  split
  · rename_i hcond
    simp only [Bool.and_eq_true, beq_iff_eq] at hcond
    by_cases hi : (st.SetParent_CV iPoint st.Index_CoarseCV).fIndirect iPoint = true
    · simp only [hi, if_true]
      have h1 : PInv fg cfg (((st.SetParent_CV iPoint st.Index_CoarseCV).SetAgglomerate_Indirect
          (st.SetParent_CV iPoint st.Index_CoarseCV).Index_CoarseCV true).SetChildren_CV
          st.Index_CoarseCV 0 iPoint) (0 + 1) :=
        h.take iPoint hcond.1 (fun _ => hr) rfl rfl rfl rfl rfl rfl
      exact ⟨h1.store (Or.inl (le_refl 1)) rfl rfl rfl rfl rfl rfl, Grew.update iPoint rfl⟩
    · simp only [hi, if_false]
      have h1 : PInv fg cfg ((st.SetParent_CV iPoint st.Index_CoarseCV).SetChildren_CV
          st.Index_CoarseCV 0 iPoint) (0 + 1) :=
        h.take iPoint hcond.1 (fun _ => hr) rfl rfl rfl rfl rfl rfl
      exact ⟨h1.store (Or.inl (le_refl 1)) rfl rfl rfl rfl rfl rfl, Grew.update iPoint rfl⟩
  · exact ⟨h, Grew.refl st⟩

/-- The leftover sweep keeps the invariant of the passes. -/
theorem LeftoverSweep_inv {fg : FineGrid} {cfg : Config} {st : MGState}
    (h : PInv fg cfg st 0) :
    PInv fg cfg (LeftoverSweep fg st) 0 ∧ Grew st (LeftoverSweep fg st) := by
  unfold LeftoverSweep
  apply foldl_inv (fun s => PInv fg cfg s 0 ∧ Grew st s) _ _ _ ⟨h, Grew.refl st⟩
  intro s i hi hs
  obtain ⟨a1, a2⟩ := leftoverStep_inv (List.mem_range.mp hi) hs.1
  exact ⟨a1, hs.2.trans a2⟩

/-- The state built by lines 71-86 from a fresh fine grid satisfies the invariant of the
passes. -/
theorem initState_inv {fg : FineGrid} (cfg : Config) (iMesh : Nat) (hf : Fresh fg) :
    PInv fg cfg (initState fg cfg iMesh) 0 := by
  refine ⟨⟨?_, ?_, ?_⟩, ?_, ?_, ?_, ?_, ?_⟩
  · intro c i hi
    simp [cnt, initState] at hi
  · intro c i j hi
    simp [cnt, initState] at hi
  · intro p hp
    simp [initState, hf.agg p] at hp
  · intro c _
    rfl
  · intro p _
    exact hf.par p
  · intro c
    rfl
  · intro _ p hp
    simp [initState, hf.agg p] at hp
  · intro _ c hc
    simp [initState] at hc

/-- After the three passes on a fresh fine grid the invariant of the passes holds and every
domain-owned fine point is agglomerated. -/
theorem agglomerationPasses_inv {fg : FineGrid} (cfg : Config) (iMesh : Nat) (hf : Fresh fg) :
    PInv fg cfg (agglomerationPasses fg cfg iMesh) 0 ∧
    ∀ p, p < fg.nPoint → fg.Domain p = true →
      (agglomerationPasses fg cfg iMesh).fAgglomerate p = true := by
  unfold agglomerationPasses
  have h0 := initState_inv cfg iMesh hf
  obtain ⟨h1, _⟩ := BoundarySeeding_inv h0
  obtain ⟨h2, _, h2c⟩ := BoundarySingletons_inv h1
  have hn : NoMark fg (BoundarySingletons fg (BoundarySeeding fg cfg (initState fg cfg iMesh))) := by
    intro hw p hp hd m hm
    by_contra hv
    have := h2c m p hm (hw.carried m p hm hv) hd
    rw [hp] at this
    exact Bool.noConfusion this
  obtain ⟨h3, _⟩ := InteriorSeeding_inv h2 hn
  obtain ⟨h4, _⟩ := LeftoverSweep_inv h3
  exact ⟨h4, fun p hp hd => LeftoverSweep_agg fg _ p hp hd⟩

/-- When no coarse point is being filled, the invariant of the passes gives the invariant of the
repair. -/
theorem PInv.toRInv {fg : FineGrid} {cfg : Config} {st : MGState} (h : PInv fg cfg st 0) :
    RInv fg st := by
  refine ⟨?_, h.above, h.unagg, ?_, h.range⟩
  · apply h.ginv.congr
    intro c i
    simp only [cnt]
    by_cases hc : c = st.Index_CoarseCV
    · subst hc
      simp [h.above st.Index_CoarseCV (le_refl _)]
    · simp [hc]
  · intro c T hT
    rw [h.nopoint c] at hT
    exact absurd hT (List.not_mem_nil T)

/-- The invariant of the repair only reads six fields of the state. -/
theorem RInv.carry {fg : FineGrid} {st st2 : MGState} (h : RInv fg st)
    (hA : st2.fAgglomerate = st.fAgglomerate) (hP : st2.fParent_CV = st.fParent_CV)
    (hC : st2.Children_CV = st.Children_CV) (hN : st2.nChildren_CV = st.nChildren_CV)
    (hI : st2.Index_CoarseCV = st.Index_CoarseCV) (hQ : st2.cPoint = st.cPoint) :
    RInv fg st2 := by
  obtain ⟨⟨g1, g2, g3⟩, h2, h3, h4, h5⟩ := h
  refine ⟨⟨?_, ?_, ?_⟩, ?_, ?_, ?_, ?_⟩
  · simpa only [hA, hP, hC, hN] using g1
  · simpa only [hC, hN] using g2
  · simpa only [hA, hP, hC, hN] using g3
  · simpa only [hN, hI] using h2
  · simpa only [hA, hP] using h3
  · simpa only [hQ, hI] using h4
  · simpa only [hA] using h5

/-- Every parent index is below the coarse index counter, once the counter is positive. -/
theorem RInv.parent_lt {fg : FineGrid} {st : MGState} (h : RInv fg st)
    (hK : 0 < st.Index_CoarseCV) (q : Nat) : st.fParent_CV q < st.Index_CoarseCV := by
  cases hA : st.fAgglomerate q with
  | false => rw [h.unagg q hA]; exact hK
  | true =>
    obtain ⟨i, hi, _⟩ := h.ginv.parent q hA
    by_contra hge
    have := h.above (st.fParent_CV q) (by omega)
    omega

/-- Recording a coarse neighbour that differs from the coarse point and is below the counter
keeps the invariant of the repair. -/
theorem RInv.SetPoint {fg : FineGrid} {st : MGState} (h : RInv fg st) (c T : Nat)
    (h1 : T ≠ c) (h2 : T < st.Index_CoarseCV) : RInv fg (st.SetPoint c T) := by
  unfold MGState.SetPoint
  split
  · exact h
  · obtain ⟨g, a, u, ad, r⟩ := h
    refine ⟨⟨g.child, g.inj, g.parent⟩, a, u, ?_, r⟩
    intro c2 T2 hT2
    simp only at hT2
    by_cases hc : c2 = c
    · subst hc
      simp only [Function.update_same, List.mem_append, List.mem_singleton] at hT2
      rcases hT2 with h3 | rfl
      · exact ad c2 T2 h3
      · exact ⟨h1, h2⟩
    · rw [Function.update_noteq hc] at hT2
      exact ad c2 T2 hT2

/-- What `SetPoint` leaves alone. -/
theorem SetPoint_frame (st : MGState) (c T : Nat) :
    (st.SetPoint c T).fAgglomerate = st.fAgglomerate ∧
    (st.SetPoint c T).fParent_CV = st.fParent_CV ∧
    (st.SetPoint c T).Children_CV = st.Children_CV ∧
    (st.SetPoint c T).nChildren_CV = st.nChildren_CV ∧
    (st.SetPoint c T).Index_CoarseCV = st.Index_CoarseCV ∧
    (st.SetPoint c T).nPointDomain = st.nPointDomain := by
  unfold MGState.SetPoint
  split <;> simp

/-- The projection of the fine adjacency keeps the invariant of the repair and writes nothing
but the coarse adjacency. -/
theorem projectAdjacency_inv {fg : FineGrid} {st : MGState} (n : Nat)
    (hn : n ≤ st.Index_CoarseCV) (h : RInv fg st) :
    RInv fg (projectAdjacency fg n st) ∧
    (projectAdjacency fg n st).fAgglomerate = st.fAgglomerate ∧
    (projectAdjacency fg n st).Index_CoarseCV = st.Index_CoarseCV ∧
    (projectAdjacency fg n st).nPointDomain = st.nPointDomain := by
  unfold projectAdjacency
  apply foldl_inv (fun s => RInv fg s ∧ s.fAgglomerate = st.fAgglomerate ∧
    s.Index_CoarseCV = st.Index_CoarseCV ∧ s.nPointDomain = st.nPointDomain) _ _ _
    ⟨h, rfl, rfl, rfl⟩
  intro s c hc hs
  have hcK : c < st.Index_CoarseCV := by
    have := List.mem_range.mp hc
    omega
  apply foldl_inv (fun s => RInv fg s ∧ s.fAgglomerate = st.fAgglomerate ∧
    s.Index_CoarseCV = st.Index_CoarseCV ∧ s.nPointDomain = st.nPointDomain) _ _ _ hs
  intro s2 i _ hs2
  apply foldl_inv (fun s => RInv fg s ∧ s.fAgglomerate = st.fAgglomerate ∧
    s.Index_CoarseCV = st.Index_CoarseCV ∧ s.nPointDomain = st.nPointDomain) _ _ _ hs2
  intro s3 q _ hs3
  simp only
  split
  · rename_i hne
    obtain ⟨f1, f2, f3, f4, f5, f6⟩ := SetPoint_frame s3 c (s3.fParent_CV q)
    refine ⟨hs3.1.SetPoint c _ hne ?_, f1.trans hs3.2.1, f5.trans hs3.2.2.1,
      f6.trans hs3.2.2.2⟩
    exact hs3.1.parent_lt (by rw [hs3.2.2.1]; omega) q
  · exact hs3

/-- A property indexed by the number of steps done holds at the end of a fold over `range n`. -/
theorem foldl_range_inv {β : Type} (P : Nat → β → Prop) (f : β → Nat → β) (n : Nat) (b : β)
    (h0 : P 0 b) (hstep : ∀ k b, k < n → P k b → P (k + 1) (f b k)) :
    P n ((List.range n).foldl f b) := by
  induction n with
  | zero => exact h0
  | succ n ih =>
    rw [List.range_succ, List.foldl_append]
    simp only [List.foldl_cons, List.foldl_nil]
    exact hstep n _ (Nat.lt_succ_self n)
      (ih (fun k b hk hb => hstep k b (Nat.lt_succ_of_lt hk) hb))

/-- Moving child `k` of `c` to the end of `T` keeps parent map and children lists in agreement
on the live slots of the merge. -/
theorem mergeChild_inv {st0 : MGState} {c T k : Nat} (hcT : T ≠ c)
    (hk : k < st0.nChildren_CV c) (acc : MGState × Nat)
    (h : GInv acc.1 (mergeLive st0 c T k) ∧ acc.2 = st0.nChildren_CV T + k ∧
      acc.1.nChildren_CV = st0.nChildren_CV ∧ acc.1.Index_CoarseCV = st0.Index_CoarseCV ∧
      acc.1.cPoint = st0.cPoint ∧ acc.1.nPointDomain = st0.nPointDomain ∧
      acc.1.fAgglomerate = st0.fAgglomerate ∧
      (∀ p, acc.1.fAgglomerate p = false → acc.1.fParent_CV p = 0)) :
    GInv (mergeChild c T acc k).1 (mergeLive st0 c T (k + 1)) ∧
      (mergeChild c T acc k).2 = st0.nChildren_CV T + (k + 1) ∧
      (mergeChild c T acc k).1.nChildren_CV = st0.nChildren_CV ∧
      (mergeChild c T acc k).1.Index_CoarseCV = st0.Index_CoarseCV ∧
      (mergeChild c T acc k).1.cPoint = st0.cPoint ∧
      (mergeChild c T acc k).1.nPointDomain = st0.nPointDomain ∧
      (mergeChild c T acc k).1.fAgglomerate = st0.fAgglomerate ∧
      (∀ p, (mergeChild c T acc k).1.fAgglomerate p = false →
        (mergeChild c T acc k).1.fParent_CV p = 0) := by
  obtain ⟨g, e2, eN, eI, eQ, eD, eA, eU⟩ := h
  have hlive : mergeLive st0 c T k c k := by
    simp only [mergeLive, if_true]
    exact ⟨le_refl k, hk⟩
  have hagg : acc.1.fAgglomerate (acc.1.Children_CV c k) = true := (g.child c k hlive).1
  have hfree : ¬ mergeLive st0 c T k T (st0.nChildren_CV T + k) := by
    simp [mergeLive, hcT]
  have g2 := @GInv.place acc.1 (mergeChild c T acc k).1 _ g (acc.1.Children_CV c k) T
    (st0.nChildren_CV T + k) hfree rfl rfl (by rw [← e2]; rfl)
  have hAeq : (mergeChild c T acc k).1.fAgglomerate = acc.1.fAgglomerate := by
    show Function.update acc.1.fAgglomerate (acc.1.Children_CV c k) true = acc.1.fAgglomerate
    rw [← hagg]
    exact Function.update_eq_self _ _
  refine ⟨?_, ?_, eN, eI, eQ, eD, hAeq.trans eA, ?_⟩
  · apply g2.congr
    intro c2 i
    constructor
    · intro hl
      by_cases h1 : c2 = c
      · subst h1
        simp only [mergeLive, if_true] at hl
        left
        have hl2 : mergeLive st0 c2 T k c2 i := by
          simp only [mergeLive, if_true]
          exact ⟨by omega, hl.2⟩
        refine ⟨hl2, ?_⟩
        intro he
        have := (g.slot_unique hl2 hlive he).2
        omega
      · by_cases h2 : c2 = T
        · subst h2
          simp only [mergeLive, h1, if_false, if_true] at hl
          by_cases h3 : i = st0.nChildren_CV c2 + k
          · exact Or.inr ⟨rfl, h3⟩
          · left
            have hl2 : mergeLive st0 c c2 k c2 i := by
              simp only [mergeLive, h1, if_false, if_true]
              omega
            refine ⟨hl2, ?_⟩
            intro he
            exact h1 (g.slot_unique hl2 hlive he).1
        · simp only [mergeLive, h1, h2, if_false] at hl
          left
          have hl2 : mergeLive st0 c T k c2 i := by
            simp only [mergeLive, h1, h2, if_false]
            exact hl
          refine ⟨hl2, ?_⟩
          intro he
          exact h1 (g.slot_unique hl2 hlive he).1
    · rintro (⟨hl, hne⟩ | ⟨rfl, rfl⟩)
      · by_cases h1 : c2 = c
        · subst h1
          simp only [mergeLive, if_true] at hl ⊢
          refine ⟨?_, hl.2⟩
          by_contra hlt
          have : i = k := by omega
          subst this
          exact hne rfl
        · by_cases h2 : c2 = T
          · subst h2
            simp only [mergeLive, h1, if_false, if_true] at hl ⊢
            omega
          · simp only [mergeLive, h1, h2, if_false] at hl ⊢
            exact hl
      · simp only [mergeLive, hcT, if_false, if_true]
        omega
  · show acc.2 + 1 = st0.nChildren_CV T + (k + 1)
    omega
  · intro p hp
    rw [hAeq] at hp
    have hne : p ≠ acc.1.Children_CV c k := by
      rintro rfl
      rw [hagg] at hp
      exact Bool.noConfusion hp
    show Function.update acc.1.fParent_CV (acc.1.Children_CV c k) T p = 0
    rw [Function.update_noteq hne]
    exact eU p hp

/-- The body of the merge loop keeps the invariant of the repair; it changes no agglomeration
flag and no counter. -/
theorem mergeIsolated_inv {fg : FineGrid} {st : MGState} (c : Nat) (h : RInv fg st) :
    RInv fg (mergeIsolated st c) ∧
    (mergeIsolated st c).fAgglomerate = st.fAgglomerate ∧
    (mergeIsolated st c).Index_CoarseCV = st.Index_CoarseCV ∧
    (mergeIsolated st c).nPointDomain = st.nPointDomain := by
  unfold mergeIsolated
  split
  · rename_i hlen
    have hmem : (st.cPoint c).getD 0 0 ∈ st.cPoint c := by
      rcases hc : st.cPoint c with _ | ⟨x, t⟩
      · rw [hc] at hlen
        simp at hlen
      · simp
    obtain ⟨hcT, hTK⟩ := h.adj c _ hmem
    generalize (st.cPoint c).getD 0 0 = T at hcT hTK
    dsimp only
    have h0 : GInv st (mergeLive st c T 0) := by
      apply h.ginv.congr
      intro c2 i
      by_cases h1 : c2 = c
      · subst h1
        simp [mergeLive]
      · by_cases h2 : c2 = T
        · subst h2
          simp [mergeLive, h1]
        · simp [mergeLive, h1, h2]
    have key := foldl_range_inv
      (fun k (acc : MGState × Nat) =>
        GInv acc.1 (mergeLive st c T k) ∧ acc.2 = st.nChildren_CV T + k ∧
        acc.1.nChildren_CV = st.nChildren_CV ∧ acc.1.Index_CoarseCV = st.Index_CoarseCV ∧
        acc.1.cPoint = st.cPoint ∧ acc.1.nPointDomain = st.nPointDomain ∧
        acc.1.fAgglomerate = st.fAgglomerate ∧
        (∀ p, acc.1.fAgglomerate p = false → acc.1.fParent_CV p = 0))
      (mergeChild c T) (st.nChildren_CV c) (st, st.nChildren_CV T)
      ⟨h0, rfl, rfl, rfl, rfl, rfl, rfl, h.unagg⟩
      (fun k acc hk hacc => mergeChild_inv hcT hk acc hacc)
    obtain ⟨g, e2, eN, eI, eQ, eD, eA, eU⟩ := key
    refine ⟨⟨?_, ?_, eU, ?_, ?_⟩, eA, eI, eD⟩
    · refine @GInv.congr ((((List.range (st.nChildren_CV c)).foldl (mergeChild c T)
        (st, st.nChildren_CV T)).1.SetnChildren_CV T ((List.range (st.nChildren_CV c)).foldl
        (mergeChild c T) (st, st.nChildren_CV T)).2).SetnChildren_CV c 0)
        (mergeLive st c T (st.nChildren_CV c)) _ ⟨g.child, g.inj, g.parent⟩ ?_
      intro c2 i
      simp only [MGState.SetnChildren_CV, eN, e2]
      by_cases h1 : c2 = c
      · subst h1
        simp [mergeLive]
      · by_cases h2 : c2 = T
        · subst h2
          simp [mergeLive, h1]
        · simp [mergeLive, h1, h2]
    · intro c2 hc2
      have hc2K : st.Index_CoarseCV ≤ c2 := by
        have : ((List.range (st.nChildren_CV c)).foldl (mergeChild c T)
          (st, st.nChildren_CV T)).1.Index_CoarseCV ≤ c2 := hc2
        rw [eI] at this
        exact this
      simp only [MGState.SetnChildren_CV, eN, e2]
      by_cases h1 : c2 = c
      · subst h1
        simp
      · have h2 : c2 ≠ T := by omega
        rw [Function.update_noteq h1, Function.update_noteq h2]
        exact h.above c2 hc2K
    · intro c2 T2 hT2
      have hT3 : T2 ∈ st.cPoint c2 := by
        have : T2 ∈ ((List.range (st.nChildren_CV c)).foldl (mergeChild c T)
          (st, st.nChildren_CV T)).1.cPoint c2 := hT2
        rw [eQ] at this
        exact this
      obtain ⟨a1, a2⟩ := h.adj c2 T2 hT3
      refine ⟨a1, ?_⟩
      show T2 < ((List.range (st.nChildren_CV c)).foldl (mergeChild c T)
          (st, st.nChildren_CV T)).1.Index_CoarseCV
      rw [eI]
      exact a2
    · intro hw p hp
      have : ((List.range (st.nChildren_CV c)).foldl (mergeChild c T)
          (st, st.nChildren_CV T)).1.fAgglomerate p = true := hp
      rw [eA] at this
      exact h.range hw p this
  · exact ⟨h, rfl, rfl, rfl⟩

/-- Clearing the coarse adjacency keeps the invariant of the repair. -/
theorem resetPoints_inv {fg : FineGrid} {st : MGState} (h : RInv fg st) :
    RInv fg (resetPoints st) := by
  obtain ⟨g, a, u, ad, r⟩ := h
  refine ⟨⟨g.child, g.inj, g.parent⟩, a, u, ?_, r⟩
  intro c T hT
  have hT2 : T ∈ (if c < st.nPointDomain then [] else st.cPoint c) := hT
  split at hT2
  · exact absurd hT2 (List.not_mem_nil T)
  · exact ad c T hT2

/-- The hanging-node repair turns the invariant of the passes into the invariant of the repair;
it changes no agglomeration flag, and it sets `nPointDomain` to the coarse index counter, which
it leaves alone. -/
theorem HangingNodeRepair_inv {fg : FineGrid} {cfg : Config} {st : MGState}
    (h : PInv fg cfg st 0) :
    RInv fg (HangingNodeRepair fg st) ∧
    (HangingNodeRepair fg st).fAgglomerate = st.fAgglomerate ∧
    (HangingNodeRepair fg st).Index_CoarseCV = st.Index_CoarseCV ∧
    (HangingNodeRepair fg st).nPointDomain = st.Index_CoarseCV := by
  unfold HangingNodeRepair
  simp only
  have h0 : RInv fg { st with nPointDomain := st.Index_CoarseCV } :=
    h.toRInv.carry rfl rfl rfl rfl rfl rfl
  obtain ⟨p1, p2, p3, p4⟩ := @projectAdjacency_inv fg
    { st with nPointDomain := st.Index_CoarseCV } st.Index_CoarseCV (le_refl _) h0
  have key := foldl_inv (fun s => RInv fg s ∧ s.fAgglomerate = st.fAgglomerate ∧
      s.Index_CoarseCV = st.Index_CoarseCV ∧ s.nPointDomain = st.Index_CoarseCV) mergeIsolated
    (List.range (projectAdjacency fg st.Index_CoarseCV
      { st with nPointDomain := st.Index_CoarseCV }).nPointDomain)
    (projectAdjacency fg st.Index_CoarseCV { st with nPointDomain := st.Index_CoarseCV })
    ⟨p1, p2, p3, p4⟩ ?_
  · obtain ⟨k1, k2, k3, k4⟩ := key
    exact ⟨resetPoints_inv k1, k2, k3, k4⟩
  · intro s c _ hs
    obtain ⟨m1, m2, m3, m4⟩ := mergeIsolated_inv c hs.1
    exact ⟨m1, m2.trans hs.2.1, m3.trans hs.2.2.1, m4.trans hs.2.2.2⟩

/-- After the repair on a fresh fine grid the invariant of the repair holds and every
domain-owned fine point is agglomerated. -/
theorem repaired_inv {fg : FineGrid} (cfg : Config) (iMesh : Nat) (hf : Fresh fg) :
    RInv fg (repaired fg cfg iMesh) ∧
    (∀ p, p < fg.nPoint → fg.Domain p = true → (repaired fg cfg iMesh).fAgglomerate p = true) ∧
    (repaired fg cfg iMesh).nPointDomain = (repaired fg cfg iMesh).Index_CoarseCV := by
  obtain ⟨h1, h2⟩ := agglomerationPasses_inv cfg iMesh hf
  obtain ⟨r1, r2, r3, r4⟩ := HangingNodeRepair_inv h1
  refine ⟨r1, ?_, r4.trans r3.symm⟩
  intro p hp hd
  show (HangingNodeRepair fg (agglomerationPasses fg cfg iMesh)).fAgglomerate p = true
  rw [r2]
  exact h2 p hp hd

/-! ## Partition reconciliation -/

/-- Without a SEND_RECEIVE marker the reconciliation only copies the coarse index counter into
`nPoint`. -/
theorem PartitionReconciliation_inactive (fg : FineGrid) (cfg : Config) (st : MGState)
    (hno : ∀ m, m < cfg.nMarker_All → cfg.Marker_All_KindBC m ≠ cfg.SEND_RECEIVE) :
    PartitionReconciliation fg cfg st = { st with nPoint := st.Index_CoarseCV } := by
  unfold PartitionReconciliation
  have key : (List.range cfg.nMarker_All).foldl (reconcileMarker fg cfg) st = st := by
    apply foldl_inv (fun s => s = st) _ _ _ rfl
    intro s m hm hs
    subst hs
    unfold reconcileMarker
    rw [if_neg]
    intro hc
    exact hno m (List.mem_range.mp hm) hc.1
  simp only [key]

/-- Placing one received vertex keeps the invariant of the reconciliation. -/
theorem finalStructureStep_inv {fg : FineGrid} {cfg : Config} {st0 : MGState}
    (acc : MGState × (Nat → Nat)) (pc : Nat × Nat)
    (h1 : st0.Index_CoarseCV ≤ pc.1) (h2 : onReceive fg cfg pc.2)
    (h : RecInv fg cfg st0 acc.1 ∧
      ∀ c, st0.Index_CoarseCV ≤ c → ∀ i, i < acc.2 c → onReceive fg cfg (acc.1.Children_CV c i)) :
    RecInv fg cfg st0 (finalStructureStep acc pc).1 ∧
      ∀ c, st0.Index_CoarseCV ≤ c → ∀ i, i < (finalStructureStep acc pc).2 c →
        onReceive fg cfg ((finalStructureStep acc pc).1.Children_CV c i) := by
  obtain ⟨⟨a1, a2, a3⟩, a4⟩ := h
  have hC : (finalStructureStep acc pc).1.Children_CV = Function.update acc.1.Children_CV pc.1
      (Function.update (acc.1.Children_CV pc.1) (acc.2 pc.1) pc.2) := rfl
  have hN : (finalStructureStep acc pc).1.nChildren_CV =
      Function.update acc.1.nChildren_CV pc.1 (acc.2 pc.1 + 1) := by
    show Function.update acc.1.nChildren_CV pc.1
      (Function.update acc.2 pc.1 (acc.2 pc.1 + 1) pc.1) = _
    rw [Function.update_same]
  have hM : (finalStructureStep acc pc).2 = Function.update acc.2 pc.1 (acc.2 pc.1 + 1) := rfl
  have hI : (finalStructureStep acc pc).1.Index_CoarseCV = acc.1.Index_CoarseCV := rfl
  have slot : ∀ i, i < acc.2 pc.1 + 1 →
      onReceive fg cfg (Function.update (acc.1.Children_CV pc.1) (acc.2 pc.1) pc.2 i) := by
    intro i hi
    by_cases hin : i = acc.2 pc.1
    · subst hin
      rw [Function.update_same]
      exact h2
    · rw [Function.update_noteq hin]
      exact a4 pc.1 h1 i (by omega)
  refine ⟨⟨by rw [hI]; exact a1, ?_, ?_⟩, ?_⟩
  · intro c hc
    have hne : c ≠ pc.1 := by omega
    rw [hN, hC, Function.update_noteq hne, Function.update_noteq hne]
    exact a2 c hc
  · intro c hc i hi
    rw [hN] at hi
    rw [hC]
    by_cases hcp : c = pc.1
    · subst hcp
      rw [Function.update_same] at hi ⊢
      exact slot i hi
    · rw [Function.update_noteq hcp] at hi ⊢
      exact a3 c hc i hi
  · intro c hc i hi
    rw [hM] at hi
    rw [hC]
    by_cases hcp : c = pc.1
    · subst hcp
      rw [Function.update_same] at hi ⊢
      exact slot i hi
    · rw [Function.update_noteq hcp] at hi ⊢
      exact a4 c hc i hi

/-- The body of the marker loop keeps the invariant of the reconciliation. -/
theorem reconcileMarker_inv {fg : FineGrid} {cfg : Config} {st0 s : MGState} (m : Nat)
    (hm : m < cfg.nMarker_All) (h : RecInv fg cfg st0 s) :
    RecInv fg cfg st0 (reconcileMarker fg cfg s m) := by
  unfold reconcileMarker
  split
  · rename_i hact
    unfold reconcileWith
    dsimp only
    have h0 : RecInv fg cfg st0 { s with Index_CoarseCV := s.Index_CoarseCV +
        (Aux_Parent (Buffer_Receive_Parent fg s m (m + 1))).length } :=
      ⟨Nat.le_trans h.1 (Nat.le_add_right _ _), h.2.1, h.2.2⟩
    have key := foldl_inv
      (fun acc : MGState × (Nat → Nat) => RecInv fg cfg st0 acc.1 ∧
        ∀ c, st0.Index_CoarseCV ≤ c → ∀ i, i < acc.2 c →
          onReceive fg cfg (acc.1.Children_CV c i))
      finalStructureStep
      ((List.range (fg.vertex (m + 1)).length).map (fun iVertex =>
        (Parent_Local (Aux_Parent (Buffer_Receive_Parent fg s m (m + 1))) s.Index_CoarseCV
          ((Buffer_Receive_Parent fg s m (m + 1)).getD iVertex 0),
         (fg.vertex (m + 1)).getD iVertex 0)))
      ({ s with Index_CoarseCV := s.Index_CoarseCV +
        (Aux_Parent (Buffer_Receive_Parent fg s m (m + 1))).length }, fun _ => 0)
      ⟨h0, fun c _ i hi => absurd hi (Nat.not_lt_zero i)⟩ ?_
    · exact key.1
    · intro acc pc hpc hacc
      simp only [List.mem_map, List.mem_range] at hpc
      obtain ⟨iVertex, hiv, rfl⟩ := hpc
      apply finalStructureStep_inv acc _ _ _ hacc
      · show st0.Index_CoarseCV ≤ Parent_Local _ _ _
        unfold Parent_Local
        have := h.1
        omega
      · refine ⟨m, hm, hact.1, hact.2, ?_⟩
        show (fg.vertex (m + 1)).getD iVertex 0 ∈ fg.vertex (m + 1)
        rw [List.getD_eq_getElem _ 0 hiv]
        exact List.getElem_mem hiv
  · exact h

/-- The reconciliation keeps the children of the coarse points built before it, fills the coarse
points it appends with nodes of receive markers only, and does not lower the coarse point
count. -/
theorem PartitionReconciliation_inv {fg : FineGrid} (cfg : Config) {st0 : MGState}
    (h : RInv fg st0) :
    RecInv fg cfg st0 (PartitionReconciliation fg cfg st0) ∧
    (PartitionReconciliation fg cfg st0).nPoint =
      (PartitionReconciliation fg cfg st0).Index_CoarseCV := by
  unfold PartitionReconciliation
  have h0 : RecInv fg cfg st0 st0 := by
    refine ⟨le_refl _, fun c _ => ⟨rfl, rfl⟩, ?_⟩
    intro c hc i hi
    rw [h.above c hc] at hi
    exact absurd hi (Nat.not_lt_zero i)
  have key := foldl_inv (RecInv fg cfg st0) (reconcileMarker fg cfg) (List.range cfg.nMarker_All)
    st0 h0 (fun s m hm hs => reconcileMarker_inv m (List.mem_range.mp hm) hs)
  exact ⟨⟨key.1, key.2.1, key.2.2⟩, rfl⟩

/-! ## Boundary-compatibility rule -/

/-- C6: a candidate that is unagglomerated, domain-owned, admissible, flagged boundary and lies on
exactly one marker `m` is accepted by `SetBoundAgglomeration` exactly when `m` is the seed marker
or `m` is a SEND_RECEIVE marker. -/
theorem SetBoundAgglomeration_one_marker (fg : FineGrid) (cfg : Config) (st : MGState)
    (CVPoint marker_seed m : Nat)
    (hagg : st.fAgglomerate CVPoint = false) (hdom : fg.Domain CVPoint = true)
    (hgeo : fg.GeometricalCheck CVPoint = true) (hb : fg.Boundary CVPoint = true)
    (hm : m < fg.nMarker) (hv : fg.Vertex CVPoint m ≠ -1)
    (honly : ∀ j, j < fg.nMarker → fg.Vertex CVPoint j ≠ -1 → j = m) :
    SetBoundAgglomeration fg cfg st CVPoint marker_seed = true ↔
      (m = marker_seed ∨ cfg.Marker_All_KindBC m = cfg.SEND_RECEIVE) := by
  have hcm : copy_marker fg CVPoint = [m] := by
    apply copy_marker_eq fg CVPoint [m] (List.sorted_singleton m)
    intro j
    simp only [List.mem_singleton]
    constructor
    · rintro rfl
      exact ⟨hm, hv⟩
    · rintro ⟨h1, h2⟩
      exact honly j h1 h2
  simp only [SetBoundAgglomeration, hagg, hdom, hgeo, hb, hcm]
  by_cases h1 : m = marker_seed <;> by_cases h2 : cfg.Marker_All_KindBC m = cfg.SEND_RECEIVE <;>
    simp [h1, h2]

/-- Witness of C6 on a one-point grid whose point lies on marker 0 only. -/
theorem SetBoundAgglomeration_one_marker_witness :
    SetBoundAgglomeration (markerGrid true 1) (plainConfig 3) (initState (markerGrid true 1)
      (plainConfig 3) 0) 0 0 = true ↔
      (0 = 0 ∨ (plainConfig 3).Marker_All_KindBC 0 = (plainConfig 3).SEND_RECEIVE) :=
  SetBoundAgglomeration_one_marker (markerGrid true 1) (plainConfig 3)
    (initState (markerGrid true 1) (plainConfig 3) 0) 0 0 0 rfl rfl rfl rfl (by decide)
    (by decide) (by
      intro j hj hv
      simp only [markerGrid] at hv
      by_contra hne
      have : ¬ j < 1 := by omega
      simp [this] at hv)

/-- C7: on a fine grid whose marker bookkeeping flags as boundary the points that carry a vertex
on a marker, a candidate that is unagglomerated, domain-owned, admissible and lies on exactly the
two markers `m1 < m2` is accepted exactly when the seed marker is not a SEND_RECEIVE marker and
one of the two markers is the seed marker while the other is a SEND_RECEIVE marker. -/
theorem SetBoundAgglomeration_two_markers (fg : FineGrid) (cfg : Config) (st : MGState)
    (CVPoint marker_seed m1 m2 : Nat)
    (hagg : st.fAgglomerate CVPoint = false) (hdom : fg.Domain CVPoint = true)
    (hgeo : fg.GeometricalCheck CVPoint = true)
    (hflag : ∀ j, j < fg.nMarker → fg.Vertex CVPoint j ≠ -1 → fg.Boundary CVPoint = true)
    (h12 : m1 < m2) (hm : m2 < fg.nMarker)
    (hv1 : fg.Vertex CVPoint m1 ≠ -1) (hv2 : fg.Vertex CVPoint m2 ≠ -1)
    (honly : ∀ j, j < fg.nMarker → fg.Vertex CVPoint j ≠ -1 → j = m1 ∨ j = m2) :
    SetBoundAgglomeration fg cfg st CVPoint marker_seed = true ↔
      (cfg.Marker_All_KindBC marker_seed ≠ cfg.SEND_RECEIVE ∧
        ((m1 = marker_seed ∧ m2 ≠ marker_seed ∧ cfg.Marker_All_KindBC m2 = cfg.SEND_RECEIVE) ∨
         (m2 = marker_seed ∧ m1 ≠ marker_seed ∧ cfg.Marker_All_KindBC m1 = cfg.SEND_RECEIVE))) := by
  have hb : fg.Boundary CVPoint = true := hflag m2 hm hv2
  have hcm : copy_marker fg CVPoint = [m1, m2] := by
    apply copy_marker_eq fg CVPoint [m1, m2]
    · simp [List.Sorted, h12]
    · intro j
      simp only [List.mem_cons, List.mem_singleton, List.not_mem_nil, or_false]
      constructor
      · rintro (rfl | rfl)
        · exact ⟨by omega, hv1⟩
        · exact ⟨hm, hv2⟩
      · rintro ⟨h1, h2⟩
        exact honly j h1 h2
  simp only [SetBoundAgglomeration, hagg, hdom, hgeo, hb, hcm]
  have hne : m1 ≠ m2 := by omega
  by_cases hs : cfg.Marker_All_KindBC marker_seed = cfg.SEND_RECEIVE
  · simp [hs]
  · by_cases h1 : m1 = marker_seed
    · subst h1
      simp [hs, hne, hne.symm]
    · by_cases h2 : m2 = marker_seed
      · subst h2
        simp [hs, hne, h1, and_comm]
      · simp [hs, h1, h2]

/-- Witness of C7: a point flagged boundary on the physical markers 0 and 1, seed marker 0. -/
theorem SetBoundAgglomeration_two_markers_witness :
    SetBoundAgglomeration (markerGrid true 2) (plainConfig 3) (initState (markerGrid true 2)
      (plainConfig 3) 0) 0 0 = true ↔
      ((plainConfig 3).Marker_All_KindBC 0 ≠ (plainConfig 3).SEND_RECEIVE ∧
        ((0 = 0 ∧ 1 ≠ 0 ∧ (plainConfig 3).Marker_All_KindBC 1 = (plainConfig 3).SEND_RECEIVE) ∨
         (1 = 0 ∧ 0 ≠ 0 ∧ (plainConfig 3).Marker_All_KindBC 0 = (plainConfig 3).SEND_RECEIVE))) :=
  SetBoundAgglomeration_two_markers (markerGrid true 2) (plainConfig 3)
    (initState (markerGrid true 2) (plainConfig 3) 0) 0 0 0 1 rfl rfl rfl (fun _ _ _ => rfl)
    (by decide) (by decide) (by decide) (by decide) (by
      intro j hj hv
      simp only [markerGrid] at hv
      by_contra hne
      have : ¬ j < 2 := by omega
      simp [this] at hv)

/-- C8: for every seed marker, on a fine grid whose marker bookkeeping gives every point flagged
boundary a vertex on some marker, `SetBoundAgglomeration` accepts a candidate that lies on no
marker and is unagglomerated, domain-owned and admissible; and it rejects every candidate that is
already agglomerated, not domain-owned or not admissible. -/
theorem SetBoundAgglomeration_interior (fg : FineGrid) (cfg : Config) (st : MGState)
    (CVPoint marker_seed : Nat) :
    (st.fAgglomerate CVPoint = false → fg.Domain CVPoint = true →
      fg.GeometricalCheck CVPoint = true →
      (∀ j, j < fg.nMarker → fg.Vertex CVPoint j = -1) →
      (fg.Boundary CVPoint = true → ∃ j, j < fg.nMarker ∧ fg.Vertex CVPoint j ≠ -1) →
      SetBoundAgglomeration fg cfg st CVPoint marker_seed = true) ∧
    ((st.fAgglomerate CVPoint = true ∨ fg.Domain CVPoint = false ∨
        fg.GeometricalCheck CVPoint = false) →
      SetBoundAgglomeration fg cfg st CVPoint marker_seed = false) := by
  constructor
  · intro hagg hdom hgeo hnone hcons
    have hb : fg.Boundary CVPoint = false := by
      cases hB : fg.Boundary CVPoint with
      | false => rfl
      | true =>
        obtain ⟨j, hj, hv⟩ := hcons hB
        exact absurd (hnone j hj) hv
    simp [SetBoundAgglomeration, hagg, hdom, hgeo, hb]
  · rintro (h | h | h) <;> simp [SetBoundAgglomeration, h]

/-- Witness of C8: an interior point of the 4 x 4 grid is accepted, and the point of the
one-point grid that is not admissible is rejected. -/
theorem SetBoundAgglomeration_interior_witness :
    SetBoundAgglomeration quadGrid (plainConfig 1) (initState quadGrid (plainConfig 1) 0)
      5 0 = true ∧
    SetBoundAgglomeration stuckGrid (plainConfig 0) (initState stuckGrid (plainConfig 0) 0)
      0 0 = false :=
  ⟨(SetBoundAgglomeration_interior quadGrid (plainConfig 1)
      (initState quadGrid (plainConfig 1) 0) 5 0).1 rfl rfl rfl (by decide)
      (fun h => absurd h (by decide)),
   (SetBoundAgglomeration_interior stuckGrid (plainConfig 0)
      (initState stuckGrid (plainConfig 0) 0) 0 0).2 (Or.inr (Or.inr rfl))⟩

/-- C9: whatever the seed marker and the marker kinds, `SetBoundAgglomeration` rejects a
candidate flagged boundary that carries a vertex on three (or more) markers. -/
theorem SetBoundAgglomeration_three_markers (fg : FineGrid) (cfg : Config) (st : MGState)
    (CVPoint marker_seed m1 m2 m3 : Nat) (hb : fg.Boundary CVPoint = true)
    (h12 : m1 < m2) (h23 : m2 < m3) (h3 : m3 < fg.nMarker)
    (v1 : fg.Vertex CVPoint m1 ≠ -1) (v2 : fg.Vertex CVPoint m2 ≠ -1)
    (v3 : fg.Vertex CVPoint m3 ≠ -1) :
    SetBoundAgglomeration fg cfg st CVPoint marker_seed = false := by
  have hlen := copy_marker_length_ge_three fg CVPoint m1 m2 m3 h12 h23 h3 v1 v2 v3
  have h1 : (copy_marker fg CVPoint).length ≠ 1 := by omega
  have h2 : (copy_marker fg CVPoint).length ≠ 2 := by omega
  simp only [SetBoundAgglomeration, hb, h1, h2]
  simp

/-- Witness of C9: a flagged boundary point on the markers 0, 1 and 2. -/
theorem SetBoundAgglomeration_three_markers_witness :
    SetBoundAgglomeration (markerGrid true 3) (plainConfig 3) (initState (markerGrid true 3)
      (plainConfig 3) 0) 0 0 = false :=
  SetBoundAgglomeration_three_markers (markerGrid true 3) (plainConfig 3)
    (initState (markerGrid true 3) (plainConfig 3) 0) 0 0 0 1 2 rfl (by decide) (by decide)
    (by decide) (by decide) (by decide) (by decide)

/-! ## Leftover sweep -/

/-- C3 (as stated, refuted): a fine point that is not domain-owned and unagglomerated when the
leftover sweep starts is still unagglomerated after it. -/
theorem LeftoverSweep_skips_remote :
    (initState { plainGrid 1 with Domain := fun _ => false } (plainConfig 0) 1).fAgglomerate 0
      = false ∧
    (LeftoverSweep { plainGrid 1 with Domain := fun _ => false }
      (initState { plainGrid 1 with Domain := fun _ => false } (plainConfig 0) 1)).fAgglomerate 0
      = false := by
  decide

/-- C3 (amended): in the leftover sweep every domain-owned fine point that is unagglomerated
when the sweep starts becomes child 0 of a coarse CV opened by the sweep, with child count 1 and
the point's parent set to that CV; after the sweep no domain-owned fine point is
unagglomerated. -/
theorem LeftoverSweep_singletons (fg : FineGrid) (st : MGState) (p : Nat)
    (hp : p < fg.nPoint) (hd : fg.Domain p = true) :
    (LeftoverSweep fg st).fAgglomerate p = true ∧
    (st.fAgglomerate p = false →
      ∃ c, st.Index_CoarseCV ≤ c ∧ c < (LeftoverSweep fg st).Index_CoarseCV ∧
        (LeftoverSweep fg st).nChildren_CV c = 1 ∧
        (LeftoverSweep fg st).Children_CV c 0 = p ∧
        (LeftoverSweep fg st).fParent_CV p = c) := by
  obtain ⟨_, _, i3, i4⟩ := leftover_fold fg (List.range fg.nPoint) (List.nodup_range _) st
  have hmem : p ∈ List.range fg.nPoint := List.mem_range.mpr hp
  constructor
  · cases h : st.fAgglomerate p with
    | true => exact (i3 p h).1
    | false =>
      obtain ⟨c, _, _, _, _, _, c6⟩ := i4 p hmem h hd
      exact c6
  · intro h
    obtain ⟨c, c1, c2, c3, c4, c5, _⟩ := i4 p hmem h hd
    exact ⟨c, c1, c2, c3, c4, c5⟩

/-- Witness of the amended C3: the sweep on a fresh grid of two isolated points. -/
theorem LeftoverSweep_singletons_witness :
    (LeftoverSweep (plainGrid 2) (initState (plainGrid 2) (plainConfig 0) 1)).fAgglomerate 1
      = true ∧
    ((initState (plainGrid 2) (plainConfig 0) 1).fAgglomerate 1 = false →
      ∃ c, (initState (plainGrid 2) (plainConfig 0) 1).Index_CoarseCV ≤ c ∧
        c < (LeftoverSweep (plainGrid 2)
          (initState (plainGrid 2) (plainConfig 0) 1)).Index_CoarseCV ∧
        (LeftoverSweep (plainGrid 2) (initState (plainGrid 2) (plainConfig 0) 1)).nChildren_CV c
          = 1 ∧
        (LeftoverSweep (plainGrid 2) (initState (plainGrid 2) (plainConfig 0) 1)).Children_CV c 0
          = 1 ∧
        (LeftoverSweep (plainGrid 2) (initState (plainGrid 2) (plainConfig 0) 1)).fParent_CV 1
          = c) :=
  LeftoverSweep_singletons (plainGrid 2) (initState (plainGrid 2) (plainConfig 0) 1) 1
    (by decide) rfl

/-! ## Coarse volumes -/

/-- C4: `SetControlVolume` sets the volume of every coarse CV `c < nPoint` to the sum of the fine
volumes of its children `Children_CV c i`, `i < nChildren_CV c` (so to 0 when it has no
children), and leaves the children lists as they were. -/
theorem SetControlVolume_volume (fg : FineGrid) (st : MGState) (c : Nat) (hc : c < st.nPoint) :
    (SetControlVolume fg st).cVolume c =
      ∑ i in Finset.range (st.nChildren_CV c), fg.Volume (st.Children_CV c i) ∧
    (st.nChildren_CV c = 0 → (SetControlVolume fg st).cVolume c = 0) ∧
    (SetControlVolume fg st).nChildren_CV = st.nChildren_CV ∧
    (SetControlVolume fg st).Children_CV = st.Children_CV := by
  obtain ⟨i1, i2, _, i4⟩ := SetControlVolume_fold fg (List.range st.nPoint) st
  have hv : (SetControlVolume fg st).cVolume c =
      ∑ i in Finset.range (st.nChildren_CV c), fg.Volume (st.Children_CV c i) := by
    unfold SetControlVolume
    rw [i4 c, if_pos (List.mem_range.mpr hc), Coarse_Volume, foldl_add_range]
  refine ⟨hv, ?_, i2, i1⟩
  intro h0
  rw [hv, h0]
  simp

theorem plainGrid_fresh (n : Nat) : Fresh (plainGrid n) := ⟨fun _ => rfl, fun _ => rfl⟩

theorem pathGrid_fresh : Fresh pathGrid := ⟨fun _ => rfl, fun _ => rfl⟩

theorem wallGrid_fresh : Fresh wallGrid := ⟨fun _ => rfl, fun _ => rfl⟩

theorem wallGrid_wfm : WFM wallGrid := by
  refine ⟨?_, ?_, ?_⟩
  · intro m p hm hp
    have hm0 : m = 0 := by
      have : m < 1 := hm
      omega
    subst hm0
    have hp2 : p = 0 ∨ p = 1 := by simpa [wallGrid] using hp
    rcases hp2 with rfl | rfl <;> simp [wallGrid]
  · intro m p hm hv
    have hm0 : m = 0 := by
      have : m < 1 := hm
      omega
    subst hm0
    have hp2 : p < 2 := by
      by_contra hge
      simp [wallGrid, hge] at hv
    have : p = 0 ∨ p = 1 := by omega
    rcases this with rfl | rfl <;> simp [wallGrid]
  · intro m p hm hv
    have hp2 : p < 2 := by
      by_contra hge
      simp [wallGrid, hge] at hv
    simp [wallGrid, hp2]

/-! ## Claims on the parent map, the children lists and the markers -/

/-- C2: after the three passes and the hanging-node repair on a fresh fine grid, parent field
and children lists agree. A domain-owned fine point `p` has parent `c` exactly when it is in
`Children_CV c` below `nChildren_CV c`; it is there exactly once; and no fine point is in two
child slots, so none is assigned to two coarse CVs. -/
theorem repaired_parent_children (fg : FineGrid) (cfg : Config) (iMesh : Nat) (hf : Fresh fg)
    (p : Nat) (hp : p < fg.nPoint) (hd : fg.Domain p = true) :
    (repaired fg cfg iMesh).fAgglomerate p = true ∧
    (∀ c, (repaired fg cfg iMesh).fParent_CV p = c ↔
      ∃ i, i < (repaired fg cfg iMesh).nChildren_CV c ∧
        (repaired fg cfg iMesh).Children_CV c i = p) ∧
    (∃! i, i < (repaired fg cfg iMesh).nChildren_CV ((repaired fg cfg iMesh).fParent_CV p) ∧
      (repaired fg cfg iMesh).Children_CV ((repaired fg cfg iMesh).fParent_CV p) i = p) ∧
    (∀ c i c2 i2, i < (repaired fg cfg iMesh).nChildren_CV c →
      i2 < (repaired fg cfg iMesh).nChildren_CV c2 →
      (repaired fg cfg iMesh).Children_CV c i = (repaired fg cfg iMesh).Children_CV c2 i2 →
      c = c2 ∧ i = i2) := by
  obtain ⟨r1, r2, _⟩ := repaired_inv cfg iMesh hf
  have hagg := r2 p hp hd
  obtain ⟨i0, hi0, hc0⟩ := r1.ginv.parent p hagg
  refine ⟨hagg, ?_, ?_, ?_⟩
  · intro c
    constructor
    · rintro rfl
      exact ⟨i0, hi0, hc0⟩
    · rintro ⟨i, hi, hc⟩
      have := (r1.ginv.child c i hi).2
      rw [hc] at this
      exact this
  · refine ⟨i0, ⟨hi0, hc0⟩, ?_⟩
    rintro j ⟨hj, hcj⟩
    exact r1.ginv.inj _ j i0 hj hi0 (hcj.trans hc0.symm)
  · intro c i c2 i2 hi hi2 he
    exact r1.ginv.slot_unique hi hi2 he

/-- Witness of C2: the middle point of three points in a row. -/
theorem repaired_parent_children_witness :
    (repaired pathGrid (plainConfig 0) 1).fAgglomerate 1 = true ∧
    (∀ c, (repaired pathGrid (plainConfig 0) 1).fParent_CV 1 = c ↔
      ∃ i, i < (repaired pathGrid (plainConfig 0) 1).nChildren_CV c ∧
        (repaired pathGrid (plainConfig 0) 1).Children_CV c i = 1) ∧
    (∃! i, i < (repaired pathGrid (plainConfig 0) 1).nChildren_CV
        ((repaired pathGrid (plainConfig 0) 1).fParent_CV 1) ∧
      (repaired pathGrid (plainConfig 0) 1).Children_CV
        ((repaired pathGrid (plainConfig 0) 1).fParent_CV 1) i = 1) ∧
    (∀ c i c2 i2, i < (repaired pathGrid (plainConfig 0) 1).nChildren_CV c →
      i2 < (repaired pathGrid (plainConfig 0) 1).nChildren_CV c2 →
      (repaired pathGrid (plainConfig 0) 1).Children_CV c i =
        (repaired pathGrid (plainConfig 0) 1).Children_CV c2 i2 →
      c = c2 ∧ i = i2) :=
  repaired_parent_children pathGrid (plainConfig 0) 1 pathGrid_fresh 1 (by decide) rfl

/-- C10 (as stated, refuted): on a grid with two physical markers the finished coarse grid has
a coarse CV with two children that lie on different physical markers (merged by the hanging-node
repair), and a coarse CV whose single child lies on both physical markers. -/
theorem construction_straddles_markers :
    (GEOM_GeometryMultigrid cornerGrid (plainConfig 2) 1).nPoint = 3 ∧
    (GEOM_GeometryMultigrid cornerGrid (plainConfig 2) 1).nChildren_CV 0 = 2 ∧
    carriesPhys cornerGrid (plainConfig 2)
      ((GEOM_GeometryMultigrid cornerGrid (plainConfig 2) 1).Children_CV 0 0) 1 ∧
    carriesPhys cornerGrid (plainConfig 2)
      ((GEOM_GeometryMultigrid cornerGrid (plainConfig 2) 1).Children_CV 0 1) 0 ∧
    (GEOM_GeometryMultigrid cornerGrid (plainConfig 2) 1).nChildren_CV 1 = 1 ∧
    carriesPhys cornerGrid (plainConfig 2)
      ((GEOM_GeometryMultigrid cornerGrid (plainConfig 2) 1).Children_CV 1 0) 0 ∧
    carriesPhys cornerGrid (plainConfig 2)
      ((GEOM_GeometryMultigrid cornerGrid (plainConfig 2) 1).Children_CV 1 0) 1 := by
  decide

/-- C10 (amended): after the three agglomeration passes, before the hanging-node repair, on a
fresh fine grid with consistent marker bookkeeping, the children of a coarse CV with two or more
children carry at most one physical (non SEND_RECEIVE) marker. -/
theorem passes_one_physical_marker (fg : FineGrid) (cfg : Config) (iMesh : Nat)
    (hf : Fresh fg) (hw : WFM fg) (c i j m m2 : Nat)
    (h2 : 2 ≤ (agglomerationPasses fg cfg iMesh).nChildren_CV c)
    (hi : i < (agglomerationPasses fg cfg iMesh).nChildren_CV c)
    (hj : j < (agglomerationPasses fg cfg iMesh).nChildren_CV c)
    (hm : carriesPhys fg cfg ((agglomerationPasses fg cfg iMesh).Children_CV c i) m)
    (hm2 : carriesPhys fg cfg ((agglomerationPasses fg cfg iMesh).Children_CV c j) m2) :
    m = m2 := by
  obtain ⟨h1, _⟩ := agglomerationPasses_inv cfg iMesh hf
  have hc : c < (agglomerationPasses fg cfg iMesh).Index_CoarseCV := by
    by_contra hge
    have := h1.above c (by omega)
    omega
  obtain ⟨s, hs⟩ := h1.mark hw c hc h2
  rw [hs i hi m hm, hs j hj m2 hm2]

/-- Witness of the amended C10: two adjacent points on the same physical marker form one coarse
CV. -/
theorem passes_one_physical_marker_witness :
    2 ≤ (agglomerationPasses wallGrid (plainConfig 1) 1).nChildren_CV 0 ∧
    carriesPhys wallGrid (plainConfig 1)
      ((agglomerationPasses wallGrid (plainConfig 1) 1).Children_CV 0 0) 0 ∧
    carriesPhys wallGrid (plainConfig 1)
      ((agglomerationPasses wallGrid (plainConfig 1) 1).Children_CV 0 1) 0 ∧
    (0 : Nat) = 0 :=
  ⟨by decide, by decide, by decide,
    passes_one_physical_marker wallGrid (plainConfig 1) 1 wallGrid_fresh wallGrid_wfm 0 0 1 0 0
      (by decide) (by decide) (by decide) (by decide) (by decide)⟩

/-! ## Claims on the finished coarse grid -/

/-- When the child slots of the coarse points below `K` hold every fine point below `n` exactly
once, summing a quantity over all child slots is summing it over the fine points. -/
theorem sum_children (st : MGState) (n K : Nat) (vol : Nat → ℚ)
    (hinj : ∀ c i c2 i2, i < st.nChildren_CV c → i2 < st.nChildren_CV c2 →
      st.Children_CV c i = st.Children_CV c2 i2 → c = c2 ∧ i = i2)
    (hrange : ∀ c i, c < K → i < st.nChildren_CV c → st.Children_CV c i < n)
    (hsurj : ∀ p, p < n → ∃ c i, c < K ∧ i < st.nChildren_CV c ∧ st.Children_CV c i = p) :
    ∑ c ∈ Finset.range K, ∑ i ∈ Finset.range (st.nChildren_CV c), vol (st.Children_CV c i) =
      ∑ p ∈ Finset.range n, vol p := by
  rw [Finset.sum_sigma' (Finset.range K) (fun c => Finset.range (st.nChildren_CV c))
    (fun c i => vol (st.Children_CV c i))]
  apply Finset.sum_bij (fun (x : (_ : Nat) × Nat) _ => st.Children_CV x.1 x.2)
  · intro x hx
    simp only [Finset.mem_sigma, Finset.mem_range] at hx
    exact Finset.mem_range.mpr (hrange x.1 x.2 hx.1 hx.2)
  · intro x hx y hy he
    simp only [Finset.mem_sigma, Finset.mem_range] at hx hy
    obtain ⟨e1, e2⟩ := hinj x.1 x.2 y.1 y.2 hx.2 hy.2 he
    obtain ⟨x1, x2⟩ := x
    obtain ⟨y1, y2⟩ := y
    simp only at e1 e2
    subst e1
    subst e2
    rfl
  · intro p hp
    obtain ⟨c, i, hc, hi, he⟩ := hsurj p (Finset.mem_range.mp hp)
    exact ⟨⟨c, i⟩, by simp [hc, hi], he⟩
  · intro x _
    rfl

/-- The volumes written by `SetControlVolume`, and the point count it leaves alone. -/
theorem SetControlVolume_cVolume (fg : FineGrid) (st : MGState) :
    (SetControlVolume fg st).nPoint = st.nPoint ∧
    ∀ c, c < st.nPoint → (SetControlVolume fg st).cVolume c =
      ∑ i ∈ Finset.range (st.nChildren_CV c), fg.Volume (st.Children_CV c i) := by
  obtain ⟨_, _, i3, i4⟩ := SetControlVolume_fold fg (List.range st.nPoint) st
  refine ⟨i3, ?_⟩
  intro c hc
  unfold SetControlVolume
  rw [i4 c, if_pos (List.mem_range.mpr hc), Coarse_Volume, foldl_add_range]

/-- C5: on a fresh fine grid whose stored point indices are in range, with every point
domain-owned and no SEND_RECEIVE marker, after the construction and `SetControlVolume` the
volumes of the coarse CVs add up to the volumes of the fine points; for 16 fine points of
volume 1 the coarse volumes add up to 16. -/
theorem coarse_volume_total (fg : FineGrid) (cfg : Config) (iMesh : Nat) (hf : Fresh fg)
    (hw : WFR fg) (hd : ∀ p, p < fg.nPoint → fg.Domain p = true)
    (hno : ∀ m, m < cfg.nMarker_All → cfg.Marker_All_KindBC m ≠ cfg.SEND_RECEIVE) :
    (∑ c ∈ Finset.range (SetControlVolume fg (GEOM_GeometryMultigrid fg cfg iMesh)).nPoint,
        (SetControlVolume fg (GEOM_GeometryMultigrid fg cfg iMesh)).cVolume c =
      ∑ p ∈ Finset.range fg.nPoint, fg.Volume p) ∧
    (fg.nPoint = 16 → (∀ p, fg.Volume p = 1) →
      ∑ c ∈ Finset.range (SetControlVolume fg (GEOM_GeometryMultigrid fg cfg iMesh)).nPoint,
        (SetControlVolume fg (GEOM_GeometryMultigrid fg cfg iMesh)).cVolume c = 16) := by
  obtain ⟨r1, r2, _⟩ := repaired_inv cfg iMesh hf
  have hG : GEOM_GeometryMultigrid fg cfg iMesh =
      { repaired fg cfg iMesh with nPoint := (repaired fg cfg iMesh).Index_CoarseCV } := by
    unfold GEOM_GeometryMultigrid
    exact PartitionReconciliation_inactive fg cfg _ hno
  obtain ⟨v1, v2⟩ := SetControlVolume_cVolume fg (GEOM_GeometryMultigrid fg cfg iMesh)
  have hsum : ∑ c ∈ Finset.range (SetControlVolume fg (GEOM_GeometryMultigrid fg cfg iMesh)).nPoint,
        (SetControlVolume fg (GEOM_GeometryMultigrid fg cfg iMesh)).cVolume c =
      ∑ p ∈ Finset.range fg.nPoint, fg.Volume p := by
    rw [v1]
    rw [Finset.sum_congr rfl (fun c hc => v2 c (Finset.mem_range.mp hc))]
    rw [hG]
    apply sum_children (repaired fg cfg iMesh) fg.nPoint (repaired fg cfg iMesh).Index_CoarseCV
    · intro c i c2 i2 hi hi2 he
      exact r1.ginv.slot_unique hi hi2 he
    · intro c i _ hi
      exact r1.range hw _ (r1.ginv.child c i hi).1
    · intro p hp
      obtain ⟨i, hi, he⟩ := r1.ginv.parent p (r2 p hp (hd p hp))
      refine ⟨_, i, ?_, hi, he⟩
      by_contra hge
      have := r1.above _ (Nat.le_of_not_lt hge)
      omega
  refine ⟨hsum, ?_⟩
  intro h16 hv
  rw [hsum, h16]
  simp [hv]

theorem quadGrid_wfr : WFR quadGrid := by
  have hadj : ∀ p, p < 16 → ∀ q, q ∈ quadAdjacency.getD p [] → q < 16 := by decide
  refine ⟨?_, ?_⟩
  · intro p q hq
    by_cases hp : p < 16
    · exact hadj p hp q hq
    · have : quadAdjacency.getD p [] = [] := by
        apply List.getD_eq_default
        simp only [quadAdjacency, List.length_cons, List.length_nil]
        omega
      have hq2 : q ∈ quadAdjacency.getD p [] := hq
      rw [this] at hq2
      exact absurd hq2 (List.not_mem_nil q)
  · intro m p hm hp
    have hm0 : m = 0 := by
      have : m < 1 := hm
      omega
    subst hm0
    have hp2 : p ∈ [0, 1, 2, 3, 7, 11, 15, 14, 13, 12, 8, 4] := hp
    show p < 16
    simp only [List.mem_cons, List.mem_singleton, List.not_mem_nil, or_false] at hp2
    omega

/-- Witness of C5: the 4 x 4 structured grid of 16 points of volume 1. -/
theorem coarse_volume_total_witness :
    (∑ c ∈ Finset.range
        (SetControlVolume quadGrid (GEOM_GeometryMultigrid quadGrid (plainConfig 1) 1)).nPoint,
        (SetControlVolume quadGrid (GEOM_GeometryMultigrid quadGrid (plainConfig 1) 1)).cVolume c =
      ∑ p ∈ Finset.range quadGrid.nPoint, quadGrid.Volume p) ∧
    ∑ c ∈ Finset.range
        (SetControlVolume quadGrid (GEOM_GeometryMultigrid quadGrid (plainConfig 1) 1)).nPoint,
        (SetControlVolume quadGrid (GEOM_GeometryMultigrid quadGrid (plainConfig 1) 1)).cVolume c
          = 16 :=
  ⟨(coarse_volume_total quadGrid (plainConfig 1) 1 ⟨fun _ => rfl, fun _ => rfl⟩ quadGrid_wfr
      (fun _ _ => rfl) (fun _ _ => by show (0 : Nat) ≠ 99; decide)).1,
   (coarse_volume_total quadGrid (plainConfig 1) 1 ⟨fun _ => rfl, fun _ => rfl⟩ quadGrid_wfr
      (fun _ _ => rfl) (fun _ _ => by show (0 : Nat) ≠ 99; decide)).2 rfl (fun _ => rfl)⟩

/-- Witness of C4: coarse point 0 of the coarse grid built from three points in a row. -/
theorem SetControlVolume_volume_witness :
    (SetControlVolume pathGrid (GEOM_GeometryMultigrid pathGrid (plainConfig 0) 1)).cVolume 0 =
      ∑ i in Finset.range ((GEOM_GeometryMultigrid pathGrid (plainConfig 0) 1).nChildren_CV 0),
        pathGrid.Volume ((GEOM_GeometryMultigrid pathGrid (plainConfig 0) 1).Children_CV 0 i) ∧
    ((GEOM_GeometryMultigrid pathGrid (plainConfig 0) 1).nChildren_CV 0 = 0 →
      (SetControlVolume pathGrid (GEOM_GeometryMultigrid pathGrid (plainConfig 0) 1)).cVolume 0
        = 0) ∧
    (SetControlVolume pathGrid (GEOM_GeometryMultigrid pathGrid (plainConfig 0) 1)).nChildren_CV =
      (GEOM_GeometryMultigrid pathGrid (plainConfig 0) 1).nChildren_CV ∧
    (SetControlVolume pathGrid (GEOM_GeometryMultigrid pathGrid (plainConfig 0) 1)).Children_CV =
      (GEOM_GeometryMultigrid pathGrid (plainConfig 0) 1).Children_CV :=
  SetControlVolume_volume pathGrid (GEOM_GeometryMultigrid pathGrid (plainConfig 0) 1) 0
    (by decide)

/-! ## The indirect-neighbour finder -/

/-- A left fold whose step appends a list that depends on the element only is an append of a
`flatMap`. -/
theorem foldl_push {α β : Type} (f : List β → α → List β) (g : α → List β)
    (hf : ∀ acc a, f acc a = acc ++ g a) (l : List α) (init : List β) :
    l.foldl f init = init ++ l.flatMap g := by
  induction l generalizing init with
  | nil => simp
  | cons a l ih =>
    simp only [List.foldl_cons, List.flatMap_cons]
    rw [ih, hf, List.append_assoc]

/-- Second_Neighbor_Pairs as a comprehension. -/
theorem Second_Neighbor_Pairs_eq (fg : FineGrid) (iPoint : Nat) :
    Second_Neighbor_Pairs fg iPoint =
      (fg.Point iPoint).flatMap (fun jPoint => (fg.Point jPoint).flatMap (fun kPoint =>
        if (First_Neighbor_Points fg iPoint).contains kPoint then [] else [(kPoint, jPoint)])) := by
  unfold Second_Neighbor_Pairs
  rw [foldl_push _ (fun jPoint => (fg.Point jPoint).flatMap (fun kPoint =>
        if (First_Neighbor_Points fg iPoint).contains kPoint then [] else [(kPoint, jPoint)]))]
  · simp
  · intro acc j
    apply foldl_push
    intro acc2 k
    split <;> simp

/-- The pairs `(k, j)` of the second ring: `j` is a neighbour of the seed, `k` a neighbour of `j`
that is neither the seed nor a neighbour of the seed. -/
theorem mem_Second_Neighbor_Pairs_iff (fg : FineGrid) (iPoint k j : Nat) :
    (k, j) ∈ Second_Neighbor_Pairs fg iPoint ↔
      j ∈ fg.Point iPoint ∧ k ∈ fg.Point j ∧ k ≠ iPoint ∧ k ∉ fg.Point iPoint := by
  rw [Second_Neighbor_Pairs_eq]
  simp only [List.mem_flatMap, First_Neighbor_Points]
  constructor
  · rintro ⟨j2, hj2, k2, hk2, hmem⟩
    split at hmem
    · simp at hmem
    · rename_i hc
      simp only [List.mem_singleton, Prod.mk.injEq] at hmem
      obtain ⟨rfl, rfl⟩ := hmem
      simp only [List.contains_eq_any_beq, List.any_cons, Bool.or_eq_true, beq_iff_eq,
        List.any_eq_true, not_or, not_exists, not_and] at hc
      refine ⟨hj2, hk2, fun h => hc.1 h, fun h => hc.2 k h rfl⟩
  · rintro ⟨hj, hk, h1, h2⟩
    refine ⟨j, hj, k, hk, ?_⟩
    rw [if_neg]
    · simp
    · simp only [List.contains_eq_any_beq, List.any_cons, Bool.or_eq_true, beq_iff_eq,
        List.any_eq_true, not_or, not_exists, not_and]
      refine ⟨fun h => h1 h, ?_⟩
      intro x hx hxk
      exact h2 (hxk ▸ hx)

/-- The double loop as a comprehension. -/
theorem repeatedNeighbors_eq (prs : List (Nat × Nat)) :
    repeatedNeighbors prs =
      (List.range prs.length).flatMap (fun iNeighbor =>
        (List.range prs.length).flatMap (fun jNeighbor =>
          if (prs.getD iNeighbor (0, 0)).1 = (prs.getD jNeighbor (0, 0)).1 ∧
             (prs.getD iNeighbor (0, 0)).2 ≠ (prs.getD jNeighbor (0, 0)).2 ∧
             iNeighbor < jNeighbor
          then [(prs.getD iNeighbor (0, 0)).1] else [])) := by
  unfold repeatedNeighbors
  rw [foldl_push _ (fun iNeighbor =>
        (List.range prs.length).flatMap (fun jNeighbor =>
          if (prs.getD iNeighbor (0, 0)).1 = (prs.getD jNeighbor (0, 0)).1 ∧
             (prs.getD iNeighbor (0, 0)).2 ≠ (prs.getD jNeighbor (0, 0)).2 ∧
             iNeighbor < jNeighbor
          then [(prs.getD iNeighbor (0, 0)).1] else []))]
  · simp
  · intro acc i
    apply foldl_push
    intro acc2 j
    split <;> simp

/-- A point is pushed by the double loop exactly when it occurs in two pairs with different
origins. -/
theorem mem_repeatedNeighbors_iff (prs : List (Nat × Nat)) (x : Nat) :
    x ∈ repeatedNeighbors prs ↔ ∃ o1 o2, (x, o1) ∈ prs ∧ (x, o2) ∈ prs ∧ o1 ≠ o2 := by
  rw [repeatedNeighbors_eq]
  simp only [List.mem_flatMap, List.mem_range]
  constructor
  · rintro ⟨i, hi, j, hj, hmem⟩
    split at hmem
    · rename_i hc
      simp only [List.mem_singleton] at hmem
      rw [List.getD_eq_getElem prs (0, 0) hi, List.getD_eq_getElem prs (0, 0) hj] at hc
      rw [List.getD_eq_getElem prs (0, 0) hi] at hmem
      refine ⟨prs[i].2, prs[j].2, ?_, ?_, hc.2.1⟩
      · have : (x, prs[i].2) = prs[i] := by rw [hmem]
        rw [this]
        exact List.getElem_mem hi
      · have : (x, prs[j].2) = prs[j] := by rw [hmem, hc.1]
        rw [this]
        exact List.getElem_mem hj
    · simp at hmem
  · rintro ⟨o1, o2, h1, h2, hne⟩
    obtain ⟨i, hi, ei⟩ := List.getElem_of_mem h1
    obtain ⟨j, hj, ej⟩ := List.getElem_of_mem h2
    have hij : i ≠ j := by
      rintro rfl
      rw [ei] at ej
      exact hne (Prod.mk.inj ej).2
    rcases Nat.lt_or_gt_of_ne hij with hlt | hgt
    · refine ⟨i, hi, j, hj, ?_⟩
      rw [List.getD_eq_getElem prs (0, 0) hi, List.getD_eq_getElem prs (0, 0) hj, ei, ej]
      simp [hne, hlt]
    · refine ⟨j, hj, i, hi, ?_⟩
      rw [List.getD_eq_getElem prs (0, 0) hi, List.getD_eq_getElem prs (0, 0) hj, ei, ej]
      simp [Ne.symm hne, hgt]

/-- The sorted list is sorted. -/
theorem std_sort_sorted (l : List Nat) : (std_sort l).Sorted (· ≤ ·) :=
  List.sorted_insertionSort (· ≤ ·) l

/-- Every entry of a list survives in `std_unique`. -/
theorem mem_std_unique_of_mem (x : Nat) : ∀ l : List Nat, x ∈ l → x ∈ std_unique l
  | [] => fun h => h
  | [_] => fun h => h
  | a :: b :: t => by
    intro h
    simp only [std_unique]
    by_cases hab : a = b
    · rw [if_pos hab]
      apply mem_std_unique_of_mem x (b :: t)
      rcases List.mem_cons.mp h with rfl | h2
      · rw [hab]
        exact List.mem_cons_self _ _
      · exact h2
    · rw [if_neg hab]
      rcases List.mem_cons.mp h with rfl | h2
      · exact List.mem_cons_self _ _
      · exact List.mem_cons_of_mem a (mem_std_unique_of_mem x (b :: t) h2)

theorem mem_std_unique_iff (x : Nat) (l : List Nat) : x ∈ std_unique l ↔ x ∈ l :=
  ⟨mem_of_mem_std_unique x l, mem_std_unique_of_mem x l⟩

/-- On a sorted list `std_unique` leaves a strictly increasing list. -/
theorem std_unique_sorted : ∀ l : List Nat, l.Sorted (· ≤ ·) → (std_unique l).Sorted (· < ·)
  | [] => fun _ => List.sorted_nil
  | [a] => fun _ => List.sorted_singleton a
  | a :: b :: t => by
    intro h
    have hbt : (b :: t).Sorted (· ≤ ·) := List.Sorted.of_cons h
    have ih := std_unique_sorted (b :: t) hbt
    simp only [std_unique]
    by_cases hab : a = b
    · rw [if_pos hab]
      exact ih
    · rw [if_neg hab]
      rw [List.sorted_cons]
      refine ⟨?_, ih⟩
      intro x hx
      have hx2 : x ∈ b :: t := mem_of_mem_std_unique x (b :: t) hx
      have hab2 : a ≤ b := List.rel_of_sorted_cons h b (List.mem_cons_self b t)
      have hbx : b ≤ x := by
        rcases List.mem_cons.mp hx2 with rfl | hxt
        · exact le_refl _
        · exact List.rel_of_sorted_cons hbt x hxt
      omega

/-- Membership in the suitable second-ring list: a point that is neither the seed nor a direct
neighbour of the seed and that is a neighbour of two different direct neighbours of the seed. -/
theorem mem_Suitable_Second_Neighbors (fg : FineGrid) (iPoint k : Nat) :
    k ∈ Suitable_Second_Neighbors fg iPoint ↔
      k ≠ iPoint ∧ k ∉ fg.Point iPoint ∧
      ∃ j1 j2, j1 ∈ fg.Point iPoint ∧ j2 ∈ fg.Point iPoint ∧ j1 ≠ j2 ∧
        k ∈ fg.Point j1 ∧ k ∈ fg.Point j2 := by
  unfold Suitable_Second_Neighbors
  rw [mem_std_unique_iff, mem_std_sort, mem_repeatedNeighbors_iff]
  constructor
  · rintro ⟨o1, o2, h1, h2, hne⟩
    rw [mem_Second_Neighbor_Pairs_iff] at h1 h2
    exact ⟨h1.2.2.1, h1.2.2.2, o1, o2, h1.1, h2.1, hne, h1.2.1, h2.2.1⟩
  · rintro ⟨hk1, hk2, j1, j2, hj1, hj2, hne, hkj1, hkj2⟩
    refine ⟨j1, j2, ?_, ?_, hne⟩
    · rw [mem_Second_Neighbor_Pairs_iff]
      exact ⟨hj1, hkj1, hk1, hk2⟩
    · rw [mem_Second_Neighbor_Pairs_iff]
      exact ⟨hj2, hkj2, hk1, hk2⟩

/-- Third_Neighbor_Pairs as a comprehension. -/
theorem Third_Neighbor_Pairs_eq (fg : FineGrid) (iPoint : Nat) :
    Third_Neighbor_Pairs fg iPoint =
      (Suitable_Second_Neighbors fg iPoint).flatMap (fun kPoint =>
        (fg.Point kPoint).flatMap (fun lPoint =>
          if (std_unique (std_sort (First_Neighbor_Points fg iPoint))).contains lPoint ||
             (Suitable_Second_Neighbors fg iPoint).contains lPoint then []
          else [(lPoint, kPoint)])) := by
  unfold Third_Neighbor_Pairs
  rw [foldl_push _ (fun kPoint =>
        (fg.Point kPoint).flatMap (fun lPoint =>
          if (std_unique (std_sort (First_Neighbor_Points fg iPoint))).contains lPoint ||
             (Suitable_Second_Neighbors fg iPoint).contains lPoint then []
          else [(lPoint, kPoint)]))]
  · simp
  · intro acc j
    apply foldl_push
    intro acc2 k
    split <;> simp

/-- The pairs `(l, k)` of the third ring: `k` is a suitable second-ring point, `l` a neighbour of
`k` that is neither the seed, nor a neighbour of the seed, nor a suitable second-ring point. -/
theorem mem_Third_Neighbor_Pairs_iff (fg : FineGrid) (iPoint l k : Nat) :
    (l, k) ∈ Third_Neighbor_Pairs fg iPoint ↔
      k ∈ Suitable_Second_Neighbors fg iPoint ∧ l ∈ fg.Point k ∧ l ≠ iPoint ∧
      l ∉ fg.Point iPoint ∧ l ∉ Suitable_Second_Neighbors fg iPoint := by
  rw [Third_Neighbor_Pairs_eq]
  have hexcl : ∀ x, ((std_unique (std_sort (First_Neighbor_Points fg iPoint))).contains x ||
      (Suitable_Second_Neighbors fg iPoint).contains x) = true ↔
      (x = iPoint ∨ x ∈ fg.Point iPoint) ∨ x ∈ Suitable_Second_Neighbors fg iPoint := by
    intro x
    have hc : ∀ (l2 : List Nat), l2.contains x = true ↔ x ∈ l2 := by
      intro l2
      simp
    rw [Bool.or_eq_true, hc, hc, mem_std_unique_iff, mem_std_sort, First_Neighbor_Points,
      List.mem_cons]
  simp only [List.mem_flatMap]
  constructor
  · rintro ⟨k2, hk2, l2, hl2, hmem⟩
    split at hmem
    · simp at hmem
    · rename_i hc
      simp only [List.mem_singleton, Prod.mk.injEq] at hmem
      obtain ⟨rfl, rfl⟩ := hmem
      rw [hexcl] at hc
      exact ⟨hk2, hl2, fun h => hc (Or.inl (Or.inl h)), fun h => hc (Or.inl (Or.inr h)),
        fun h => hc (Or.inr h)⟩
  · rintro ⟨hk, hl, h1, h2, h3⟩
    refine ⟨k, hk, l, hl, ?_⟩
    rw [if_neg]
    · simp
    · rw [hexcl]
      rintro ((h | h) | h)
      · exact h1 h
      · exact h2 h
      · exact h3 h

/-- The list returned by `SetSuitableNeighbors` is strictly increasing. -/
theorem SetSuitableNeighbors_sorted (fg : FineGrid) (L : List Nat) (iPoint : Nat) :
    (SetSuitableNeighbors fg L iPoint).Sorted (· < ·) :=
  std_unique_sorted _ (std_sort_sorted _)

/-- The points of the list returned by `SetSuitableNeighbors`. -/
theorem mem_SetSuitableNeighbors_iff (fg : FineGrid) (L : List Nat) (iPoint x : Nat) :
    x ∈ SetSuitableNeighbors fg L iPoint ↔
      x ∈ L ∨ x ∈ repeatedNeighbors (Second_Neighbor_Pairs fg iPoint) ∨
        x ∈ repeatedNeighbors (Third_Neighbor_Pairs fg iPoint) := by
  unfold SetSuitableNeighbors
  rw [mem_std_unique_iff, mem_std_sort, List.mem_append, List.mem_append, or_assoc]

/-- The suitable second-ring list has the points pushed by the first double loop. -/
theorem mem_Suitable_Second_Neighbors_pushed (fg : FineGrid) (iPoint x : Nat) :
    x ∈ Suitable_Second_Neighbors fg iPoint ↔
      x ∈ repeatedNeighbors (Second_Neighbor_Pairs fg iPoint) := by
  unfold Suitable_Second_Neighbors
  rw [mem_std_unique_iff, mem_std_sort]


/-! ## Claims on the indirect-neighbour finder -/

/-- C12: in `SetSuitableNeighbors` the suitable second-ring points are exactly the points `k`
that are neither the seed nor a direct neighbour of the seed and that are in the adjacency lists
of two different direct neighbours of the seed; every such point is in the returned list. -/
theorem SetSuitableNeighbors_second_ring (fg : FineGrid) (L : List Nat) (iPoint k : Nat) :
    (k ∈ Suitable_Second_Neighbors fg iPoint ↔
      k ≠ iPoint ∧ k ∉ fg.Point iPoint ∧
      ∃ j1 j2, j1 ∈ fg.Point iPoint ∧ j2 ∈ fg.Point iPoint ∧ j1 ≠ j2 ∧
        k ∈ fg.Point j1 ∧ k ∈ fg.Point j2) ∧
    (k ∈ Suitable_Second_Neighbors fg iPoint → k ∈ SetSuitableNeighbors fg L iPoint) := by
  refine ⟨mem_Suitable_Second_Neighbors fg iPoint k, ?_⟩
  intro hk
  rw [mem_SetSuitableNeighbors_iff]
  exact Or.inr (Or.inl ((mem_Suitable_Second_Neighbors_pushed fg iPoint k).mp hk))

/-- Witness of C12: point 4 of the seven-point grid, adjacent to the neighbours 1 and 2 of the
seed 0. -/
theorem SetSuitableNeighbors_second_ring_witness :
    4 ∈ Suitable_Second_Neighbors ringGrid 0 ∧ 4 ∈ SetSuitableNeighbors ringGrid [] 0 :=
  ⟨by decide, (SetSuitableNeighbors_second_ring ringGrid [] 0 4).2 (by decide)⟩

/-- The points pushed by the third-ring step of `SetSuitableNeighbors`: a point is pushed exactly
when it passes the test that the step performs (it is not the seed, not a direct neighbour of the
seed and not a suitable second-ring point) and is in the adjacency lists of two different
suitable second-ring points; a point adjacent to at most one suitable second-ring point is not
pushed. The test lets through the second-ring points that were not found suitable. -/
theorem SetSuitableNeighbors_third_ring (fg : FineGrid) (iPoint x : Nat) :
    (x ∈ repeatedNeighbors (Third_Neighbor_Pairs fg iPoint) ↔
      (x ≠ iPoint ∧ x ∉ fg.Point iPoint ∧ x ∉ Suitable_Second_Neighbors fg iPoint) ∧
      ∃ k1 k2, k1 ∈ Suitable_Second_Neighbors fg iPoint ∧
        k2 ∈ Suitable_Second_Neighbors fg iPoint ∧ k1 ≠ k2 ∧
        x ∈ fg.Point k1 ∧ x ∈ fg.Point k2) ∧
    ((∀ k1 k2, k1 ∈ Suitable_Second_Neighbors fg iPoint →
        k2 ∈ Suitable_Second_Neighbors fg iPoint → x ∈ fg.Point k1 → x ∈ fg.Point k2 → k1 = k2) →
      x ∉ repeatedNeighbors (Third_Neighbor_Pairs fg iPoint)) := by
  have key : x ∈ repeatedNeighbors (Third_Neighbor_Pairs fg iPoint) ↔
      (x ≠ iPoint ∧ x ∉ fg.Point iPoint ∧ x ∉ Suitable_Second_Neighbors fg iPoint) ∧
      ∃ k1 k2, k1 ∈ Suitable_Second_Neighbors fg iPoint ∧
        k2 ∈ Suitable_Second_Neighbors fg iPoint ∧ k1 ≠ k2 ∧
        x ∈ fg.Point k1 ∧ x ∈ fg.Point k2 := by
    rw [mem_repeatedNeighbors_iff]
    constructor
    · rintro ⟨o1, o2, h1, h2, hne⟩
      rw [mem_Third_Neighbor_Pairs_iff] at h1 h2
      exact ⟨⟨h1.2.2.1, h1.2.2.2.1, h1.2.2.2.2⟩, o1, o2, h1.1, h2.1, hne, h1.2.1, h2.2.1⟩
    · rintro ⟨⟨e1, e2, e3⟩, k1, k2, hk1, hk2, hne, hx1, hx2⟩
      refine ⟨k1, k2, ?_, ?_, hne⟩
      · rw [mem_Third_Neighbor_Pairs_iff]
        exact ⟨hk1, hx1, e1, e2, e3⟩
      · rw [mem_Third_Neighbor_Pairs_iff]
        exact ⟨hk2, hx2, e1, e2, e3⟩
  refine ⟨key, ?_⟩
  intro hone hx
  obtain ⟨_, k1, k2, hk1, hk2, hne, hx1, hx2⟩ := key.mp hx
  exact hne (hone k1 k2 hk1 hk2 hx1 hx2)

/-- C13 (the code at the failing input): on the seven-point grid with seed 0, point 6 is in ring
two (it is a neighbour of the direct neighbour 1 of the seed, and neither the seed nor a direct
neighbour), so it does not pass the exclusion of ring one and ring two; it is in the adjacency
lists of the two suitable second-ring points 4 and 5, and the third-ring step adds it, because
the test of lines 846-852 looks at the suitable second-ring points only. -/
theorem third_ring_exclusion_misses_ring_two :
    (∃ j, j ∈ ringGrid.Point 0 ∧ 6 ∈ ringGrid.Point j) ∧
    6 ≠ 0 ∧ 6 ∉ ringGrid.Point 0 ∧
    Suitable_Second_Neighbors ringGrid 0 = [4, 5] ∧
    6 ∈ ringGrid.Point 4 ∧ 6 ∈ ringGrid.Point 5 ∧
    6 ∈ repeatedNeighbors (Third_Neighbor_Pairs ringGrid 0) := by
  refine ⟨⟨1, by decide, by decide⟩, by decide, by decide, by decide, by decide, by decide,
    by decide⟩

/-- C14 (the code at the failing input): on the seven-point grid with seed 0, the third-ring
step pushes point 6, which is a neighbour of the direct neighbour 1 of the seed, so a second-ring
point; it was not found suitable, and the step only excludes suitable second-ring points. -/
theorem third_ring_takes_second_ring_point :
    1 ∈ ringGrid.Point 0 ∧ 6 ∈ ringGrid.Point 1 ∧
    6 ∉ Suitable_Second_Neighbors ringGrid 0 ∧
    repeatedNeighbors (Third_Neighbor_Pairs ringGrid 0) = [6] ∧
    SetSuitableNeighbors ringGrid [] 0 = [4, 5, 6] := by
  decide

/-- C15: called with an empty output list, `SetSuitableNeighbors` returns a strictly increasing
list (so one without repeated entries) whose elements are the suitable second-ring points
together with the points pushed by the third-ring step. -/
theorem SetSuitableNeighbors_output (fg : FineGrid) (iPoint : Nat) :
    (SetSuitableNeighbors fg [] iPoint).Sorted (· < ·) ∧
    (SetSuitableNeighbors fg [] iPoint).Nodup ∧
    ∀ x, x ∈ SetSuitableNeighbors fg [] iPoint ↔
      x ∈ Suitable_Second_Neighbors fg iPoint ∨
        x ∈ repeatedNeighbors (Third_Neighbor_Pairs fg iPoint) := by
  refine ⟨SetSuitableNeighbors_sorted fg [] iPoint,
    (SetSuitableNeighbors_sorted fg [] iPoint).nodup, ?_⟩
  intro x
  rw [mem_SetSuitableNeighbors_iff, mem_Suitable_Second_Neighbors_pushed]
  simp

/-! ## The parent remap of the reconciliation -/

/-- The list of received parents without repetition is strictly increasing. -/
theorem Aux_Parent_sorted (R : List Nat) : (Aux_Parent R).Sorted (· < ·) :=
  std_unique_sorted _ (std_sort_sorted _)

/-- The list of received parents without repetition has the received parents as members. -/
theorem mem_Aux_Parent (R : List Nat) (a : Nat) : a ∈ Aux_Parent R ↔ a ∈ R := by
  unfold Aux_Parent
  rw [mem_std_unique_iff, mem_std_sort]

/-- The length of the list without repetition is the number of distinct received parents. -/
theorem Aux_Parent_length (R : List Nat) : (Aux_Parent R).length = R.toFinset.card := by
  rw [← List.toFinset_card_of_nodup (Aux_Parent_sorted R).nodup]
  congr 1
  ext a
  simp [mem_Aux_Parent]

/-- In a strictly increasing list the position of a member grows with the member. -/
theorem indexOf_lt_of_sorted {l : List Nat} (hl : l.Sorted (· < ·)) {a b : Nat}
    (ha : a ∈ l) (hb : b ∈ l) : a < b ↔ List.indexOf a l < List.indexOf b l := by
  have hia := List.indexOf_lt_length.mpr ha
  have hib := List.indexOf_lt_length.mpr hb
  have ea : l[List.indexOf a l] = a := List.getElem_indexOf hia
  have eb : l[List.indexOf b l] = b := List.getElem_indexOf hib
  have hp := List.pairwise_iff_getElem.mp hl
  constructor
  · intro hab
    by_contra hge
    rcases Nat.eq_or_lt_of_le (Nat.le_of_not_lt hge) with heq | hlt
    · have : a = b := by
        rw [← ea, ← eb]
        congr 1
        exact heq.symm
      omega
    · have := hp _ _ hib hia hlt
      rw [ea, eb] at this
      omega
  · intro hlt
    have := hp _ _ hia hib hlt
    rw [ea, eb] at this
    exact this

/-- Placing the received vertices does not move the coarse index counter. -/
theorem finalStructure_Index (pcs : List (Nat × Nat)) (acc : MGState × (Nat → Nat)) :
    (pcs.foldl finalStructureStep acc).1.Index_CoarseCV = acc.1.Index_CoarseCV := by
  apply foldl_inv (fun a : MGState × (Nat → Nat) => a.1.Index_CoarseCV = acc.1.Index_CoarseCV)
    _ _ _ rfl
  intro a pc _ ha
  exact ha

/-- Effect of placing the first `k` received vertices, when the nodes of the receive marker
are distinct: each placed node has the local parent of its vertex and sits in a child slot of
that coarse point below the running count, and the stored child count of every coarse point
touched is the running count. -/
theorem finalStructure_placed (X : List Nat) (hX : X.Nodup) (PL : Nat → Nat) (s0 : MGState)
    (n : Nat) (hn : n ≤ X.length) :
    (∀ i, i < n →
      ((List.range n).foldl (fun acc iVertex =>
          finalStructureStep acc (PL iVertex, X.getD iVertex 0)) (s0, fun _ => 0)).1.fParent_CV
        (X.getD i 0) = PL i ∧
      ((List.range n).foldl (fun acc iVertex =>
          finalStructureStep acc (PL iVertex, X.getD iVertex 0)) (s0, fun _ => 0)).1.fAgglomerate
        (X.getD i 0) = true ∧
      ∃ j, j < ((List.range n).foldl (fun acc iVertex =>
          finalStructureStep acc (PL iVertex, X.getD iVertex 0)) (s0, fun _ => 0)).1.nChildren_CV
            (PL i) ∧
        ((List.range n).foldl (fun acc iVertex =>
          finalStructureStep acc (PL iVertex, X.getD iVertex 0)) (s0, fun _ => 0)).1.Children_CV
            (PL i) j = X.getD i 0) := by
  have key := foldl_range_inv
    (fun k (acc : MGState × (Nat → Nat)) =>
      (∀ i, i < k → acc.1.fParent_CV (X.getD i 0) = PL i ∧
        acc.1.fAgglomerate (X.getD i 0) = true) ∧
      (∀ i, i < k → ∃ j, j < acc.2 (PL i) ∧ acc.1.Children_CV (PL i) j = X.getD i 0) ∧
      (∀ c, 0 < acc.2 c → acc.1.nChildren_CV c = acc.2 c))
    (fun acc iVertex => finalStructureStep acc (PL iVertex, X.getD iVertex 0)) n
    (s0, fun _ => 0)
    ⟨fun i hi => absurd hi (Nat.not_lt_zero i), fun i hi => absurd hi (Nat.not_lt_zero i),
      fun c hc => absurd hc (Nat.lt_irrefl 0)⟩ ?_
  · obtain ⟨k1, k2, k3⟩ := key
    intro i hi
    obtain ⟨j, hj, hc⟩ := k2 i hi
    refine ⟨(k1 i hi).1, (k1 i hi).2, j, ?_, hc⟩
    rw [k3 (PL i) (by omega)]
    exact hj
  · intro k acc hk ⟨a1, a2, a3⟩
    have hP : (finalStructureStep acc (PL k, X.getD k 0)).1.fParent_CV =
        Function.update acc.1.fParent_CV (X.getD k 0) (PL k) := rfl
    have hA : (finalStructureStep acc (PL k, X.getD k 0)).1.fAgglomerate =
        Function.update acc.1.fAgglomerate (X.getD k 0) true := rfl
    have hC : (finalStructureStep acc (PL k, X.getD k 0)).1.Children_CV =
        Function.update acc.1.Children_CV (PL k)
          (Function.update (acc.1.Children_CV (PL k)) (acc.2 (PL k)) (X.getD k 0)) := rfl
    have hM : (finalStructureStep acc (PL k, X.getD k 0)).2 =
        Function.update acc.2 (PL k) (acc.2 (PL k) + 1) := rfl
    have hN : (finalStructureStep acc (PL k, X.getD k 0)).1.nChildren_CV =
        Function.update acc.1.nChildren_CV (PL k) (acc.2 (PL k) + 1) := by
      show Function.update acc.1.nChildren_CV (PL k)
        (Function.update acc.2 (PL k) (acc.2 (PL k) + 1) (PL k)) = _
      rw [Function.update_same]
    have hdist : ∀ i, i < k → X.getD i 0 ≠ X.getD k 0 := by
      intro i hi he
      have hik : i < X.length := by omega
      have hkk : k < X.length := by omega
      rw [List.getD_eq_getElem X 0 hik, List.getD_eq_getElem X 0 hkk] at he
      have := (List.Nodup.getElem_inj_iff hX).mp he
      omega
    refine ⟨?_, ?_, ?_⟩
    · intro i hi
      rw [hP, hA]
      by_cases hik : i = k
      · subst hik
        simp
      · have hlt : i < k := by omega
        rw [Function.update_noteq (hdist i hlt), Function.update_noteq (hdist i hlt)]
        exact a1 i hlt
    · intro i hi
      rw [hM, hC]
      by_cases hik : i = k
      · subst hik
        refine ⟨acc.2 (PL i), ?_, ?_⟩
        · rw [Function.update_same]
          omega
        · rw [Function.update_same, Function.update_same]
      · have hlt : i < k := by omega
        obtain ⟨j, hj, hc⟩ := a2 i hlt
        refine ⟨j, ?_, ?_⟩
        · by_cases hp : PL i = PL k
          · rw [hp, Function.update_same]
            rw [hp] at hj
            omega
          · rw [Function.update_noteq hp]
            exact hj
        · by_cases hp : PL i = PL k
          · rw [hp, Function.update_same]
            rw [hp] at hj hc
            rw [Function.update_noteq (by omega)]
            exact hc
          · rw [Function.update_noteq hp]
            exact hc
    · intro c hc
      rw [hM] at hc ⊢
      rw [hN]
      by_cases hp : c = PL k
      · subst hp
        rw [Function.update_same, Function.update_same]
      · rw [Function.update_noteq hp] at hc ⊢
        rw [Function.update_noteq hp]
        exact a3 c hc

/-! ## Claims on the reconciliation of one marker pair -/

/-- C19: in the reconciliation of one marker pair with received parents `R` and coarse-CV count
`I` before it, two received parent IDs get the same local coarse index exactly when they are
equal; the local indices given are exactly those of `[I, I + k)`, with `k` the number of distinct
received parent IDs; a larger parent ID gets a larger local index; and the coarse-CV count
afterwards is `I + k`. -/
theorem reconcile_parent_remap (fg : FineGrid) (MarkerR : Nat) (R : List Nat) (st : MGState) :
    (∀ a b, a ∈ R → b ∈ R →
      (Parent_Local (Aux_Parent R) st.Index_CoarseCV a =
        Parent_Local (Aux_Parent R) st.Index_CoarseCV b ↔ a = b)) ∧
    (∀ j, (∃ a, a ∈ R ∧ Parent_Local (Aux_Parent R) st.Index_CoarseCV a = j) ↔
      (st.Index_CoarseCV ≤ j ∧ j < st.Index_CoarseCV + R.toFinset.card)) ∧
    (∀ a b, a ∈ R → b ∈ R →
      (a < b ↔ Parent_Local (Aux_Parent R) st.Index_CoarseCV a <
        Parent_Local (Aux_Parent R) st.Index_CoarseCV b)) ∧
    (reconcileWith fg MarkerR R st).Index_CoarseCV = st.Index_CoarseCV + R.toFinset.card := by
  refine ⟨?_, ?_, ?_, ?_⟩
  · intro a b ha hb
    unfold Parent_Local
    rw [Nat.add_right_cancel_iff]
    exact List.indexOf_inj ((mem_Aux_Parent R a).mpr ha) ((mem_Aux_Parent R b).mpr hb)
  · intro j
    unfold Parent_Local
    rw [← Aux_Parent_length]
    constructor
    · rintro ⟨a, ha, rfl⟩
      have := List.indexOf_lt_length.mpr ((mem_Aux_Parent R a).mpr ha)
      omega
    · rintro ⟨h1, h2⟩
      have hlt : j - st.Index_CoarseCV < (Aux_Parent R).length := by omega
      refine ⟨(Aux_Parent R)[j - st.Index_CoarseCV], ?_, ?_⟩
      · exact (mem_Aux_Parent R _).mp (List.getElem_mem hlt)
      · rw [List.indexOf_getElem (Aux_Parent_sorted R).nodup]
        omega
  · intro a b ha hb
    unfold Parent_Local
    rw [indexOf_lt_of_sorted (Aux_Parent_sorted R) ((mem_Aux_Parent R a).mpr ha)
      ((mem_Aux_Parent R b).mpr hb)]
    omega
  · unfold reconcileWith
    dsimp only
    rw [finalStructure_Index, Aux_Parent_length]

/-- Witness of C19: the received parents 7, 3, 7 get the local indices 1, 0, 1. -/
theorem reconcile_parent_remap_witness :
    (Parent_Local (Aux_Parent [7, 3, 7]) 0 7 = Parent_Local (Aux_Parent [7, 3, 7]) 0 3 ↔
      7 = 3) ∧
    (3 < 7 ↔ Parent_Local (Aux_Parent [7, 3, 7]) 0 3 < Parent_Local (Aux_Parent [7, 3, 7]) 0 7) :=
  ⟨(reconcile_parent_remap (plainGrid 0) 0 [7, 3, 7] (initState (plainGrid 0) (plainConfig 0) 1)).1
      7 3 (by decide) (by decide),
   (reconcile_parent_remap (plainGrid 0) 0 [7, 3, 7]
      (initState (plainGrid 0) (plainConfig 0) 1)).2.2.1 3 7 (by decide) (by decide)⟩

/-! ## The record of accepted seeds -/

/-- The state computed together with the record is the state of the pass. -/
theorem logSeed_fold_fst (accepted : MGState → Nat → Bool) (step : MGState → Nat → MGState)
    (l : List Nat) (acc : MGState × List Nat) :
    (l.foldl (logSeed accepted step) acc).1 = l.foldl step acc.1 := by
  induction l generalizing acc with
  | nil => rfl
  | cons a l ih =>
    simp only [List.foldl_cons]
    rw [ih]
    rfl

/-- The same over every marker and every vertex of it. -/
theorem logSeed_markers_fst (fg : FineGrid) (accepted : MGState → Nat → Bool)
    (step : Nat → MGState → Nat → MGState) (ms : List Nat) (acc : MGState × List Nat) :
    (ms.foldl (fun a iMarker =>
      (fg.vertex iMarker).foldl (logSeed accepted (step iMarker)) a) acc).1 =
    ms.foldl (fun s iMarker => (fg.vertex iMarker).foldl (step iMarker) s) acc.1 := by
  induction ms generalizing acc with
  | nil => rfl
  | cons m ms ih =>
    simp only [List.foldl_cons]
    rw [ih, logSeed_fold_fst]

/-- The state and queue computed together with the record are those of the interior loop. -/
theorem interiorLoop_log_fst (fg : FineGrid) (fuel : Nat) (a : (MGState × MGQueue) × List Nat) :
    (interiorLoop_log fg fuel a).1 = interiorLoop fg fuel a.1 := by
  induction fuel generalizing a with
  | zero => rfl
  | succ fuel ih =>
    unfold interiorLoop_log interiorLoop
    cases hq : a.1.2.EmptyQueue with
    | true => simp
    | false =>
      simp only [Bool.false_eq_true, if_false]
      rw [ih]

/-- The passes run with the record compute the state of the passes. -/
theorem passesWithLog_fst (fg : FineGrid) (cfg : Config) (iMesh : Nat) :
    (passesWithLog fg cfg iMesh).1 = agglomerationPasses fg cfg iMesh := by
  unfold passesWithLog agglomerationPasses LeftoverSweep InteriorSeeding BoundarySingletons
    BoundarySeeding
  dsimp only
  rw [logSeed_fold_fst, interiorLoop_log_fst, logSeed_markers_fst fg (singletonAccepted fg)
    (fun _ => singletonSeed fg), logSeed_markers_fst fg (seedAccepted fg) (boundSeed fg cfg)]

/-- Taking an unagglomerated point into the opened coarse point. -/
theorem Opened.take_child {st0 st2 : MGState} {p : Nat} {acc : MGState × Nat}
    (h : Opened st0 p acc) (x : Nat) (hx : acc.1.fAgglomerate x = false)
    (hA : st2.fAgglomerate = Function.update acc.1.fAgglomerate x true)
    (hP : st2.fParent_CV = Function.update acc.1.fParent_CV x acc.1.Index_CoarseCV)
    (hC : st2.Children_CV = Function.update acc.1.Children_CV acc.1.Index_CoarseCV
      (Function.update (acc.1.Children_CV acc.1.Index_CoarseCV) acc.2 x))
    (hN : st2.nChildren_CV = acc.1.nChildren_CV)
    (hI : st2.Index_CoarseCV = acc.1.Index_CoarseCV) : Opened st0 p (st2, acc.2 + 1) := by
  have hxp : x ≠ p := by
    rintro rfl
    rw [h.agg] at hx
    exact Bool.noConfusion hx
  have hpos := h.pos
  refine ⟨hI.trans h.idx, Nat.le_add_left 1 acc.2, ?_, ?_, ?_, hN.trans h.nch, ?_, ?_⟩
  · show st2.Children_CV st0.Index_CoarseCV 0 = p
    rw [hC, h.idx, Function.update_same, Function.update_noteq (by omega)]
    exact h.seed
  · show st2.fAgglomerate p = true
    rw [hA, Function.update_noteq hxp.symm]
    exact h.agg
  · show st2.fParent_CV p = st0.Index_CoarseCV
    rw [hP, Function.update_noteq hxp.symm]
    exact h.par
  · intro c hc
    show st2.Children_CV c = st0.Children_CV c
    rw [hC, h.idx, Function.update_noteq hc]
    exact h.low c hc
  · intro y hy
    obtain ⟨k1, k2⟩ := h.keep y hy
    have hyx : y ≠ x := by
      rintro rfl
      rw [k1] at hx
      exact Bool.noConfusion hx
    show st2.fAgglomerate y = true ∧ st2.fParent_CV y = st0.fParent_CV y
    rw [hA, hP, Function.update_noteq hyx, Function.update_noteq hyx]
    exact ⟨k1, k2⟩

/-- Opening a coarse point with an unagglomerated seed. -/
theorem Opened.start (st : MGState) (p : Nat) (hp : st.fAgglomerate p = false) :
    Opened st p
      ((st.SetParent_CV p st.Index_CoarseCV).SetChildren_CV st.Index_CoarseCV 0 p, 1) := by
  refine ⟨rfl, le_refl 1, ?_, ?_, ?_, rfl, ?_, ?_⟩
  · simp [MGState.SetParent_CV, MGState.SetChildren_CV]
  · simp [MGState.SetParent_CV, MGState.SetChildren_CV]
  · simp [MGState.SetParent_CV, MGState.SetChildren_CV]
  · intro c hc
    simp [MGState.SetParent_CV, MGState.SetChildren_CV, Function.update_noteq hc]
  · intro x hx
    have hxp : x ≠ p := by
      rintro rfl
      rw [hp] at hx
      exact Bool.noConfusion hx
    simp [MGState.SetParent_CV, MGState.SetChildren_CV, Function.update_noteq hxp, hx]

/-- Closing the opened coarse point appends its seed to the record. -/
theorem LInv.closed {st0 st2 : MGState} {log : List Nat} {p : Nat} {acc : MGState × Nat}
    (h : LInv st0 log) (ho : Opened st0 p acc)
    (hA : st2.fAgglomerate = acc.1.fAgglomerate) (hP : st2.fParent_CV = acc.1.fParent_CV)
    (hC : st2.Children_CV = acc.1.Children_CV)
    (hN : st2.nChildren_CV = Function.update acc.1.nChildren_CV acc.1.Index_CoarseCV acc.2)
    (hI : st2.Index_CoarseCV = acc.1.Index_CoarseCV + 1) : LInv st2 (log ++ [p]) := by
  obtain ⟨h1, h2⟩ := h
  have hK : acc.1.Index_CoarseCV = log.length := ho.idx.trans h1
  refine ⟨by rw [hI, hK]; simp, ?_⟩
  intro n hn
  rw [hA, hP, hC, hN, hK]
  by_cases hnl : n < log.length
  · have hne : n ≠ log.length := by omega
    have hne2 : n ≠ st0.Index_CoarseCV := by omega
    rw [List.getD_append _ _ _ _ hnl, Function.update_noteq hne, ho.nch, ho.low n hne2]
    obtain ⟨a1, a2, a3, a4⟩ := h2 n hnl
    obtain ⟨k1, k2⟩ := ho.keep _ a3
    exact ⟨a1, a2, k1, k2.trans a4⟩
  · have hnl2 : n = log.length := by
      simp only [List.length_append, List.length_singleton] at hn
      omega
    subst hnl2
    have hget : (log ++ [p]).getD log.length 0 = p := by
      rw [List.getD_append_right _ _ _ _ (le_refl _)]
      simp
    rw [hget, Function.update_same, ← h1]
    exact ⟨ho.seed, ho.pos, ho.agg, ho.par⟩

/-- One direct neighbour of a boundary seed keeps the opened coarse point in order. -/
theorem boundDirectStep_opened {fg : FineGrid} {cfg : Config} {st0 : MGState} {p seed : Nat}
    (acc : MGState × Nat) (x : Nat) (h : Opened st0 p acc) :
    Opened st0 p (boundDirectStep fg cfg seed acc x) := by
  unfold boundDirectStep
  split
  · rename_i hacc
    exact h.take_child x (SetBoundAgglomeration_unagg hacc) rfl rfl rfl rfl rfl
  · exact h

/-- One indirect neighbour of a boundary seed keeps the opened coarse point in order. -/
theorem boundIndirectStep_opened {fg : FineGrid} {cfg : Config} {st0 : MGState} {p seed : Nat}
    (acc : MGState × Nat) (x : Nat) (h : Opened st0 p acc) :
    Opened st0 p (boundIndirectStep fg cfg seed acc x) := by
  unfold boundIndirectStep
  split
  · rename_i hacc
    by_cases hi : (acc.1.SetParent_CV x acc.1.Index_CoarseCV).fIndirect x = true
    · simp only [hi, if_true]
      exact h.take_child x (SetBoundAgglomeration_unagg hacc) rfl rfl rfl rfl rfl
    · simp only [hi, if_false]
      exact h.take_child x (SetBoundAgglomeration_unagg hacc) rfl rfl rfl rfl rfl
  · exact h

/-- The body of the first boundary pass appends its candidate to the record exactly when the
seed test accepts it. -/
theorem boundSeed_log {fg : FineGrid} {cfg : Config} {st : MGState} {log : List Nat}
    (iMarker iPoint : Nat) (h : LInv st log) :
    LInv (boundSeed fg cfg iMarker st iPoint)
      (if seedAccepted fg st iPoint then log ++ [iPoint] else log) := by
  unfold boundSeed seedAccepted
  split
  · rename_i hcond
    have hp : st.fAgglomerate iPoint = false := by
      cases hA : st.fAgglomerate iPoint with
      | false => rfl
      | true => simp [hA] at hcond
    have h1 := Opened.start st iPoint hp
    by_cases hseed : agglomerate_seed fg cfg iPoint = true
    · simp only [hseed, if_true]
      have h2 := foldl_inv (Opened st iPoint) (boundDirectStep fg cfg iMarker)
        (fg.Point iPoint) _ h1 (fun acc x _ hacc => boundDirectStep_opened acc x hacc)
      have h3 : ∀ l : List Nat, Opened st iPoint (l.foldl (boundIndirectStep fg cfg iMarker)
          ((fg.Point iPoint).foldl (boundDirectStep fg cfg iMarker)
            ((st.SetParent_CV iPoint st.Index_CoarseCV).SetChildren_CV
              st.Index_CoarseCV 0 iPoint, 1))) := by
        intro l
        exact foldl_inv (Opened st iPoint) (boundIndirectStep fg cfg iMarker) l _ h2
          (fun acc x _ hacc => boundIndirectStep_opened acc x hacc)
      split
      · exact h.closed (h3 _) rfl rfl rfl rfl rfl
      · exact h.closed (h3 []) rfl rfl rfl rfl rfl
    · simp only [hseed]
      exact h.closed h1 rfl rfl rfl rfl rfl
  · exact h

/-- The body of the second boundary pass appends its candidate to the record exactly when the
seed test accepts it. -/
theorem singletonSeed_log {fg : FineGrid} {st : MGState} {log : List Nat}
    (iPoint : Nat) (h : LInv st log) :
    LInv (singletonSeed fg st iPoint)
      (if singletonAccepted fg st iPoint then log ++ [iPoint] else log) := by
  unfold singletonSeed singletonAccepted
  split
  · rename_i hcond
    have hp : st.fAgglomerate iPoint = false := by
      cases hA : st.fAgglomerate iPoint with
      | false => rfl
      | true => simp [hA] at hcond
    exact h.closed (Opened.start st iPoint hp) rfl rfl rfl rfl rfl
  · exact h

/-- The body of the leftover sweep appends its candidate to the record exactly when the seed
test accepts it. -/
theorem leftoverStep_log {fg : FineGrid} {st : MGState} {log : List Nat}
    (iPoint : Nat) (h : LInv st log) :
    LInv (leftoverStep fg st iPoint)
      (if singletonAccepted fg st iPoint then log ++ [iPoint] else log) := by
  unfold leftoverStep singletonAccepted
  split
  · rename_i hcond
    have hp : st.fAgglomerate iPoint = false := by
      cases hA : st.fAgglomerate iPoint with
      | false => rfl
      | true => simp [hA] at hcond
    have h0 := Opened.start st iPoint hp
    by_cases hi : (st.SetParent_CV iPoint st.Index_CoarseCV).fIndirect iPoint = true
    · simp only [hi, if_true]
      exact @LInv.closed st _ log iPoint ((st.SetParent_CV iPoint st.Index_CoarseCV).SetChildren_CV
        st.Index_CoarseCV 0 iPoint, 1) h h0 rfl rfl rfl rfl rfl
    · simp only [hi, if_false]
      exact h.closed h0 rfl rfl rfl rfl rfl
  · exact h

/-- One direct neighbour of an interior seed keeps the opened coarse point in order. -/
theorem interiorDirectStep_opened {fg : FineGrid} {st0 : MGState} {p : Nat}
    (acc : MGState × MGQueue × Nat) (x : Nat) (h : Opened st0 p (acc.1, acc.2.2)) :
    Opened st0 p ((interiorDirectStep fg acc x).1, (interiorDirectStep fg acc x).2.2) := by
  unfold interiorDirectStep
  split
  · rename_i hcond
    simp only [Bool.and_eq_true, beq_iff_eq] at hcond
    exact @Opened.take_child st0 _ p (acc.1, acc.2.2) h x hcond.1.1 rfl rfl rfl rfl rfl
  · exact h

/-- One indirect neighbour of an interior seed keeps the opened coarse point in order. -/
theorem interiorIndirectStep_opened {fg : FineGrid} {st0 : MGState} {p : Nat}
    (acc : MGState × MGQueue × Nat) (x : Nat) (h : Opened st0 p (acc.1, acc.2.2)) :
    Opened st0 p ((interiorIndirectStep fg acc x).1, (interiorIndirectStep fg acc x).2.2) := by
  unfold interiorIndirectStep
  split
  · rename_i hcond
    simp only [Bool.and_eq_true, beq_iff_eq] at hcond
    by_cases hi : (acc.1.SetParent_CV x acc.1.Index_CoarseCV).fIndirect x = true
    · simp only [hi, if_true]
      exact @Opened.take_child st0 _ p (acc.1, acc.2.2) h x hcond.1 rfl rfl rfl rfl rfl
    · simp only [hi, if_false]
      exact @Opened.take_child st0 _ p (acc.1, acc.2.2) h x hcond.1 rfl rfl rfl rfl rfl
  · exact h

/-- The body of the interior loop appends the point taken from the queue to the record exactly
when the seed test accepts it. -/
theorem interiorBody_log {fg : FineGrid} {sq : MGState × MGQueue} {log : List Nat}
    (h : LInv sq.1 log) :
    LInv (interiorBody fg sq).1
      (if seedAccepted fg sq.1 sq.2.NextCV then log ++ [sq.2.NextCV] else log) := by
  unfold interiorBody seedAccepted
  simp only
  split
  · rename_i hcond
    have hp : sq.1.fAgglomerate sq.2.NextCV = false := by
      cases hA : sq.1.fAgglomerate sq.2.NextCV with
      | false => rfl
      | true => simp [hA] at hcond
    have h1 := Opened.start sq.1 sq.2.NextCV hp
    have h2 := foldl_inv
      (fun acc : MGState × MGQueue × Nat => Opened sq.1 sq.2.NextCV (acc.1, acc.2.2))
      (interiorDirectStep fg) (fg.Point sq.2.NextCV)
      ((sq.1.SetParent_CV sq.2.NextCV sq.1.Index_CoarseCV).SetChildren_CV
          sq.1.Index_CoarseCV 0 sq.2.NextCV, sq.2.Update sq.2.NextCV fg, 1)
      h1 (fun acc x _ hacc => interiorDirectStep_opened acc x hacc)
    have h3 : ∀ l : List Nat,
        (fun acc : MGState × MGQueue × Nat => Opened sq.1 sq.2.NextCV (acc.1, acc.2.2))
        (l.foldl (interiorIndirectStep fg) ((fg.Point sq.2.NextCV).foldl (interiorDirectStep fg)
          ((sq.1.SetParent_CV sq.2.NextCV sq.1.Index_CoarseCV).SetChildren_CV
            sq.1.Index_CoarseCV 0 sq.2.NextCV, sq.2.Update sq.2.NextCV fg, 1))) := by
      intro l
      exact foldl_inv
        (fun acc : MGState × MGQueue × Nat => Opened sq.1 sq.2.NextCV (acc.1, acc.2.2))
        (interiorIndirectStep fg) l _ h2
        (fun acc x _ hacc => interiorIndirectStep_opened acc x hacc)
    split
    · exact h.closed (h3 _) rfl rfl rfl rfl rfl
    · exact h.closed (h3 []) rfl rfl rfl rfl rfl
  · exact h

/-- A pass body run with the record keeps the record in line with the state. -/
theorem logSeed_fold_inv (accepted : MGState → Nat → Bool) (step : MGState → Nat → MGState)
    (hstep : ∀ st log p, LInv st log →
      LInv (step st p) (if accepted st p then log ++ [p] else log))
    (l : List Nat) (acc : MGState × List Nat) (h : LInv acc.1 acc.2) :
    LInv (l.foldl (logSeed accepted step) acc).1 (l.foldl (logSeed accepted step) acc).2 := by
  apply foldl_inv (fun a : MGState × List Nat => LInv a.1 a.2) _ _ _ h
  intro a p _ ha
  exact hstep a.1 a.2 p ha

/-- The interior loop run with the record keeps the record in line with the state. -/
theorem interiorLoop_log_inv (fg : FineGrid) (fuel : Nat) (a : (MGState × MGQueue) × List Nat)
    (h : LInv a.1.1 a.2) :
    LInv (interiorLoop_log fg fuel a).1.1 (interiorLoop_log fg fuel a).2 := by
  induction fuel generalizing a with
  | zero => exact h
  | succ fuel ih =>
    unfold interiorLoop_log
    cases hq : a.1.2.EmptyQueue with
    | true => exact h
    | false =>
      simp only [Bool.false_eq_true, if_false]
      exact ih _ (interiorBody_log h)

/-- After the three passes the record lists the seeds of the coarse points in the order of
their indices. -/
theorem passesWithLog_inv (fg : FineGrid) (cfg : Config) (iMesh : Nat) :
    LInv (passesWithLog fg cfg iMesh).1 (passesWithLog fg cfg iMesh).2 := by
  unfold passesWithLog
  dsimp only
  have h0 : LInv (initState fg cfg iMesh) [] :=
    ⟨rfl, fun n hn => absurd hn (Nat.not_lt_zero n)⟩
  have h1 := foldl_inv (fun a : MGState × List Nat => LInv a.1 a.2)
    (fun a iMarker =>
      (fg.vertex iMarker).foldl (logSeed (seedAccepted fg) (boundSeed fg cfg iMarker)) a)
    (List.range fg.nMarker) (initState fg cfg iMesh, []) h0
    (fun a m _ ha => logSeed_fold_inv (seedAccepted fg) (boundSeed fg cfg m)
      (fun st log p hl => boundSeed_log m p hl) (fg.vertex m) a ha)
  have h2 := foldl_inv (fun a : MGState × List Nat => LInv a.1 a.2)
    (fun a iMarker =>
      (fg.vertex iMarker).foldl (logSeed (singletonAccepted fg) (singletonSeed fg)) a)
    (List.range fg.nMarker) _ h1
    (fun a m _ ha => logSeed_fold_inv (singletonAccepted fg) (singletonSeed fg)
      (fun st log p hl => singletonSeed_log p hl) (fg.vertex m) a ha)
  apply logSeed_fold_inv (singletonAccepted fg) (leftoverStep fg)
    (fun st log p hl => leftoverStep_log p hl)
  apply interiorLoop_log_inv
  exact h2

/-! ## Frame of the hanging-node repair -/

/-- The projection of the fine adjacency writes the coarse adjacency only. -/
theorem projectAdjacency_frame (fg : FineGrid) (n : Nat) (st : MGState) :
    (projectAdjacency fg n st).fAgglomerate = st.fAgglomerate ∧
    (projectAdjacency fg n st).fParent_CV = st.fParent_CV ∧
    (projectAdjacency fg n st).Children_CV = st.Children_CV ∧
    (projectAdjacency fg n st).nChildren_CV = st.nChildren_CV ∧
    (projectAdjacency fg n st).Index_CoarseCV = st.Index_CoarseCV ∧
    (projectAdjacency fg n st).nPointDomain = st.nPointDomain := by
  unfold projectAdjacency
  apply foldl_inv (fun s : MGState => s.fAgglomerate = st.fAgglomerate ∧
    s.fParent_CV = st.fParent_CV ∧ s.Children_CV = st.Children_CV ∧
    s.nChildren_CV = st.nChildren_CV ∧ s.Index_CoarseCV = st.Index_CoarseCV ∧
    s.nPointDomain = st.nPointDomain) _ _ _ ⟨rfl, rfl, rfl, rfl, rfl, rfl⟩
  intro s c _ hs
  apply foldl_inv (fun s : MGState => s.fAgglomerate = st.fAgglomerate ∧
    s.fParent_CV = st.fParent_CV ∧ s.Children_CV = st.Children_CV ∧
    s.nChildren_CV = st.nChildren_CV ∧ s.Index_CoarseCV = st.Index_CoarseCV ∧
    s.nPointDomain = st.nPointDomain) _ _ _ hs
  intro s2 i _ hs2
  apply foldl_inv (fun s : MGState => s.fAgglomerate = st.fAgglomerate ∧
    s.fParent_CV = st.fParent_CV ∧ s.Children_CV = st.Children_CV ∧
    s.nChildren_CV = st.nChildren_CV ∧ s.Index_CoarseCV = st.Index_CoarseCV ∧
    s.nPointDomain = st.nPointDomain) _ _ _ hs2
  intro s3 q _ hs3
  simp only
  split
  · obtain ⟨f1, f2, f3, f4, f5, f6⟩ := SetPoint_frame s3 c (s3.fParent_CV q)
    obtain ⟨g1, g2, g3, g4, g5, g6⟩ := hs3
    exact ⟨f1.trans g1, f2.trans g2, f3.trans g3, f4.trans g4, f5.trans g5, f6.trans g6⟩
  · exact hs3

/-- The child counts after the body of the merge loop; the coarse adjacency and the counters are
not written. -/
theorem mergeIsolated_frame (st : MGState) (c : Nat) :
    (mergeIsolated st c).cPoint = st.cPoint ∧
    (mergeIsolated st c).Index_CoarseCV = st.Index_CoarseCV ∧
    (mergeIsolated st c).nPointDomain = st.nPointDomain ∧
    (mergeIsolated st c).nChildren_CV =
      if (st.cPoint c).length = 1 then
        Function.update (Function.update st.nChildren_CV ((st.cPoint c).getD 0 0)
          (st.nChildren_CV ((st.cPoint c).getD 0 0) + st.nChildren_CV c)) c 0
      else st.nChildren_CV := by
  unfold mergeIsolated
  split
  · dsimp only
    have key := foldl_range_inv
      (fun k (acc : MGState × Nat) =>
        acc.1.cPoint = st.cPoint ∧ acc.1.Index_CoarseCV = st.Index_CoarseCV ∧
        acc.1.nPointDomain = st.nPointDomain ∧ acc.1.nChildren_CV = st.nChildren_CV ∧
        acc.2 = st.nChildren_CV ((st.cPoint c).getD 0 0) + k)
      (mergeChild c ((st.cPoint c).getD 0 0)) (st.nChildren_CV c)
      (st, st.nChildren_CV ((st.cPoint c).getD 0 0)) ⟨rfl, rfl, rfl, rfl, rfl⟩
      (fun k acc _ ⟨a1, a2, a3, a4, a5⟩ =>
        ⟨a1, a2, a3, a4, by show acc.2 + 1 = _; omega⟩)
    obtain ⟨k1, k2, k3, k4, k5⟩ := key
    refine ⟨k1, k2, k3, ?_⟩
    simp only [MGState.SetnChildren_CV, k4, k5]
  · exact ⟨rfl, rfl, rfl, rfl⟩

/-- The hanging-node repair as the merge loop run on the projected state, with the coarse
adjacency cleared afterwards. -/
theorem repaired_eq (fg : FineGrid) (cfg : Config) (iMesh : Nat) :
    repaired fg cfg iMesh =
      resetPoints ((List.range (agglomerationPasses fg cfg iMesh).Index_CoarseCV).foldl
        mergeIsolated (projected fg cfg iMesh)) := by
  unfold repaired HangingNodeRepair projected
  dsimp only
  rw [(projectAdjacency_frame fg _ _).2.2.2.2.2]

/-- The merge loop leaves the coarse adjacency and the counters alone. -/
theorem mergeLoop_frame (l : List Nat) (st : MGState) :
    (l.foldl mergeIsolated st).cPoint = st.cPoint ∧
    (l.foldl mergeIsolated st).Index_CoarseCV = st.Index_CoarseCV ∧
    (l.foldl mergeIsolated st).nPointDomain = st.nPointDomain := by
  apply foldl_inv (fun s : MGState => s.cPoint = st.cPoint ∧
    s.Index_CoarseCV = st.Index_CoarseCV ∧ s.nPointDomain = st.nPointDomain) _ _ _
    ⟨rfl, rfl, rfl⟩
  intro s c _ ⟨a1, a2, a3⟩
  obtain ⟨f1, f2, f3, _⟩ := mergeIsolated_frame s c
  exact ⟨f1.trans a1, f2.trans a2, f3.trans a3⟩

/-- The repair sets `nPointDomain` to the coarse index counter of the passes. -/
theorem repaired_nPointDomain (fg : FineGrid) (cfg : Config) (iMesh : Nat) :
    (repaired fg cfg iMesh).nPointDomain = (agglomerationPasses fg cfg iMesh).Index_CoarseCV := by
  rw [repaired_eq]
  show ((List.range _).foldl mergeIsolated (projected fg cfg iMesh)).nPointDomain = _
  rw [(mergeLoop_frame _ _).2.2]
  unfold projected
  rw [(projectAdjacency_frame fg _ _).2.2.2.2.2]

/-- A coarse point left without children by the merge loop had exactly one coarse neighbour,
when every coarse point below `K` had a child before the loop. -/
theorem mergeLoop_empty (K : Nat) (l : List Nat) (st : MGState)
    (h : ∀ c, c < K → 1 ≤ st.nChildren_CV c) (c : Nat) (hc : c < K)
    (h0 : (l.foldl mergeIsolated st).nChildren_CV c = 0) : (st.cPoint c).length = 1 := by
  have key := foldl_inv (fun s : MGState => s.cPoint = st.cPoint ∧
      ∀ x, x < K → s.nChildren_CV x = 0 → (st.cPoint x).length = 1) mergeIsolated l st
    ⟨rfl, fun x hx h0x => by have := h x hx; omega⟩ ?_
  · exact key.2 c hc h0
  · intro s c2 _ ⟨a1, a2⟩
    obtain ⟨f1, _, _, f4⟩ := mergeIsolated_frame s c2
    refine ⟨f1.trans a1, ?_⟩
    intro x hx h0x
    rw [f4] at h0x
    split at h0x
    · rename_i hiso
      by_cases hxc : x = c2
      · subst hxc
        rw [← a1]
        exact hiso
      · rw [Function.update_noteq hxc] at h0x
        by_cases hxT : x = (s.cPoint c2).getD 0 0
        · rw [← hxT, Function.update_same] at h0x
          exact a2 x hx (by omega)
        · rw [Function.update_noteq hxT] at h0x
          exact a2 x hx h0x
    · exact a2 x hx h0x

/-! ## Claims on the coarse index counter and on empty coarse CVs -/

/-- C16: `nPointDomain` is the number of seeds accepted by the boundary passes, the interior
pass and the leftover sweep. The record of the seeds that passed the seed test of their pass, in
the order of acceptance, has `nPointDomain` entries; the seed accepted as number `n` (from 0) is
child 0 of coarse point `n` and has parent `n`; and no point is accepted twice. -/
theorem seeds_counted (fg : FineGrid) (cfg : Config) (iMesh : Nat) :
    (passesWithLog fg cfg iMesh).1 = agglomerationPasses fg cfg iMesh ∧
    (agglomerationPasses fg cfg iMesh).Index_CoarseCV = (passesWithLog fg cfg iMesh).2.length ∧
    (repaired fg cfg iMesh).nPointDomain = (passesWithLog fg cfg iMesh).2.length ∧
    (∀ n, n < (passesWithLog fg cfg iMesh).2.length →
      (agglomerationPasses fg cfg iMesh).Children_CV n 0 =
        (passesWithLog fg cfg iMesh).2.getD n 0 ∧
      (agglomerationPasses fg cfg iMesh).fParent_CV ((passesWithLog fg cfg iMesh).2.getD n 0)
        = n) ∧
    (passesWithLog fg cfg iMesh).2.Nodup := by
  have hl := passesWithLog_inv fg cfg iMesh
  rw [passesWithLog_fst] at hl
  obtain ⟨h1, h2⟩ := hl
  refine ⟨passesWithLog_fst fg cfg iMesh, h1, (repaired_nPointDomain fg cfg iMesh).trans h1,
    fun n hn => ⟨(h2 n hn).1, (h2 n hn).2.2.2⟩, ?_⟩
  rw [List.nodup_iff_injective_get]
  intro a b hab
  have ha := (h2 a.1 a.2).2.2.2
  have hb := (h2 b.1 b.2).2.2.2
  rw [List.getD_eq_getElem _ 0 a.2] at ha
  rw [List.getD_eq_getElem _ 0 b.2] at hb
  have hab2 : (passesWithLog fg cfg iMesh).2[a.1] = (passesWithLog fg cfg iMesh).2[b.1] := hab
  rw [hab2] at ha
  exact Fin.ext (ha.symm.trans hb)

/-- Witness of C16: three points in a row give two seeds, the first of which is point 0. -/
theorem seeds_counted_witness :
    (passesWithLog pathGrid (plainConfig 0) 1).2.length = 2 ∧
    (agglomerationPasses pathGrid (plainConfig 0) 1).Children_CV 0 0 =
      (passesWithLog pathGrid (plainConfig 0) 1).2.getD 0 0 ∧
    (agglomerationPasses pathGrid (plainConfig 0) 1).fParent_CV
      ((passesWithLog pathGrid (plainConfig 0) 1).2.getD 0 0) = 0 :=
  ⟨by decide, (seeds_counted pathGrid (plainConfig 0) 1).2.2.2.1 0 (by decide)⟩

/-- C17: immediately after the leftover sweep every coarse CV with index below the coarse index
counter (the value given to `nPointDomain`) has at least one child, and its child 0 is its seed;
after the hanging-node repair a coarse CV with index below `nPointDomain` that has no children
is one that had exactly one coarse neighbour in the projected adjacency, that is, an isolated CV
that the merge loop emptied into its neighbour. -/
theorem children_nonempty (fg : FineGrid) (cfg : Config) (iMesh : Nat) :
    (∀ c, c < (agglomerationPasses fg cfg iMesh).Index_CoarseCV →
      1 ≤ (agglomerationPasses fg cfg iMesh).nChildren_CV c ∧
      (agglomerationPasses fg cfg iMesh).Children_CV c 0 =
        (passesWithLog fg cfg iMesh).2.getD c 0) ∧
    (∀ c, c < (repaired fg cfg iMesh).nPointDomain →
      (repaired fg cfg iMesh).nChildren_CV c = 0 →
      ((projected fg cfg iMesh).cPoint c).length = 1) := by
  have hl := passesWithLog_inv fg cfg iMesh
  rw [passesWithLog_fst] at hl
  obtain ⟨h1, h2⟩ := hl
  have hfirst : ∀ c, c < (agglomerationPasses fg cfg iMesh).Index_CoarseCV →
      1 ≤ (agglomerationPasses fg cfg iMesh).nChildren_CV c ∧
      (agglomerationPasses fg cfg iMesh).Children_CV c 0 =
        (passesWithLog fg cfg iMesh).2.getD c 0 := by
    intro c hc
    rw [h1] at hc
    exact ⟨(h2 c hc).2.1, (h2 c hc).1⟩
  refine ⟨hfirst, ?_⟩
  intro c hc h0
  rw [repaired_nPointDomain] at hc
  rw [repaired_eq] at h0
  have h0b : ((List.range (agglomerationPasses fg cfg iMesh).Index_CoarseCV).foldl
      mergeIsolated (projected fg cfg iMesh)).nChildren_CV c = 0 := h0
  apply mergeLoop_empty (agglomerationPasses fg cfg iMesh).Index_CoarseCV _ _ _ c hc h0b
  intro x hx
  unfold projected
  rw [(projectAdjacency_frame fg _ _).2.2.2.1]
  exact (hfirst x hx).1

/-- Witness of C17: on three points in a row, coarse CV 1 is empty after the repair and had
exactly one coarse neighbour. -/
theorem children_nonempty_witness :
    (1 ≤ (agglomerationPasses pathGrid (plainConfig 0) 1).nChildren_CV 1 ∧
      (agglomerationPasses pathGrid (plainConfig 0) 1).Children_CV 1 0 =
        (passesWithLog pathGrid (plainConfig 0) 1).2.getD 1 0) ∧
    (repaired pathGrid (plainConfig 0) 1).nChildren_CV 1 = 0 ∧
    ((projected pathGrid (plainConfig 0) 1).cPoint 1).length = 1 :=
  ⟨(children_nonempty pathGrid (plainConfig 0) 1).1 1 (by decide), by decide,
    (children_nonempty pathGrid (plainConfig 0) 1).2 1 (by decide) (by decide)⟩

/-! ## Closed form of the projected adjacency -/

/-- `SetPoint` as a replacement of one adjacency list. -/
theorem SetPoint_eq (st : MGState) (c m : Nat) :
    st.SetPoint c m = st.withPoint c (addNeighbour (st.cPoint c) m) := by
  unfold MGState.SetPoint MGState.withPoint addNeighbour
  split
  · rw [Function.update_eq_self]
  · rfl

/-- Replacing an adjacency list twice is replacing it once. -/
theorem withPoint_withPoint (st : MGState) (c : Nat) (l l2 : List Nat) :
    (st.withPoint c l).withPoint c l2 = st.withPoint c l2 := by
  unfold MGState.withPoint
  simp only [Function.update_idem]

/-- Replacing an adjacency list by itself changes nothing. -/
theorem withPoint_self (st : MGState) (c : Nat) : st.withPoint c (st.cPoint c) = st := by
  unfold MGState.withPoint
  rw [Function.update_eq_self]

/-- Membership in a list grown by `addNeighbour`. -/
theorem mem_foldl_addNeighbour (l init : List Nat) (m : Nat) :
    m ∈ l.foldl addNeighbour init ↔ m ∈ init ∨ m ∈ l := by
  induction l generalizing init with
  | nil => simp
  | cons a l ih =>
    rw [List.foldl_cons, ih]
    unfold addNeighbour
    split
    · rename_i hc
      have : a ∈ init := by simpa using hc
      constructor
      · rintro (h | h)
        · exact Or.inl h
        · exact Or.inr (List.mem_cons_of_mem _ h)
      · rintro (h | h)
        · exact Or.inl h
        · rcases List.mem_cons.mp h with rfl | h2
          · exact Or.inl this
          · exact Or.inr h2
    · simp only [List.mem_append, List.mem_singleton, List.mem_cons]
      tauto

/-- The list written by `withPoint`. -/
theorem withPoint_cPoint (st : MGState) (c : Nat) (l : List Nat) :
    (st.withPoint c l).cPoint c = l := by
  unfold MGState.withPoint
  simp

/-- The loop over the fine neighbours of one child (lines 387-393). -/
theorem projectNeighbours_eq (c : Nat) (qs : List Nat) (st : MGState) :
    qs.foldl (fun s3 iFinePoint_Neighbor =>
        let iParent := s3.fParent_CV iFinePoint_Neighbor
        if iParent ≠ c then s3.SetPoint c iParent else s3) st =
      st.withPoint c (((qs.map st.fParent_CV).filter (fun m => decide (m ≠ c))).foldl
        addNeighbour (st.cPoint c)) := by
  induction qs generalizing st with
  | nil => simp [withPoint_self]
  | cons q qs ih =>
    rw [List.foldl_cons]
    simp only
    by_cases hq : st.fParent_CV q ≠ c
    · have e : ((q :: qs).map st.fParent_CV).filter (fun m => decide (m ≠ c)) =
          st.fParent_CV q :: (qs.map st.fParent_CV).filter (fun m => decide (m ≠ c)) := by
        simp [List.filter_cons, hq]
      rw [if_pos hq, ih, SetPoint_eq, withPoint_withPoint, e, List.foldl_cons, withPoint_cPoint]
      rfl
    · have e : ((q :: qs).map st.fParent_CV).filter (fun m => decide (m ≠ c)) =
          (qs.map st.fParent_CV).filter (fun m => decide (m ≠ c)) := by
        simp only [ne_eq, not_not] at hq
        simp [List.filter_cons, hq]
      rw [if_neg hq, ih, e]

/-- The loop over the children of one coarse point (lines 385-394). -/
theorem projectChildren_eq (fg : FineGrid) (c : Nat) (l : List Nat) (st : MGState) :
    l.foldl (fun s2 iChildren =>
        (fg.Point (s2.Children_CV c iChildren)).foldl (fun s3 iFinePoint_Neighbor =>
          let iParent := s3.fParent_CV iFinePoint_Neighbor
          if iParent ≠ c then s3.SetPoint c iParent else s3) s2) st =
      st.withPoint c (((l.flatMap (fun i => (fg.Point (st.Children_CV c i)).map
        st.fParent_CV)).filter (fun m => decide (m ≠ c))).foldl addNeighbour (st.cPoint c)) := by
  induction l generalizing st with
  | nil => simp [withPoint_self]
  | cons i l ih =>
    rw [List.foldl_cons, projectNeighbours_eq, ih, withPoint_withPoint, withPoint_cPoint]
    simp only [List.flatMap_cons, List.filter_append, List.foldl_append]
    rfl

/-- Closed form of the projected adjacency: the list of a coarse point `c < n` is its old list
grown by the parents of the fine neighbours of its children; nothing else changes. -/
theorem projectAdjacency_cPoint (fg : FineGrid) (n : Nat) (st : MGState) (c : Nat) :
    (projectAdjacency fg n st).cPoint c =
      if c < n then (projectedParents fg st c).foldl addNeighbour (st.cPoint c)
      else st.cPoint c := by
  induction n with
  | zero => simp [projectAdjacency]
  | succ n ih =>
    have hstep : projectAdjacency fg (n + 1) st =
        (projectAdjacency fg n st).withPoint n
          ((projectedParents fg (projectAdjacency fg n st) n).foldl addNeighbour
            ((projectAdjacency fg n st).cPoint n)) := by
      unfold projectAdjacency
      rw [List.range_succ, List.foldl_append]
      simp only [List.foldl_cons, List.foldl_nil]
      rw [projectChildren_eq]
      rfl
    obtain ⟨_, f2, f3, f4, _, _⟩ := projectAdjacency_frame fg n st
    have hp : projectedParents fg (projectAdjacency fg n st) n = projectedParents fg st n := by
      unfold projectedParents
      rw [f2, f3, f4]
    rw [hstep, hp]
    show Function.update (projectAdjacency fg n st).cPoint n _ c = _
    by_cases hc : c = n
    · subst hc
      rw [Function.update_same, ih]
      simp
    · rw [Function.update_noteq hc, ih]
      by_cases h2 : c < n
      · rw [if_pos h2, if_pos (by omega)]
      · rw [if_neg h2, if_neg (by omega)]

/-- The parents collected for `c` depend only on the children of `c` and on the parents of their
fine neighbours. -/
theorem projectedParents_congr (fg : FineGrid) (a b : MGState) (c : Nat)
    (hn : a.nChildren_CV c = b.nChildren_CV c) (hc : a.Children_CV c = b.Children_CV c)
    (hp : ∀ i, i < b.nChildren_CV c → ∀ q, q ∈ fg.Point (b.Children_CV c i) →
      a.fParent_CV q = b.fParent_CV q) :
    projectedParents fg a c = projectedParents fg b c := by
  unfold projectedParents
  rw [hn, hc]
  congr 1
  rw [List.flatMap_def, List.flatMap_def]
  congr 1
  apply List.map_congr_left
  intro i hi
  apply List.map_congr_left
  intro q hq
  exact hp i (List.mem_range.mp hi) q hq

/-- A coarse point sees the parent of every fine neighbour of its children that lies in another
coarse point. -/
theorem mem_projectAdjacency (fg : FineGrid) (n : Nat) (st : MGState) (c i q : Nat)
    (hc : c < n) (hi : i < st.nChildren_CV c) (hq : q ∈ fg.Point (st.Children_CV c i))
    (hne : st.fParent_CV q ≠ c) : st.fParent_CV q ∈ (projectAdjacency fg n st).cPoint c := by
  rw [projectAdjacency_cPoint, if_pos hc, mem_foldl_addNeighbour]
  right
  unfold projectedParents
  rw [List.mem_filter]
  refine ⟨?_, by simpa using hne⟩
  rw [List.mem_flatMap]
  exact ⟨i, List.mem_range.mpr hi, List.mem_map.mpr ⟨q, hq, rfl⟩⟩

/-! ## What the merge loop moves -/

/-- The body of the merge loop writes child slots of the merge target only. -/
theorem mergeIsolated_children (st : MGState) (c X : Nat)
    (hX : X ≠ (st.cPoint c).getD 0 0) :
    (mergeIsolated st c).Children_CV X = st.Children_CV X := by
  unfold mergeIsolated
  split
  · dsimp only
    have key := foldl_inv (fun acc : MGState × Nat => acc.1.Children_CV X = st.Children_CV X)
      (mergeChild c ((st.cPoint c).getD 0 0)) (List.range (st.nChildren_CV c))
      (st, st.nChildren_CV ((st.cPoint c).getD 0 0)) rfl ?_
    · exact key
    · intro acc k _ hacc
      show Function.update acc.1.Children_CV ((st.cPoint c).getD 0 0) _ X = _
      rw [Function.update_noteq hX]
      exact hacc
  · rfl

/-- The body of the merge loop changes the parent only of children of an isolated coarse
point. -/
theorem mergeIsolated_moved {fg : FineGrid} {st : MGState} (c : Nat) (h : RInv fg st)
    (q : Nat) (hq : (mergeIsolated st c).fParent_CV q ≠ st.fParent_CV q) :
    (st.cPoint c).length = 1 ∧ st.fParent_CV q = c ∧ st.fAgglomerate q = true := by
  unfold mergeIsolated at hq
  split at hq
  · rename_i hlen
    refine ⟨hlen, ?_⟩
    have hmem : (st.cPoint c).getD 0 0 ∈ st.cPoint c := by
      rcases hc : st.cPoint c with _ | ⟨x, t⟩
      · rw [hc] at hlen
        simp at hlen
      · simp
    obtain ⟨hcT, hTK⟩ := h.adj c _ hmem
    generalize (st.cPoint c).getD 0 0 = T at hcT hTK hq
    dsimp only at hq
    have h0 : GInv st (mergeLive st c T 0) := by
      apply h.ginv.congr
      intro c2 i
      by_cases h1 : c2 = c
      · subst h1
        simp [mergeLive]
      · by_cases h2 : c2 = T
        · subst h2
          simp [mergeLive, h1]
        · simp [mergeLive, h1, h2]
    have key := foldl_range_inv
      (fun k (acc : MGState × Nat) =>
        (GInv acc.1 (mergeLive st c T k) ∧ acc.2 = st.nChildren_CV T + k ∧
          acc.1.nChildren_CV = st.nChildren_CV ∧ acc.1.Index_CoarseCV = st.Index_CoarseCV ∧
          acc.1.cPoint = st.cPoint ∧ acc.1.nPointDomain = st.nPointDomain ∧
          acc.1.fAgglomerate = st.fAgglomerate ∧
          (∀ p, acc.1.fAgglomerate p = false → acc.1.fParent_CV p = 0)) ∧
        ∀ p, acc.1.fParent_CV p ≠ st.fParent_CV p →
          st.fParent_CV p = c ∧ st.fAgglomerate p = true)
      (mergeChild c T) (st.nChildren_CV c) (st, st.nChildren_CV T)
      ⟨⟨h0, rfl, rfl, rfl, rfl, rfl, rfl, h.unagg⟩, fun p hp => absurd rfl hp⟩ ?_
    · exact key.2 q hq
    · intro k acc hk ⟨hacc, hN⟩
      refine ⟨mergeChild_inv hcT hk acc hacc, ?_⟩
      intro p hp
      have hlive : mergeLive st c T k c k := by
        simp only [mergeLive, if_true]
        exact ⟨le_refl k, hk⟩
      obtain ⟨ha, hpar⟩ := hacc.1.child c k hlive
      have hp2 : Function.update acc.1.fParent_CV (acc.1.Children_CV c k) T p ≠
          st.fParent_CV p := hp
      by_cases hpk : p = acc.1.Children_CV c k
      · by_cases hsame : acc.1.fParent_CV p = st.fParent_CV p
        · refine ⟨?_, ?_⟩
          · rw [← hsame, hpk]
            exact hpar
          · rw [← hacc.2.2.2.2.2.2.1, hpk]
            exact ha
        · exact hN p hsame
      · rw [Function.update_noteq hpk] at hp2
        exact hN p hp2
  · exact absurd rfl hq

/-- State of the merge loop after the coarse points below `k`, seen from a coarse point `X` that
is no merge target: the adjacency and the agglomeration flags are those of the start, a fine
point whose parent has changed was agglomerated with an isolated parent, the child slots of `X`
are untouched, and `X` has lost its children exactly if it is isolated and has had its turn. -/
theorem mergeLoop_untouched {fg : FineGrid} {s0 : MGState} (K X : Nat) (h : RInv fg s0)
    (hnt : ∀ c, c < K → (s0.cPoint c).length = 1 → (s0.cPoint c).getD 0 0 ≠ X) :
    (∀ q, ((List.range K).foldl mergeIsolated s0).fParent_CV q ≠ s0.fParent_CV q →
      s0.fAgglomerate q = true ∧ (s0.cPoint (s0.fParent_CV q)).length = 1) ∧
    ((List.range K).foldl mergeIsolated s0).Children_CV X = s0.Children_CV X ∧
    ((List.range K).foldl mergeIsolated s0).nChildren_CV X =
      if (s0.cPoint X).length = 1 ∧ X < K then 0 else s0.nChildren_CV X := by
  have key := foldl_range_inv
    (fun k (s : MGState) =>
      RInv fg s ∧ s.cPoint = s0.cPoint ∧ s.fAgglomerate = s0.fAgglomerate ∧
      (∀ q, s.fParent_CV q ≠ s0.fParent_CV q →
        s0.fAgglomerate q = true ∧ (s0.cPoint (s0.fParent_CV q)).length = 1) ∧
      s.Children_CV X = s0.Children_CV X ∧
      s.nChildren_CV X = if (s0.cPoint X).length = 1 ∧ X < k then 0 else s0.nChildren_CV X)
    mergeIsolated K s0 ⟨h, rfl, rfl, fun q hq => absurd rfl hq, rfl, by simp⟩ ?_
  · exact ⟨key.2.2.2.1, key.2.2.2.2.1, key.2.2.2.2.2⟩
  · intro k s hk ⟨hR, hP, hA, hM, hC, hN⟩
    obtain ⟨m1, m2, _, _⟩ := mergeIsolated_inv k hR
    obtain ⟨f1, _, _, f4⟩ := mergeIsolated_frame s k
    refine ⟨m1, f1.trans hP, m2.trans hA, ?_, ?_, ?_⟩
    · intro q hq
      by_cases hsame : (mergeIsolated s k).fParent_CV q = s.fParent_CV q
      · rw [hsame] at hq
        exact hM q hq
      · obtain ⟨e1, e2, e3⟩ := mergeIsolated_moved k hR q hsame
        by_cases hs0 : s.fParent_CV q = s0.fParent_CV q
        · rw [← hs0, e2, ← hP, ← hA]
          exact ⟨e3, e1⟩
        · exact hM q hs0
    · by_cases hiso : (s.cPoint k).length = 1
      · rw [mergeIsolated_children s k X, hC]
        rw [hP]
        rw [hP] at hiso
        exact (hnt k hk hiso).symm
      · unfold mergeIsolated
        rw [if_neg hiso]
        exact hC
    · rw [f4]
      by_cases hiso : (s.cPoint k).length = 1
      · rw [if_pos hiso]
        have hT : X ≠ (s.cPoint k).getD 0 0 := by
          rw [hP]
          rw [hP] at hiso
          exact (hnt k hk hiso).symm
        by_cases hXk : X = k
        · subst hXk
          rw [Function.update_same, if_pos]
          rw [hP] at hiso
          exact ⟨hiso, Nat.lt_succ_self X⟩
        · rw [Function.update_noteq hXk, Function.update_noteq hT, hN]
          have : X < k + 1 ↔ X < k := by omega
          simp only [this]
      · rw [if_neg hiso, hN]
        by_cases hXk : X = k
        · subst hXk
          rw [hP] at hiso
          rw [if_neg (fun hc => hiso hc.1), if_neg (fun hc => hiso hc.1)]
        · have : X < k + 1 ↔ X < k := by omega
          simp only [this]

/-- The projected state keeps the invariant of the repair, with the fine-point fields, the
children and the counters of the passes. -/
theorem projected_inv {fg : FineGrid} (cfg : Config) (iMesh : Nat) (hf : Fresh fg) :
    RInv fg (projected fg cfg iMesh) ∧
    (projected fg cfg iMesh).Index_CoarseCV = (agglomerationPasses fg cfg iMesh).Index_CoarseCV ∧
    (projected fg cfg iMesh).nPointDomain = (agglomerationPasses fg cfg iMesh).Index_CoarseCV := by
  obtain ⟨h1, _⟩ := agglomerationPasses_inv cfg iMesh hf
  have h0 : RInv fg { agglomerationPasses fg cfg iMesh with
      nPointDomain := (agglomerationPasses fg cfg iMesh).Index_CoarseCV } :=
    h1.toRInv.carry rfl rfl rfl rfl rfl rfl
  obtain ⟨p1, _, p3, p4⟩ := @projectAdjacency_inv fg
    { agglomerationPasses fg cfg iMesh with
      nPointDomain := (agglomerationPasses fg cfg iMesh).Index_CoarseCV }
    (agglomerationPasses fg cfg iMesh).Index_CoarseCV (le_refl _) h0
  exact ⟨p1, p3, p4⟩

/-- In the projected state a coarse point sees the parent of every fine neighbour of its
children that lies in another coarse point. -/
theorem mem_projected (fg : FineGrid) (cfg : Config) (iMesh : Nat) (c i q : Nat)
    (hc : c < (agglomerationPasses fg cfg iMesh).Index_CoarseCV)
    (hi : i < (projected fg cfg iMesh).nChildren_CV c)
    (hq : q ∈ fg.Point ((projected fg cfg iMesh).Children_CV c i))
    (hne : (projected fg cfg iMesh).fParent_CV q ≠ c) :
    (projected fg cfg iMesh).fParent_CV q ∈ (projected fg cfg iMesh).cPoint c := by
  unfold projected at hi hq hne ⊢
  obtain ⟨_, f2, f3, f4, _, _⟩ := projectAdjacency_frame fg
    (agglomerationPasses fg cfg iMesh).Index_CoarseCV
    { agglomerationPasses fg cfg iMesh with
      nPointDomain := (agglomerationPasses fg cfg iMesh).Index_CoarseCV }
  rw [f4] at hi
  rw [f3] at hq
  rw [f2] at hne ⊢
  exact mem_projectAdjacency fg _ _ c i q hc hi hq hne

/-- Closed form of the adjacency of the projected state on a fresh fine grid. -/
theorem projected_cPoint {fg : FineGrid} (cfg : Config) (iMesh : Nat) (hf : Fresh fg) (c : Nat)
    (hc : c < (agglomerationPasses fg cfg iMesh).Index_CoarseCV) :
    (projected fg cfg iMesh).cPoint c =
      (projectedParents fg (projected fg cfg iMesh) c).foldl addNeighbour [] := by
  obtain ⟨h1, _⟩ := agglomerationPasses_inv cfg iMesh hf
  have hp : projectedParents fg (projected fg cfg iMesh) c =
      projectedParents fg { agglomerationPasses fg cfg iMesh with
        nPointDomain := (agglomerationPasses fg cfg iMesh).Index_CoarseCV } c := by
    obtain ⟨_, f2, f3, f4, _, _⟩ := projectAdjacency_frame fg
      (agglomerationPasses fg cfg iMesh).Index_CoarseCV
      { agglomerationPasses fg cfg iMesh with
        nPointDomain := (agglomerationPasses fg cfg iMesh).Index_CoarseCV }
    unfold projectedParents projected
    rw [f2, f3, f4]
  rw [hp]
  unfold projected
  rw [projectAdjacency_cPoint, if_pos hc]
  show List.foldl addNeighbour ((agglomerationPasses fg cfg iMesh).cPoint c) _ = _
  rw [h1.nopoint c]

/-- The adjacency recomputed after the repair, for a coarse point that is no merge target and
has children: it is the adjacency projected before the merge loop. -/
theorem recomputed_adjacency {fg : FineGrid} (cfg : Config) (iMesh : Nat) (hf : Fresh fg)
    (hsym : ∀ p q, q ∈ fg.Point p → p ∈ fg.Point q) (X : Nat)
    (hX : X < (repaired fg cfg iMesh).nPointDomain)
    (hnt : ∀ c, c < (repaired fg cfg iMesh).nPointDomain →
      ((projected fg cfg iMesh).cPoint c).length = 1 →
      ((projected fg cfg iMesh).cPoint c).getD 0 0 ≠ X)
    (hne : (repaired fg cfg iMesh).nChildren_CV X ≠ 0) :
    ((projected fg cfg iMesh).cPoint X).length ≠ 1 ∧
    (projectAdjacency fg (repaired fg cfg iMesh).nPointDomain (repaired fg cfg iMesh)).cPoint X =
      (projected fg cfg iMesh).cPoint X := by
  rw [repaired_nPointDomain] at hX hnt ⊢
  obtain ⟨p1, pI, pD⟩ := projected_inv cfg iMesh hf
  obtain ⟨hM, hC, hN⟩ := mergeLoop_untouched (agglomerationPasses fg cfg iMesh).Index_CoarseCV
    X p1 hnt
  have hrP : (repaired fg cfg iMesh).fParent_CV = ((List.range
      (agglomerationPasses fg cfg iMesh).Index_CoarseCV).foldl mergeIsolated
      (projected fg cfg iMesh)).fParent_CV := by
    rw [repaired_eq]
    rfl
  have hrC : (repaired fg cfg iMesh).Children_CV = ((List.range
      (agglomerationPasses fg cfg iMesh).Index_CoarseCV).foldl mergeIsolated
      (projected fg cfg iMesh)).Children_CV := by
    rw [repaired_eq]
    rfl
  have hrN : (repaired fg cfg iMesh).nChildren_CV = ((List.range
      (agglomerationPasses fg cfg iMesh).Index_CoarseCV).foldl mergeIsolated
      (projected fg cfg iMesh)).nChildren_CV := by
    rw [repaired_eq]
    rfl
  have hrQ : (repaired fg cfg iMesh).cPoint X = [] := by
    rw [repaired_eq]
    show (if X < ((List.range (agglomerationPasses fg cfg iMesh).Index_CoarseCV).foldl
      mergeIsolated (projected fg cfg iMesh)).nPointDomain then [] else _) = _
    rw [(mergeLoop_frame _ _).2.2, pD, if_pos hX]
  have hiso : ((projected fg cfg iMesh).cPoint X).length ≠ 1 := by
    intro hc
    rw [hrN, hN, if_pos ⟨hc, hX⟩] at hne
    exact hne rfl
  refine ⟨hiso, ?_⟩
  rw [if_neg (fun hc => hiso hc.1)] at hN
  have hcong : projectedParents fg (repaired fg cfg iMesh) X =
      projectedParents fg (projected fg cfg iMesh) X := by
    apply projectedParents_congr
    · rw [hrN, hN]
    · rw [hrC, hC]
    · intro i hi q hq
      rw [hrP]
      by_contra hneq
      obtain ⟨hagg, hA⟩ := hM q hneq
      obtain ⟨j, hj, hjq⟩ := p1.ginv.parent q hagg
      have hpx := (p1.ginv.child X i hi).2
      have hxq := hsym _ _ hq
      have hAX : (projected fg cfg iMesh).fParent_CV q ≠ X := by
        intro hc
        rw [hc] at hA
        exact hiso hA
      have hAK : (projected fg cfg iMesh).fParent_CV q <
          (agglomerationPasses fg cfg iMesh).Index_CoarseCV := by
        by_contra hge
        have := p1.above ((projected fg cfg iMesh).fParent_CV q) (by rw [pI]; omega)
        omega
      have hmem := mem_projected fg cfg iMesh ((projected fg cfg iMesh).fParent_CV q) j
        ((projected fg cfg iMesh).Children_CV X i) hAK hj (by rw [hjq]; exact hxq)
        (by rw [hpx]; exact fun hc => hAX hc.symm)
      rw [hpx] at hmem
      have htarget := hnt _ hAK hA
      rcases hl : (projected fg cfg iMesh).cPoint ((projected fg cfg iMesh).fParent_CV q)
        with _ | ⟨t, _ | ⟨t2, r⟩⟩
      · rw [hl] at hA
        simp at hA
      · rw [hl] at hmem htarget
        simp only [List.mem_singleton] at hmem
        simp only [List.getD_cons_zero] at htarget
        exact htarget hmem.symm
      · rw [hl] at hA
        simp at hA
  rw [projectAdjacency_cPoint, if_pos hX, hrQ, hcong]
  exact (projected_cPoint cfg iMesh hf X hX).symm

/-! ## Claim on stray adjacency -/

/-- The adjacency of the seven-point ring grid is symmetric. -/
theorem ringGrid_symmetric : ∀ p q, q ∈ ringGrid.Point p → p ∈ ringGrid.Point q := by
  intro p q h
  have hp : p < 7 := by
    by_contra hge
    have : ringGrid.Point p = [] := by
      show List.getD _ p [] = []
      rw [List.getD_eq_default]
      simp only [List.length_cons, List.length_nil]
      omega
    rw [this] at h
    exact absurd h (List.not_mem_nil q)
  have hall : ∀ p, p < 7 → ∀ q, q ∈ ringGrid.Point p → p ∈ ringGrid.Point q := by decide
  exact hall p hp q h

/-- C18: on a fresh fine grid with symmetric adjacency, take a coarse CV `X` below `nPointDomain`
that is no merge target (it is not the single coarse neighbour of any isolated coarse CV in the
adjacency projected before the merge loop) and that has children after the hanging-node repair.
Then the coarse adjacency of `X` recomputed by projecting the fine adjacency through the
repaired parent map does not have exactly one entry. -/
theorem no_stray_adjacency (fg : FineGrid) (cfg : Config) (iMesh : Nat) (hf : Fresh fg)
    (hsym : ∀ p q, q ∈ fg.Point p → p ∈ fg.Point q) (X : Nat)
    (hX : X < (repaired fg cfg iMesh).nPointDomain)
    (hnt : ∀ c, c < (repaired fg cfg iMesh).nPointDomain →
      ((projected fg cfg iMesh).cPoint c).length = 1 →
      ((projected fg cfg iMesh).cPoint c).getD 0 0 ≠ X)
    (hne : (repaired fg cfg iMesh).nChildren_CV X ≠ 0) :
    ((projectAdjacency fg (repaired fg cfg iMesh).nPointDomain
      (repaired fg cfg iMesh)).cPoint X).length ≠ 1 := by
  obtain ⟨h1, h2⟩ := recomputed_adjacency cfg iMesh hf hsym X hX hnt hne
  rw [h2]
  exact h1

/-- Witness of C18: on the seven-point ring grid no coarse CV is isolated, coarse CV 0 keeps its
four children and its recomputed adjacency has two entries. -/
theorem no_stray_adjacency_witness :
    (repaired ringGrid (plainConfig 0) 1).nChildren_CV 0 = 4 ∧
    (projectAdjacency ringGrid (repaired ringGrid (plainConfig 0) 1).nPointDomain
      (repaired ringGrid (plainConfig 0) 1)).cPoint 0 = [1, 2] ∧
    ((projectAdjacency ringGrid (repaired ringGrid (plainConfig 0) 1).nPointDomain
      (repaired ringGrid (plainConfig 0) 1)).cPoint 0).length ≠ 1 :=
  ⟨by decide, by decide,
    no_stray_adjacency ringGrid (plainConfig 0) 1 ⟨fun _ => rfl, fun _ => rfl⟩
      ringGrid_symmetric 0 (by decide) (by decide) (by decide)⟩

/-! ## Domain flags and parents written by the reconciliation -/

/-- Placing received vertices clears the domain flag of the coarse points they are placed in and
of no other; a fine point whose parent changes is one of the placed nodes, and a placed node has
the coarse point of one of its vertices as parent. -/
theorem finalStructure_frame (pcs : List (Nat × Nat)) (acc : MGState × (Nat → Nat)) :
    (∀ c, (pcs.foldl finalStructureStep acc).1.cDomain c =
      if c ∈ pcs.map Prod.fst then false else acc.1.cDomain c) ∧
    (∀ p, p ∉ pcs.map Prod.snd →
      (pcs.foldl finalStructureStep acc).1.fParent_CV p = acc.1.fParent_CV p) ∧
    (∀ p, p ∈ pcs.map Prod.snd →
      (pcs.foldl finalStructureStep acc).1.fParent_CV p ∈ pcs.map Prod.fst) ∧
    (pcs.foldl finalStructureStep acc).1.nPointDomain = acc.1.nPointDomain := by
  induction pcs generalizing acc with
  | nil => simp
  | cons pc pcs ih =>
    rw [List.foldl_cons]
    obtain ⟨i1, i2, i3, i4⟩ := ih (finalStructureStep acc pc)
    have hD : (finalStructureStep acc pc).1.cDomain = Function.update acc.1.cDomain pc.1 false :=
      rfl
    have hP : (finalStructureStep acc pc).1.fParent_CV =
        Function.update acc.1.fParent_CV pc.2 pc.1 := rfl
    refine ⟨?_, ?_, ?_, i4⟩
    · intro c
      rw [i1 c, hD, List.map_cons]
      by_cases h1 : c ∈ pcs.map Prod.fst
      · rw [if_pos h1, if_pos (List.mem_cons_of_mem _ h1)]
      · rw [if_neg h1]
        by_cases h2 : c = pc.1
        · subst h2
          rw [Function.update_same, if_pos (List.mem_cons_self _ _)]
        · rw [Function.update_noteq h2, if_neg]
          simp only [List.map_cons, List.mem_cons, not_or]
          exact ⟨h2, h1⟩
    · intro p hp
      simp only [List.map_cons, List.mem_cons, not_or] at hp
      rw [i2 p hp.2, hP, Function.update_noteq hp.1]
    · intro p hp
      rw [List.map_cons]
      by_cases h1 : p ∈ pcs.map Prod.snd
      · exact List.mem_cons_of_mem _ (i3 p h1)
      · rw [i2 p h1, hP]
        simp only [List.map_cons, List.mem_cons] at hp
        rcases hp with rfl | hp
        · rw [Function.update_same]
          exact List.mem_cons_self _ _
        · exact absurd hp h1

/-- The local coarse indices given in the reconciliation of one marker pair are the indices from
the coarse index counter up to the new value of the counter. -/
theorem mem_Parent_Local (fg : FineGrid) (MarkerR : Nat) (R : List Nat) (I c : Nat)
    (hR : R.length = (fg.vertex MarkerR).length) :
    c ∈ ((List.range (fg.vertex MarkerR).length).map (fun iVertex =>
        (Parent_Local (Aux_Parent R) I (R.getD iVertex 0),
          (fg.vertex MarkerR).getD iVertex 0))).map Prod.fst ↔
      I ≤ c ∧ c < I + (Aux_Parent R).length := by
  simp only [List.map_map, List.mem_map, List.mem_range, Function.comp]
  constructor
  · rintro ⟨iv, hiv, rfl⟩
    have hmem : R.getD iv 0 ∈ Aux_Parent R := by
      rw [mem_Aux_Parent, List.getD_eq_getElem _ 0 (by omega)]
      exact List.getElem_mem _
    have := List.indexOf_lt_length.mpr hmem
    unfold Parent_Local
    omega
  · rintro ⟨h1, h2⟩
    have hj : c - I < (Aux_Parent R).length := by omega
    have hmem : (Aux_Parent R)[c - I] ∈ R := (mem_Aux_Parent R _).mp (List.getElem_mem _)
    obtain ⟨iv, hiv, he⟩ := List.getElem_of_mem hmem
    refine ⟨iv, by omega, ?_⟩
    unfold Parent_Local
    rw [List.getD_eq_getElem _ 0 hiv, he, List.indexOf_getElem (Aux_Parent_sorted R).nodup]
    omega

/-- The receive buffer has one entry per vertex of the receive marker. -/
theorem Buffer_Receive_Parent_length (fg : FineGrid) (st : MGState) (MarkerS MarkerR : Nat) :
    (Buffer_Receive_Parent fg st MarkerS MarkerR).length = (fg.vertex MarkerR).length := by
  unfold Buffer_Receive_Parent
  simp

/-- Effect of the body of the marker loop on the coarse index counter, the domain flags and the
parents: the counter does not go down, the coarse points below the old counter keep their
domain flag, those from the old counter up to the new one are marked as not domain-owned, and a
fine point either keeps its parent or is the node of a vertex of the receive marker of a
processed pair and gets a parent from the old counter up to the new one. -/
theorem reconcileMarker_frame (fg : FineGrid) (cfg : Config) (s : MGState) (m : Nat) :
    s.Index_CoarseCV ≤ (reconcileMarker fg cfg s m).Index_CoarseCV ∧
    (reconcileMarker fg cfg s m).nPointDomain = s.nPointDomain ∧
    (∀ c, c < s.Index_CoarseCV → (reconcileMarker fg cfg s m).cDomain c = s.cDomain c) ∧
    (∀ c, s.Index_CoarseCV ≤ c → c < (reconcileMarker fg cfg s m).Index_CoarseCV →
      (reconcileMarker fg cfg s m).cDomain c = false) ∧
    (∀ p, ¬ (cfg.Marker_All_KindBC m = cfg.SEND_RECEIVE ∧ cfg.Marker_All_SendRecv m > 0 ∧
        p ∈ fg.vertex (m + 1)) →
      (reconcileMarker fg cfg s m).fParent_CV p = s.fParent_CV p) ∧
    (∀ p, cfg.Marker_All_KindBC m = cfg.SEND_RECEIVE → cfg.Marker_All_SendRecv m > 0 →
      p ∈ fg.vertex (m + 1) →
      s.Index_CoarseCV ≤ (reconcileMarker fg cfg s m).fParent_CV p ∧
      (reconcileMarker fg cfg s m).fParent_CV p < (reconcileMarker fg cfg s m).Index_CoarseCV) := by
  unfold reconcileMarker
  split
  · rename_i hact
    unfold reconcileWith
    dsimp only
    obtain ⟨f1, f2, f3, f4⟩ := finalStructure_frame
      ((List.range (fg.vertex (m + 1)).length).map (fun iVertex =>
        (Parent_Local (Aux_Parent (Buffer_Receive_Parent fg s m (m + 1))) s.Index_CoarseCV
          ((Buffer_Receive_Parent fg s m (m + 1)).getD iVertex 0),
         (fg.vertex (m + 1)).getD iVertex 0)))
      ({ s with Index_CoarseCV := s.Index_CoarseCV +
        (Aux_Parent (Buffer_Receive_Parent fg s m (m + 1))).length }, fun _ => 0)
    have hmemL := fun c => mem_Parent_Local fg (m + 1) (Buffer_Receive_Parent fg s m (m + 1))
      s.Index_CoarseCV c (Buffer_Receive_Parent_length fg s m (m + 1))
    have hsnd : ∀ p, p ∈ ((List.range (fg.vertex (m + 1)).length).map (fun iVertex =>
        (Parent_Local (Aux_Parent (Buffer_Receive_Parent fg s m (m + 1))) s.Index_CoarseCV
          ((Buffer_Receive_Parent fg s m (m + 1)).getD iVertex 0),
         (fg.vertex (m + 1)).getD iVertex 0))).map Prod.snd ↔ p ∈ fg.vertex (m + 1) := by
      intro p
      simp only [List.map_map, List.mem_map, List.mem_range, Function.comp]
      constructor
      · rintro ⟨iv, hiv, rfl⟩
        rw [List.getD_eq_getElem _ 0 hiv]
        exact List.getElem_mem _
      · intro hp
        obtain ⟨iv, hiv, he⟩ := List.getElem_of_mem hp
        exact ⟨iv, hiv, by rw [List.getD_eq_getElem _ 0 hiv, he]⟩
    rw [finalStructure_Index]
    refine ⟨Nat.le_add_right _ _, f4, ?_, ?_, ?_, ?_⟩
    · intro c hc
      rw [f1 c, if_neg]
      intro hmem
      have := (hmemL c).mp hmem
      omega
    · intro c h1 h2
      rw [f1 c, if_pos ((hmemL c).mpr ⟨h1, h2⟩)]
    · intro p hp
      rw [f2 p]
      intro hmem
      exact hp ⟨hact.1, hact.2, (hsnd p).mp hmem⟩
    · intro p _ _ hp
      have := (hmemL _).mp (f3 p ((hsnd p).mpr hp))
      exact this
  · rename_i hn
    refine ⟨le_refl _, rfl, fun _ _ => rfl, ?_, fun _ _ => rfl, ?_⟩
    · intro c h1 h2
      omega
    · intro p h1 h2 _
      exact absurd ⟨h1, h2⟩ hn

/-- Effect of the reconciliation on the domain flags and the parents: coarse points below the
coarse index counter keep their domain flag, the coarse points appended are marked as not
domain-owned, a fine point that is not the node of a vertex of a processed receive marker keeps
its parent, and the node of such a vertex gets a parent among the coarse points appended. -/
theorem PartitionReconciliation_frame (fg : FineGrid) (cfg : Config) (st : MGState) :
    st.Index_CoarseCV ≤ (PartitionReconciliation fg cfg st).Index_CoarseCV ∧
    (PartitionReconciliation fg cfg st).nPoint =
      (PartitionReconciliation fg cfg st).Index_CoarseCV ∧
    (PartitionReconciliation fg cfg st).nPointDomain = st.nPointDomain ∧
    (∀ c, c < st.Index_CoarseCV → (PartitionReconciliation fg cfg st).cDomain c = st.cDomain c) ∧
    (∀ c, st.Index_CoarseCV ≤ c → c < (PartitionReconciliation fg cfg st).Index_CoarseCV →
      (PartitionReconciliation fg cfg st).cDomain c = false) ∧
    (∀ p, ¬ onReceive fg cfg p →
      (PartitionReconciliation fg cfg st).fParent_CV p = st.fParent_CV p) ∧
    (∀ p, onReceive fg cfg p →
      st.Index_CoarseCV ≤ (PartitionReconciliation fg cfg st).fParent_CV p ∧
      (PartitionReconciliation fg cfg st).fParent_CV p <
        (PartitionReconciliation fg cfg st).Index_CoarseCV) := by
  unfold PartitionReconciliation
  have key := foldl_range_inv
    (fun k (s : MGState) =>
      st.Index_CoarseCV ≤ s.Index_CoarseCV ∧ s.nPointDomain = st.nPointDomain ∧
      (∀ c, c < st.Index_CoarseCV → s.cDomain c = st.cDomain c) ∧
      (∀ c, st.Index_CoarseCV ≤ c → c < s.Index_CoarseCV → s.cDomain c = false) ∧
      (∀ p, (¬ ∃ m, m < k ∧ cfg.Marker_All_KindBC m = cfg.SEND_RECEIVE ∧
          cfg.Marker_All_SendRecv m > 0 ∧ p ∈ fg.vertex (m + 1)) →
        s.fParent_CV p = st.fParent_CV p) ∧
      (∀ p, (∃ m, m < k ∧ cfg.Marker_All_KindBC m = cfg.SEND_RECEIVE ∧
          cfg.Marker_All_SendRecv m > 0 ∧ p ∈ fg.vertex (m + 1)) →
        st.Index_CoarseCV ≤ s.fParent_CV p ∧ s.fParent_CV p < s.Index_CoarseCV))
    (reconcileMarker fg cfg) cfg.nMarker_All st
    ⟨le_refl _, rfl, fun _ _ => rfl, fun c h1 h2 => by omega, fun _ _ => rfl,
      fun p ⟨m, hm, _⟩ => absurd hm (Nat.not_lt_zero m)⟩ ?_
  · obtain ⟨k1, k2, k3, k4, k5, k6⟩ := key
    exact ⟨k1, rfl, k2, k3, k4, k5, k6⟩
  · intro k s hk ⟨a1, a2, a3, a4, a5, a6⟩
    obtain ⟨r1, r2, r3, r4, r5, r6⟩ := reconcileMarker_frame fg cfg s k
    refine ⟨Nat.le_trans a1 r1, r2.trans a2, ?_, ?_, ?_, ?_⟩
    · intro c hc
      rw [r3 c (by omega)]
      exact a3 c hc
    · intro c h1 h2
      by_cases hc : c < s.Index_CoarseCV
      · rw [r3 c hc]
        exact a4 c h1 hc
      · exact r4 c (by omega) h2
    · intro p hp
      rw [r5 p, a5 p]
      · rintro ⟨m, hm, hrest⟩
        exact hp ⟨m, by omega, hrest⟩
      · intro hc
        exact hp ⟨k, Nat.lt_succ_self k, hc⟩
    · rintro p ⟨m, hm, h1, h2, h3⟩
      by_cases hact : cfg.Marker_All_KindBC k = cfg.SEND_RECEIVE ∧
          cfg.Marker_All_SendRecv k > 0 ∧ p ∈ fg.vertex (k + 1)
      · obtain ⟨b1, b2⟩ := r6 p hact.1 hact.2.1 hact.2.2
        exact ⟨by omega, b2⟩
      · rw [r5 p hact]
        have hmk : m < k := by
          rcases Nat.lt_succ_iff_lt_or_eq.mp hm with h | h
          · exact h
          · subst h
            exact absurd ⟨h1, h2, h3⟩ hact
        obtain ⟨b1, b2⟩ := a6 p ⟨m, hmk, h1, h2, h3⟩
        exact ⟨b1, by omega⟩

/-- The repair leaves the coarse index counter alone. -/
theorem repaired_Index (fg : FineGrid) (cfg : Config) (iMesh : Nat) :
    (repaired fg cfg iMesh).Index_CoarseCV = (agglomerationPasses fg cfg iMesh).Index_CoarseCV := by
  rw [repaired_eq]
  show ((List.range _).foldl mergeIsolated (projected fg cfg iMesh)).Index_CoarseCV = _
  rw [(mergeLoop_frame _ _).2.1]
  unfold projected
  rw [(projectAdjacency_frame fg _ _).2.2.2.2.1]

/-! ## The serial exchange -/

/-- When the receive marker has at most as many vertices as the send marker, every read of the
serial exchange is within the send buffer, and the exchange yields the first `nVertexR` entries
of the send buffer. -/
theorem serialExchange_eq (fg : FineGrid) (st : MGState) (MarkerS MarkerR : Nat)
    (h : (fg.vertex MarkerR).length ≤ (fg.vertex MarkerS).length) :
    serialExchange fg st MarkerS MarkerR = some (Buffer_Receive_Parent fg st MarkerS MarkerR) := by
  unfold serialExchange Buffer_Receive_Parent
  have hlen : (Buffer_Send_Parent fg st MarkerS).length = (fg.vertex MarkerS).length := by
    unfold Buffer_Send_Parent
    simp
  have key := foldl_range_inv
    (fun k (acc : Option (List Nat)) =>
      acc = some ((List.range k).map (fun iVertex => (Buffer_Send_Parent fg st MarkerS).getD iVertex 0)))
    (fun acc iVertex =>
      match acc, (Buffer_Send_Parent fg st MarkerS)[iVertex]? with
      | some Buffer_Receive, some x => some (Buffer_Receive ++ [x])
      | _, _ => none) (fg.vertex MarkerR).length (some []) rfl ?_
  · exact key
  · intro k acc hk hacc
    have hk2 : k < (Buffer_Send_Parent fg st MarkerS).length := by omega
    subst hacc
    simp only [List.getElem?_eq_getElem hk2, List.range_succ, List.map_append, List.map_cons,
      List.map_nil, List.getD_eq_getElem _ 0 hk2]

/-- The first entries of the send buffer, as the parents of the first nodes of the send
marker. -/
theorem Buffer_Receive_Parent_take (fg : FineGrid) (st : MGState) (MarkerS MarkerR : Nat)
    (h : (fg.vertex MarkerR).length ≤ (fg.vertex MarkerS).length) :
    Buffer_Receive_Parent fg st MarkerS MarkerR =
      (Buffer_Send_Parent fg st MarkerS).take (fg.vertex MarkerR).length := by
  have hlen : (Buffer_Send_Parent fg st MarkerS).length = (fg.vertex MarkerS).length := by
    unfold Buffer_Send_Parent
    simp
  apply List.ext_getElem
  · rw [Buffer_Receive_Parent_length, List.length_take]
    omega
  · intro i h1 h2
    rw [Buffer_Receive_Parent_length] at h1
    unfold Buffer_Receive_Parent
    rw [List.getElem_map, List.getElem_range, List.getElem_take,
      List.getD_eq_getElem _ 0 (by omega)]

/-! ## SetVertex -/

/-- The flags after lines 917-926. -/
theorem SetVertex_flags_cBoundary (fg : FineGrid) (st : MGState) (v : CoarseBoundary) :
    (∀ c, (SetVertex_flags fg st v).cBoundary c =
      (v.cBoundary c || (decide (c < st.nPoint) &&
        (List.range (st.nChildren_CV c)).any (fun i => fg.Boundary (st.Children_CV c i))))) ∧
    (SetVertex_flags fg st v).cVertex = v.cVertex := by
  unfold SetVertex_flags
  have key := foldl_range_inv
    (fun k (w : CoarseBoundary) =>
      (∀ c, w.cBoundary c = (v.cBoundary c || (decide (c < k) &&
        (List.range (st.nChildren_CV c)).any (fun i => fg.Boundary (st.Children_CV c i))))) ∧
      w.cVertex = v.cVertex)
    (fun v iCoarsePoint =>
      if (List.range (st.nChildren_CV iCoarsePoint)).any
          (fun iChildren => fg.Boundary (st.Children_CV iCoarsePoint iChildren)) then
        v.SetBoundary iCoarsePoint
      else v) st.nPoint v ⟨by intro c; simp, rfl⟩ ?_
  · exact key
  · intro k w hk ⟨h1, h2⟩
    dsimp only
    split
    · rename_i hany
      refine ⟨?_, h2⟩
      intro c
      show Function.update w.cBoundary k true c = _
      by_cases hc : c = k
      · subst hc
        rw [Function.update_same, hany]
        simp
      · rw [Function.update_noteq hc, h1 c]
        have : decide (c < k + 1) = decide (c < k) := by
          rw [decide_eq_decide]
          omega
        rw [this]
    · rename_i hany
      refine ⟨?_, h2⟩
      intro c
      rw [h1 c]
      by_cases hc : c = k
      · subst hc
        simp only [Bool.not_eq_true] at hany
        rw [hany]
        simp
      · have : decide (c < k + 1) = decide (c < k) := by
          rw [decide_eq_decide]
          omega
        rw [this]

/-- What the loop nest of `overBoundaryChildren` does to the flags and to the presence of vertex
indices, for a body that leaves the flags alone and marks exactly the pair it is run for when
the fine point has a vertex on the marker. -/
theorem overBoundaryChildren_marks (fg : FineGrid) (st : MGState)
    (step : Nat → Nat → CoarseBoundary → Nat → CoarseBoundary)
    (hstep : ∀ c p w m, (step c p w m).cBoundary = w.cBoundary ∧
      ∀ c2 m2, ((step c p w m).cVertex c2 m2 ≠ -1 ↔
        w.cVertex c2 m2 ≠ -1 ∨ (c2 = c ∧ m2 = m ∧ fg.Vertex p m ≠ -1)))
    (v : CoarseBoundary) :
    (overBoundaryChildren fg st step v).cBoundary = v.cBoundary ∧
    ∀ c m, ((overBoundaryChildren fg st step v).cVertex c m ≠ -1 ↔
      v.cVertex c m ≠ -1 ∨ (c < st.nPoint ∧ m < fg.nMarker ∧ v.cBoundary c = true ∧
        ∃ i, i < st.nChildren_CV c ∧ fg.Vertex (st.Children_CV c i) m ≠ -1)) := by
  unfold overBoundaryChildren
  have key := foldl_range_inv
    (fun k (w : CoarseBoundary) =>
      w.cBoundary = v.cBoundary ∧
      ∀ c m, (w.cVertex c m ≠ -1 ↔
        v.cVertex c m ≠ -1 ∨ (c < k ∧ m < fg.nMarker ∧ v.cBoundary c = true ∧
          ∃ i, i < st.nChildren_CV c ∧ fg.Vertex (st.Children_CV c i) m ≠ -1)))
    (fun v iCoarsePoint =>
      if v.cBoundary iCoarsePoint then
        (List.range (st.nChildren_CV iCoarsePoint)).foldl (fun v iChildren =>
          (List.range fg.nMarker).foldl
            (step iCoarsePoint (st.Children_CV iCoarsePoint iChildren)) v) v
      else v) st.nPoint v ⟨rfl, by intro c m; simp⟩ ?_
  · exact key
  · intro k w hk ⟨hB, hV⟩
    dsimp only
    split
    · rename_i hbk
      have mid := foldl_range_inv
        (fun j (w2 : CoarseBoundary) =>
          w2.cBoundary = w.cBoundary ∧
          ∀ c m, (w2.cVertex c m ≠ -1 ↔
            w.cVertex c m ≠ -1 ∨ (c = k ∧ m < fg.nMarker ∧
              ∃ i, i < j ∧ fg.Vertex (st.Children_CV k i) m ≠ -1)))
        (fun v iChildren =>
          (List.range fg.nMarker).foldl (step k (st.Children_CV k iChildren)) v)
        (st.nChildren_CV k) w ⟨rfl, by intro c m; simp⟩ ?_
      · obtain ⟨mB, mV⟩ := mid
        refine ⟨mB.trans hB, ?_⟩
        intro c m
        rw [mV c m, hV c m]
        rw [hB] at hbk
        constructor
        · rintro ((h | ⟨h1, h2⟩) | ⟨rfl, h2, h3⟩)
          · exact Or.inl h
          · exact Or.inr ⟨by omega, h2⟩
          · exact Or.inr ⟨Nat.lt_succ_self _, h2, hbk, h3⟩
        · rintro (h | ⟨h1, h2, h3, h4⟩)
          · exact Or.inl (Or.inl h)
          · by_cases hc : c = k
            · subst hc
              exact Or.inr ⟨rfl, h2, h4⟩
            · exact Or.inl (Or.inr ⟨by omega, h2, h3, h4⟩)
      · intro j w2 hj ⟨jB, jV⟩
        have inner := foldl_range_inv
          (fun t (w3 : CoarseBoundary) =>
            w3.cBoundary = w2.cBoundary ∧
            ∀ c m, (w3.cVertex c m ≠ -1 ↔
              w2.cVertex c m ≠ -1 ∨ (c = k ∧ m < t ∧ fg.Vertex (st.Children_CV k j) m ≠ -1)))
          (step k (st.Children_CV k j)) fg.nMarker w2 ⟨rfl, by intro c m; simp⟩ ?_
        · obtain ⟨iB, iV⟩ := inner
          refine ⟨iB.trans jB, ?_⟩
          intro c m
          rw [iV c m, jV c m]
          constructor
          · rintro ((h | ⟨h1, h2, i, hi, h3⟩) | ⟨h1, h2, h3⟩)
            · exact Or.inl h
            · exact Or.inr ⟨h1, h2, i, by omega, h3⟩
            · exact Or.inr ⟨h1, h2, j, Nat.lt_succ_self _, h3⟩
          · rintro (h | ⟨h1, h2, i, hi, h3⟩)
            · exact Or.inl (Or.inl h)
            · by_cases hij : i = j
              · subst hij
                exact Or.inr ⟨h1, h2, h3⟩
              · exact Or.inl (Or.inr ⟨h1, h2, i, by omega, h3⟩)
        · intro t w3 ht ⟨tB, tV⟩
          obtain ⟨sB, sV⟩ := hstep k (st.Children_CV k j) w3 t
          refine ⟨sB.trans tB, ?_⟩
          intro c m
          rw [sV c m, tV c m]
          constructor
          · rintro ((h | ⟨h1, h2, h3⟩) | ⟨h1, h2, h3⟩)
            · exact Or.inl h
            · exact Or.inr ⟨h1, by omega, h3⟩
            · subst h2
              exact Or.inr ⟨h1, Nat.lt_succ_self _, h3⟩
          · rintro (h | ⟨h1, h2, h3⟩)
            · exact Or.inl (Or.inl h)
            · by_cases hmt : m = t
              · subst hmt
                exact Or.inr ⟨h1, rfl, h3⟩
              · exact Or.inl (Or.inr ⟨h1, by omega, h3⟩)
    · rename_i hbk
      refine ⟨hB, ?_⟩
      intro c m
      rw [hV c m]
      rw [hB] at hbk
      constructor
      · rintro (h | ⟨h1, h2⟩)
        · exact Or.inl h
        · exact Or.inr ⟨by omega, h2⟩
      · rintro (h | ⟨h1, h2, h3, h4⟩)
        · exact Or.inl h
        · by_cases hc : c = k
          · subst hc
            exact absurd h3 hbk
          · exact Or.inr ⟨by omega, h2, h3, h4⟩

/-- The counting body marks the pair it is run for, when the fine point has a vertex there. -/
theorem countVertexStep_marks (fg : FineGrid) (c p : Nat) (w : CoarseBoundary) (m : Nat) :
    (countVertexStep fg c p w m).cBoundary = w.cBoundary ∧
    ∀ c2 m2, ((countVertexStep fg c p w m).cVertex c2 m2 ≠ -1 ↔
      w.cVertex c2 m2 ≠ -1 ∨ (c2 = c ∧ m2 = m ∧ fg.Vertex p m ≠ -1)) := by
  unfold countVertexStep
  split
  · rename_i hcond
    refine ⟨rfl, ?_⟩
    intro c2 m2
    show Function.update w.cVertex c (Function.update (w.cVertex c) m (w.nVertex m : Int)) c2 m2
      ≠ -1 ↔ _
    by_cases hc : c2 = c
    · subst hc
      rw [Function.update_same]
      by_cases hm : m2 = m
      · subst hm
        rw [Function.update_same]
        constructor
        · intro _
          exact Or.inr ⟨rfl, rfl, hcond.1⟩
        · intro _
          omega
      · rw [Function.update_noteq hm]
        constructor
        · exact Or.inl
        · rintro (h | ⟨_, h, _⟩)
          · exact h
          · exact absurd h hm
    · rw [Function.update_noteq hc]
      constructor
      · exact Or.inl
      · rintro (h | ⟨h, _⟩)
        · exact h
        · exact absurd h hc
  · rename_i hcond
    refine ⟨rfl, ?_⟩
    intro c2 m2
    constructor
    · exact Or.inl
    · rintro (h | ⟨rfl, rfl, h⟩)
      · exact h
      · intro hc
        exact hcond ⟨h, hc⟩

/-- The creating body marks the pair it is run for, when the fine point has a vertex there. -/
theorem createVertexStep_marks (fg : FineGrid) (fd : FineGeometry) (c p : Nat)
    (w : CoarseBoundary) (m : Nat) :
    (createVertexStep fg fd c p w m).cBoundary = w.cBoundary ∧
    ∀ c2 m2, ((createVertexStep fg fd c p w m).cVertex c2 m2 ≠ -1 ↔
      w.cVertex c2 m2 ≠ -1 ∨ (c2 = c ∧ m2 = m ∧ fg.Vertex p m ≠ -1)) := by
  unfold createVertexStep
  split
  · rename_i hcond
    refine ⟨rfl, ?_⟩
    intro c2 m2
    show Function.update w.cVertex c (Function.update (w.cVertex c) m (w.nVertex m : Int)) c2 m2
      ≠ -1 ↔ _
    by_cases hc : c2 = c
    · subst hc
      rw [Function.update_same]
      by_cases hm : m2 = m
      · subst hm
        rw [Function.update_same]
        constructor
        · intro _
          exact Or.inr ⟨rfl, rfl, hcond.1⟩
        · intro _
          omega
      · rw [Function.update_noteq hm]
        constructor
        · exact Or.inl
        · rintro (h | ⟨_, h, _⟩)
          · exact h
          · exact absurd h hm
    · rw [Function.update_noteq hc]
      constructor
      · exact Or.inl
      · rintro (h | ⟨h, _⟩)
        · exact h
        · exact absurd h hc
  · rename_i hcond
    refine ⟨rfl, ?_⟩
    intro c2 m2
    constructor
    · exact Or.inl
    · rintro (h | ⟨rfl, rfl, h⟩)
      · exact h
      · intro hc
        exact hcond ⟨h, hc⟩

/-- The reset of lines 964-967 clears the vertex indices of the coarse points below `nPoint`
flagged boundary on the markers below `nMarker`, and nothing else. -/
theorem resetVertices_cVertex (fg : FineGrid) (st : MGState) (v : CoarseBoundary) :
    (resetVertices fg st v).cBoundary = v.cBoundary ∧
    ∀ c m, (resetVertices fg st v).cVertex c m =
      if c < st.nPoint ∧ m < fg.nMarker ∧ v.cBoundary c = true then -1 else v.cVertex c m := by
  unfold resetVertices
  have key := foldl_range_inv
    (fun k (w : CoarseBoundary) =>
      w.cBoundary = v.cBoundary ∧
      ∀ c m, w.cVertex c m =
        if c < k ∧ m < fg.nMarker ∧ v.cBoundary c = true then -1 else v.cVertex c m)
    (fun v iCoarsePoint =>
      if v.cBoundary iCoarsePoint then
        (List.range fg.nMarker).foldl (fun v iMarker => v.SetVertex iCoarsePoint (-1) iMarker) v
      else v) st.nPoint v ⟨rfl, by intro c m; simp⟩ ?_
  · exact key
  · intro k w hk ⟨hB, hV⟩
    dsimp only
    split
    · rename_i hbk
      have inner := foldl_range_inv
        (fun t (w2 : CoarseBoundary) =>
          w2.cBoundary = w.cBoundary ∧
          ∀ c m, w2.cVertex c m = if c = k ∧ m < t then -1 else w.cVertex c m)
        (fun v iMarker => v.SetVertex k (-1) iMarker) fg.nMarker w
        ⟨rfl, by intro c m; simp⟩ ?_
      · obtain ⟨iB, iV⟩ := inner
        refine ⟨iB.trans hB, ?_⟩
        intro c m
        rw [iV c m, hV c m]
        rw [hB] at hbk
        by_cases hc : c = k
        · subst hc
          by_cases hm : m < fg.nMarker
          · rw [if_pos ⟨rfl, hm⟩, if_pos ⟨Nat.lt_succ_self _, hm, hbk⟩]
          · rw [if_neg (fun h => hm h.2), if_neg (fun h => hm h.2.1), if_neg (fun h => hm h.2.1)]
        · rw [if_neg (fun h => hc h.1)]
          by_cases h1 : c < k ∧ m < fg.nMarker ∧ v.cBoundary c = true
          · rw [if_pos h1, if_pos ⟨by omega, h1.2⟩]
          · rw [if_neg h1, if_neg]
            intro h
            exact h1 ⟨by omega, h.2⟩
      · intro t w2 ht ⟨tB, tV⟩
        refine ⟨tB, ?_⟩
        intro c m
        show Function.update w2.cVertex k (Function.update (w2.cVertex k) t (-1)) c m = _
        by_cases hc : c = k
        · subst hc
          rw [Function.update_same]
          by_cases hm : m = t
          · subst hm
            rw [Function.update_same, if_pos ⟨rfl, Nat.lt_succ_self _⟩]
          · rw [Function.update_noteq hm, tV c m]
            by_cases h1 : m < t
            · rw [if_pos ⟨rfl, h1⟩, if_pos ⟨rfl, by omega⟩]
            · rw [if_neg (fun h => h1 h.2), if_neg]
              intro h
              omega
        · rw [Function.update_noteq hc, tV c m, if_neg (fun h => hc h.1),
            if_neg (fun h => hc h.1)]
    · rename_i hbk
      refine ⟨hB, ?_⟩
      intro c m
      rw [hV c m]
      rw [hB] at hbk
      by_cases h1 : c < k ∧ m < fg.nMarker ∧ v.cBoundary c = true
      · rw [if_pos h1, if_pos ⟨by omega, h1.2⟩]
      · rw [if_neg h1, if_neg]
        intro h
        by_cases hc : c = k
        · subst hc
          exact hbk h.2.2
        · exact h1 ⟨by omega, h.2⟩

/-- The flags and the presence of vertex indices after `SetVertex`. -/
theorem SetVertex_marks (fg : FineGrid) (fd : FineGeometry) (st : MGState) (v : CoarseBoundary)
    (c m : Nat) :
    (SetVertex fg fd st v).cBoundary c =
      (v.cBoundary c || (decide (c < st.nPoint) &&
        (List.range (st.nChildren_CV c)).any (fun i => fg.Boundary (st.Children_CV c i)))) ∧
    ((SetVertex fg fd st v).cVertex c m ≠ -1 ↔
      (v.cVertex c m ≠ -1 ∧
        ¬ (c < st.nPoint ∧ m < fg.nMarker ∧ (SetVertex fg fd st v).cBoundary c = true)) ∨
      (c < st.nPoint ∧ m < fg.nMarker ∧ (SetVertex fg fd st v).cBoundary c = true ∧
        ∃ i, i < st.nChildren_CV c ∧ fg.Vertex (st.Children_CV c i) m ≠ -1)) := by
  obtain ⟨a1, a2⟩ := SetVertex_flags_cBoundary fg st v
  obtain ⟨b1, b2⟩ := overBoundaryChildren_marks fg st (countVertexStep fg)
    (countVertexStep_marks fg) { SetVertex_flags fg st v with nVertex := fun _ => 0 }
  obtain ⟨c1, c2⟩ := resetVertices_cVertex fg st
    { overBoundaryChildren fg st (countVertexStep fg)
        { SetVertex_flags fg st v with nVertex := fun _ => 0 } with nVertex := fun _ => 0 }
  obtain ⟨d1, d2⟩ := overBoundaryChildren_marks fg st (createVertexStep fg fd)
    (createVertexStep_marks fg fd)
    { resetVertices fg st
        { overBoundaryChildren fg st (countVertexStep fg)
            { SetVertex_flags fg st v with nVertex := fun _ => 0 } with nVertex := fun _ => 0 }
      with nVertex := fun _ => 0 }
  have hB : (SetVertex fg fd st v).cBoundary = (SetVertex_flags fg st v).cBoundary :=
    d1.trans (c1.trans b1)
  refine ⟨by rw [hB]; exact a1 c, ?_⟩
  have hfin := d2 c m
  have hres := c2 c m
  have hcnt := b2 c m
  have e1 : (SetVertex fg fd st v).cVertex c m ≠ -1 ↔
      (resetVertices fg st
        { overBoundaryChildren fg st (countVertexStep fg)
            { SetVertex_flags fg st v with nVertex := fun _ => 0 } with
          nVertex := fun _ => 0 }).cVertex c m ≠ -1 ∨
      (c < st.nPoint ∧ m < fg.nMarker ∧ (SetVertex_flags fg st v).cBoundary c = true ∧
        ∃ i, i < st.nChildren_CV c ∧ fg.Vertex (st.Children_CV c i) m ≠ -1) := by
    rw [← c1.trans b1]
    exact hfin
  have e2 : (overBoundaryChildren fg st (countVertexStep fg)
      { SetVertex_flags fg st v with nVertex := fun _ => 0 }).cVertex c m ≠ -1 ↔
      v.cVertex c m ≠ -1 ∨
      (c < st.nPoint ∧ m < fg.nMarker ∧ (SetVertex_flags fg st v).cBoundary c = true ∧
        ∃ i, i < st.nChildren_CV c ∧ fg.Vertex (st.Children_CV c i) m ≠ -1) := by
    rw [← a2]
    exact hcnt
  have e3 : (resetVertices fg st
        { overBoundaryChildren fg st (countVertexStep fg)
            { SetVertex_flags fg st v with nVertex := fun _ => 0 } with
          nVertex := fun _ => 0 }).cVertex c m =
      if c < st.nPoint ∧ m < fg.nMarker ∧ (SetVertex_flags fg st v).cBoundary c = true then -1
      else (overBoundaryChildren fg st (countVertexStep fg)
        { SetVertex_flags fg st v with nVertex := fun _ => 0 }).cVertex c m := by
    rw [← b1]
    exact hres
  rw [e1, e3, hB]
  by_cases hcond : c < st.nPoint ∧ m < fg.nMarker ∧ (SetVertex_flags fg st v).cBoundary c = true
  · rw [if_pos hcond]
    constructor
    · rintro (h | h)
      · exact absurd rfl h
      · exact Or.inr h
    · rintro (⟨_, h⟩ | h)
      · exact absurd hcond h
      · exact Or.inr h
  · rw [if_neg hcond, e2]
    constructor
    · rintro ((h | h) | h)
      · exact Or.inl ⟨h, hcond⟩
      · exact absurd ⟨h.1, h.2.1, h.2.2.1⟩ hcond
      · exact absurd ⟨h.1, h.2.1, h.2.2.1⟩ hcond
    · rintro (⟨h, _⟩ | h)
      · exact Or.inl (Or.inl h)
      · exact absurd ⟨h.1, h.2.1, h.2.2.1⟩ hcond

/-! ## Claims on SetVertex -/

/-- C24: after `SetVertex`, a coarse CV `c < nPoint` that was not flagged boundary before the
call is flagged boundary exactly when one of its children is flagged boundary on the fine
grid. -/
theorem SetVertex_boundary_flag (fg : FineGrid) (fd : FineGeometry) (st : MGState)
    (v : CoarseBoundary) (c : Nat) (hc : c < st.nPoint) (hb : v.cBoundary c = false) :
    (SetVertex fg fd st v).cBoundary c = true ↔
      ∃ i, i < st.nChildren_CV c ∧ fg.Boundary (st.Children_CV c i) = true := by
  rw [(SetVertex_marks fg fd st v c 0).1, hb]
  simp [hc]

/-- Witness of C24: the coarse CV built from two adjacent boundary points. -/
theorem SetVertex_boundary_flag_witness :
    (SetVertex wallGrid wallGeometry (GEOM_GeometryMultigrid wallGrid (plainConfig 1) 1)
      freshBoundary).cBoundary 0 = true ↔
      ∃ i, i < (GEOM_GeometryMultigrid wallGrid (plainConfig 1) 1).nChildren_CV 0 ∧
        wallGrid.Boundary ((GEOM_GeometryMultigrid wallGrid (plainConfig 1) 1).Children_CV 0 i)
          = true :=
  SetVertex_boundary_flag wallGrid wallGeometry (GEOM_GeometryMultigrid wallGrid (plainConfig 1) 1)
    freshBoundary 0 (by decide) rfl

/-- C25: after `SetVertex`, a coarse CV `c < nPoint` that had no vertex on the marker
`m < nMarker` before the call has a vertex on `m` (its vertex index on `m` is not `-1`) exactly
when one of its children has a vertex on `m` on the fine grid, provided every fine point with a
vertex on `m` is flagged boundary. -/
theorem SetVertex_marker_membership (fg : FineGrid) (fd : FineGeometry) (st : MGState)
    (v : CoarseBoundary) (c m : Nat) (hc : c < st.nPoint) (hm : m < fg.nMarker)
    (hv : v.cVertex c m = -1)
    (hflag : ∀ p, fg.Vertex p m ≠ -1 → fg.Boundary p = true) :
    (SetVertex fg fd st v).cVertex c m ≠ -1 ↔
      ∃ i, i < st.nChildren_CV c ∧ fg.Vertex (st.Children_CV c i) m ≠ -1 := by
  obtain ⟨h1, h2⟩ := SetVertex_marks fg fd st v c m
  rw [h2]
  constructor
  · rintro (⟨h, _⟩ | ⟨_, _, _, h⟩)
    · exact absurd hv h
    · exact h
  · rintro ⟨i, hi, hvi⟩
    refine Or.inr ⟨hc, hm, ?_, i, hi, hvi⟩
    rw [h1]
    have hany : (List.range (st.nChildren_CV c)).any
        (fun i => fg.Boundary (st.Children_CV c i)) = true := by
      rw [List.any_eq_true]
      exact ⟨i, List.mem_range.mpr hi, hflag _ hvi⟩
    simp [hc, hany]

/-- Witness of C25: the coarse CV built from two adjacent points on marker 0 has a vertex on
marker 0. -/
theorem SetVertex_marker_membership_witness :
    (SetVertex wallGrid wallGeometry (GEOM_GeometryMultigrid wallGrid (plainConfig 1) 1)
      freshBoundary).cVertex 0 0 = 0 ∧
    ((SetVertex wallGrid wallGeometry (GEOM_GeometryMultigrid wallGrid (plainConfig 1) 1)
      freshBoundary).cVertex 0 0 ≠ -1 ↔
      ∃ i, i < (GEOM_GeometryMultigrid wallGrid (plainConfig 1) 1).nChildren_CV 0 ∧
        wallGrid.Vertex ((GEOM_GeometryMultigrid wallGrid (plainConfig 1) 1).Children_CV 0 i) 0
          ≠ -1) :=
  ⟨by decide,
    SetVertex_marker_membership wallGrid wallGeometry
      (GEOM_GeometryMultigrid wallGrid (plainConfig 1) 1) freshBoundary 0 0 (by decide)
      (by decide) rfl (fun p hp => wallGrid_wfm.flagged 0 p (by decide) hp)⟩

/-! ## Volume-weighted averages over the children -/

/-- A loop that overwrites entry `k` at step `k` with a value computed from `k` alone. -/
theorem foldl_update_range {β : Type} (g : Nat → β → β) (n : Nat) (C : Nat → β) (c : Nat) :
    (List.range n).foldl (fun C k => Function.update C k (g k (C k))) C c =
      if c < n then g c (C c) else C c := by
  induction n with
  | zero => simp
  | succ n ih =>
    rw [List.range_succ, List.foldl_append]
    simp only [List.foldl_cons, List.foldl_nil]
    by_cases hc : c = n
    · subst hc
      rw [Function.update_same, ih, if_neg (Nat.lt_irrefl c), if_pos (Nat.lt_succ_self c)]
    · rw [Function.update_noteq hc, ih]
      by_cases h2 : c < n
      · rw [if_pos h2, if_pos (by omega)]
      · rw [if_neg h2, if_neg (by omega)]

/-- The value accumulated over the children of a coarse point: with a non-zero stored volume it
is the sum of `field * volume / V` over the children, and without children it is 0 whatever the
stored volume. -/
theorem childrenAverage_eq (fg : FineGrid) (st : MGState) (field : Nat → Nat → ℚ)
    (c iDim : Nat) :
    (st.cVolume c ≠ 0 → childrenAverage fg st field c iDim =
      some (∑ i in Finset.range (st.nChildren_CV c),
        field (st.Children_CV c i) iDim * fg.Volume (st.Children_CV c i) / st.cVolume c)) ∧
    (st.nChildren_CV c = 0 → childrenAverage fg st field c iDim = some 0) := by
  constructor
  · intro hV
    unfold childrenAverage
    have key := foldl_range_inv
      (fun k (acc : Option ℚ) => acc = some (∑ i in Finset.range k,
        field (st.Children_CV c i) iDim * fg.Volume (st.Children_CV c i) / st.cVolume c))
      (fun acc iChildren =>
        let Point_Fine := st.Children_CV c iChildren
        let Area_Children := fg.Volume Point_Fine
        match acc, checkedDiv (field Point_Fine iDim * Area_Children) (st.cVolume c) with
        | some s, some t => some (s + t)
        | _, _ => none) (st.nChildren_CV c) (some 0) (by simp) ?_
    · exact key
    · intro k acc _ hacc
      subst hacc
      simp only [checkedDiv, if_neg hV, Finset.sum_range_succ]
  · intro h0
    unfold childrenAverage
    rw [h0]
    rfl

/-- When the stored volume is the non-zero sum of the volumes of the children, the weights
`volume / V` add up to 1. -/
theorem weights_sum_one (vol : Nat → ℚ) (n : Nat) (V : ℚ) (hV : V ≠ 0)
    (hsum : V = ∑ i in Finset.range n, vol i) : ∑ i in Finset.range n, vol i / V = 1 := by
  rw [← Finset.sum_div, ← hsum, div_self hV]

/-- With weights that add up to 1, children that share the value `x` of the field give the
weighted sum `x`. -/
theorem weighted_sum_const (vol fld : Nat → ℚ) (n : Nat) (V x : ℚ) (hV : V ≠ 0)
    (hsum : V = ∑ i in Finset.range n, vol i) (hx : ∀ i, i < n → fld i = x) :
    ∑ i in Finset.range n, fld i * vol i / V = x := by
  have h2 : ∑ i in Finset.range n, fld i * vol i / V =
      ∑ i in Finset.range n, x * (vol i / V) := by
    apply Finset.sum_congr rfl
    intro i hi
    rw [hx i (Finset.mem_range.mp hi), mul_div_assoc]
  rw [h2, ← Finset.mul_sum, weights_sum_one vol n V hV hsum, mul_one]

/-! ## Claims on SetCoord and SetRestricted_GridVelocity -/

/-- C29: `SetCoord` sets coordinate `iDim < nDim` of a coarse CV `c < nPoint` with non-zero
stored volume `V` to the sum over its children of `coord(child) * volume(child) / V`; when `V`
is the sum of the volumes of the children, the weights `volume(child) / V` add up to 1 and
children that all have the coordinate `x` give the coarse CV the coordinate `x`; and a coarse CV
without children gets the coordinate 0 whatever its stored volume, no division being
evaluated. -/
theorem SetCoord_weighted_average (fg : FineGrid) (fd : FineGeometry) (st : MGState)
    (cCoord : Nat → Nat → Option ℚ) (c iDim : Nat) (hc : c < st.nPoint) (hd : iDim < fd.nDim) :
    (st.cVolume c ≠ 0 → SetCoord fg fd st cCoord c iDim =
      some (∑ i in Finset.range (st.nChildren_CV c),
        fd.Coord (st.Children_CV c i) iDim * fg.Volume (st.Children_CV c i) / st.cVolume c)) ∧
    (st.cVolume c ≠ 0 →
      st.cVolume c = ∑ i in Finset.range (st.nChildren_CV c), fg.Volume (st.Children_CV c i) →
      (∑ i in Finset.range (st.nChildren_CV c),
        fg.Volume (st.Children_CV c i) / st.cVolume c = 1) ∧
      ∀ x, (∀ i, i < st.nChildren_CV c → fd.Coord (st.Children_CV c i) iDim = x) →
        SetCoord fg fd st cCoord c iDim = some x) ∧
    (st.nChildren_CV c = 0 → SetCoord fg fd st cCoord c iDim = some 0) := by
  have hS : SetCoord fg fd st cCoord c iDim = childrenAverage fg st fd.Coord c iDim := by
    unfold SetCoord
    rw [foldl_update_range (fun k row => fun iDim =>
      if iDim < fd.nDim then childrenAverage fg st fd.Coord k iDim else row iDim),
      if_pos hc, if_pos hd]
  obtain ⟨a1, a2⟩ := childrenAverage_eq fg st fd.Coord c iDim
  rw [hS]
  refine ⟨a1, ?_, a2⟩
  intro hV hsum
  refine ⟨weights_sum_one (fun i => fg.Volume (st.Children_CV c i)) _ _ hV hsum, ?_⟩
  intro x hx
  rw [a1 hV, weighted_sum_const (fun i => fg.Volume (st.Children_CV c i))
    (fun i => fd.Coord (st.Children_CV c i) iDim) _ _ x hV hsum hx]

/-- The coarse grid built from two adjacent boundary points has one coarse CV of volume 2 with
the children 0 and 1. -/
theorem wallGrid_coarse :
    (SetControlVolume wallGrid (GEOM_GeometryMultigrid wallGrid (plainConfig 1) 1)).cVolume 0 = 2 ∧
    (SetControlVolume wallGrid (GEOM_GeometryMultigrid wallGrid (plainConfig 1) 1)).nChildren_CV 0
      = 2 ∧
    (SetControlVolume wallGrid (GEOM_GeometryMultigrid wallGrid (plainConfig 1) 1)).Children_CV 0 0
      = 0 ∧
    (SetControlVolume wallGrid (GEOM_GeometryMultigrid wallGrid (plainConfig 1) 1)).Children_CV 0 1
      = 1 := by
  refine ⟨?_, by decide, by decide, by decide⟩
  rw [(SetControlVolume_cVolume wallGrid _).2 0 (by decide)]
  have hn : (GEOM_GeometryMultigrid wallGrid (plainConfig 1) 1).nChildren_CV 0 = 2 := by decide
  rw [hn, Finset.sum_range_succ, Finset.sum_range_one]
  show (1 : ℚ) + 1 = 2
  norm_num

/-- Witness of C29: the coarse CV built from the two adjacent points 0 and 1 of volume 1, with
first coordinates 0 and 1 and second coordinates 0: its coordinates are 1/2 and 0. -/
theorem SetCoord_weighted_average_witness :
    SetCoord wallGrid wallGeometry
        (SetControlVolume wallGrid (GEOM_GeometryMultigrid wallGrid (plainConfig 1) 1))
        (fun _ _ => none) 0 0 = some (1 / 2) ∧
    SetCoord wallGrid wallGeometry
        (SetControlVolume wallGrid (GEOM_GeometryMultigrid wallGrid (plainConfig 1) 1))
        (fun _ _ => none) 0 1 = some 0 := by
  obtain ⟨hV, hn, h0, h1⟩ := wallGrid_coarse
  constructor
  · rw [(SetCoord_weighted_average wallGrid wallGeometry
      (SetControlVolume wallGrid (GEOM_GeometryMultigrid wallGrid (plainConfig 1) 1))
      (fun _ _ => none) 0 0 (by decide) (by decide)).1 (by rw [hV]; norm_num)]
    rw [hn, hV, Finset.sum_range_succ, Finset.sum_range_one, h0, h1]
    norm_num [wallGeometry, wallGrid, plainGrid]
  · refine ((SetCoord_weighted_average wallGrid wallGeometry
      (SetControlVolume wallGrid (GEOM_GeometryMultigrid wallGrid (plainConfig 1) 1))
      (fun _ _ => none) 0 1 (by decide) (by decide)).2.1 (by rw [hV]; norm_num) ?_).2 0 ?_
    · rw [hn, hV, Finset.sum_range_succ, Finset.sum_range_one]
      norm_num [wallGrid, plainGrid]
    · intro i _
      simp [wallGeometry]

/-- C30: `SetRestricted_GridVelocity` sets grid-velocity component `iDim < nDim` of a coarse CV
`c < nPoint` with non-zero stored volume `V` to the sum over its children of
`gridVel(child) * volume(child) / V`; when `V` is the sum of the volumes of the children and
all children have the grid velocity `x` in that component, the coarse grid velocity is `x`. -/
theorem SetRestricted_GridVelocity_average (fg : FineGrid) (fd : FineGeometry) (st : MGState)
    (cGridVel : Nat → Nat → Option ℚ) (c iDim : Nat) (hc : c < st.nPoint)
    (hd : iDim < fd.nDim) (hV : st.cVolume c ≠ 0) :
    SetRestricted_GridVelocity fg fd st cGridVel c iDim =
      some (∑ i in Finset.range (st.nChildren_CV c),
        fd.GridVel (st.Children_CV c i) iDim * fg.Volume (st.Children_CV c i) / st.cVolume c) ∧
    (st.cVolume c = ∑ i in Finset.range (st.nChildren_CV c), fg.Volume (st.Children_CV c i) →
      ∀ x, (∀ i, i < st.nChildren_CV c → fd.GridVel (st.Children_CV c i) iDim = x) →
        SetRestricted_GridVelocity fg fd st cGridVel c iDim = some x) := by
  have hS : SetRestricted_GridVelocity fg fd st cGridVel c iDim =
      childrenAverage fg st fd.GridVel c iDim := by
    unfold SetRestricted_GridVelocity
    rw [foldl_update_range (fun k row => fun iDim =>
      if iDim < fd.nDim then childrenAverage fg st fd.GridVel k iDim else row iDim),
      if_pos hc, if_pos hd]
  obtain ⟨a1, _⟩ := childrenAverage_eq fg st fd.GridVel c iDim
  rw [hS]
  refine ⟨a1 hV, ?_⟩
  intro hsum x hx
  rw [a1 hV, weighted_sum_const (fun i => fg.Volume (st.Children_CV c i))
    (fun i => fd.GridVel (st.Children_CV c i) iDim) _ _ x hV hsum hx]

/-- Witness of C30: both children of the coarse CV have grid velocity 1 in the first component,
and so has the coarse CV. -/
theorem SetRestricted_GridVelocity_average_witness :
    SetRestricted_GridVelocity wallGrid wallGeometry
        (SetControlVolume wallGrid (GEOM_GeometryMultigrid wallGrid (plainConfig 1) 1))
        (fun _ _ => none) 0 0 = some 1 := by
  obtain ⟨hV, hn, _, _⟩ := wallGrid_coarse
  refine (SetRestricted_GridVelocity_average wallGrid wallGeometry
    (SetControlVolume wallGrid (GEOM_GeometryMultigrid wallGrid (plainConfig 1) 1))
    (fun _ _ => none) 0 0 (by decide) (by decide) (by rw [hV]; norm_num)).2 ?_ 1 ?_
  · rw [hn, hV, Finset.sum_range_succ, Finset.sum_range_one]
    norm_num [wallGrid, plainGrid]
  · intro i _
    simp [wallGeometry]

/-! ## The test for null area -/

/-- The square of a component, as rounded at lines 1152 and 1197, is not negative. -/
theorem doubleSquare_nonneg (x : ℚ) : 0 ≤ doubleSquare x := by
  unfold doubleSquare
  split
  · exact le_refl 0
  · exact mul_self_nonneg x

/-- The square of a component is rounded to zero exactly when it is at most `2^-1075`. -/
theorem doubleSquare_eq_zero_iff (x : ℚ) : doubleSquare x = 0 ↔ x * x ≤ 1 / 2 ^ 1075 := by
  unfold doubleSquare
  constructor
  · intro h
    by_contra hc
    rw [if_neg hc] at h
    rw [h] at hc
    exact hc (by positivity)
  · intro h
    rw [if_pos h]

/-- The sum computed at lines 1152 and 1197 is zero exactly when the squares of the `nDim`
components are all rounded to zero. -/
theorem area_eq_zero_iff (nDim : Nat) (NormalFace : Nat → ℚ) :
    (List.range nDim).foldl (fun Area iDim => Area + doubleSquare (NormalFace iDim)) 0 = 0 ↔
      ∀ iDim, iDim < nDim → NormalFace iDim * NormalFace iDim ≤ 1 / 2 ^ 1075 := by
  rw [foldl_add_range (fun iDim => doubleSquare (NormalFace iDim)),
    Finset.sum_eq_zero_iff_of_nonneg (fun i _ => doubleSquare_nonneg _)]
  constructor
  · intro h i hi
    exact (doubleSquare_eq_zero_iff _).mp (h i (Finset.mem_range.mpr hi))
  · intro h i hi
    exact (doubleSquare_eq_zero_iff _).mpr (h i (Finset.mem_range.mp hi))

/-- The square root of the sum of squares is zero exactly when the sum is: the test `Area == 0.0`
made after `Area = sqrt(Area)` is the test made by `clampNormal`. -/
theorem sqrt_area_eq_zero_iff (nDim : Nat) (NormalFace : Nat → ℚ) :
    Real.sqrt (((List.range nDim).foldl (fun Area iDim =>
      Area + doubleSquare (NormalFace iDim)) 0 : ℚ) : ℝ) = 0 ↔
    (List.range nDim).foldl (fun Area iDim => Area + doubleSquare (NormalFace iDim)) 0 = 0 := by
  have hnn : (0 : ℚ) ≤ (List.range nDim).foldl (fun Area iDim =>
      Area + doubleSquare (NormalFace iDim)) 0 := by
    rw [foldl_add_range (fun iDim => doubleSquare (NormalFace iDim))]
    exact Finset.sum_nonneg (fun i _ => doubleSquare_nonneg _)
  rw [Real.sqrt_eq_zero (by exact_mod_cast hnn)]
  exact_mod_cast Iff.rfl

/-- The cases of the test for null area: a normal whose components all have squares that are
rounded to zero, in particular one whose components are all zero, becomes the vector with every
component `EPS*EPS`; a normal with a component whose square is not rounded to zero is unchanged;
and with `EPS` non-zero and at least one dimension the result has a non-zero component. -/
theorem clampNormal_cases (EPS : ℚ) (nDim : Nat) (NormalFace : Nat → ℚ) :
    ((∀ iDim, iDim < nDim → NormalFace iDim * NormalFace iDim ≤ 1 / 2 ^ 1075) →
      ∀ iDim, iDim < nDim → clampNormal EPS nDim NormalFace iDim = EPS * EPS) ∧
    ((∀ iDim, iDim < nDim → NormalFace iDim = 0) →
      ∀ iDim, iDim < nDim → clampNormal EPS nDim NormalFace iDim = EPS * EPS) ∧
    ((∃ iDim, iDim < nDim ∧ 1 / 2 ^ 1075 < NormalFace iDim * NormalFace iDim) →
      clampNormal EPS nDim NormalFace = NormalFace) ∧
    (EPS ≠ 0 → 0 < nDim → ∃ iDim, iDim < nDim ∧ clampNormal EPS nDim NormalFace iDim ≠ 0) := by
  have hz := area_eq_zero_iff nDim NormalFace
  have h1 : (∀ iDim, iDim < nDim → NormalFace iDim * NormalFace iDim ≤ 1 / 2 ^ 1075) →
      ∀ iDim, iDim < nDim → clampNormal EPS nDim NormalFace iDim = EPS * EPS := by
    intro h i hi
    unfold clampNormal
    rw [if_pos (hz.mpr h), if_pos hi]
  have h3 : (∃ iDim, iDim < nDim ∧ 1 / 2 ^ 1075 < NormalFace iDim * NormalFace iDim) →
      clampNormal EPS nDim NormalFace = NormalFace := by
    rintro ⟨i, hi, hne⟩
    unfold clampNormal
    rw [if_neg]
    intro hc
    exact absurd (hz.mp hc i hi) (not_le.mpr hne)
  refine ⟨h1, ?_, h3, ?_⟩
  · intro h
    apply h1
    intro i hi
    rw [h i hi, mul_zero]
    positivity
  · intro hE hD
    by_cases hall : ∀ iDim, iDim < nDim → NormalFace iDim * NormalFace iDim ≤ 1 / 2 ^ 1075
    · refine ⟨0, hD, ?_⟩
      rw [h1 hall 0 hD]
      exact mul_ne_zero hE hE
    · push_neg at hall
      obtain ⟨i, hi, hne⟩ := hall
      refine ⟨i, hi, ?_⟩
      rw [h3 ⟨i, hi, hne⟩]
      intro h0
      rw [h0, mul_zero] at hne
      exact absurd hne (not_lt.mpr (by positivity))

/-- The loop of lines 1149-1155 applies the test for null area to every edge below `nEdge`. -/
theorem SetControlVolume_normals_eq (fg : FineGrid) (fd : FineGeometry) (st : MGState)
    (ce : CoarseEdges) (EPS : ℚ) (ALLOCATE action : Nat) (E : Nat → Nat → ℚ) (e : Nat) :
    SetControlVolume_normals fg fd st ce EPS ALLOCATE action E e =
      if e < ce.nEdge then
        clampNormal EPS fd.nDim (SetControlVolume_sums fg fd st ce ALLOCATE action E e)
      else SetControlVolume_sums fg fd st ce ALLOCATE action E e := by
  unfold SetControlVolume_normals
  rw [foldl_update_range (fun _ N => clampNormal EPS fd.nDim N)]

/-- The loop of lines 1193-1200 applies the test for null area to every coarse vertex. -/
theorem SetBoundControlVolume_eq (fg : FineGrid) (fd : FineGeometry) (st : MGState)
    (v : CoarseBoundary) (EPS : ℚ) (ALLOCATE action : Nat) (N : Nat → Nat → Nat → ℚ)
    (m iv : Nat) :
    SetBoundControlVolume fg fd st v EPS ALLOCATE action N m iv =
      if m < fg.nMarker ∧ iv < v.nVertex m then
        clampNormal EPS fd.nDim (SetBoundControlVolume_sums fg fd st v ALLOCATE action N m iv)
      else SetBoundControlVolume_sums fg fd st v ALLOCATE action N m iv := by
  unfold SetBoundControlVolume
  have hrow : ∀ (M : Nat → Nat → Nat → ℚ) (k m2 iv2 : Nat),
      (List.range (v.nVertex k)).foldl (fun (N : Nat → Nat → Nat → ℚ) iVertex =>
        Function.update N k
          (Function.update (N k) iVertex (clampNormal EPS fd.nDim (N k iVertex)))) M m2 iv2 =
      if m2 = k ∧ iv2 < v.nVertex k then clampNormal EPS fd.nDim (M k iv2) else M m2 iv2 := by
    intro M k m2 iv2
    have key := foldl_range_inv
      (fun t (M2 : Nat → Nat → Nat → ℚ) => ∀ m2 iv2, M2 m2 iv2 =
        if m2 = k ∧ iv2 < t then clampNormal EPS fd.nDim (M k iv2) else M m2 iv2)
      (fun (N : Nat → Nat → Nat → ℚ) iVertex => Function.update N k
        (Function.update (N k) iVertex (clampNormal EPS fd.nDim (N k iVertex))))
      (v.nVertex k) M (by intro m2 iv2; simp) ?_
    · exact key m2 iv2
    · intro t M2 _ hM2 m3 iv3
      show Function.update M2 k
        (Function.update (M2 k) t (clampNormal EPS fd.nDim (M2 k t))) m3 iv3 = _
      by_cases hm : m3 = k
      · subst hm
        rw [Function.update_same]
        by_cases h : iv3 = t
        · subst h
          rw [Function.update_same, hM2 m3 iv3, if_neg (fun h => Nat.lt_irrefl _ h.2),
            if_pos ⟨rfl, Nat.lt_succ_self _⟩]
        · rw [Function.update_noteq h, hM2 m3 iv3]
          by_cases h2 : iv3 < t
          · rw [if_pos ⟨rfl, h2⟩, if_pos ⟨rfl, by omega⟩]
          · rw [if_neg (fun h => h2 h.2), if_neg]
            intro h3
            omega
      · rw [Function.update_noteq hm, hM2 m3 iv3, if_neg (fun h => hm h.1),
          if_neg (fun h => hm h.1)]
  have key := foldl_range_inv
    (fun k (M2 : Nat → Nat → Nat → ℚ) => ∀ m2 iv2, M2 m2 iv2 =
      if m2 < k ∧ iv2 < v.nVertex m2 then
        clampNormal EPS fd.nDim (SetBoundControlVolume_sums fg fd st v ALLOCATE action N m2 iv2)
      else SetBoundControlVolume_sums fg fd st v ALLOCATE action N m2 iv2)
    (fun (N : Nat → Nat → Nat → ℚ) iMarker =>
      (List.range (v.nVertex iMarker)).foldl (fun (N : Nat → Nat → Nat → ℚ) iVertex =>
        Function.update N iMarker
          (Function.update (N iMarker) iVertex (clampNormal EPS fd.nDim (N iMarker iVertex)))) N)
    fg.nMarker (SetBoundControlVolume_sums fg fd st v ALLOCATE action N)
    (by intro m2 iv2; simp) ?_
  · exact key m iv
  · intro k M2 _ hM2 m2 iv2
    show ((List.range (v.nVertex k)).foldl (fun (N : Nat → Nat → Nat → ℚ) iVertex =>
        Function.update N k
          (Function.update (N k) iVertex (clampNormal EPS fd.nDim (N k iVertex)))) M2) m2 iv2 = _
    rw [hrow M2 k m2 iv2]
    by_cases hm : m2 = k
    · subst hm
      have e : M2 m2 iv2 = SetBoundControlVolume_sums fg fd st v ALLOCATE action N m2 iv2 := by
        rw [hM2 m2 iv2]
        exact if_neg (fun h => Nat.lt_irrefl _ h.1)
      rw [e]
      by_cases h2 : iv2 < v.nVertex m2
      · rw [if_pos ⟨rfl, h2⟩, if_pos ⟨Nat.lt_succ_self _, h2⟩]
      · rw [if_neg (fun h => h2 h.2), if_neg (fun h => h2 h.2)]
    · rw [if_neg (fun h => hm h.1), hM2 m2 iv2]
      by_cases h2 : m2 < k ∧ iv2 < v.nVertex m2
      · rw [if_pos h2, if_pos ⟨by omega, h2.2⟩]
      · rw [if_neg h2, if_neg]
        intro h
        exact h2 ⟨by omega, h.2⟩

/-! ## Normals of the coarse vertices -/

/-- The normals of the coarse vertices before the test for null area: every coarse vertex of a
marker below `nMarker` has gained the normals of the fine vertices on that marker of the
children of its coarse point, and nothing else has changed. -/
theorem SetBoundControlVolume_sums_eq (fg : FineGrid) (fd : FineGeometry) (st : MGState)
    (v : CoarseBoundary) (ALLOCATE action : Nat) (N : Nat → Nat → Nat → ℚ) (m iv : Nat) :
    SetBoundControlVolume_sums fg fd st v ALLOCATE action N m iv =
      (if action ≠ ALLOCATE then
        (if m < fg.nMarker ∧ iv < v.nVertex m then 0 else N m iv) else N m iv) +
      if m < fg.nMarker ∧ iv < v.nVertex m then
        ∑ i in Finset.range (st.nChildren_CV (v.vertexNode m iv)),
          if fg.Vertex (st.Children_CV (v.vertexNode m iv) i) m ≠ -1 then
            fd.VertexNormal m (fg.Vertex (st.Children_CV (v.vertexNode m iv) i) m).toNat
          else 0
      else 0 := by
  have hinner : ∀ (M : Nat → Nat → Nat → ℚ) (k j m2 iv2 : Nat),
      (List.range (st.nChildren_CV (v.vertexNode k j))).foldl
        (vertexNormalStep fg fd st k j (v.vertexNode k j)) M m2 iv2 =
      M m2 iv2 + if m2 = k ∧ iv2 = j then
        ∑ i in Finset.range (st.nChildren_CV (v.vertexNode k j)),
          if fg.Vertex (st.Children_CV (v.vertexNode k j) i) k ≠ -1 then
            fd.VertexNormal k (fg.Vertex (st.Children_CV (v.vertexNode k j) i) k).toNat
          else 0
        else 0 := by
    intro M k j m2 iv2
    have key := foldl_range_inv
      (fun t (M2 : Nat → Nat → Nat → ℚ) => ∀ m2 iv2, M2 m2 iv2 =
        M m2 iv2 + if m2 = k ∧ iv2 = j then
          ∑ i in Finset.range t,
            if fg.Vertex (st.Children_CV (v.vertexNode k j) i) k ≠ -1 then
              fd.VertexNormal k (fg.Vertex (st.Children_CV (v.vertexNode k j) i) k).toNat
            else 0
          else 0)
      (vertexNormalStep fg fd st k j (v.vertexNode k j))
      (st.nChildren_CV (v.vertexNode k j)) M (by intro m2 iv2; simp) ?_
    · exact key m2 iv2
    · intro t M2 _ hM2 m3 iv3
      unfold vertexNormalStep
      dsimp only
      by_cases hcond : fg.Vertex (st.Children_CV (v.vertexNode k j) t) k ≠ -1
      · rw [if_pos hcond]
        by_cases hm : m3 = k
        · subst hm
          rw [Function.update_same]
          by_cases hi : iv3 = j
          · subst hi
            rw [Function.update_same, hM2 m3 iv3, if_pos ⟨rfl, rfl⟩, if_pos ⟨rfl, rfl⟩,
              Finset.sum_range_succ, if_pos hcond, add_assoc]
          · rw [Function.update_noteq hi, hM2 m3 iv3, if_neg (fun h => hi h.2),
              if_neg (fun h => hi h.2)]
        · rw [Function.update_noteq hm, hM2 m3 iv3, if_neg (fun h => hm h.1),
            if_neg (fun h => hm h.1)]
      · rw [if_neg hcond, hM2 m3 iv3]
        by_cases h : m3 = k ∧ iv3 = j
        · rw [if_pos h, if_pos h, Finset.sum_range_succ, if_neg hcond, add_zero]
        · rw [if_neg h, if_neg h]
  have hmid : ∀ (M : Nat → Nat → Nat → ℚ) (k m2 iv2 : Nat),
      (List.range (v.nVertex k)).foldl (fun (N : Nat → Nat → Nat → ℚ) iVertex =>
        (List.range (st.nChildren_CV (v.vertexNode k iVertex))).foldl
          (vertexNormalStep fg fd st k iVertex (v.vertexNode k iVertex)) N) M m2 iv2 =
      M m2 iv2 + if m2 = k ∧ iv2 < v.nVertex k then
        ∑ i in Finset.range (st.nChildren_CV (v.vertexNode k iv2)),
          if fg.Vertex (st.Children_CV (v.vertexNode k iv2) i) k ≠ -1 then
            fd.VertexNormal k (fg.Vertex (st.Children_CV (v.vertexNode k iv2) i) k).toNat
          else 0
        else 0 := by
    intro M k m2 iv2
    have key := foldl_range_inv
      (fun j (M2 : Nat → Nat → Nat → ℚ) => ∀ m2 iv2, M2 m2 iv2 =
        M m2 iv2 + if m2 = k ∧ iv2 < j then
          ∑ i in Finset.range (st.nChildren_CV (v.vertexNode k iv2)),
            if fg.Vertex (st.Children_CV (v.vertexNode k iv2) i) k ≠ -1 then
              fd.VertexNormal k (fg.Vertex (st.Children_CV (v.vertexNode k iv2) i) k).toNat
            else 0
          else 0)
      (fun (N : Nat → Nat → Nat → ℚ) iVertex =>
        (List.range (st.nChildren_CV (v.vertexNode k iVertex))).foldl
          (vertexNormalStep fg fd st k iVertex (v.vertexNode k iVertex)) N)
      (v.nVertex k) M (by intro m2 iv2; simp) ?_
    · exact key m2 iv2
    · intro j M2 _ hM2 m3 iv3
      show (List.range (st.nChildren_CV (v.vertexNode k j))).foldl
        (vertexNormalStep fg fd st k j (v.vertexNode k j)) M2 m3 iv3 = _
      rw [hinner M2 k j m3 iv3, hM2 m3 iv3]
      by_cases hm : m3 = k
      · subst hm
        by_cases hi : iv3 = j
        · subst hi
          simp
        · by_cases h2 : iv3 < j
          · have h3 : iv3 < j + 1 := by omega
            simp [hi, h2, h3]
          · have h3 : ¬ iv3 < j + 1 := by omega
            simp [hi, h2, h3]
      · simp [hm]
  unfold SetBoundControlVolume_sums
  dsimp only
  have key := foldl_range_inv
    (fun k (M2 : Nat → Nat → Nat → ℚ) => ∀ m2 iv2, M2 m2 iv2 =
      (if action ≠ ALLOCATE then
        (fun iMarker iVertex => if iMarker < fg.nMarker ∧ iVertex < v.nVertex iMarker then 0
          else N iMarker iVertex)
        else N) m2 iv2 +
      if m2 < k ∧ iv2 < v.nVertex m2 then
        ∑ i in Finset.range (st.nChildren_CV (v.vertexNode m2 iv2)),
          if fg.Vertex (st.Children_CV (v.vertexNode m2 iv2) i) m2 ≠ -1 then
            fd.VertexNormal m2 (fg.Vertex (st.Children_CV (v.vertexNode m2 iv2) i) m2).toNat
          else 0
      else 0)
    (fun (N : Nat → Nat → Nat → ℚ) iMarker =>
      (List.range (v.nVertex iMarker)).foldl (fun (N : Nat → Nat → Nat → ℚ) iVertex =>
        (List.range (st.nChildren_CV (v.vertexNode iMarker iVertex))).foldl
          (vertexNormalStep fg fd st iMarker iVertex (v.vertexNode iMarker iVertex)) N) N)
    fg.nMarker
    (if action ≠ ALLOCATE then
      (fun iMarker iVertex => if iMarker < fg.nMarker ∧ iVertex < v.nVertex iMarker then 0
        else N iMarker iVertex)
      else N)
    (by intro m2 iv2; simp) ?_
  · rw [key m iv]
    congr 1
    split <;> rfl
  · intro k M2 _ hM2 m2 iv2
    show (List.range (v.nVertex k)).foldl (fun (N : Nat → Nat → Nat → ℚ) iVertex =>
        (List.range (st.nChildren_CV (v.vertexNode k iVertex))).foldl
          (vertexNormalStep fg fd st k iVertex (v.vertexNode k iVertex)) N) M2 m2 iv2 = _
    rw [hmid M2 k m2 iv2, hM2 m2 iv2]
    by_cases hm : m2 = k
    · subst hm
      by_cases h2 : iv2 < v.nVertex m2
      · simp [h2]
      · simp [h2]
    · by_cases h2 : m2 < k
      · have h3 : m2 < k + 1 := by omega
        simp [hm, h2, h3]
      · have h3 : ¬ m2 < k + 1 := by omega
        simp [hm, h2, h3]

/-! ## Claim on the normals of the coarse vertices -/

/-- C28: for a marker `m < nMarker` and a coarse vertex `iv < nVertex[m]` of coarse CV `c`, whose
normal is zero on entry when `action` is `ALLOCATE` (otherwise the function zeroes it), the
normal of the vertex before the test for null area is the sum of the normals of the fine
vertices on `m` of exactly those children of `c` that have a vertex on `m`. -/
theorem SetBoundControlVolume_vertex_normal (fg : FineGrid) (fd : FineGeometry) (st : MGState)
    (v : CoarseBoundary) (ALLOCATE action : Nat) (N : Nat → Nat → Nat → ℚ) (m iv : Nat)
    (hm : m < fg.nMarker) (hiv : iv < v.nVertex m) (h0 : action = ALLOCATE → N m iv = 0) :
    SetBoundControlVolume_sums fg fd st v ALLOCATE action N m iv =
      ∑ i in (Finset.range (st.nChildren_CV (v.vertexNode m iv))).filter
          (fun i => fg.Vertex (st.Children_CV (v.vertexNode m iv) i) m ≠ -1),
        fd.VertexNormal m (fg.Vertex (st.Children_CV (v.vertexNode m iv) i) m).toNat := by
  rw [SetBoundControlVolume_sums_eq, Finset.sum_filter]
  by_cases ha : action = ALLOCATE
  · simp [ha, h0 (ha), hm, hiv]
  · simp [ha, hm, hiv]

/-- Witness of C28: the coarse vertex 0 of marker 0 on the coarse grid built from two adjacent
points on that marker. -/
theorem SetBoundControlVolume_vertex_normal_witness :
    SetBoundControlVolume_sums wallGrid wallGeometry
        (GEOM_GeometryMultigrid wallGrid (plainConfig 1) 1)
        (SetVertex wallGrid wallGeometry (GEOM_GeometryMultigrid wallGrid (plainConfig 1) 1)
          freshBoundary) 0 0 (fun _ _ _ => 0) 0 0 =
      ∑ i in (Finset.range ((GEOM_GeometryMultigrid wallGrid (plainConfig 1) 1).nChildren_CV
          ((SetVertex wallGrid wallGeometry (GEOM_GeometryMultigrid wallGrid (plainConfig 1) 1)
            freshBoundary).vertexNode 0 0))).filter
          (fun i => wallGrid.Vertex ((GEOM_GeometryMultigrid wallGrid (plainConfig 1) 1).Children_CV
            ((SetVertex wallGrid wallGeometry (GEOM_GeometryMultigrid wallGrid (plainConfig 1) 1)
              freshBoundary).vertexNode 0 0) i) 0 ≠ -1),
        wallGeometry.VertexNormal 0
          (wallGrid.Vertex ((GEOM_GeometryMultigrid wallGrid (plainConfig 1) 1).Children_CV
            ((SetVertex wallGrid wallGeometry (GEOM_GeometryMultigrid wallGrid (plainConfig 1) 1)
              freshBoundary).vertexNode 0 0) i) 0).toNat :=
  SetBoundControlVolume_vertex_normal wallGrid wallGeometry
    (GEOM_GeometryMultigrid wallGrid (plainConfig 1) 1)
    (SetVertex wallGrid wallGeometry (GEOM_GeometryMultigrid wallGrid (plainConfig 1) 1)
      freshBoundary) 0 0 (fun _ _ _ => 0) 0 0 (by decide) (by decide) (fun _ => rfl)

/-! ## Claim on normals of null area -/

/-- C27 (as stated, refuted): the two fine points of the wall grid have the vertex normals
`(2^-600, 0)` on marker 0 and are the children of one coarse CV; the aggregated normal of its
coarse vertex is `(2^-599, 0)`, with a non-zero component, and after `SetBoundControlVolume` the
normal is not left unchanged: its components are `EPS*EPS`, because the square of `2^-599`
underflows and `Area == 0.0` holds. -/
theorem tiny_normal_replaced :
    SetBoundControlVolume_sums wallGrid tinyGeometry
        (GEOM_GeometryMultigrid wallGrid (plainConfig 1) 1)
        (SetVertex wallGrid tinyGeometry (GEOM_GeometryMultigrid wallGrid (plainConfig 1) 1)
          freshBoundary) 0 0 (fun _ _ _ => 0) 0 0 0 = 1 / 2 ^ 599 ∧
    SetBoundControlVolume_sums wallGrid tinyGeometry
        (GEOM_GeometryMultigrid wallGrid (plainConfig 1) 1)
        (SetVertex wallGrid tinyGeometry (GEOM_GeometryMultigrid wallGrid (plainConfig 1) 1)
          freshBoundary) 0 0 (fun _ _ _ => 0) 0 0 0 ≠ 0 ∧
    SetBoundControlVolume wallGrid tinyGeometry
        (GEOM_GeometryMultigrid wallGrid (plainConfig 1) 1)
        (SetVertex wallGrid tinyGeometry (GEOM_GeometryMultigrid wallGrid (plainConfig 1) 1)
          freshBoundary) (1 / 10) 0 0 (fun _ _ _ => 0) 0 0 0 = 1 / 10 * (1 / 10) ∧
    SetBoundControlVolume wallGrid tinyGeometry
        (GEOM_GeometryMultigrid wallGrid (plainConfig 1) 1)
        (SetVertex wallGrid tinyGeometry (GEOM_GeometryMultigrid wallGrid (plainConfig 1) 1)
          freshBoundary) (1 / 10) 0 0 (fun _ _ _ => 0) 0 0 ≠
      SetBoundControlVolume_sums wallGrid tinyGeometry
        (GEOM_GeometryMultigrid wallGrid (plainConfig 1) 1)
        (SetVertex wallGrid tinyGeometry (GEOM_GeometryMultigrid wallGrid (plainConfig 1) 1)
          freshBoundary) 0 0 (fun _ _ _ => 0) 0 0 := by
  have hm : (0 : Nat) < wallGrid.nMarker ∧
      0 < (SetVertex wallGrid tinyGeometry (GEOM_GeometryMultigrid wallGrid (plainConfig 1) 1)
        freshBoundary).nVertex 0 := by
    decide
  have hc : (SetVertex wallGrid tinyGeometry (GEOM_GeometryMultigrid wallGrid (plainConfig 1) 1)
      freshBoundary).vertexNode 0 0 = 0 := by
    decide
  have hn : (GEOM_GeometryMultigrid wallGrid (plainConfig 1) 1).nChildren_CV 0 = 2 := by decide
  have hv : ∀ i, i < 2 →
      wallGrid.Vertex ((GEOM_GeometryMultigrid wallGrid (plainConfig 1) 1).Children_CV 0 i) 0
        ≠ -1 := by
    decide
  have hs : ∀ iDim, SetBoundControlVolume_sums wallGrid tinyGeometry
      (GEOM_GeometryMultigrid wallGrid (plainConfig 1) 1)
      (SetVertex wallGrid tinyGeometry (GEOM_GeometryMultigrid wallGrid (plainConfig 1) 1)
        freshBoundary) 0 0 (fun _ _ _ => 0) 0 0 iDim = if iDim = 0 then 1 / 2 ^ 599 else 0 := by
    have key := SetBoundControlVolume_sums_eq wallGrid tinyGeometry
      (GEOM_GeometryMultigrid wallGrid (plainConfig 1) 1)
      (SetVertex wallGrid tinyGeometry (GEOM_GeometryMultigrid wallGrid (plainConfig 1) 1)
        freshBoundary) 0 0 (fun _ _ _ => 0) 0 0
    simp only [if_pos hm, hc, hn, Finset.sum_range_succ, Finset.sum_range_zero,
      if_pos (hv 0 (by decide)), if_pos (hv 1 (by decide))] at key
    intro iDim
    rw [key]
    have e : ∀ x, tinyGeometry.VertexNormal 0 x iDim = if iDim = 0 then 1 / 2 ^ 600 else 0 :=
      fun _ => rfl
    simp only [Pi.add_apply, Pi.zero_apply, e]
    by_cases hi : iDim = 0
    · rw [if_pos hi, if_pos hi]
      norm_num
    · rw [if_neg hi, if_neg hi]
      norm_num
  have h0 := hs 0
  rw [if_pos rfl] at h0
  have hfin : SetBoundControlVolume wallGrid tinyGeometry
      (GEOM_GeometryMultigrid wallGrid (plainConfig 1) 1)
      (SetVertex wallGrid tinyGeometry (GEOM_GeometryMultigrid wallGrid (plainConfig 1) 1)
        freshBoundary) (1 / 10) 0 0 (fun _ _ _ => 0) 0 0 0 = 1 / 10 * (1 / 10) := by
    rw [SetBoundControlVolume_eq, if_pos hm]
    refine (clampNormal_cases (1 / 10) tinyGeometry.nDim _).1 ?_ 0 (by decide)
    intro iDim _
    rw [hs iDim]
    by_cases hi : iDim = 0
    · rw [if_pos hi]
      norm_num
    · rw [if_neg hi]
      norm_num
  refine ⟨h0, ?_, hfin, ?_⟩
  · rw [h0]
    positivity
  · intro heq
    rw [heq, h0] at hfin
    norm_num at hfin

/-- C27 (amended): with `EPS` non-zero and at least one dimension, after `SetControlVolume` every
coarse edge below `nEdge`, and after `SetBoundControlVolume` every coarse vertex of a marker
below `nMarker`, has a normal with a non-zero component. A normal whose aggregated components
are all zero, and more generally one whose components all have squares that are rounded to zero
in `double` arithmetic (at most `2^-1075`), is replaced by the vector with every component
`EPS*EPS`; a normal with a component whose square is not rounded to zero is left as
aggregated. -/
theorem normals_never_zero (fg : FineGrid) (fd : FineGeometry) (st : MGState)
    (ce : CoarseEdges) (v : CoarseBoundary) (EPS : ℚ) (ALLOCATE action : Nat)
    (E : Nat → Nat → ℚ) (N : Nat → Nat → Nat → ℚ) (hE : EPS ≠ 0) (hD : 0 < fd.nDim) :
    (∀ e, e < ce.nEdge →
      (∃ iDim, iDim < fd.nDim ∧
        SetControlVolume_normals fg fd st ce EPS ALLOCATE action E e iDim ≠ 0) ∧
      ((∀ iDim, iDim < fd.nDim → SetControlVolume_sums fg fd st ce ALLOCATE action E e iDim = 0) →
        ∀ iDim, iDim < fd.nDim →
          SetControlVolume_normals fg fd st ce EPS ALLOCATE action E e iDim = EPS * EPS) ∧
      ((∀ iDim, iDim < fd.nDim →
          SetControlVolume_sums fg fd st ce ALLOCATE action E e iDim *
            SetControlVolume_sums fg fd st ce ALLOCATE action E e iDim ≤ 1 / 2 ^ 1075) →
        ∀ iDim, iDim < fd.nDim →
          SetControlVolume_normals fg fd st ce EPS ALLOCATE action E e iDim = EPS * EPS) ∧
      ((∃ iDim, iDim < fd.nDim ∧
          1 / 2 ^ 1075 < SetControlVolume_sums fg fd st ce ALLOCATE action E e iDim *
            SetControlVolume_sums fg fd st ce ALLOCATE action E e iDim) →
        SetControlVolume_normals fg fd st ce EPS ALLOCATE action E e =
          SetControlVolume_sums fg fd st ce ALLOCATE action E e)) ∧
    (∀ m iv, m < fg.nMarker → iv < v.nVertex m →
      (∃ iDim, iDim < fd.nDim ∧
        SetBoundControlVolume fg fd st v EPS ALLOCATE action N m iv iDim ≠ 0) ∧
      ((∀ iDim, iDim < fd.nDim →
          SetBoundControlVolume_sums fg fd st v ALLOCATE action N m iv iDim = 0) →
        ∀ iDim, iDim < fd.nDim →
          SetBoundControlVolume fg fd st v EPS ALLOCATE action N m iv iDim = EPS * EPS) ∧
      ((∀ iDim, iDim < fd.nDim →
          SetBoundControlVolume_sums fg fd st v ALLOCATE action N m iv iDim *
            SetBoundControlVolume_sums fg fd st v ALLOCATE action N m iv iDim ≤ 1 / 2 ^ 1075) →
        ∀ iDim, iDim < fd.nDim →
          SetBoundControlVolume fg fd st v EPS ALLOCATE action N m iv iDim = EPS * EPS) ∧
      ((∃ iDim, iDim < fd.nDim ∧
          1 / 2 ^ 1075 < SetBoundControlVolume_sums fg fd st v ALLOCATE action N m iv iDim *
            SetBoundControlVolume_sums fg fd st v ALLOCATE action N m iv iDim) →
        SetBoundControlVolume fg fd st v EPS ALLOCATE action N m iv =
          SetBoundControlVolume_sums fg fd st v ALLOCATE action N m iv)) := by
  constructor
  · intro e he
    rw [SetControlVolume_normals_eq, if_pos he]
    obtain ⟨c1, c2, c3, c4⟩ := clampNormal_cases EPS fd.nDim
      (SetControlVolume_sums fg fd st ce ALLOCATE action E e)
    exact ⟨c4 hE hD, c2, c1, c3⟩
  · intro m iv hm hiv
    rw [SetBoundControlVolume_eq, if_pos ⟨hm, hiv⟩]
    obtain ⟨c1, c2, c3, c4⟩ := clampNormal_cases EPS fd.nDim
      (SetBoundControlVolume_sums fg fd st v ALLOCATE action N m iv)
    exact ⟨c4 hE hD, c2, c1, c3⟩

/-- Witness of C27 (amended): the edge 0 and the coarse vertex 0 of marker 0 of the coarse grid
built from two adjacent points on that marker, with `EPS = 1/10`. -/
theorem normals_never_zero_witness :
    (∃ iDim, iDim < wallGeometry.nDim ∧
      SetControlVolume_normals wallGrid wallGeometry
        (GEOM_GeometryMultigrid wallGrid (plainConfig 1) 1) oneEdge (1 / 10) 0 0
        (fun _ _ => 0) 0 iDim ≠ 0) ∧
    (∃ iDim, iDim < wallGeometry.nDim ∧
      SetBoundControlVolume wallGrid wallGeometry
        (GEOM_GeometryMultigrid wallGrid (plainConfig 1) 1)
        (SetVertex wallGrid wallGeometry (GEOM_GeometryMultigrid wallGrid (plainConfig 1) 1)
          freshBoundary) (1 / 10) 0 0 (fun _ _ _ => 0) 0 0 iDim ≠ 0) :=
  ⟨((normals_never_zero wallGrid wallGeometry
      (GEOM_GeometryMultigrid wallGrid (plainConfig 1) 1) oneEdge
      (SetVertex wallGrid wallGeometry (GEOM_GeometryMultigrid wallGrid (plainConfig 1) 1)
        freshBoundary) (1 / 10) 0 0 (fun _ _ => 0) (fun _ _ _ => 0)
      (by norm_num) (by decide)).1 0 (by decide)).1,
   ((normals_never_zero wallGrid wallGeometry
      (GEOM_GeometryMultigrid wallGrid (plainConfig 1) 1) oneEdge
      (SetVertex wallGrid wallGeometry (GEOM_GeometryMultigrid wallGrid (plainConfig 1) 1)
        freshBoundary) (1 / 10) 0 0 (fun _ _ => 0) (fun _ _ _ => 0)
      (by norm_num) (by decide)).2 0 0 (by decide) (by decide)).1⟩

/-! ## Normals of the coarse edges -/

/-- The body of the loop over the neighbours, as one addition to one coarse edge. -/
theorem edgeNormalStep_eq (fd : FineGeometry) (st : MGState) (ce : CoarseEdges)
    (c p : Nat) (E : Nat → Nat → ℚ) (q : Nat) :
    edgeNormalStep fd st ce c p E q =
      if st.fParent_CV q < c then
        Function.update E (ce.FindEdge (st.fParent_CV q) c)
          (E (ce.FindEdge (st.fParent_CV q) c) + orientedNormal fd p q)
      else E := by
  unfold edgeNormalStep orientedNormal
  dsimp only
  by_cases h : st.fParent_CV q < c
  · rw [if_pos ⟨Nat.ne_of_lt h, h⟩, if_pos h]
    by_cases h2 : p < q
    · simp [h2]
    · simp [h2]
  · rw [if_neg (fun hc => h hc.2), if_neg h]

/-- The normal of the coarse edge `e` after the loop over the neighbours of one child. -/
theorem edgeNormal_neighbours (fd : FineGeometry) (st : MGState) (ce : CoarseEdges)
    (c p e : Nat) (qs : List Nat) (E : Nat → Nat → ℚ) :
    qs.foldl (edgeNormalStep fd st ce c p) E e =
      E e + (qs.map (fun q =>
        if st.fParent_CV q < c ∧ ce.FindEdge (st.fParent_CV q) c = e then orientedNormal fd p q
        else 0)).sum := by
  induction qs generalizing E with
  | nil => simp
  | cons q qs ih =>
    rw [List.foldl_cons, ih, edgeNormalStep_eq, List.map_cons, List.sum_cons]
    by_cases h : st.fParent_CV q < c
    · rw [if_pos h]
      by_cases h2 : ce.FindEdge (st.fParent_CV q) c = e
      · rw [if_pos ⟨h, h2⟩, ← h2, Function.update_same, add_assoc]
      · rw [if_neg (fun hc => h2 hc.2), Function.update_noteq (fun hc => h2 hc.symm), zero_add]
    · rw [if_neg h, if_neg (fun hc => h hc.1), zero_add]

/-- The normal of the coarse edge `e` before the test for null area: the value on entry (zero
unless `action` is `ALLOCATE`) plus, for every coarse point `c` below `nPoint`, every child `p`
of `c` and every neighbour `q` of `p` with parent `a < c` and `FindEdge(a, c) = e`, the vector
added for `p` and `q`. -/
theorem SetControlVolume_sums_eq (fg : FineGrid) (fd : FineGeometry) (st : MGState)
    (ce : CoarseEdges) (ALLOCATE action : Nat) (E : Nat → Nat → ℚ) (e : Nat) :
    SetControlVolume_sums fg fd st ce ALLOCATE action E e =
      (if action ≠ ALLOCATE then (if e < ce.nEdge then 0 else E e) else E e) +
      ∑ c in Finset.range st.nPoint, ∑ i in Finset.range (st.nChildren_CV c),
        ((fg.Point (st.Children_CV c i)).map (fun q =>
          if st.fParent_CV q < c ∧ ce.FindEdge (st.fParent_CV q) c = e then
            orientedNormal fd (st.Children_CV c i) q
          else 0)).sum := by
  unfold SetControlVolume_sums
  have hmid : ∀ (c : Nat) (M : Nat → Nat → ℚ),
      (List.range (st.nChildren_CV c)).foldl (fun (E : Nat → Nat → ℚ) iChildren =>
        (fg.Point (st.Children_CV c iChildren)).foldl
          (edgeNormalStep fd st ce c (st.Children_CV c iChildren)) E) M e =
      M e + ∑ i in Finset.range (st.nChildren_CV c),
        ((fg.Point (st.Children_CV c i)).map (fun q =>
          if st.fParent_CV q < c ∧ ce.FindEdge (st.fParent_CV q) c = e then
            orientedNormal fd (st.Children_CV c i) q
          else 0)).sum := by
    intro c M
    have key := foldl_range_inv
      (fun t (M2 : Nat → Nat → ℚ) => M2 e = M e + ∑ i in Finset.range t,
        ((fg.Point (st.Children_CV c i)).map (fun q =>
          if st.fParent_CV q < c ∧ ce.FindEdge (st.fParent_CV q) c = e then
            orientedNormal fd (st.Children_CV c i) q
          else 0)).sum)
      (fun (E : Nat → Nat → ℚ) iChildren =>
        (fg.Point (st.Children_CV c iChildren)).foldl
          (edgeNormalStep fd st ce c (st.Children_CV c iChildren)) E)
      (st.nChildren_CV c) M (by simp) ?_
    · exact key
    · intro t M2 _ hM2
      show (fg.Point (st.Children_CV c t)).foldl
        (edgeNormalStep fd st ce c (st.Children_CV c t)) M2 e = _
      rw [edgeNormal_neighbours, hM2, Finset.sum_range_succ, add_assoc]
  have key := foldl_range_inv
    (fun k (M2 : Nat → Nat → ℚ) => M2 e =
      (if action ≠ ALLOCATE then (fun iEdge => if iEdge < ce.nEdge then 0 else E iEdge)
        else E) e +
      ∑ c in Finset.range k, ∑ i in Finset.range (st.nChildren_CV c),
        ((fg.Point (st.Children_CV c i)).map (fun q =>
          if st.fParent_CV q < c ∧ ce.FindEdge (st.fParent_CV q) c = e then
            orientedNormal fd (st.Children_CV c i) q
          else 0)).sum)
    (fun (E : Nat → Nat → ℚ) iCoarsePoint =>
      (List.range (st.nChildren_CV iCoarsePoint)).foldl (fun (E : Nat → Nat → ℚ) iChildren =>
        (fg.Point (st.Children_CV iCoarsePoint iChildren)).foldl
          (edgeNormalStep fd st ce iCoarsePoint (st.Children_CV iCoarsePoint iChildren)) E) E)
    st.nPoint
    (if action ≠ ALLOCATE then (fun iEdge => if iEdge < ce.nEdge then 0 else E iEdge) else E)
    (by simp) ?_
  · rw [key]
    congr 1
    split <;> rfl
  · intro k M2 _ hM2
    show (List.range (st.nChildren_CV k)).foldl (fun (E : Nat → Nat → ℚ) iChildren =>
        (fg.Point (st.Children_CV k iChildren)).foldl
          (edgeNormalStep fd st ce k (st.Children_CV k iChildren)) E) M2 e = _
    rw [hmid k M2, hM2, Finset.sum_range_succ, add_assoc]

/-- The normal of the coarse edge between `a < b` before the test for null area, under the
conditions of claim C26: the sum over the fine points `q` with parent `b` and their neighbours
`p` with parent `a` of the vector added for `q` and `p`. -/
theorem SetControlVolume_sums_crossing (fg : FineGrid) (fd : FineGeometry) (st : MGState)
    (ce : CoarseEdges) (ALLOCATE action : Nat) (E : Nat → Nat → ℚ) (a b : Nat)
    (hab : a < b) (hb : b < st.nPoint) (he : ce.FindEdge a b < ce.nEdge)
    (h0 : action = ALLOCATE → E (ce.FindEdge a b) = 0)
    (hfind : ∀ x y, x < y → y < st.nPoint → ce.FindEdge x y = ce.FindEdge a b → x = a ∧ y = b)
    (hsym : ∀ p q, q ∈ fg.Point p → p ∈ fg.Point q)
    (hnodup : ∀ p, (fg.Point p).Nodup)
    (hadj : ∀ p q, q ∈ fg.Point p → q < fg.nPoint)
    (hchild : ∀ i, i < st.nChildren_CV b →
      st.Children_CV b i < fg.nPoint ∧ st.fParent_CV (st.Children_CV b i) = b)
    (hslot : ∀ i j, i < st.nChildren_CV b → j < st.nChildren_CV b →
      st.Children_CV b i = st.Children_CV b j → i = j)
    (hall : ∀ q, q < fg.nPoint → st.fParent_CV q = b →
      ∃ i, i < st.nChildren_CV b ∧ st.Children_CV b i = q) :
    SetControlVolume_sums fg fd st ce ALLOCATE action E (ce.FindEdge a b) =
      ∑ q in (Finset.range fg.nPoint).filter (fun q => st.fParent_CV q = b),
        ∑ p in (Finset.range fg.nPoint).filter (fun p => st.fParent_CV p = a ∧ q ∈ fg.Point p),
          orientedNormal fd q p := by
  rw [SetControlVolume_sums_eq]
  have hinit : (if action ≠ ALLOCATE then (if ce.FindEdge a b < ce.nEdge then 0
      else E (ce.FindEdge a b)) else E (ce.FindEdge a b)) = 0 := by
    by_cases ha : action = ALLOCATE
    · rw [if_neg (fun h => h ha)]
      exact h0 ha
    · rw [if_pos ha, if_pos he]
  rw [hinit, zero_add]
  have hcond : ∀ c, c < st.nPoint → ∀ x,
      (st.fParent_CV x < c ∧ ce.FindEdge (st.fParent_CV x) c = ce.FindEdge a b) ↔
        (c = b ∧ st.fParent_CV x = a) := by
    intro c hc x
    constructor
    · rintro ⟨h1, h2⟩
      obtain ⟨e1, e2⟩ := hfind _ _ h1 hc h2
      exact ⟨e2, e1⟩
    · rintro ⟨rfl, h2⟩
      rw [h2]
      exact ⟨hab, rfl⟩
  rw [Finset.sum_eq_single b]
  · have hlist : ∀ i, i < st.nChildren_CV b →
        ((fg.Point (st.Children_CV b i)).map (fun q =>
          if st.fParent_CV q < b ∧ ce.FindEdge (st.fParent_CV q) b = ce.FindEdge a b then
            orientedNormal fd (st.Children_CV b i) q
          else 0)).sum =
        ∑ p in (Finset.range fg.nPoint).filter
            (fun p => st.fParent_CV p = a ∧ st.Children_CV b i ∈ fg.Point p),
          orientedNormal fd (st.Children_CV b i) p := by
      intro i _
      rw [← List.sum_toFinset _ (hnodup _), ← Finset.sum_filter]
      apply Finset.sum_congr
      · ext x
        simp only [Finset.mem_filter, List.mem_toFinset, Finset.mem_range]
        rw [hcond b hb x]
        constructor
        · rintro ⟨h1, _, h3⟩
          exact ⟨hadj _ _ h1, h3, hsym _ _ h1⟩
        · rintro ⟨_, h2, h3⟩
          exact ⟨hsym _ _ h3, rfl, h2⟩
      · intro x _
        rfl
    rw [Finset.sum_congr rfl (fun i hi => hlist i (Finset.mem_range.mp hi))]
    have himg : (Finset.range (st.nChildren_CV b)).image (st.Children_CV b) =
        (Finset.range fg.nPoint).filter (fun q => st.fParent_CV q = b) := by
      ext q
      simp only [Finset.mem_image, Finset.mem_range, Finset.mem_filter]
      constructor
      · rintro ⟨i, hi, rfl⟩
        exact hchild i hi
      · rintro ⟨h1, h2⟩
        obtain ⟨i, hi, hq⟩ := hall q h1 h2
        exact ⟨i, hi, hq⟩
    rw [← himg, Finset.sum_image]
    intro i hi j hj hij
    exact hslot i j (Finset.mem_range.mp hi) (Finset.mem_range.mp hj) hij
  · intro c hc hcb
    apply Finset.sum_eq_zero
    intro i _
    apply List.sum_eq_zero
    intro x hx
    rw [List.mem_map] at hx
    obtain ⟨q, _, rfl⟩ := hx
    rw [if_neg]
    intro hq
    exact hcb ((hcond c (Finset.mem_range.mp hc) q).mp hq).1
  · intro hnb
    exact absurd (Finset.mem_range.mpr hb) hnb

/-- The adjacency lists of the seven-point ring grid hold points of the grid, without
repetition. -/
theorem ringGrid_adjacency (p : Nat) :
    (ringGrid.Point p).Nodup ∧ ∀ q, q ∈ ringGrid.Point p → q < ringGrid.nPoint := by
  by_cases hp : p < 7
  · have hall : ∀ p, p < 7 →
        (ringGrid.Point p).Nodup ∧ ∀ q, q ∈ ringGrid.Point p → q < ringGrid.nPoint := by
      decide
    exact hall p hp
  · have : ringGrid.Point p = [] := by
      show List.getD _ p [] = []
      rw [List.getD_eq_default]
      simp only [List.length_cons, List.length_nil]
      omega
    rw [this]
    exact ⟨List.nodup_nil, fun q hq => absurd hq (List.not_mem_nil q)⟩

/-- On the coarse grid of the seven-point ring grid the fine edges between the coarse CVs 0 and
2 are 2-5 and 3-5, and their normals cancel. -/
theorem ringGrid_crossing :
    ∑ q in (Finset.range ringGrid.nPoint).filter
        (fun q => (GEOM_GeometryMultigrid ringGrid (plainConfig 0) 1).fParent_CV q = 2),
      ∑ p in (Finset.range ringGrid.nPoint).filter
          (fun p => (GEOM_GeometryMultigrid ringGrid (plainConfig 0) 1).fParent_CV p = 0 ∧
            q ∈ ringGrid.Point p),
        orientedNormal ringGeometry q p = 0 := by
  have h1 : (Finset.range ringGrid.nPoint).filter
      (fun q => (GEOM_GeometryMultigrid ringGrid (plainConfig 0) 1).fParent_CV q = 2) = {5} := by
    decide
  have h2 : (Finset.range ringGrid.nPoint).filter
      (fun p => (GEOM_GeometryMultigrid ringGrid (plainConfig 0) 1).fParent_CV p = 0 ∧
        5 ∈ ringGrid.Point p) = {2, 3} := by
    decide
  rw [h1, Finset.sum_singleton, h2, Finset.sum_pair (by decide)]
  funext iDim
  simp only [orientedNormal, ringGeometry, Pi.add_apply, Pi.zero_apply]
  by_cases hi : iDim = 0
  · subst hi
    norm_num
  · simp [hi]

/-! ## Claim on the normals of the coarse edges -/

/-- C26 (as stated, refuted): on the coarse grid of the seven-point ring grid, whose adjacency
is symmetric and whose parents and children agree, the normals of the two fine edges between the
coarse CVs 0 and 2 cancel; after `SetControlVolume` the normal of the coarse edge between them
is not their sum `(0, 0)` but `(EPS*EPS, EPS*EPS)`. -/
theorem edge_normal_replaced :
    SetControlVolume_normals ringGrid ringGeometry
        (GEOM_GeometryMultigrid ringGrid (plainConfig 0) 1) ringEdges (1 / 10) 0 0
        (fun _ _ => 0) (ringEdges.FindEdge 0 2) 0 = 1 / 10 * (1 / 10) ∧
    SetControlVolume_normals ringGrid ringGeometry
        (GEOM_GeometryMultigrid ringGrid (plainConfig 0) 1) ringEdges (1 / 10) 0 0
        (fun _ _ => 0) (ringEdges.FindEdge 0 2) ≠
      ∑ q in (Finset.range ringGrid.nPoint).filter
          (fun q => (GEOM_GeometryMultigrid ringGrid (plainConfig 0) 1).fParent_CV q = 2),
        ∑ p in (Finset.range ringGrid.nPoint).filter
            (fun p => (GEOM_GeometryMultigrid ringGrid (plainConfig 0) 1).fParent_CV p = 0 ∧
              q ∈ ringGrid.Point p),
          orientedNormal ringGeometry q p := by
  have hs := SetControlVolume_sums_crossing ringGrid ringGeometry
    (GEOM_GeometryMultigrid ringGrid (plainConfig 0) 1) ringEdges 0 0 (fun _ _ => 0) 0 2
    (by decide) (by decide) (by decide) (fun _ => rfl)
    (by
      have hn : (GEOM_GeometryMultigrid ringGrid (plainConfig 0) 1).nPoint = 3 := by decide
      intro x y hxy hy he
      rw [hn] at hy
      have he2 : 3 * x + y = 3 * 0 + 2 := he
      omega)
    ringGrid_symmetric (fun p => (ringGrid_adjacency p).1) (fun p => (ringGrid_adjacency p).2)
    (by decide)
    (by
      have h : ∀ i, i < (GEOM_GeometryMultigrid ringGrid (plainConfig 0) 1).nChildren_CV 2 →
          ∀ j, j < (GEOM_GeometryMultigrid ringGrid (plainConfig 0) 1).nChildren_CV 2 →
          (GEOM_GeometryMultigrid ringGrid (plainConfig 0) 1).Children_CV 2 i =
            (GEOM_GeometryMultigrid ringGrid (plainConfig 0) 1).Children_CV 2 j → i = j := by
        decide
      exact fun i j hi hj => h i hi j hj)
    (by decide)
  have hfin : SetControlVolume_normals ringGrid ringGeometry
      (GEOM_GeometryMultigrid ringGrid (plainConfig 0) 1) ringEdges (1 / 10) 0 0
      (fun _ _ => 0) (ringEdges.FindEdge 0 2) 0 = 1 / 10 * (1 / 10) := by
    rw [SetControlVolume_normals_eq, if_pos (by decide), hs, ringGrid_crossing]
    exact (clampNormal_cases (1 / 10) ringGeometry.nDim 0).2.1 (fun _ _ => rfl) 0 (by decide)
  refine ⟨hfin, ?_⟩
  intro heq
  rw [ringGrid_crossing] at heq
  rw [heq] at hfin
  norm_num at hfin

/-- C26 (amended): with the normal of the coarse edge between the coarse CVs `a < b` zero on
entry, coarse edges found without ambiguity, a symmetric fine adjacency without repeated
entries, and parents and children that agree on `b`, the normal of that edge before the test
for null area is the sum, over the fine edges between a point `p` with parent `a` and a point
`q` with parent `b`, of the stored normal of the fine edge, negated when `q < p` (the normal
pointing from `p` to `q` when stored normals point from the lower to the higher point); each
such fine edge is counted once and no other fine edge is counted. After `SetControlVolume` the
normal of the edge is this sum, replaced by the vector with every component `EPS*EPS` when the
test `Area == 0.0` holds of it: when the squares of all components of the sum are rounded to
zero in `double` arithmetic (are at most `2^-1075`), as they are when all components are zero.
The sums themselves are taken in exact arithmetic. -/
theorem SetControlVolume_edge_normal (fg : FineGrid) (fd : FineGeometry) (st : MGState)
    (ce : CoarseEdges) (EPS : ℚ) (ALLOCATE action : Nat) (E : Nat → Nat → ℚ) (a b : Nat)
    (hab : a < b) (hb : b < st.nPoint) (he : ce.FindEdge a b < ce.nEdge)
    (h0 : action = ALLOCATE → E (ce.FindEdge a b) = 0)
    (hfind : ∀ x y, x < y → y < st.nPoint → ce.FindEdge x y = ce.FindEdge a b → x = a ∧ y = b)
    (hsym : ∀ p q, q ∈ fg.Point p → p ∈ fg.Point q)
    (hnodup : ∀ p, (fg.Point p).Nodup)
    (hadj : ∀ p q, q ∈ fg.Point p → q < fg.nPoint)
    (hchild : ∀ i, i < st.nChildren_CV b →
      st.Children_CV b i < fg.nPoint ∧ st.fParent_CV (st.Children_CV b i) = b)
    (hslot : ∀ i j, i < st.nChildren_CV b → j < st.nChildren_CV b →
      st.Children_CV b i = st.Children_CV b j → i = j)
    (hall : ∀ q, q < fg.nPoint → st.fParent_CV q = b →
      ∃ i, i < st.nChildren_CV b ∧ st.Children_CV b i = q) :
    SetControlVolume_sums fg fd st ce ALLOCATE action E (ce.FindEdge a b) =
      ∑ q in (Finset.range fg.nPoint).filter (fun q => st.fParent_CV q = b),
        ∑ p in (Finset.range fg.nPoint).filter (fun p => st.fParent_CV p = a ∧ q ∈ fg.Point p),
          orientedNormal fd q p ∧
    SetControlVolume_normals fg fd st ce EPS ALLOCATE action E (ce.FindEdge a b) =
      clampNormal EPS fd.nDim
        (∑ q in (Finset.range fg.nPoint).filter (fun q => st.fParent_CV q = b),
          ∑ p in (Finset.range fg.nPoint).filter
              (fun p => st.fParent_CV p = a ∧ q ∈ fg.Point p),
            orientedNormal fd q p) := by
  have hs := SetControlVolume_sums_crossing fg fd st ce ALLOCATE action E a b hab hb he h0 hfind
    hsym hnodup hadj hchild hslot hall
  refine ⟨hs, ?_⟩
  rw [SetControlVolume_normals_eq, if_pos he, hs]

/-- Witness of C26 (amended): the coarse CVs 0 and 2 of the coarse grid of the seven-point ring
grid. -/
theorem SetControlVolume_edge_normal_witness :
    SetControlVolume_sums ringGrid ringGeometry
        (GEOM_GeometryMultigrid ringGrid (plainConfig 0) 1) ringEdges 0 0 (fun _ _ => 0)
        (ringEdges.FindEdge 0 2) =
      ∑ q in (Finset.range ringGrid.nPoint).filter
          (fun q => (GEOM_GeometryMultigrid ringGrid (plainConfig 0) 1).fParent_CV q = 2),
        ∑ p in (Finset.range ringGrid.nPoint).filter
            (fun p => (GEOM_GeometryMultigrid ringGrid (plainConfig 0) 1).fParent_CV p = 0 ∧
              q ∈ ringGrid.Point p),
          orientedNormal ringGeometry q p :=
  (SetControlVolume_edge_normal ringGrid ringGeometry
    (GEOM_GeometryMultigrid ringGrid (plainConfig 0) 1) ringEdges (1 / 10) 0 0 (fun _ _ => 0) 0 2
    (by decide) (by decide) (by decide) (fun _ => rfl)
    (by
      have hn : (GEOM_GeometryMultigrid ringGrid (plainConfig 0) 1).nPoint = 3 := by decide
      intro x y hxy hy he
      rw [hn] at hy
      have he2 : 3 * x + y = 3 * 0 + 2 := he
      omega)
    ringGrid_symmetric (fun p => (ringGrid_adjacency p).1) (fun p => (ringGrid_adjacency p).2)
    (by decide)
    (by
      have h : ∀ i, i < (GEOM_GeometryMultigrid ringGrid (plainConfig 0) 1).nChildren_CV 2 →
          ∀ j, j < (GEOM_GeometryMultigrid ringGrid (plainConfig 0) 1).nChildren_CV 2 →
          (GEOM_GeometryMultigrid ringGrid (plainConfig 0) 1).Children_CV 2 i =
            (GEOM_GeometryMultigrid ringGrid (plainConfig 0) 1).Children_CV 2 j → i = j := by
        decide
      exact fun i j hi hj => h i hi j hj)
    (by decide)).1

/-! ## The projected coarse adjacency -/

/-- Membership in the list of parents collected for a coarse point. -/
theorem mem_projectedParents (fg : FineGrid) (st : MGState) (a b : Nat) :
    b ∈ projectedParents fg st a ↔
      a ≠ b ∧ ∃ i, i < st.nChildren_CV a ∧
        ∃ q, q ∈ fg.Point (st.Children_CV a i) ∧ st.fParent_CV q = b := by
  unfold projectedParents
  rw [List.mem_filter, List.mem_flatMap]
  constructor
  · rintro ⟨⟨i, hi, hq⟩, hne⟩
    rw [List.mem_map] at hq
    obtain ⟨q, hq1, hq2⟩ := hq
    refine ⟨?_, i, List.mem_range.mp hi, q, hq1, hq2⟩
    intro hab
    simp [hab] at hne
  · rintro ⟨hne, i, hi, q, hq1, hq2⟩
    refine ⟨⟨i, List.mem_range.mpr hi, List.mem_map.mpr ⟨q, hq1, hq2⟩⟩, ?_⟩
    simp only [decide_eq_true_eq]
    exact fun h => hne h.symm

/-- The adjacency cleared by the repair: the lists of the coarse points below `nPointDomain` are
empty. -/
theorem repaired_cPoint {fg : FineGrid} (cfg : Config) (iMesh : Nat) (hf : Fresh fg) (c : Nat)
    (hc : c < (repaired fg cfg iMesh).nPointDomain) : (repaired fg cfg iMesh).cPoint c = [] := by
  have hc2 := hc
  rw [repaired_nPointDomain] at hc2
  obtain ⟨_, _, pD⟩ := projected_inv cfg iMesh hf
  rw [repaired_eq]
  show (if c < ((List.range (agglomerationPasses fg cfg iMesh).Index_CoarseCV).foldl
    mergeIsolated (projected fg cfg iMesh)).nPointDomain then [] else _) = _
  rw [(mergeLoop_frame _ _).2.2, pD, if_pos hc2]

/-! ## Claim on the projected coarse adjacency -/

/-- C34: the projection of lines 383-395 and 887-899, run for the coarse points below `n` whose
adjacency lists are empty on entry, records `b` as a neighbour of `a < n` exactly when `a ≠ b`
and a child of `a` has a fine neighbour with parent `b`; so no coarse point is its own
neighbour, and with a symmetric fine adjacency, children that have their coarse point as
parent, fine neighbours that are children of their parent, and no children from `n` on, the
coarse adjacency is symmetric. `SetPoint_Connectivity` is this projection with `n = nPoint`. -/
theorem projectAdjacency_iff (fg : FineGrid) (n : Nat) (st : MGState)
    (h0 : ∀ c, c < n → st.cPoint c = []) :
    (∀ a b, a < n → (b ∈ (projectAdjacency fg n st).cPoint a ↔
      a ≠ b ∧ ∃ i, i < st.nChildren_CV a ∧
        ∃ q, q ∈ fg.Point (st.Children_CV a i) ∧ st.fParent_CV q = b)) ∧
    (∀ a, a < n → a ∉ (projectAdjacency fg n st).cPoint a) ∧
    ((∀ p q, q ∈ fg.Point p → p ∈ fg.Point q) →
      (∀ c i, i < st.nChildren_CV c → st.fParent_CV (st.Children_CV c i) = c) →
      (∀ p q, q ∈ fg.Point p →
        ∃ i, i < st.nChildren_CV (st.fParent_CV q) ∧ st.Children_CV (st.fParent_CV q) i = q) →
      (∀ c, n ≤ c → st.nChildren_CV c = 0) →
      ∀ a b, a < n → b ∈ (projectAdjacency fg n st).cPoint a →
        b < n ∧ a ∈ (projectAdjacency fg n st).cPoint b) ∧
    SetPoint_Connectivity fg st = projectAdjacency fg st.nPoint st := by
  have hiff : ∀ a b, a < n → (b ∈ (projectAdjacency fg n st).cPoint a ↔
      a ≠ b ∧ ∃ i, i < st.nChildren_CV a ∧
        ∃ q, q ∈ fg.Point (st.Children_CV a i) ∧ st.fParent_CV q = b) := by
    intro a b ha
    rw [projectAdjacency_cPoint, if_pos ha, mem_foldl_addNeighbour, h0 a ha,
      mem_projectedParents]
    simp
  refine ⟨hiff, ?_, ?_, rfl⟩
  · intro a ha hmem
    exact ((hiff a a ha).mp hmem).1 rfl
  · intro hsym hchild hslot habove a b ha hb
    obtain ⟨hne, i, hi, q, hq, hpq⟩ := (hiff a b ha).mp hb
    obtain ⟨j, hj, hjq⟩ := hslot _ _ hq
    rw [hpq] at hj hjq
    have hbn : b < n := by
      by_contra hge
      have := habove b (by omega)
      omega
    refine ⟨hbn, (hiff b a hbn).mpr ⟨fun h => hne h.symm, j, hj, st.Children_CV a i, ?_,
      hchild a i hi⟩⟩
    rw [hjq]
    exact hsym _ _ hq

/-- Witness of C34: the adjacency recomputed on the repaired coarse grid of the seven-point ring
grid; coarse CV 1 is a neighbour of coarse CV 0 and coarse CV 0 is a neighbour of coarse CV 1. -/
theorem projectAdjacency_iff_witness :
    1 ∈ (projectAdjacency ringGrid (repaired ringGrid (plainConfig 0) 1).nPointDomain
      (repaired ringGrid (plainConfig 0) 1)).cPoint 0 ∧
    (1 < (repaired ringGrid (plainConfig 0) 1).nPointDomain ∧
      0 ∈ (projectAdjacency ringGrid (repaired ringGrid (plainConfig 0) 1).nPointDomain
        (repaired ringGrid (plainConfig 0) 1)).cPoint 1) := by
  obtain ⟨r1, r2, r3⟩ := @repaired_inv ringGrid (plainConfig 0) 1 ⟨fun _ => rfl, fun _ => rfl⟩
  have h1 : 1 ∈ (projectAdjacency ringGrid (repaired ringGrid (plainConfig 0) 1).nPointDomain
      (repaired ringGrid (plainConfig 0) 1)).cPoint 0 := by decide
  refine ⟨h1, (projectAdjacency_iff ringGrid (repaired ringGrid (plainConfig 0) 1).nPointDomain
    (repaired ringGrid (plainConfig 0) 1)
    (fun c hc => repaired_cPoint (plainConfig 0) 1 ⟨fun _ => rfl, fun _ => rfl⟩ c hc)).2.2.1
    ringGrid_symmetric (fun c i hi => (r1.ginv.child c i hi).2)
    (fun p q hq => r1.ginv.parent q
      (r2 q ((ringGrid_adjacency p).2 q hq) rfl))
    (fun c hc => r1.above c (by rw [← r3]; exact hc)) 0 1 (by decide) h1⟩

/-! ## SetGridVelocity -/

/-- The velocity stored by `SetGridVelocity` when one of the two time-stepping tests holds: the
second-order quotient under the second test, else the first-order quotient. -/
theorem SetGridVelocity_eq (tc : TimeStepping) (cm : CoarseMotion) (nDim nPoint : Nat)
    (G : Nat → Nat → Option ℚ)
    (hU : tc.Unsteady_Simulation = tc.DT_STEPPING_1ST ∨
      tc.Unsteady_Simulation = tc.DT_STEPPING_2ND)
    (p d : Nat) (hp : p < nPoint) (hd : d < nDim) :
    SetGridVelocity tc cm nDim nPoint G p d =
      if tc.Unsteady_Simulation = tc.DT_STEPPING_2ND then
        checkedDiv (3 * cm.Coord p d - 4 * cm.Coord_n p d + 1 * cm.Coord_n1 p d)
          (2 * tc.Delta_UnstTimeND)
      else checkedDiv (cm.Coord p d - cm.Coord_n p d) tc.Delta_UnstTimeND := by
  have hstep : ∀ (P : Nat) (acc : Option ℚ × (Nat → Nat → Option ℚ)) (i : Nat),
      (gridVelStep tc cm P acc i).2 = Function.update acc.2 P (Function.update (acc.2 P) i
        (if tc.Unsteady_Simulation = tc.DT_STEPPING_2ND then
          checkedDiv (3 * cm.Coord P i - 4 * cm.Coord_n P i + 1 * cm.Coord_n1 P i)
            (2 * tc.Delta_UnstTimeND)
        else checkedDiv (cm.Coord P i - cm.Coord_n P i) tc.Delta_UnstTimeND)) := by
    intro P acc i
    unfold gridVelStep
    by_cases h2 : tc.Unsteady_Simulation = tc.DT_STEPPING_2ND
    · simp [h2]
    · have h1 := hU.resolve_right h2
      simp only [if_neg h2, if_pos h1]
  have key := foldl_range_inv
    (fun k (acc : Option ℚ × (Nat → Nat → Option ℚ)) => ∀ p d, p < k → d < nDim →
      acc.2 p d = if tc.Unsteady_Simulation = tc.DT_STEPPING_2ND then
        checkedDiv (3 * cm.Coord p d - 4 * cm.Coord_n p d + 1 * cm.Coord_n1 p d)
          (2 * tc.Delta_UnstTimeND)
      else checkedDiv (cm.Coord p d - cm.Coord_n p d) tc.Delta_UnstTimeND)
    (fun acc Point_Coarse => (List.range nDim).foldl (gridVelStep tc cm Point_Coarse) acc)
    nPoint (some 0, G) (fun p d hp _ => absurd hp (Nat.not_lt_zero p)) (by
      intro k acc _ hacc
      have inner := foldl_range_inv
        (fun j (a : Option ℚ × (Nat → Nat → Option ℚ)) => ∀ p d,
          (p < k ∧ d < nDim) ∨ (p = k ∧ d < j) →
          a.2 p d = if tc.Unsteady_Simulation = tc.DT_STEPPING_2ND then
            checkedDiv (3 * cm.Coord p d - 4 * cm.Coord_n p d + 1 * cm.Coord_n1 p d)
              (2 * tc.Delta_UnstTimeND)
          else checkedDiv (cm.Coord p d - cm.Coord_n p d) tc.Delta_UnstTimeND)
        (gridVelStep tc cm k) nDim acc (by
          intro p d h
          rcases h with ⟨h1, h2⟩ | ⟨_, h2⟩
          · exact hacc p d h1 h2
          · exact absurd h2 (Nat.not_lt_zero d)) (by
          intro j a _ ha p d h
          rw [hstep]
          by_cases hpk : p = k
          · subst hpk
            rw [Function.update_same]
            by_cases hdj : d = j
            · subst hdj
              rw [Function.update_same]
            · rw [Function.update_noteq hdj]
              refine ha p d ?_
              rcases h with ⟨h1, _⟩ | ⟨_, h2⟩
              · exact absurd h1 (Nat.lt_irrefl p)
              · exact Or.inr ⟨rfl, by omega⟩
          · rw [Function.update_noteq hpk]
            refine ha p d ?_
            rcases h with ⟨h1, h2⟩ | ⟨h1, _⟩
            · exact Or.inl ⟨h1, h2⟩
            · exact absurd h1 hpk)
      intro p d hp hd
      refine inner p d ?_
      by_cases hpk : p = k
      · exact Or.inr ⟨hpk, hd⟩
      · exact Or.inl ⟨by omega, hd⟩)
  exact key p d hp hd

/-- C37: `SetGridVelocity` stores, for every coarse point below `nPoint` and every component
below `nDim`, the quotient `(x_np1 - x_n) / dt` under first-order time stepping and
`(3 x_np1 - 4 x_n + x_nm1) / (2 dt)` under second-order time stepping; for a point moving
with constant velocity `v` and `dt ≠ 0` each of the two is exactly `v`. -/
theorem SetGridVelocity_formula (tc : TimeStepping) (cm : CoarseMotion) (nDim nPoint : Nat)
    (G : Nat → Nat → Option ℚ) (p d : Nat) (hp : p < nPoint) (hd : d < nDim) :
    (tc.Unsteady_Simulation = tc.DT_STEPPING_1ST →
      tc.Unsteady_Simulation ≠ tc.DT_STEPPING_2ND →
      SetGridVelocity tc cm nDim nPoint G p d =
        checkedDiv (cm.Coord p d - cm.Coord_n p d) tc.Delta_UnstTimeND) ∧
    (tc.Unsteady_Simulation = tc.DT_STEPPING_2ND →
      SetGridVelocity tc cm nDim nPoint G p d =
        checkedDiv (3 * cm.Coord p d - 4 * cm.Coord_n p d + 1 * cm.Coord_n1 p d)
          (2 * tc.Delta_UnstTimeND)) ∧
    (∀ v : ℚ, tc.Delta_UnstTimeND ≠ 0 →
      cm.Coord p d - cm.Coord_n p d = v * tc.Delta_UnstTimeND →
      cm.Coord_n p d - cm.Coord_n1 p d = v * tc.Delta_UnstTimeND →
      (tc.Unsteady_Simulation = tc.DT_STEPPING_1ST ∨
        tc.Unsteady_Simulation = tc.DT_STEPPING_2ND) →
      SetGridVelocity tc cm nDim nPoint G p d = some v) := by
  refine ⟨?_, ?_, ?_⟩
  · intro h1 h2
    rw [SetGridVelocity_eq tc cm nDim nPoint G (Or.inl h1) p d hp hd, if_neg h2]
  · intro h2
    rw [SetGridVelocity_eq tc cm nDim nPoint G (Or.inr h2) p d hp hd, if_pos h2]
  · intro v hdt e1 e2 hU
    rw [SetGridVelocity_eq tc cm nDim nPoint G hU p d hp hd]
    have e3 : 3 * cm.Coord p d - 4 * cm.Coord_n p d + 1 * cm.Coord_n1 p d =
        v * (2 * tc.Delta_UnstTimeND) := by linarith
    have h2dt : 2 * tc.Delta_UnstTimeND ≠ 0 := mul_ne_zero two_ne_zero hdt
    by_cases h2 : tc.Unsteady_Simulation = tc.DT_STEPPING_2ND
    · rw [if_pos h2, e3]
      unfold checkedDiv
      rw [if_neg h2dt, mul_div_assoc, div_self h2dt, mul_one]
    · rw [if_neg h2, e1]
      unfold checkedDiv
      rw [if_neg hdt, mul_div_assoc, div_self hdt, mul_one]

/-- Witness of C37: a point that moves by 1 in each time step of 1/2, under second-order time
stepping, gets the velocity 2. -/
theorem SetGridVelocity_formula_witness :
    SetGridVelocity secondOrder steadyMotion 2 1 (fun _ _ => none) 0 1 = some 2 :=
  (SetGridVelocity_formula secondOrder steadyMotion 2 1 (fun _ _ => none) 0 1
    (by decide) (by decide)).2.2 2 (by norm_num [secondOrder])
    (by norm_num [secondOrder, steadyMotion]) (by norm_num [secondOrder, steadyMotion])
    (Or.inr rfl)

/-! ## The two boundary passes together -/

/-- The body of the first boundary pass loses no agglomerated point, and it agglomerates its
candidate when the seed test accepts it. -/
theorem boundSeed_grew (fg : FineGrid) (cfg : Config) (st : MGState) (iMarker iPoint : Nat) :
    Grew st (boundSeed fg cfg iMarker st iPoint) ∧
    (seedAccepted fg st iPoint = true →
      (boundSeed fg cfg iMarker st iPoint).fAgglomerate iPoint = true) := by
  unfold boundSeed seedAccepted
  split
  · rename_i hcond
    have hp : st.fAgglomerate iPoint = false := by
      cases hA : st.fAgglomerate iPoint with
      | false => rfl
      | true => simp [hA] at hcond
    have h1 := Opened.start st iPoint hp
    have h3 : ∀ l : List Nat, Opened st iPoint (l.foldl (boundIndirectStep fg cfg iMarker)
        ((fg.Point iPoint).foldl (boundDirectStep fg cfg iMarker)
          ((st.SetParent_CV iPoint st.Index_CoarseCV).SetChildren_CV
            st.Index_CoarseCV 0 iPoint, 1))) := by
      intro l
      exact foldl_inv (Opened st iPoint) (boundIndirectStep fg cfg iMarker) l _
        (foldl_inv (Opened st iPoint) (boundDirectStep fg cfg iMarker)
          (fg.Point iPoint) _ h1 (fun acc x _ hacc => boundDirectStep_opened acc x hacc))
        (fun acc x _ hacc => boundIndirectStep_opened acc x hacc)
    have fin : ∀ acc : MGState × Nat, Opened st iPoint acc →
        Grew st { acc.1.SetnChildren_CV acc.1.Index_CoarseCV acc.2 with
          Index_CoarseCV := (acc.1.SetnChildren_CV acc.1.Index_CoarseCV acc.2).Index_CoarseCV
            + 1 } ∧
        (True → ({ acc.1.SetnChildren_CV acc.1.Index_CoarseCV acc.2 with
          Index_CoarseCV := (acc.1.SetnChildren_CV acc.1.Index_CoarseCV acc.2).Index_CoarseCV
            + 1 } : MGState).fAgglomerate iPoint = true) :=
      fun acc ho => ⟨fun x hx => (ho.keep x hx).1, fun _ => ho.agg⟩
    by_cases hseed : agglomerate_seed fg cfg iPoint = true
    · simp only [hseed, if_true]
      split
      · exact ⟨(fin _ (h3 _)).1, fun _ => (fin _ (h3 _)).2 trivial⟩
      · exact ⟨(fin _ (h3 [])).1, fun _ => (fin _ (h3 [])).2 trivial⟩
    · simp only [hseed]
      exact ⟨(fin _ h1).1, fun _ => (fin _ h1).2 trivial⟩
  · rename_i hcond
    exact ⟨Grew.refl st, fun h => absurd h hcond⟩

/-- After the first boundary pass every domain-owned admissible node of a marker vertex is
agglomerated. -/
theorem BoundarySeeding_accepts (fg : FineGrid) (cfg : Config) (st : MGState) :
    Grew st (BoundarySeeding fg cfg st) ∧
    ∀ m p, m < fg.nMarker → p ∈ fg.vertex m → fg.Domain p = true →
      fg.GeometricalCheck p = true → (BoundarySeeding fg cfg st).fAgglomerate p = true := by
  unfold BoundarySeeding
  have key := foldl_post (fun s => Grew st s)
    (fun m s => ∀ p, p ∈ fg.vertex m → fg.Domain p = true → fg.GeometricalCheck p = true →
      s.fAgglomerate p = true)
    (fun s iMarker => (fg.vertex iMarker).foldl (boundSeed fg cfg iMarker) s)
    (List.range fg.nMarker) st (Grew.refl st) ?_ ?_
  · exact ⟨key.1, fun m p hm hp hd hg => key.2 m (List.mem_range.mpr hm) p hp hd hg⟩
  · intro s m _ hs
    have key2 := foldl_post (fun s2 => Grew s s2)
      (fun p s2 => fg.Domain p = true → fg.GeometricalCheck p = true → s2.fAgglomerate p = true)
      (boundSeed fg cfg m) (fg.vertex m) s (Grew.refl s) ?_ ?_
    · exact ⟨hs.trans key2.1, fun p hp hd hg => key2.2 p hp hd hg⟩
    · intro b a _ hb
      refine ⟨hb.trans (boundSeed_grew fg cfg b m a).1, ?_⟩
      intro hd hg
      cases hA : b.fAgglomerate a with
      | true => exact (boundSeed_grew fg cfg b m a).1 a hA
      | false =>
        apply (boundSeed_grew fg cfg b m a).2
        simp [seedAccepted, hA, hd, hg]
    · intro b a a2 _ _ hq hd hg
      exact (boundSeed_grew fg cfg b m a2).1 a (hq hd hg)
  · intro b m m2 _ _ hq p hp hd hg
    have : Grew b ((fg.vertex m2).foldl (boundSeed fg cfg m2) b) :=
      foldl_inv (fun s2 => Grew b s2) _ _ _ (Grew.refl b)
        (fun s2 a _ hs2 => hs2.trans (boundSeed_grew fg cfg s2 m2 a).1)
    exact this p (hq p hp hd hg)

/-- The body of the second boundary pass keeps `SecondPass`. -/
theorem singletonSeed_second {fg : FineGrid} {s1 s : MGState} {iMarker iPoint : Nat}
    (hM : iMarker < fg.nMarker) (hv : iPoint ∈ fg.vertex iMarker) (h : SecondPass fg s1 s) :
    SecondPass fg s1 (singletonSeed fg s iPoint) := by
  obtain ⟨a1, a2, a3, a4⟩ := h
  unfold singletonSeed
  split
  · rename_i hcond
    have hp : s.fAgglomerate iPoint = false := by
      cases hA : s.fAgglomerate iPoint with
      | false => rfl
      | true => simp [hA] at hcond
    have hd : fg.Domain iPoint = true := by
      simp [hp] at hcond
      exact hcond
    have hp1 : s1.fAgglomerate iPoint = false := by
      cases hA : s1.fAgglomerate iPoint with
      | false => rfl
      | true => rw [a2 iPoint hA] at hp; exact Bool.noConfusion hp
    refine ⟨?_, ?_, ?_, ?_⟩
    · show s1.Index_CoarseCV ≤ s.Index_CoarseCV + 1
      omega
    · exact a2.trans (Grew.update iPoint rfl)
    · intro c hc1 hc2
      have hc3 : c < s.Index_CoarseCV + 1 := hc2
      show Function.update s.nChildren_CV s.Index_CoarseCV 1 c = 1 ∧
        s1.fAgglomerate (Function.update s.Children_CV s.Index_CoarseCV
          (Function.update (s.Children_CV s.Index_CoarseCV) 0 iPoint) c 0) = false ∧
        Function.update s.fAgglomerate iPoint true (Function.update s.Children_CV
          s.Index_CoarseCV (Function.update (s.Children_CV s.Index_CoarseCV) 0 iPoint) c 0)
          = true ∧
        Function.update s.fParent_CV iPoint s.Index_CoarseCV (Function.update s.Children_CV
          s.Index_CoarseCV (Function.update (s.Children_CV s.Index_CoarseCV) 0 iPoint) c 0)
          = c
      by_cases hci : c = s.Index_CoarseCV
      · subst hci
        have e : Function.update s.Children_CV s.Index_CoarseCV
            (Function.update (s.Children_CV s.Index_CoarseCV) 0 iPoint) s.Index_CoarseCV 0
            = iPoint := by
          rw [Function.update_same, Function.update_same]
        rw [e, Function.update_same, Function.update_same, Function.update_same]
        exact ⟨rfl, hp1, rfl, rfl⟩
      · obtain ⟨b1, b2, b3, b4⟩ := a3 c hc1 (by omega)
        have hne : s.Children_CV c 0 ≠ iPoint := by
          intro he
          rw [he, hp] at b3
          exact Bool.noConfusion b3
        rw [Function.update_noteq hci, Function.update_noteq hci, Function.update_noteq hne,
          Function.update_noteq hne]
        exact ⟨b1, b2, b3, b4⟩
    · intro p hp0 hp2
      have hp3 : Function.update s.fAgglomerate iPoint true p = true := hp2
      show _ ∧ _ ∧ s1.Index_CoarseCV ≤ Function.update s.fParent_CV iPoint s.Index_CoarseCV p ∧
        Function.update s.fParent_CV iPoint s.Index_CoarseCV p < s.Index_CoarseCV + 1
      by_cases hpi : p = iPoint
      · subst hpi
        rw [Function.update_same]
        exact ⟨⟨iMarker, hM, hv⟩, hd, a1, Nat.lt_succ_self _⟩
      · rw [Function.update_noteq hpi] at hp3
        rw [Function.update_noteq hpi]
        obtain ⟨b1, b2, b3, b4⟩ := a4 p hp0 hp3
        exact ⟨b1, b2, b3, by omega⟩
  · exact ⟨a1, a2, a3, a4⟩

/-- The second boundary pass keeps `SecondPass`. -/
theorem BoundarySingletons_second (fg : FineGrid) (s1 : MGState) :
    SecondPass fg s1 (BoundarySingletons fg s1) := by
  unfold BoundarySingletons
  apply markerFold_inv fg (SecondPass fg s1) (fun _ => singletonSeed fg) s1
  · refine ⟨le_refl _, Grew.refl s1, ?_, ?_⟩
    · intro c h1 h2
      omega
    · intro p h1 h2
      rw [h1] at h2
      exact Bool.noConfusion h2
  · intro s iMarker iPoint hM hv hs
    exact singletonSeed_second hM hv hs

/-- After the second boundary pass every domain-owned node of a marker vertex is agglomerated,
from whatever state the pass starts. -/
theorem BoundarySingletons_all (fg : FineGrid) (st : MGState) :
    ∀ m p, m < fg.nMarker → p ∈ fg.vertex m → fg.Domain p = true →
      (BoundarySingletons fg st).fAgglomerate p = true := by
  have grew : ∀ s p, Grew s (singletonSeed fg s p) ∧
      (fg.Domain p = true → (singletonSeed fg s p).fAgglomerate p = true) := by
    intro s p
    unfold singletonSeed
    split
    · refine ⟨Grew.update p rfl, fun _ => ?_⟩
      simp [MGState.SetParent_CV, MGState.SetChildren_CV, MGState.SetnChildren_CV]
    · rename_i hcond
      refine ⟨Grew.refl s, fun hd => ?_⟩
      cases hA : s.fAgglomerate p with
      | false => simp [hA, hd] at hcond
      | true => rfl
  unfold BoundarySingletons
  have key := foldl_post (fun _ => True)
    (fun m s => ∀ p, p ∈ fg.vertex m → fg.Domain p = true → s.fAgglomerate p = true)
    (fun s iMarker => (fg.vertex iMarker).foldl (singletonSeed fg) s)
    (List.range fg.nMarker) st trivial ?_ ?_
  · exact fun m p hm hp hd => key.2 m (List.mem_range.mpr hm) p hp hd
  · intro s m _ _
    have key2 := foldl_post (fun _ => True)
      (fun p s2 => fg.Domain p = true → s2.fAgglomerate p = true)
      (singletonSeed fg) (fg.vertex m) s trivial ?_ ?_
    · exact ⟨trivial, fun p hp hd => key2.2 p hp hd⟩
    · intro b a _ _
      exact ⟨trivial, (grew b a).2⟩
    · intro b a a2 _ _ hq hd
      exact (grew b a2).1 a (hq hd)
  · intro b m m2 _ _ hq p hp hd
    have : Grew b ((fg.vertex m2).foldl (singletonSeed fg) b) :=
      foldl_inv (fun s2 => Grew b s2) _ _ _ (Grew.refl b)
        (fun s2 a _ hs2 => hs2.trans (grew s2 a).1)
    exact this p (hq p hp hd)

/-! ## Claim on the second boundary pass -/

/-- C36: with `s1` the state after the first boundary pass of the constructor and `s2` the state
after the second, every coarse CV opened by the second pass has exactly one child, a point
unagglomerated in `s1` whose parent it is; in `s2` every domain-owned fine point listed in the
vertex list of a marker is agglomerated; and every point agglomerated by the second pass is a
domain-owned node of a marker vertex on which the seed test of the first pass failed for lack
of admissibility, and its parent is a coarse CV opened by the second pass. -/
theorem second_pass_singletons (fg : FineGrid) (cfg : Config) (iMesh : Nat) :
    (∀ c, (BoundarySeeding fg cfg (initState fg cfg iMesh)).Index_CoarseCV ≤ c →
      c < (BoundarySingletons fg
        (BoundarySeeding fg cfg (initState fg cfg iMesh))).Index_CoarseCV →
      (BoundarySingletons fg
        (BoundarySeeding fg cfg (initState fg cfg iMesh))).nChildren_CV c = 1 ∧
      (BoundarySeeding fg cfg (initState fg cfg iMesh)).fAgglomerate
        ((BoundarySingletons fg
          (BoundarySeeding fg cfg (initState fg cfg iMesh))).Children_CV c 0) = false ∧
      (BoundarySingletons fg (BoundarySeeding fg cfg (initState fg cfg iMesh))).fParent_CV
        ((BoundarySingletons fg
          (BoundarySeeding fg cfg (initState fg cfg iMesh))).Children_CV c 0) = c) ∧
    (∀ m p, m < fg.nMarker → p ∈ fg.vertex m → fg.Domain p = true →
      (BoundarySingletons fg
        (BoundarySeeding fg cfg (initState fg cfg iMesh))).fAgglomerate p = true) ∧
    (∀ p, (BoundarySeeding fg cfg (initState fg cfg iMesh)).fAgglomerate p = false →
      (BoundarySingletons fg
        (BoundarySeeding fg cfg (initState fg cfg iMesh))).fAgglomerate p = true →
      (∃ m, m < fg.nMarker ∧ p ∈ fg.vertex m) ∧ fg.Domain p = true ∧
      fg.GeometricalCheck p = false ∧
      (BoundarySeeding fg cfg (initState fg cfg iMesh)).Index_CoarseCV ≤
        (BoundarySingletons fg
          (BoundarySeeding fg cfg (initState fg cfg iMesh))).fParent_CV p ∧
      (BoundarySingletons fg (BoundarySeeding fg cfg (initState fg cfg iMesh))).fParent_CV p <
        (BoundarySingletons fg
          (BoundarySeeding fg cfg (initState fg cfg iMesh))).Index_CoarseCV) := by
  obtain ⟨_, _, a3, a4⟩ :=
    BoundarySingletons_second fg (BoundarySeeding fg cfg (initState fg cfg iMesh))
  refine ⟨?_, BoundarySingletons_all fg _, ?_⟩
  · intro c h1 h2
    obtain ⟨b1, b2, _, b4⟩ := a3 c h1 h2
    exact ⟨b1, b2, b4⟩
  · intro p h1 h2
    obtain ⟨⟨m, hm, hv⟩, hd, b3, b4⟩ := a4 p h1 h2
    refine ⟨⟨m, hm, hv⟩, hd, ?_, b3, b4⟩
    cases hg : fg.GeometricalCheck p with
    | false => rfl
    | true =>
      rw [(BoundarySeeding_accepts fg cfg (initState fg cfg iMesh)).2 m p hm hv hd hg] at h1
      exact Bool.noConfusion h1

/-- Witness of C36: on two adjacent marker points of which point 1 is not admissible, the first
pass opens coarse CV 0 with point 0 alone, and the second pass opens coarse CV 1 with point 1
as its one child. -/
theorem second_pass_singletons_witness :
    (BoundarySingletons bigCellGrid
      (BoundarySeeding bigCellGrid (plainConfig 1) (initState bigCellGrid (plainConfig 1) 1))
      ).nChildren_CV 1 = 1 ∧
    (BoundarySeeding bigCellGrid (plainConfig 1) (initState bigCellGrid (plainConfig 1) 1)
      ).fAgglomerate ((BoundarySingletons bigCellGrid
        (BoundarySeeding bigCellGrid (plainConfig 1)
          (initState bigCellGrid (plainConfig 1) 1))).Children_CV 1 0) = false ∧
    (BoundarySingletons bigCellGrid
      (BoundarySeeding bigCellGrid (plainConfig 1) (initState bigCellGrid (plainConfig 1) 1))
      ).fParent_CV ((BoundarySingletons bigCellGrid
        (BoundarySeeding bigCellGrid (plainConfig 1)
          (initState bigCellGrid (plainConfig 1) 1))).Children_CV 1 0) = 1 :=
  (second_pass_singletons bigCellGrid (plainConfig 1) 1).1 1 (by decide) (by decide)

/-! ## The coarse index counter and the agglomerated points -/

/-- The number of agglomerated domain-owned points is at most the number of domain-owned points,
which is at most the number of fine points. -/
theorem nAgglomerated_le (fg : FineGrid) (st : MGState) :
    nAgglomerated fg st ≤ nDomainOwned fg ∧ nDomainOwned fg ≤ fg.nPoint := by
  constructor
  · apply Finset.card_le_card
    intro p hp
    rw [Finset.mem_filter] at hp ⊢
    exact ⟨hp.1, hp.2.2⟩
  · unfold nDomainOwned
    calc _ ≤ (Finset.range fg.nPoint).card := Finset.card_filter_le _ _
      _ = fg.nPoint := Finset.card_range _

/-- A body step that opens at most one coarse point, with a domain-owned seed below `nPoint`,
keeps the coarse index counter within the number of agglomerated domain-owned points, and the
coarse point it opens has an index below `nPoint`. -/
theorem Opens.counted {fg : FineGrid} {st st2 : MGState} {p : Nat} {accepted : Bool}
    (ho : Opens st st2 p accepted)
    (hp : accepted = true → fg.Domain p = true ∧ p < fg.nPoint)
    (h : st.Index_CoarseCV ≤ nAgglomerated fg st) :
    st2.Index_CoarseCV ≤ nAgglomerated fg st2 ∧
    (st2.Index_CoarseCV ≠ st.Index_CoarseCV → st.Index_CoarseCV < fg.nPoint) := by
  obtain ⟨hg, h1, h2⟩ := ho
  cases ha : accepted with
  | false =>
    rw [h2 ha]
    exact ⟨h, fun hne => absurd rfl hne⟩
  | true =>
    obtain ⟨a1, a2, a3⟩ := h1 ha
    obtain ⟨d1, d2⟩ := hp ha
    have hlt : nAgglomerated fg st < nAgglomerated fg st2 := by
      apply Finset.card_lt_card
      rw [Finset.ssubset_iff_of_subset]
      · refine ⟨p, ?_, ?_⟩
        · rw [Finset.mem_filter]
          exact ⟨Finset.mem_range.mpr d2, a2, d1⟩
        · rw [Finset.mem_filter]
          intro hc
          rw [a1] at hc
          exact Bool.noConfusion hc.2.1
      · intro x hx
        rw [Finset.mem_filter] at hx ⊢
        exact ⟨hx.1, hg x hx.2.1, hx.2.2⟩
    have := (nAgglomerated_le fg st2).1
    have := (nAgglomerated_le fg st2).2
    refine ⟨by omega, fun _ => by omega⟩

/-- The coarse index counter after the body of the first boundary pass. -/
theorem boundSeed_index (fg : FineGrid) (cfg : Config) (st : MGState) (iMarker iPoint : Nat) :
    (seedAccepted fg st iPoint = true →
      (boundSeed fg cfg iMarker st iPoint).Index_CoarseCV = st.Index_CoarseCV + 1) ∧
    (seedAccepted fg st iPoint = false → boundSeed fg cfg iMarker st iPoint = st) := by
  unfold boundSeed seedAccepted
  split
  · rename_i hcond
    have hp : st.fAgglomerate iPoint = false := by
      cases hA : st.fAgglomerate iPoint with
      | false => rfl
      | true => simp [hA] at hcond
    have h1 := Opened.start st iPoint hp
    have h3 : ∀ l : List Nat, Opened st iPoint (l.foldl (boundIndirectStep fg cfg iMarker)
        ((fg.Point iPoint).foldl (boundDirectStep fg cfg iMarker)
          ((st.SetParent_CV iPoint st.Index_CoarseCV).SetChildren_CV
            st.Index_CoarseCV 0 iPoint, 1))) := by
      intro l
      exact foldl_inv (Opened st iPoint) (boundIndirectStep fg cfg iMarker) l _
        (foldl_inv (Opened st iPoint) (boundDirectStep fg cfg iMarker)
          (fg.Point iPoint) _ h1 (fun acc x _ hacc => boundDirectStep_opened acc x hacc))
        (fun acc x _ hacc => boundIndirectStep_opened acc x hacc)
    have fin : ∀ acc : MGState × Nat, Opened st iPoint acc →
        ({ acc.1.SetnChildren_CV acc.1.Index_CoarseCV acc.2 with
          Index_CoarseCV := (acc.1.SetnChildren_CV acc.1.Index_CoarseCV acc.2).Index_CoarseCV
            + 1 } : MGState).Index_CoarseCV = st.Index_CoarseCV + 1 :=
      fun acc ho => congrArg (· + 1) ho.idx
    refine ⟨fun _ => ?_, fun h => absurd hcond (by rw [h]; exact Bool.false_ne_true)⟩
    by_cases hseed : agglomerate_seed fg cfg iPoint = true
    · simp only [hseed, if_true]
      split
      · exact fin _ (h3 _)
      · exact fin _ (h3 [])
    · simp only [hseed]
      exact fin _ h1
  · rename_i hcond
    exact ⟨fun h => absurd h hcond, fun _ => rfl⟩

/-- The body of the first boundary pass opens at most one coarse point. -/
theorem boundSeed_opens (fg : FineGrid) (cfg : Config) (st : MGState) (iMarker iPoint : Nat) :
    Opens st (boundSeed fg cfg iMarker st iPoint) iPoint (seedAccepted fg st iPoint) := by
  refine ⟨(boundSeed_grew fg cfg st iMarker iPoint).1, ?_,
    (boundSeed_index fg cfg st iMarker iPoint).2⟩
  intro ha
  refine ⟨?_, (boundSeed_grew fg cfg st iMarker iPoint).2 ha,
    (boundSeed_index fg cfg st iMarker iPoint).1 ha⟩
  cases hA : st.fAgglomerate iPoint with
  | false => rfl
  | true => simp [seedAccepted, hA] at ha

/-- The body of the second boundary pass opens at most one coarse point. -/
theorem singletonSeed_opens (fg : FineGrid) (st : MGState) (iPoint : Nat) :
    Opens st (singletonSeed fg st iPoint) iPoint (singletonAccepted fg st iPoint) := by
  unfold singletonSeed singletonAccepted
  split
  · rename_i hcond
    have hp : st.fAgglomerate iPoint = false := by
      cases hA : st.fAgglomerate iPoint with
      | false => rfl
      | true => simp [hA] at hcond
    refine ⟨Grew.update iPoint rfl, fun _ => ⟨hp, ?_, rfl⟩,
      fun h => absurd hcond (by rw [h]; exact Bool.false_ne_true)⟩
    simp [MGState.SetParent_CV, MGState.SetChildren_CV, MGState.SetnChildren_CV]
  · rename_i hcond
    exact ⟨Grew.refl st, fun h => absurd h hcond, fun _ => rfl⟩

/-- The body of the leftover sweep opens at most one coarse point. -/
theorem leftoverStep_opens (fg : FineGrid) (st : MGState) (iPoint : Nat) :
    Opens st (leftoverStep fg st iPoint) iPoint (singletonAccepted fg st iPoint) := by
  unfold leftoverStep singletonAccepted
  split
  · rename_i hcond
    have hp : st.fAgglomerate iPoint = false := by
      cases hA : st.fAgglomerate iPoint with
      | false => rfl
      | true => simp [hA] at hcond
    refine ⟨?_, fun _ => ⟨hp, ?_, ?_⟩,
      fun h => absurd hcond (by rw [h]; exact Bool.false_ne_true)⟩
    · by_cases hi : (st.SetParent_CV iPoint st.Index_CoarseCV).fIndirect iPoint = true
      · simp only [hi, if_true]
        exact Grew.update iPoint rfl
      · simp only [hi, if_false]
        exact Grew.update iPoint rfl
    · by_cases hi : (st.SetParent_CV iPoint st.Index_CoarseCV).fIndirect iPoint = true
      · simp only [hi, if_true]
        simp [MGState.SetParent_CV, MGState.SetChildren_CV, MGState.SetnChildren_CV,
          MGState.SetAgglomerate_Indirect]
      · simp only [hi, if_false]
        simp [MGState.SetParent_CV, MGState.SetChildren_CV, MGState.SetnChildren_CV,
          MGState.SetAgglomerate_Indirect]
    · by_cases hi : (st.SetParent_CV iPoint st.Index_CoarseCV).fIndirect iPoint = true
      · simp only [hi, if_true]
        simp [MGState.SetParent_CV, MGState.SetChildren_CV, MGState.SetnChildren_CV,
          MGState.SetAgglomerate_Indirect]
      · simp only [hi, if_false]
        simp [MGState.SetParent_CV, MGState.SetChildren_CV, MGState.SetnChildren_CV,
          MGState.SetAgglomerate_Indirect]
  · rename_i hcond
    exact ⟨Grew.refl st, fun h => absurd h hcond, fun _ => rfl⟩

/-- The body of the interior loop opens at most one coarse point, and it keeps the queue within
the fine grid. -/
theorem interiorBody_opens (fg : FineGrid) (sq : MGState × MGQueue) :
    Opens sq.1 (interiorBody fg sq).1 sq.2.NextCV (seedAccepted fg sq.1 sq.2.NextCV) ∧
    (QR fg sq.2 → QR fg (interiorBody fg sq).2) := by
  unfold interiorBody seedAccepted
  simp only
  split
  · rename_i hcond
    have hp : sq.1.fAgglomerate sq.2.NextCV = false := by
      cases hA : sq.1.fAgglomerate sq.2.NextCV with
      | false => rfl
      | true => simp [hA] at hcond
    have h1 := Opened.start sq.1 sq.2.NextCV hp
    have h3 : ∀ l : List Nat,
        (fun acc : MGState × MGQueue × Nat => Opened sq.1 sq.2.NextCV (acc.1, acc.2.2) ∧
          (QR fg sq.2 → QR fg acc.2.1))
        (l.foldl (interiorIndirectStep fg) ((fg.Point sq.2.NextCV).foldl (interiorDirectStep fg)
          ((sq.1.SetParent_CV sq.2.NextCV sq.1.Index_CoarseCV).SetChildren_CV
            sq.1.Index_CoarseCV 0 sq.2.NextCV, sq.2.Update sq.2.NextCV fg, 1))) := by
      intro l
      refine foldl_inv
        (fun acc : MGState × MGQueue × Nat => Opened sq.1 sq.2.NextCV (acc.1, acc.2.2) ∧
          (QR fg sq.2 → QR fg acc.2.1))
        (interiorIndirectStep fg) l _
        (foldl_inv
          (fun acc : MGState × MGQueue × Nat => Opened sq.1 sq.2.NextCV (acc.1, acc.2.2) ∧
            (QR fg sq.2 → QR fg acc.2.1))
          (interiorDirectStep fg) (fg.Point sq.2.NextCV) _ ⟨h1, fun hr => hr.Update _⟩ ?_) ?_
      · intro acc x _ hacc
        refine ⟨interiorDirectStep_opened acc x hacc.1, fun hr => ?_⟩
        unfold interiorDirectStep
        split
        · exact (hacc.2 hr).Update x
        · exact hacc.2 hr
      · intro acc x _ hacc
        refine ⟨interiorIndirectStep_opened acc x hacc.1, fun hr => ?_⟩
        unfold interiorIndirectStep
        split
        · exact (hacc.2 hr).Update x
        · exact hacc.2 hr
    have fin : ∀ (b : Bool), b = true → ∀ acc : MGState × MGQueue × Nat,
        (Opened sq.1 sq.2.NextCV (acc.1, acc.2.2) ∧ (QR fg sq.2 → QR fg acc.2.1)) →
        Opens sq.1 ({ acc.1.SetnChildren_CV acc.1.Index_CoarseCV acc.2.2 with
          Index_CoarseCV := (acc.1.SetnChildren_CV acc.1.Index_CoarseCV acc.2.2).Index_CoarseCV
            + 1 } : MGState) sq.2.NextCV b ∧ (QR fg sq.2 → QR fg acc.2.1) :=
      fun b hb acc ho => ⟨⟨fun x hx => (ho.1.keep x hx).1,
        fun _ => ⟨hp, ho.1.agg, congrArg (· + 1) ho.1.idx⟩,
        fun h => absurd hb (by rw [h]; exact Bool.false_ne_true)⟩, ho.2⟩
    split
    · exact fin _ hcond _ (h3 _)
    · exact fin _ hcond _ (h3 [])
  · rename_i hcond
    exact ⟨⟨Grew.refl _, fun h => absurd h hcond, fun _ => rfl⟩, fun hr => hr.MoveCV _ _⟩

/-- The interior loop keeps the coarse index counter within the number of agglomerated
domain-owned points, whatever the number of iterations. -/
theorem interiorLoop_counted (fg : FineGrid) (fuel : Nat) (sq : MGState × MGQueue)
    (hr : QR fg sq.2) (h : sq.1.Index_CoarseCV ≤ nAgglomerated fg sq.1) :
    (interiorLoop fg fuel sq).1.Index_CoarseCV ≤ nAgglomerated fg (interiorLoop fg fuel sq).1 := by
  induction fuel generalizing sq with
  | zero => exact h
  | succ fuel ih =>
    unfold interiorLoop
    cases hq : sq.2.EmptyQueue with
    | true => exact h
    | false =>
      simp only [Bool.false_eq_true, if_false]
      obtain ⟨e, he, hen⟩ := MGQueue.NextCV_mem hq
      have hlt : sq.2.NextCV < fg.nPoint := hen ▸ hr e he
      refine ih _ ((interiorBody_opens fg sq).2 hr)
        ((interiorBody_opens fg sq).1.counted (fun ha => ⟨?_, hlt⟩) h).1
      simp only [seedAccepted, Bool.and_eq_true] at ha
      exact ha.1.2

/-- After the three passes the coarse index counter is within the number of agglomerated
domain-owned points. -/
theorem agglomerationPasses_counted (fg : FineGrid) (cfg : Config) (iMesh : Nat)
    (hw : WFR fg) :
    (agglomerationPasses fg cfg iMesh).Index_CoarseCV ≤
      nAgglomerated fg (agglomerationPasses fg cfg iMesh) := by
  have h0 : (initState fg cfg iMesh).Index_CoarseCV ≤ nAgglomerated fg (initState fg cfg iMesh) :=
    Nat.zero_le _
  have h1 : (BoundarySeeding fg cfg (initState fg cfg iMesh)).Index_CoarseCV ≤
      nAgglomerated fg (BoundarySeeding fg cfg (initState fg cfg iMesh)) := by
    unfold BoundarySeeding
    apply markerFold_inv fg (fun s => s.Index_CoarseCV ≤ nAgglomerated fg s) (boundSeed fg cfg)
      _ h0
    intro s m p hM hv hs
    refine ((boundSeed_opens fg cfg s m p).counted (fun ha => ⟨?_, hw.vert m p hM hv⟩) hs).1
    simp only [seedAccepted, Bool.and_eq_true] at ha
    exact ha.1.2
  have h2 : (BoundarySingletons fg (BoundarySeeding fg cfg (initState fg cfg iMesh))
      ).Index_CoarseCV ≤
      nAgglomerated fg (BoundarySingletons fg (BoundarySeeding fg cfg (initState fg cfg iMesh)))
      := by
    unfold BoundarySingletons
    apply markerFold_inv fg (fun s => s.Index_CoarseCV ≤ nAgglomerated fg s)
      (fun _ => singletonSeed fg) _ h1
    intro s m p hM hv hs
    refine ((singletonSeed_opens fg s p).counted (fun ha => ⟨?_, hw.vert m p hM hv⟩) hs).1
    simp only [singletonAccepted, Bool.and_eq_true] at ha
    exact ha.2
  have h3 := interiorLoop_counted fg fg.nPoint
    (BoundarySingletons fg (BoundarySeeding fg cfg (initState fg cfg iMesh)),
      seedQueue fg (BoundarySingletons fg (BoundarySeeding fg cfg (initState fg cfg iMesh)))
        (MGQueue.init fg.nPoint)) ((QR.init fg).seeded _) h2
  unfold agglomerationPasses LeftoverSweep
  apply foldl_inv (fun s => s.Index_CoarseCV ≤ nAgglomerated fg s) _ _ _ h3
  intro s p hp hs
  refine ((leftoverStep_opens fg s p).counted (fun ha => ⟨?_, List.mem_range.mp hp⟩) hs).1
  simp only [singletonAccepted, Bool.and_eq_true] at ha
  exact ha.2

/-! ## Claim on the coarse index counter -/

/-- C38: on a fine grid whose vertex lists hold point indices below `nPoint`, the coarse index
counter is at most the number of agglomerated domain-owned fine points at the start of the
passes, and every body step of the first boundary pass, of the second boundary pass, of the
interior loop (which also keeps the queue within the fine grid) and of the leftover sweep keeps
it so; a body step that opens a coarse CV, the only steps that write `node[Index_CoarseCV]`,
finds the counter below the fine point count. At the end of the passes the counter, which is
the value of `nPointDomain`, is at most the number of agglomerated domain-owned points, which
is at most the number of domain-owned points, which is at most the fine point count. -/
theorem coarse_index_bounded (fg : FineGrid) (cfg : Config) (iMesh : Nat) (hw : WFR fg) :
    (initState fg cfg iMesh).Index_CoarseCV ≤ nAgglomerated fg (initState fg cfg iMesh) ∧
    (∀ st m p, m < fg.nMarker → p ∈ fg.vertex m →
      st.Index_CoarseCV ≤ nAgglomerated fg st →
      ((boundSeed fg cfg m st p).Index_CoarseCV ≤ nAgglomerated fg (boundSeed fg cfg m st p) ∧
        ((boundSeed fg cfg m st p).Index_CoarseCV ≠ st.Index_CoarseCV →
          st.Index_CoarseCV < fg.nPoint)) ∧
      ((singletonSeed fg st p).Index_CoarseCV ≤ nAgglomerated fg (singletonSeed fg st p) ∧
        ((singletonSeed fg st p).Index_CoarseCV ≠ st.Index_CoarseCV →
          st.Index_CoarseCV < fg.nPoint))) ∧
    (∀ sq : MGState × MGQueue, sq.2.EmptyQueue = false → QR fg sq.2 →
      sq.1.Index_CoarseCV ≤ nAgglomerated fg sq.1 →
      (interiorBody fg sq).1.Index_CoarseCV ≤ nAgglomerated fg (interiorBody fg sq).1 ∧
      ((interiorBody fg sq).1.Index_CoarseCV ≠ sq.1.Index_CoarseCV →
        sq.1.Index_CoarseCV < fg.nPoint) ∧
      QR fg (interiorBody fg sq).2) ∧
    (∀ st p, p < fg.nPoint → st.Index_CoarseCV ≤ nAgglomerated fg st →
      (leftoverStep fg st p).Index_CoarseCV ≤ nAgglomerated fg (leftoverStep fg st p) ∧
      ((leftoverStep fg st p).Index_CoarseCV ≠ st.Index_CoarseCV →
        st.Index_CoarseCV < fg.nPoint)) ∧
    (repaired fg cfg iMesh).nPointDomain = (agglomerationPasses fg cfg iMesh).Index_CoarseCV ∧
    (agglomerationPasses fg cfg iMesh).Index_CoarseCV ≤
      nAgglomerated fg (agglomerationPasses fg cfg iMesh) ∧
    nAgglomerated fg (agglomerationPasses fg cfg iMesh) ≤ nDomainOwned fg ∧
    nDomainOwned fg ≤ fg.nPoint ∧
    (∀ c, c < (agglomerationPasses fg cfg iMesh).Index_CoarseCV → c < fg.nPoint) := by
  have hfin := agglomerationPasses_counted fg cfg iMesh hw
  have hle := nAgglomerated_le fg (agglomerationPasses fg cfg iMesh)
  refine ⟨Nat.zero_le _, ?_, ?_, ?_, repaired_nPointDomain fg cfg iMesh, hfin, hle.1, hle.2,
    fun c hc => by omega⟩
  · intro st m p hM hv hs
    constructor
    · refine (boundSeed_opens fg cfg st m p).counted (fun ha => ⟨?_, hw.vert m p hM hv⟩) hs
      simp only [seedAccepted, Bool.and_eq_true] at ha
      exact ha.1.2
    · refine (singletonSeed_opens fg st p).counted (fun ha => ⟨?_, hw.vert m p hM hv⟩) hs
      simp only [singletonAccepted, Bool.and_eq_true] at ha
      exact ha.2
  · intro sq hq hr hs
    obtain ⟨e, he, hen⟩ := MGQueue.NextCV_mem hq
    have hlt : sq.2.NextCV < fg.nPoint := hen ▸ hr e he
    have hd : seedAccepted fg sq.1 sq.2.NextCV = true →
        fg.Domain sq.2.NextCV = true ∧ sq.2.NextCV < fg.nPoint := by
      intro ha
      simp only [seedAccepted, Bool.and_eq_true] at ha
      exact ⟨ha.1.2, hlt⟩
    exact ⟨((interiorBody_opens fg sq).1.counted hd hs).1,
      ((interiorBody_opens fg sq).1.counted hd hs).2, (interiorBody_opens fg sq).2 hr⟩
  · intro st p hp hs
    refine (leftoverStep_opens fg st p).counted (fun ha => ⟨?_, hp⟩) hs
    simp only [singletonAccepted, Bool.and_eq_true] at ha
    exact ha.2

/-- Witness of C38: on the 4 x 4 quadrilateral grid the coarse index counter after the passes is
at most the number of agglomerated domain-owned points, and every coarse index below it is
below the fine point count. -/
theorem coarse_index_bounded_witness :
    (agglomerationPasses quadGrid (plainConfig 1) 1).Index_CoarseCV ≤
      nAgglomerated quadGrid (agglomerationPasses quadGrid (plainConfig 1) 1) ∧
    nAgglomerated quadGrid (agglomerationPasses quadGrid (plainConfig 1) 1) ≤
      nDomainOwned quadGrid ∧
    nDomainOwned quadGrid ≤ quadGrid.nPoint ∧
    (∀ c, c < (agglomerationPasses quadGrid (plainConfig 1) 1).Index_CoarseCV →
      c < quadGrid.nPoint) :=
  (coarse_index_bounded quadGrid (plainConfig 1) 1 quadGrid_wfr).2.2.2.2.2

/-! ## Where the merge loop puts the children of an isolated coarse point -/

/-- The body of the merge loop for an isolated coarse point gives every child of the point the
merge target as parent. -/
theorem mergeIsolated_moves {fg : FineGrid} {st : MGState} (c : Nat) (h : RInv fg st)
    (hlen : (st.cPoint c).length = 1) (i : Nat) (hi : i < st.nChildren_CV c) :
    (mergeIsolated st c).fParent_CV (st.Children_CV c i) = (st.cPoint c).getD 0 0 := by
  have hmem : (st.cPoint c).getD 0 0 ∈ st.cPoint c := by
    rcases hc : st.cPoint c with _ | ⟨x, t⟩
    · rw [hc] at hlen
      simp at hlen
    · simp
  obtain ⟨hcT, _⟩ := h.adj c _ hmem
  unfold mergeIsolated
  rw [if_pos hlen]
  generalize (st.cPoint c).getD 0 0 = T at hcT
  dsimp only
  have key := foldl_range_inv
    (fun k (acc : MGState × Nat) =>
      acc.1.Children_CV c = st.Children_CV c ∧
      ∀ j, j < k → acc.1.fParent_CV (st.Children_CV c j) = T)
    (mergeChild c T) (st.nChildren_CV c) (st, st.nChildren_CV T)
    ⟨rfl, fun j hj => absurd hj (Nat.not_lt_zero j)⟩ ?_
  · exact key.2 i hi
  · intro k acc _ ⟨a1, a2⟩
    refine ⟨?_, ?_⟩
    · show Function.update acc.1.Children_CV T _ c = _
      rw [Function.update_noteq (Ne.symm hcT)]
      exact a1
    · intro j hj
      show Function.update acc.1.fParent_CV (acc.1.Children_CV c k) T (st.Children_CV c j) = T
      by_cases hjk : st.Children_CV c j = acc.1.Children_CV c k
      · rw [hjk, Function.update_same]
      · rw [Function.update_noteq hjk]
        have hlt : j < k := by
          rcases Nat.lt_succ_iff_lt_or_eq.mp hj with h1 | h1
          · exact h1
          · subst h1
            rw [a1] at hjk
            exact absurd rfl hjk
        exact a2 j hlt

/-- State of the merge loop after the coarse points below `k`, seen from an isolated coarse
point `c` with neighbour `n`, when no isolated coarse point above `c` is `n` or has `c` as its
neighbour: the children that `c` had at the start have parent `c` up to the turn of `c` and
parent `n` from then on, and from then on `c` has no children. -/
theorem mergeLoop_moved {fg : FineGrid} {s0 : MGState} (K c n : Nat) (h : RInv fg s0)
    (hiso : s0.cPoint c = [n])
    (hA : ¬ (c < n ∧ n < K ∧ (s0.cPoint n).length = 1))
    (hB : ∀ X, c < X → X < K → (s0.cPoint X).length = 1 → (s0.cPoint X).getD 0 0 ≠ c)
    (k : Nat) (hk : k ≤ K) :
    RInv fg ((List.range k).foldl mergeIsolated s0) ∧
    ((List.range k).foldl mergeIsolated s0).fAgglomerate = s0.fAgglomerate ∧
    (∀ i, i < s0.nChildren_CV c →
      ((List.range k).foldl mergeIsolated s0).fParent_CV (s0.Children_CV c i) =
        if c < k then n else c) ∧
    (c < k → ((List.range k).foldl mergeIsolated s0).nChildren_CV c = 0) := by
  have key := foldl_range_inv
    (fun k (s : MGState) =>
      RInv fg s ∧ s.cPoint = s0.cPoint ∧ s.fAgglomerate = s0.fAgglomerate ∧
      (∀ i, i < s0.nChildren_CV c → s.fParent_CV (s0.Children_CV c i) = if c < k then n else c) ∧
      (c < k → s.nChildren_CV c = 0))
    mergeIsolated k s0 ⟨h, rfl, rfl, ?_, fun hc => absurd hc (Nat.not_lt_zero c)⟩ ?_
  · exact ⟨key.1, key.2.2.1, key.2.2.2.1, key.2.2.2.2⟩
  · intro i hi
    rw [if_neg (Nat.not_lt_zero c)]
    exact (h.ginv.child c i hi).2
  · intro j s hj ⟨hR, hP, hAg, hM, hN⟩
    have hjK : j < K := by omega
    obtain ⟨m1, m2, _, _⟩ := mergeIsolated_inv j hR
    obtain ⟨f1, _, _, f4⟩ := mergeIsolated_frame s j
    refine ⟨m1, f1.trans hP, m2.trans hAg, ?_, ?_⟩
    · intro i hi
      have hagg : s.fAgglomerate (s0.Children_CV c i) = true := by
        rw [hAg]
        exact (h.ginv.child c i hi).1
      rcases Nat.lt_trichotomy j c with hlt | heq | hgt
      · rw [if_neg (by omega)]
        have hold := hM i hi
        rw [if_neg (by omega)] at hold
        by_contra hne
        have hne2 : (mergeIsolated s j).fParent_CV (s0.Children_CV c i) ≠
            s.fParent_CV (s0.Children_CV c i) := by
          rw [hold]
          exact hne
        obtain ⟨_, e2, _⟩ := mergeIsolated_moved j hR _ hne2
        rw [hold] at e2
        omega
      · subst heq
        rw [if_pos (Nat.lt_succ_self j)]
        have hold := hM i hi
        rw [if_neg (Nat.lt_irrefl j)] at hold
        obtain ⟨i2, hi2, hc2⟩ := hR.ginv.parent _ hagg
        rw [hold] at hi2 hc2
        have hlen : (s.cPoint j).length = 1 := by rw [hP, hiso]; rfl
        have := mergeIsolated_moves j hR hlen i2 hi2
        rw [hc2, hP, hiso] at this
        exact this
      · rw [if_pos (by omega)]
        have hold := hM i hi
        rw [if_pos hgt] at hold
        by_contra hne
        have hne2 : (mergeIsolated s j).fParent_CV (s0.Children_CV c i) ≠
            s.fParent_CV (s0.Children_CV c i) := by
          rw [hold]
          exact hne
        obtain ⟨e1, e2, _⟩ := mergeIsolated_moved j hR _ hne2
        rw [hold] at e2
        rw [hP] at e1
        subst e2
        exact hA ⟨hgt, hjK, e1⟩
    · intro hc
      rw [f4]
      by_cases hlen : (s.cPoint j).length = 1
      · rw [if_pos hlen]
        by_cases hcj : c = j
        · rw [hcj, Function.update_same]
        · have hgt : c < j := by omega
          have hT : c ≠ (s.cPoint j).getD 0 0 := by
            rw [hP]
            rw [hP] at hlen
            exact (hB j hgt hjK hlen).symm
          rw [Function.update_noteq hcj, Function.update_noteq hT]
          exact hN hgt
      · rw [if_neg hlen]
        have hcj : c ≠ j := by
          rintro rfl
          apply hlen
          rw [hP, hiso]
          rfl
        exact hN (by omega)

/-! ## Claim on the merge of isolated coarse CVs -/

/-- C33 (as stated, refuted): on three fine points in a row the passes give the coarse CVs
`{0, 1}` and `{2}`, each the one neighbour of the other; coarse CV 0 has exactly one coarse
neighbour, coarse CV 1, but after the repair its child 0 has parent 0, not 1, and its child
count is 3, not 0. -/
theorem merge_returns_to_lower :
    0 < (repaired pathGrid (plainConfig 0) 1).nPointDomain ∧
    (projected pathGrid (plainConfig 0) 1).cPoint 0 = [1] ∧
    0 < (agglomerationPasses pathGrid (plainConfig 0) 1).nChildren_CV 0 ∧
    (repaired pathGrid (plainConfig 0) 1).fParent_CV
      ((agglomerationPasses pathGrid (plainConfig 0) 1).Children_CV 0 0) ≠ 1 ∧
    (repaired pathGrid (plainConfig 0) 1).nChildren_CV 0 ≠ 0 := by
  decide

/-- C33 (amended): on a fresh fine grid, for every coarse CV `c < nPointDomain` that has exactly
one coarse neighbour `n` in the projected adjacency, when no coarse CV with an index above `c`
that itself has exactly one coarse neighbour is `n` or has `c` as that neighbour, after the
repair every child that `c` had after the passes has parent `n` and is in the children list of
`n`, and the child count of `c` is zero. -/
theorem isolated_children_move (fg : FineGrid) (cfg : Config) (iMesh : Nat) (hf : Fresh fg)
    (c n : Nat) (hc : c < (repaired fg cfg iMesh).nPointDomain)
    (hiso : (projected fg cfg iMesh).cPoint c = [n])
    (hA : ¬ (c < n ∧ ((projected fg cfg iMesh).cPoint n).length = 1))
    (hB : ∀ X, c < X → X < (repaired fg cfg iMesh).nPointDomain →
      ((projected fg cfg iMesh).cPoint X).length = 1 →
      ((projected fg cfg iMesh).cPoint X).getD 0 0 ≠ c) :
    (∀ i, i < (agglomerationPasses fg cfg iMesh).nChildren_CV c →
      (repaired fg cfg iMesh).fParent_CV ((agglomerationPasses fg cfg iMesh).Children_CV c i)
        = n ∧
      ∃ j, j < (repaired fg cfg iMesh).nChildren_CV n ∧
        (repaired fg cfg iMesh).Children_CV n j =
          (agglomerationPasses fg cfg iMesh).Children_CV c i) ∧
    (repaired fg cfg iMesh).nChildren_CV c = 0 := by
  rw [repaired_nPointDomain] at hc hB
  obtain ⟨p1, _, _⟩ := projected_inv cfg iMesh hf
  obtain ⟨r1, _, _⟩ := repaired_inv cfg iMesh hf
  obtain ⟨_, _, f3, f4, _, _⟩ := projectAdjacency_frame fg
    (agglomerationPasses fg cfg iMesh).Index_CoarseCV
    { agglomerationPasses fg cfg iMesh with
      nPointDomain := (agglomerationPasses fg cfg iMesh).Index_CoarseCV }
  have hC : (projected fg cfg iMesh).Children_CV = (agglomerationPasses fg cfg iMesh).Children_CV :=
    f3
  have hN : (projected fg cfg iMesh).nChildren_CV =
      (agglomerationPasses fg cfg iMesh).nChildren_CV := f4
  obtain ⟨_, m2, m3, m4⟩ := mergeLoop_moved (agglomerationPasses fg cfg iMesh).Index_CoarseCV
    c n p1 hiso (fun ⟨a1, _, a3⟩ => hA ⟨a1, a3⟩) hB
    (agglomerationPasses fg cfg iMesh).Index_CoarseCV (le_refl _)
  have eP : (repaired fg cfg iMesh).fParent_CV =
      ((List.range (agglomerationPasses fg cfg iMesh).Index_CoarseCV).foldl mergeIsolated
        (projected fg cfg iMesh)).fParent_CV := by
    rw [repaired_eq]
    rfl
  have eN : (repaired fg cfg iMesh).nChildren_CV =
      ((List.range (agglomerationPasses fg cfg iMesh).Index_CoarseCV).foldl mergeIsolated
        (projected fg cfg iMesh)).nChildren_CV := by
    rw [repaired_eq]
    rfl
  have eA : (repaired fg cfg iMesh).fAgglomerate =
      ((List.range (agglomerationPasses fg cfg iMesh).Index_CoarseCV).foldl mergeIsolated
        (projected fg cfg iMesh)).fAgglomerate := by
    rw [repaired_eq]
    rfl
  refine ⟨?_, ?_⟩
  · intro i hi
    rw [← hN] at hi
    have hpar := m3 i hi
    rw [if_pos hc, hC] at hpar
    have hpar2 : (repaired fg cfg iMesh).fParent_CV
        ((agglomerationPasses fg cfg iMesh).Children_CV c i) = n := by
      rw [eP]
      exact hpar
    refine ⟨hpar2, ?_⟩
    have hagg : (repaired fg cfg iMesh).fAgglomerate
        ((agglomerationPasses fg cfg iMesh).Children_CV c i) = true := by
      rw [eA, m2, ← hC]
      exact (p1.ginv.child c i hi).1
    obtain ⟨j, hj, hjc⟩ := r1.ginv.parent _ hagg
    rw [hpar2] at hj hjc
    exact ⟨j, hj, hjc⟩
  · rw [eN]
    exact m4 hc

/-- Witness of C33: on five fine points in a row the passes give the coarse CVs `{0, 1}`,
`{2, 3}` and `{4}`; coarse CV 0 has the one neighbour 1, which has two neighbours, and after
the repair its children have parent 1 and it has no children. -/
theorem isolated_children_move_witness :
    (∀ i, i < (agglomerationPasses chainGrid (plainConfig 0) 1).nChildren_CV 0 →
      (repaired chainGrid (plainConfig 0) 1).fParent_CV
        ((agglomerationPasses chainGrid (plainConfig 0) 1).Children_CV 0 i) = 1 ∧
      ∃ j, j < (repaired chainGrid (plainConfig 0) 1).nChildren_CV 1 ∧
        (repaired chainGrid (plainConfig 0) 1).Children_CV 1 j =
          (agglomerationPasses chainGrid (plainConfig 0) 1).Children_CV 0 i) ∧
    (repaired chainGrid (plainConfig 0) 1).nChildren_CV 0 = 0 :=
  isolated_children_move chainGrid (plainConfig 0) 1 ⟨fun _ => rfl, fun _ => rfl⟩ 0 1
    (by decide) (by decide) (by decide) (by
      have hK : (repaired chainGrid (plainConfig 0) 1).nPointDomain = 3 := by decide
      intro X hX1 hX2 hlen
      rw [hK] at hX2
      have hX : X = 1 ∨ X = 2 := by omega
      rcases hX with rfl | rfl
      · exact absurd hlen (by decide)
      · decide)

/-! ## Claim on the 4 x 4 quadrilateral mesh -/

set_option maxRecDepth 4000

/-- C31 (as stated, refuted): on the 4 x 4 quadrilateral mesh, built as the level after the
first (so that the indirect flags are left as found, all false), no fine point is
indirect-eligible, every point is domain-owned and admissible, and the constructor yields 8
coarse CVs, of which coarse CV 5 has one child. -/
theorem quad_mesh_eight_coarse :
    (∀ p, p < 16 → (initState quadMesh (plainConfig 1) 2).fIndirect p = false) ∧
    (∀ p, p < 16 → quadMesh.Domain p = true ∧ quadMesh.GeometricalCheck p = true) ∧
    (GEOM_GeometryMultigrid quadMesh (plainConfig 1) 2).nPointDomain = 8 ∧
    (GEOM_GeometryMultigrid quadMesh (plainConfig 1) 2).nChildren_CV 5 = 1 := by
  decide

/-- C31 (amended): on the 4 x 4 quadrilateral mesh with no fine point indirect-eligible the
constructor yields 8 coarse CVs with 3, 3, 2, 2, 3, 1, 1 and 1 children (the single children are
the fine points 8, 5 and 10), and no coarse CV has exactly one coarse neighbour, neither in the
adjacency projected by the repair nor in the adjacency of the finished coarse grid. With every
fine point indirect-eligible, as the constructor flags the nodes of rectangles on the first
level, it yields 4 coarse CVs with 4 children each, none with exactly one coarse neighbour. -/
theorem quad_mesh_coarse_level :
    ((GEOM_GeometryMultigrid quadMesh (plainConfig 1) 2).nPointDomain = 8 ∧
      (List.range 8).map (GEOM_GeometryMultigrid quadMesh (plainConfig 1) 2).nChildren_CV
        = [3, 3, 2, 2, 3, 1, 1, 1] ∧
      (List.range 8).map (fun c => (GEOM_GeometryMultigrid quadMesh (plainConfig 1) 2).Children_CV
        c 0) = [0, 2, 7, 15, 13, 8, 5, 10] ∧
      (∀ c, c < 8 → ((projected quadMesh (plainConfig 1) 2).cPoint c).length ≠ 1 ∧
        ((SetPoint_Connectivity quadMesh
          (GEOM_GeometryMultigrid quadMesh (plainConfig 1) 2)).cPoint c).length ≠ 1)) ∧
    ((∀ p, p < 16 → (initState quadMesh (plainConfig 1) 1).fIndirect p = true) ∧
      (GEOM_GeometryMultigrid quadMesh (plainConfig 1) 1).nPointDomain = 4 ∧
      (List.range 4).map (GEOM_GeometryMultigrid quadMesh (plainConfig 1) 1).nChildren_CV
        = [4, 4, 4, 4] ∧
      (∀ c, c < 4 → ((projected quadMesh (plainConfig 1) 1).cPoint c).length ≠ 1 ∧
        ((SetPoint_Connectivity quadMesh
          (GEOM_GeometryMultigrid quadMesh (plainConfig 1) 1)).cPoint c).length ≠ 1)) := by
  decide

/-! ## Termination of the interior loop -/

/-- The loop with its counter, started with `iteration` at most `nPoint`: the counter ends at
most at `nPoint`, the loop ends with an empty queue or with the counter at `nPoint`, and its
result is that of the loop run with the iterations that the bound still allows. -/
theorem interiorWhile_spec (fg : FineGrid) (n : Nat) :
    ∀ (sq : MGState × MGQueue) (iteration : Nat), fg.nPoint - iteration = n →
      iteration ≤ fg.nPoint →
      (interiorWhile fg sq iteration).2 ≤ fg.nPoint ∧
      ((interiorWhile fg sq iteration).1.2.EmptyQueue = true ∨
        (interiorWhile fg sq iteration).2 = fg.nPoint) ∧
      (interiorWhile fg sq iteration).1 = interiorLoop fg n sq := by
  induction n with
  | zero =>
    intro sq iteration hn hle
    have hit : ¬ iteration < fg.nPoint := by omega
    rw [interiorWhile, if_neg (fun h => hit h.2)]
    exact ⟨hle, Or.inr (by show iteration = fg.nPoint; omega), rfl⟩
  | succ n ih =>
    intro sq iteration hn hle
    have hit : iteration < fg.nPoint := by omega
    rw [interiorWhile]
    cases hq : sq.2.EmptyQueue with
    | true =>
      rw [if_neg (fun h => Bool.noConfusion h.1)]
      refine ⟨hle, Or.inl hq, ?_⟩
      unfold interiorLoop
      rw [hq]
      rfl
    | false =>
      rw [if_pos ⟨rfl, hit⟩]
      obtain ⟨a1, a2, a3⟩ := ih (interiorBody fg sq) (iteration + 1) (by omega) (by omega)
      refine ⟨a1, a2, ?_⟩
      rw [a3]
      conv_rhs => unfold interiorLoop
      rw [hq]
      rfl

/-! ## Claim on the termination of the interior loop -/

/-- C32: the interior loop, written with its counter as a function that is total, runs its body
at most `nPoint` times from whatever state and queue it starts; it ends with an empty queue or
with the counter at `nPoint`; its result is the one used by the constructor; whatever the state
in which it ends, the leftover sweep that follows leaves no domain-owned fine point below
`nPoint` unagglomerated. On one domain-owned fine point that is not admissible the loop ends at
the bound, after one run of the body, with the point still in the queue, and the sweep
agglomerates the point. -/
theorem interior_loop_terminates (fg : FineGrid) (sq : MGState × MGQueue) (st : MGState) :
    (interiorWhile fg sq 0).2 ≤ fg.nPoint ∧
    ((interiorWhile fg sq 0).1.2.EmptyQueue = true ∨ (interiorWhile fg sq 0).2 = fg.nPoint) ∧
    InteriorSeeding fg st =
      (interiorWhile fg (st, seedQueue fg st (MGQueue.init fg.nPoint)) 0).1.1 ∧
    (∀ p, p < fg.nPoint → fg.Domain p = true →
      (LeftoverSweep fg (interiorWhile fg sq 0).1.1).fAgglomerate p = true) ∧
    ((interiorWhile stuckGrid (initState stuckGrid (plainConfig 0) 1,
        seedQueue stuckGrid (initState stuckGrid (plainConfig 0) 1)
          (MGQueue.init stuckGrid.nPoint)) 0).2 = stuckGrid.nPoint ∧
      (interiorWhile stuckGrid (initState stuckGrid (plainConfig 0) 1,
        seedQueue stuckGrid (initState stuckGrid (plainConfig 0) 1)
          (MGQueue.init stuckGrid.nPoint)) 0).1.2.EmptyQueue = false ∧
      (agglomerationPasses stuckGrid (plainConfig 0) 1).fAgglomerate 0 = true) := by
  obtain ⟨a1, a2, _⟩ := interiorWhile_spec fg fg.nPoint sq 0 rfl (Nat.zero_le _)
  refine ⟨a1, a2, ?_, fun p hp hd => LeftoverSweep_agg fg _ p hp hd, ?_⟩
  · unfold InteriorSeeding
    rw [(interiorWhile_spec fg fg.nPoint _ 0 rfl (Nat.zero_le _)).2.2]
  · obtain ⟨_, b2, b3⟩ := interiorWhile_spec stuckGrid stuckGrid.nPoint
      (initState stuckGrid (plainConfig 0) 1,
        seedQueue stuckGrid (initState stuckGrid (plainConfig 0) 1)
          (MGQueue.init stuckGrid.nPoint)) 0 rfl (Nat.zero_le _)
    have hq : (interiorWhile stuckGrid (initState stuckGrid (plainConfig 0) 1,
        seedQueue stuckGrid (initState stuckGrid (plainConfig 0) 1)
          (MGQueue.init stuckGrid.nPoint)) 0).1.2.EmptyQueue = false := by
      rw [b3]
      decide
    refine ⟨?_, hq, by decide⟩
    rcases b2 with h | h
    · rw [hq] at h
      exact Bool.noConfusion h
    · exact h

/-- Witness of C32: on the one-point grid whose point is not admissible, the leftover sweep run
on the state in which the interior loop ends agglomerates point 0. -/
theorem interior_loop_terminates_witness :
    (LeftoverSweep stuckGrid (interiorWhile stuckGrid (initState stuckGrid (plainConfig 0) 1,
      seedQueue stuckGrid (initState stuckGrid (plainConfig 0) 1)
        (MGQueue.init stuckGrid.nPoint)) 0).1.1).fAgglomerate 0 = true :=
  (interior_loop_terminates stuckGrid (initState stuckGrid (plainConfig 0) 1,
    seedQueue stuckGrid (initState stuckGrid (plainConfig 0) 1)
      (MGQueue.init stuckGrid.nPoint)) (initState stuckGrid (plainConfig 0) 1)).2.2.2.1 0
    (by decide) (by decide)

/-! ## The coarse vertices created by SetVertex -/

/-- The creating body keeps the vertex maps in agreement, when the children of `c` before child
`j` that have a vertex on the marker have been seen. -/
theorem createVertexStep_maps {fg : FineGrid} {fd : FineGeometry} {st : MGState} (c j t : Nat)
    (hj : j < st.nChildren_CV c) (w : CoarseBoundary) (h : VertexMaps fg fd st w)
    (hseen : ∀ j2, j2 < j → fg.Vertex (st.Children_CV c j2) t ≠ -1 → w.cVertex c t ≠ -1) :
    VertexMaps fg fd st (createVertexStep fg fd c (st.Children_CV c j) w t) := by
  unfold createVertexStep
  split
  · rename_i hcond
    obtain ⟨hv, hfree⟩ := hcond
    constructor
    · intro c2 m2 hne
      have hne2 : Function.update w.cVertex c (Function.update (w.cVertex c) t
          (w.nVertex t : Int)) c2 m2 ≠ -1 := hne
      show ∃ iv : Nat, Function.update w.cVertex c (Function.update (w.cVertex c) t
          (w.nVertex t : Int)) c2 m2 = (iv : Int) ∧
        iv < Function.update w.nVertex t (w.nVertex t + 1) m2 ∧
        Function.update w.vertexNode t (Function.update (w.vertexNode t) (w.nVertex t) c) m2 iv
          = c2 ∧
        ∃ i, i < st.nChildren_CV c2 ∧ fg.Vertex (st.Children_CV c2 i) m2 ≠ -1 ∧
          (∀ j, j < i → fg.Vertex (st.Children_CV c2 j) m2 = -1) ∧
          Function.update w.vertexRotation t (Function.update (w.vertexRotation t) (w.nVertex t)
            (fd.Rotation_Type t (fg.Vertex (st.Children_CV c j) t).toNat)) m2 iv =
            fd.Rotation_Type m2 (fg.Vertex (st.Children_CV c2 i) m2).toNat
      by_cases hcm : c2 = c ∧ m2 = t
      · obtain ⟨rfl, rfl⟩ := hcm
        refine ⟨w.nVertex m2, ?_, ?_, ?_, j, hj, hv, ?_, ?_⟩
        · rw [Function.update_same, Function.update_same]
        · rw [Function.update_same]
          exact Nat.lt_succ_self _
        · rw [Function.update_same, Function.update_same]
        · intro j2 hj2
          by_contra hne3
          exact hseen j2 hj2 hne3 hfree
        · rw [Function.update_same, Function.update_same]
      · have hold : Function.update w.cVertex c (Function.update (w.cVertex c) t
            (w.nVertex t : Int)) c2 m2 = w.cVertex c2 m2 := by
          by_cases hc : c2 = c
          · subst hc
            have hm : m2 ≠ t := fun hm => hcm ⟨rfl, hm⟩
            rw [Function.update_same, Function.update_noteq hm]
          · rw [Function.update_noteq hc]
        rw [hold] at hne2 ⊢
        obtain ⟨iv, e1, e2, e3, i, i1, i2, i3, i4⟩ := h.point c2 m2 hne2
        refine ⟨iv, e1, ?_, ?_, i, i1, i2, i3, ?_⟩
        · by_cases hm : m2 = t
          · subst hm
            rw [Function.update_same]
            omega
          · rw [Function.update_noteq hm]
            exact e2
        · by_cases hm : m2 = t
          · subst hm
            have hiv : iv ≠ w.nVertex m2 := by omega
            rw [Function.update_same, Function.update_noteq hiv]
            exact e3
          · rw [Function.update_noteq hm]
            exact e3
        · by_cases hm : m2 = t
          · subst hm
            have hiv : iv ≠ w.nVertex m2 := by omega
            rw [Function.update_same, Function.update_noteq hiv]
            exact i4
          · rw [Function.update_noteq hm]
            exact i4
    · intro m2 iv hiv
      have hiv2 : iv < Function.update w.nVertex t (w.nVertex t + 1) m2 := hiv
      show Function.update w.cVertex c (Function.update (w.cVertex c) t (w.nVertex t : Int))
        (Function.update w.vertexNode t (Function.update (w.vertexNode t) (w.nVertex t) c) m2 iv)
        m2 = (iv : Int)
      by_cases hm : m2 = t
      · subst hm
        rw [Function.update_same] at hiv2
        rw [Function.update_same]
        by_cases hnew : iv = w.nVertex m2
        · subst hnew
          rw [Function.update_same, Function.update_same, Function.update_same]
        · rw [Function.update_noteq hnew]
          have hlt : iv < w.nVertex m2 := by omega
          have hold := h.vertex m2 iv hlt
          have hc : w.vertexNode m2 iv ≠ c := by
            intro hc
            rw [hc, hfree] at hold
            omega
          rw [Function.update_noteq hc]
          exact hold
      · rw [Function.update_noteq hm] at hiv2
        rw [Function.update_noteq hm]
        have hold := h.vertex m2 iv hiv2
        by_cases hc : w.vertexNode m2 iv = c
        · rw [hc, Function.update_same, Function.update_noteq hm]
          rw [hc] at hold
          exact hold
        · rw [Function.update_noteq hc]
          exact hold
  · exact h

/-- The creation pass keeps the vertex maps in agreement. -/
theorem createPass_maps (fg : FineGrid) (fd : FineGeometry) (st : MGState)
    (w0 : CoarseBoundary) (h : VertexMaps fg fd st w0) :
    VertexMaps fg fd st (overBoundaryChildren fg st (createVertexStep fg fd) w0) := by
  unfold overBoundaryChildren
  apply foldl_inv (VertexMaps fg fd st) _ _ _ h
  intro w c _ hw
  dsimp only
  split
  · have mid := foldl_range_inv
      (fun j (w2 : CoarseBoundary) => VertexMaps fg fd st w2 ∧
        ∀ j2, j2 < j → ∀ m, m < fg.nMarker → fg.Vertex (st.Children_CV c j2) m ≠ -1 →
          w2.cVertex c m ≠ -1)
      (fun v iChildren =>
        (List.range fg.nMarker).foldl (createVertexStep fg fd c (st.Children_CV c iChildren)) v)
      (st.nChildren_CV c) w ⟨hw, fun j2 hj2 => absurd hj2 (Nat.not_lt_zero j2)⟩ ?_
    · exact mid.1
    · intro j w2 hj ⟨hF, hS⟩
      have inner := foldl_range_inv
        (fun t (w3 : CoarseBoundary) => VertexMaps fg fd st w3 ∧
          (∀ j2, j2 < j → ∀ m, m < fg.nMarker → fg.Vertex (st.Children_CV c j2) m ≠ -1 →
            w3.cVertex c m ≠ -1) ∧
          ∀ m, m < t → fg.Vertex (st.Children_CV c j) m ≠ -1 → w3.cVertex c m ≠ -1)
        (createVertexStep fg fd c (st.Children_CV c j)) fg.nMarker w2
        ⟨hF, hS, fun m hm => absurd hm (Nat.not_lt_zero m)⟩ ?_
      · obtain ⟨i1, i2, i3⟩ := inner
        refine ⟨i1, ?_⟩
        intro j2 hj2 m hm hv
        by_cases hjj : j2 = j
        · subst hjj
          exact i3 m hm hv
        · exact i2 j2 (by omega) m hm hv
      · intro t w3 ht ⟨tF, tS, tM⟩
        have hmono := (createVertexStep_marks fg fd c (st.Children_CV c j) w3 t).2
        refine ⟨createVertexStep_maps c j t hj w3 tF (fun j2 hj2 hv => tS j2 hj2 t ht hv), ?_, ?_⟩
        · intro j2 hj2 m hm hv
          exact (hmono c m).mpr (Or.inl (tS j2 hj2 m hm hv))
        · intro m hm hv
          by_cases hmt : m = t
          · subst hmt
            exact (hmono c m).mpr (Or.inr ⟨rfl, rfl, hv⟩)
          · exact (hmono c m).mpr (Or.inl (tM m (by omega) hv))
  · exact hw

/-- On coarse points without vertex indices, the vertex indices are all `-1` again when the
creation pass of `SetVertex` starts, and the maps of `SetVertex` agree. -/
theorem SetVertex_maps (fg : FineGrid) (fd : FineGeometry) (st : MGState) (v : CoarseBoundary)
    (hfresh : ∀ c m, v.cVertex c m = -1) :
    VertexMaps fg fd st (SetVertex fg fd st v) := by
  obtain ⟨_, a2⟩ := SetVertex_flags_cBoundary fg st v
  obtain ⟨b1, b2⟩ := overBoundaryChildren_marks fg st (countVertexStep fg)
    (countVertexStep_marks fg) { SetVertex_flags fg st v with nVertex := fun _ => 0 }
  obtain ⟨_, c2⟩ := resetVertices_cVertex fg st
    { overBoundaryChildren fg st (countVertexStep fg)
        { SetVertex_flags fg st v with nVertex := fun _ => 0 } with nVertex := fun _ => 0 }
  have hclean : ∀ c m, (resetVertices fg st
      { overBoundaryChildren fg st (countVertexStep fg)
          { SetVertex_flags fg st v with nVertex := fun _ => 0 } with
        nVertex := fun _ => 0 }).cVertex c m = -1 := by
    intro c m
    rw [c2 c m]
    split
    · rfl
    · rename_i hcond
      by_contra hne
      have hne2 : (overBoundaryChildren fg st (countVertexStep fg)
          { SetVertex_flags fg st v with nVertex := fun _ => 0 }).cVertex c m ≠ -1 := hne
      rcases (b2 c m).mp hne2 with h | h
      · have h2 : (SetVertex_flags fg st v).cVertex c m ≠ -1 := h
        rw [a2] at h2
        exact h2 (hfresh c m)
      · apply hcond
        refine ⟨h.1, h.2.1, ?_⟩
        show (overBoundaryChildren fg st (countVertexStep fg)
          { SetVertex_flags fg st v with nVertex := fun _ => 0 }).cBoundary c = true
        rw [b1]
        exact h.2.2.1
  unfold SetVertex
  dsimp only
  apply createPass_maps
  constructor
  · intro c m hne
    exact absurd (hclean c m) hne
  · intro m iv hiv
    exact absurd hiv (Nat.not_lt_zero iv)

/-- After `SetVertex` on coarse points without vertex indices, a coarse point has a vertex index
on a marker below `nMarker` exactly when it is below `nPoint` and has a child with a vertex on
the marker, provided the fine points with a vertex on the marker are flagged boundary. -/
theorem SetVertex_marked_iff (fg : FineGrid) (fd : FineGeometry) (st : MGState)
    (v : CoarseBoundary) (hfresh : ∀ c m, v.cVertex c m = -1) (m : Nat) (hm : m < fg.nMarker)
    (hflag : ∀ p, fg.Vertex p m ≠ -1 → fg.Boundary p = true) (c : Nat) :
    (SetVertex fg fd st v).cVertex c m ≠ -1 ↔
      c < st.nPoint ∧ ∃ i, i < st.nChildren_CV c ∧ fg.Vertex (st.Children_CV c i) m ≠ -1 := by
  obtain ⟨h1, h2⟩ := SetVertex_marks fg fd st v c m
  rw [h2]
  constructor
  · rintro (⟨h, _⟩ | ⟨hc, _, _, h⟩)
    · exact absurd (hfresh c m) h
    · exact ⟨hc, h⟩
  · rintro ⟨hc, i, hi, hvi⟩
    refine Or.inr ⟨hc, hm, ?_, i, hi, hvi⟩
    rw [h1]
    have hany : (List.range (st.nChildren_CV c)).any
        (fun i => fg.Boundary (st.Children_CV c i)) = true := by
      rw [List.any_eq_true]
      exact ⟨i, List.mem_range.mpr hi, hflag _ hvi⟩
    simp [hc, hany]

/-! ## Claims on the coarse vertices -/

/-- C39: after `SetVertex` on coarse points without vertex indices, for a marker `m < nMarker`
whose fine vertices lie on fine points flagged boundary, the number of coarse vertices created
on `m` is the number of coarse CVs below `nPoint` with at least one child that has a vertex on
`m`; when the children lists are disjoint, distinct fine points have distinct vertices on `m`
and the fine vertex indices on `m` are below the fine vertex count of `m`, that number is at
most the fine vertex count of `m`, so that every index written in `vertex[m]` is below the fine
vertex count plus one. -/
theorem SetVertex_vertex_count (fg : FineGrid) (fd : FineGeometry) (st : MGState)
    (v : CoarseBoundary) (hfresh : ∀ c m, v.cVertex c m = -1) (m : Nat) (hm : m < fg.nMarker)
    (hflag : ∀ p, fg.Vertex p m ≠ -1 → fg.Boundary p = true) :
    (SetVertex fg fd st v).nVertex m =
      ((Finset.range st.nPoint).filter (fun c =>
        ∃ i, i < st.nChildren_CV c ∧ fg.Vertex (st.Children_CV c i) m ≠ -1)).card ∧
    ((∀ c c2 i j, i < st.nChildren_CV c → j < st.nChildren_CV c2 →
        st.Children_CV c i = st.Children_CV c2 j → c = c2) →
      (∀ p q, fg.Vertex p m ≠ -1 → fg.Vertex p m = fg.Vertex q m → p = q) →
      (∀ p, fg.Vertex p m ≠ -1 →
        0 ≤ fg.Vertex p m ∧ (fg.Vertex p m).toNat < (fg.vertex m).length) →
      (SetVertex fg fd st v).nVertex m ≤ (fg.vertex m).length ∧
      ∀ iv, iv < (SetVertex fg fd st v).nVertex m → iv < (fg.vertex m).length + 1) := by
  have hM := SetVertex_maps fg fd st v hfresh
  have hiff := SetVertex_marked_iff fg fd st v hfresh m hm hflag
  have hcard : ((Finset.range st.nPoint).filter (fun c =>
      ∃ i, i < st.nChildren_CV c ∧ fg.Vertex (st.Children_CV c i) m ≠ -1)).card =
      (Finset.range ((SetVertex fg fd st v).nVertex m)).card := by
    apply Finset.card_bij (fun c _ => ((SetVertex fg fd st v).cVertex c m).toNat)
    · intro c hc
      rw [Finset.mem_filter, Finset.mem_range] at hc
      obtain ⟨iv, e1, e2, _⟩ := hM.point c m ((hiff c).mpr hc)
      rw [Finset.mem_range, e1, Int.toNat_ofNat]
      exact e2
    · intro c hc c2 hc2 heq
      rw [Finset.mem_filter, Finset.mem_range] at hc hc2
      obtain ⟨iv, e1, _, e3, _⟩ := hM.point c m ((hiff c).mpr hc)
      obtain ⟨iv2, f1, _, f3, _⟩ := hM.point c2 m ((hiff c2).mpr hc2)
      simp only [e1, f1, Int.toNat_ofNat] at heq
      rw [← e3, ← f3, heq]
    · intro iv hiv
      rw [Finset.mem_range] at hiv
      have hv := hM.vertex m iv hiv
      have hne : (SetVertex fg fd st v).cVertex ((SetVertex fg fd st v).vertexNode m iv) m ≠ -1 := by
        rw [hv]
        omega
      refine ⟨(SetVertex fg fd st v).vertexNode m iv, ?_, ?_⟩
      · rw [Finset.mem_filter, Finset.mem_range]
        exact (hiff _).mp hne
      · show ((SetVertex fg fd st v).cVertex ((SetVertex fg fd st v).vertexNode m iv) m).toNat = iv
        rw [hv, Int.toNat_ofNat]
  rw [Finset.card_range] at hcard
  refine ⟨hcard.symm, ?_⟩
  intro hdisj hinj hidx
  have hle : (SetVertex fg fd st v).nVertex m ≤ (fg.vertex m).length := by
    rw [← hcard, ← Finset.card_range (fg.vertex m).length]
    apply Finset.card_le_card_of_injOn
      (fun c => if h : ∃ i, i < st.nChildren_CV c ∧ fg.Vertex (st.Children_CV c i) m ≠ -1 then
        (fg.Vertex (st.Children_CV c (Classical.choose h)) m).toNat else 0)
    · intro c hc
      rw [Finset.mem_filter] at hc
      rw [Finset.mem_range]
      simp only [dif_pos hc.2]
      exact (hidx _ (Classical.choose_spec hc.2).2).2
    · intro c hc c2 hc2 heq
      rw [Finset.mem_coe, Finset.mem_filter] at hc hc2
      simp only [dif_pos hc.2, dif_pos hc2.2] at heq
      obtain ⟨a1, a2⟩ := Classical.choose_spec hc.2
      obtain ⟨b1, b2⟩ := Classical.choose_spec hc2.2
      have h1 := (hidx _ a2).1
      have h2 := (hidx _ b2).1
      have heq2 : fg.Vertex (st.Children_CV c (Classical.choose hc.2)) m =
          fg.Vertex (st.Children_CV c2 (Classical.choose hc2.2)) m := by
        rw [← Int.toNat_of_nonneg h1, ← Int.toNat_of_nonneg h2, heq]
      exact hdisj c c2 _ _ a1 b1 (hinj _ _ a2 heq2)
  exact ⟨hle, fun iv hiv => by omega⟩

/-- Witness of C39: the coarse CV built from two adjacent points on marker 0 gives one coarse
vertex on marker 0, which is the number of coarse CVs with a child on marker 0 and is at most
the two fine vertices of the marker. -/
theorem SetVertex_vertex_count_witness :
    (SetVertex wallGrid wallGeometry (GEOM_GeometryMultigrid wallGrid (plainConfig 1) 1)
      freshBoundary).nVertex 0 = 1 ∧
    (SetVertex wallGrid wallGeometry (GEOM_GeometryMultigrid wallGrid (plainConfig 1) 1)
      freshBoundary).nVertex 0 =
      ((Finset.range (GEOM_GeometryMultigrid wallGrid (plainConfig 1) 1).nPoint).filter (fun c =>
        ∃ i, i < (GEOM_GeometryMultigrid wallGrid (plainConfig 1) 1).nChildren_CV c ∧
          wallGrid.Vertex ((GEOM_GeometryMultigrid wallGrid (plainConfig 1) 1).Children_CV c i) 0
            ≠ -1)).card ∧
    (SetVertex wallGrid wallGeometry (GEOM_GeometryMultigrid wallGrid (plainConfig 1) 1)
      freshBoundary).nVertex 0 ≤ (wallGrid.vertex 0).length := by
  have hG : GEOM_GeometryMultigrid wallGrid (plainConfig 1) 1 =
      { repaired wallGrid (plainConfig 1) 1 with
        nPoint := (repaired wallGrid (plainConfig 1) 1).Index_CoarseCV } := by
    unfold GEOM_GeometryMultigrid
    exact PartitionReconciliation_inactive wallGrid (plainConfig 1) _ (fun m _ => by show (0 : Nat) ≠ 99; decide)
  obtain ⟨r, _, _⟩ := @repaired_inv wallGrid (plainConfig 1) 1 ⟨fun _ => rfl, fun _ => rfl⟩
  have hV : ∀ p, wallGrid.Vertex p 0 = if p < 2 then (p : Int) else -1 := by
    intro p
    simp [wallGrid]
  have key := SetVertex_vertex_count wallGrid wallGeometry
    (GEOM_GeometryMultigrid wallGrid (plainConfig 1) 1) freshBoundary (fun _ _ => rfl) 0
    (by decide) (fun p hp => wallGrid_wfm.flagged 0 p (by decide) hp)
  refine ⟨by decide, key.1, (key.2 ?_ ?_ ?_).1⟩
  · intro c c2 i j hi hj he
    rw [hG] at hi hj he
    have h1 := (r.ginv.child c i hi).2
    have h2 := (r.ginv.child c2 j hj).2
    have he2 : (repaired wallGrid (plainConfig 1) 1).Children_CV c i =
        (repaired wallGrid (plainConfig 1) 1).Children_CV c2 j := he
    rw [he2] at h1
    exact h1.symm.trans h2
  · intro p q hp he
    rw [hV p] at hp he
    rw [hV q] at he
    by_cases h2 : p < 2
    · rw [if_pos h2] at he
      by_cases h3 : q < 2
      · rw [if_pos h3] at he
        exact Int.ofNat_inj.mp he
      · rw [if_neg h3] at he
        omega
    · rw [if_neg h2] at hp
      exact absurd rfl hp
  · intro p hp
    rw [hV p] at hp ⊢
    split
    · rename_i h2
      refine ⟨Int.ofNat_nonneg p, ?_⟩
      rw [Int.toNat_ofNat]
      exact h2
    · rename_i h2
      rw [if_neg h2] at hp
      exact absurd rfl hp

/-- C40: after `SetVertex` on coarse points without vertex indices, on every marker `m`: a
coarse CV `c` with a vertex index on `m` has an index `iv` below `nVertex m`, the vertex `iv` of
`m` has node `c`, and its rotation tag is that of the fine vertex of the first child of `c`, in
the order of the children, that has a vertex on `m`; the node of every vertex `iv` below
`nVertex m` has vertex index `iv` on `m`; and no two coarse CVs have the same vertex index on
`m`. -/
theorem SetVertex_maps_inverse (fg : FineGrid) (fd : FineGeometry) (st : MGState)
    (v : CoarseBoundary) (hfresh : ∀ c m, v.cVertex c m = -1) (m : Nat) :
    (∀ c, (SetVertex fg fd st v).cVertex c m ≠ -1 →
      ∃ iv : Nat, (SetVertex fg fd st v).cVertex c m = (iv : Int) ∧
        iv < (SetVertex fg fd st v).nVertex m ∧
        (SetVertex fg fd st v).vertexNode m iv = c ∧
        ∃ i, i < st.nChildren_CV c ∧ fg.Vertex (st.Children_CV c i) m ≠ -1 ∧
          (∀ j, j < i → fg.Vertex (st.Children_CV c j) m = -1) ∧
          (SetVertex fg fd st v).vertexRotation m iv =
            fd.Rotation_Type m (fg.Vertex (st.Children_CV c i) m).toNat) ∧
    (∀ iv, iv < (SetVertex fg fd st v).nVertex m →
      (SetVertex fg fd st v).cVertex ((SetVertex fg fd st v).vertexNode m iv) m = (iv : Int)) ∧
    (∀ c c2, (SetVertex fg fd st v).cVertex c m ≠ -1 →
      (SetVertex fg fd st v).cVertex c m = (SetVertex fg fd st v).cVertex c2 m → c = c2) := by
  have hM := SetVertex_maps fg fd st v hfresh
  refine ⟨fun c hc => hM.point c m hc, fun iv hiv => hM.vertex m iv hiv, ?_⟩
  intro c c2 hc heq
  obtain ⟨iv, e1, _, e3, _⟩ := hM.point c m hc
  obtain ⟨iv2, f1, _, f3, _⟩ := hM.point c2 m (heq ▸ hc)
  have : iv = iv2 := by
    have h := e1.symm.trans (heq.trans f1)
    exact Int.ofNat_inj.mp h
  rw [← e3, ← f3, this]

/-- Witness of C40: on the coarse CV built from two adjacent points on marker 0, coarse CV 0
has a vertex index on marker 0, the coarse vertex 0 of marker 0 has node 0, and coarse CV 0 has
vertex index 0 on marker 0. -/
theorem SetVertex_maps_inverse_witness :
    (∃ iv : Nat, (SetVertex wallGrid wallGeometry
        (GEOM_GeometryMultigrid wallGrid (plainConfig 1) 1) freshBoundary).cVertex 0 0
          = (iv : Int) ∧
      iv < (SetVertex wallGrid wallGeometry
        (GEOM_GeometryMultigrid wallGrid (plainConfig 1) 1) freshBoundary).nVertex 0 ∧
      (SetVertex wallGrid wallGeometry
        (GEOM_GeometryMultigrid wallGrid (plainConfig 1) 1) freshBoundary).vertexNode 0 iv = 0 ∧
      ∃ i, i < (GEOM_GeometryMultigrid wallGrid (plainConfig 1) 1).nChildren_CV 0 ∧
        wallGrid.Vertex ((GEOM_GeometryMultigrid wallGrid (plainConfig 1) 1).Children_CV 0 i) 0
          ≠ -1 ∧
        (∀ j, j < i → wallGrid.Vertex
          ((GEOM_GeometryMultigrid wallGrid (plainConfig 1) 1).Children_CV 0 j) 0 = -1) ∧
        (SetVertex wallGrid wallGeometry
          (GEOM_GeometryMultigrid wallGrid (plainConfig 1) 1) freshBoundary).vertexRotation 0 iv
          = wallGeometry.Rotation_Type 0 (wallGrid.Vertex
            ((GEOM_GeometryMultigrid wallGrid (plainConfig 1) 1).Children_CV 0 i) 0).toNat) ∧
    (SetVertex wallGrid wallGeometry (GEOM_GeometryMultigrid wallGrid (plainConfig 1) 1)
      freshBoundary).vertexNode 0 0 = 0 ∧
    (SetVertex wallGrid wallGeometry (GEOM_GeometryMultigrid wallGrid (plainConfig 1) 1)
      freshBoundary).cVertex
        ((SetVertex wallGrid wallGeometry (GEOM_GeometryMultigrid wallGrid (plainConfig 1) 1)
          freshBoundary).vertexNode 0 0) 0 = ((0 : Nat) : Int) :=
  ⟨(SetVertex_maps_inverse wallGrid wallGeometry
      (GEOM_GeometryMultigrid wallGrid (plainConfig 1) 1) freshBoundary (fun _ _ => rfl) 0).1 0
      (by decide),
    by decide,
    (SetVertex_maps_inverse wallGrid wallGeometry
      (GEOM_GeometryMultigrid wallGrid (plainConfig 1) 1) freshBoundary (fun _ _ => rfl) 0).2.1 0
      (by decide)⟩

/-! ## Priorities in the queue -/

/-- Lookup of a point in a list of entries from which the entries of `id` are filtered out. -/
theorem find_filter_ne (l : List (Nat × Int)) (id p : Nat) :
    (l.filter (fun e => e.1 != id)).find? (fun e => e.1 == p) =
      if p = id then none else l.find? (fun e => e.1 == p) := by
  induction l with
  | nil => simp
  | cons e l ih =>
    by_cases he : e.1 = id
    · have h1 : (e.1 != id) = false := by simp [he]
      rw [List.filter_cons, h1]
      simp only [Bool.false_eq_true, if_false]
      rw [ih]
      by_cases hp : p = id
      · rw [if_pos hp, if_pos hp]
      · rw [if_neg hp, if_neg hp]
        have h2 : (e.1 == p) = false := by
          simp only [beq_eq_false_iff_ne, ne_eq]
          exact fun h => hp (h.symm.trans he)
        rw [List.find?_cons, h2]
    · have h1 : (e.1 != id) = true := by simp [he]
      rw [List.filter_cons, h1]
      simp only [if_true]
      by_cases hep : e.1 = p
      · have h2 : (e.1 == p) = true := by simp [hep]
        have hp : ¬ p = id := fun h => he (hep.trans h)
        rw [List.find?_cons, h2, if_neg hp, List.find?_cons, h2]
      · have h2 : (e.1 == p) = false := by simp [hep]
        rw [List.find?_cons, h2, ih, List.find?_cons, h2]

/-- Priority after `RemoveCV`. -/
theorem MGQueue.priority_RemoveCV (q : MGQueue) (id p : Nat) :
    (q.RemoveCV id).priority p = if p = id then none else q.priority p := by
  unfold MGQueue.RemoveCV MGQueue.priority
  simp only
  rw [find_filter_ne]
  by_cases hp : p = id
  · rw [if_pos hp, if_pos hp]
    rfl
  · rw [if_neg hp, if_neg hp]

/-- Priority in a queue with one entry appended. -/
theorem MGQueue.priority_append (l : List (Nat × Int)) (id : Nat) (v : Int) (p : Nat) :
    (MGQueue.mk (l ++ [(id, v)])).priority p =
      match (MGQueue.mk l).priority p with
      | some pr => some pr
      | none => if p = id then some v else none := by
  unfold MGQueue.priority
  simp only
  rw [List.find?_append]
  cases h : List.find? (fun e => e.1 == p) l with
  | some e => simp
  | none =>
    by_cases hp : p = id
    · subst hp
      simp
    · have : (id == p) = false := by
        simp only [beq_eq_false_iff_ne, ne_eq]
        exact fun h => hp h.symm
      simp [List.find?, this, hp]

/-- Priority after `MoveCV`. -/
theorem MGQueue.priority_MoveCV (q : MGQueue) (id : Nat) (v : Int) (p : Nat) :
    (q.MoveCV id v).priority p =
      if p = id then (q.priority id).map (fun _ => v) else q.priority p := by
  unfold MGQueue.MoveCV
  cases h : q.priority id with
  | none =>
    simp only
    by_cases hp : p = id
    · subst hp
      rw [if_pos rfl, h]
      rfl
    · rw [if_neg hp]
  | some pr =>
    simp only
    rw [MGQueue.priority_append]
    have hr := MGQueue.priority_RemoveCV q id p
    by_cases hp : p = id
    · subst hp
      rw [if_pos rfl] at hr
      rw [hr, if_pos rfl]
      simp
    · rw [if_neg hp] at hr
      rw [hr, if_neg hp]
      cases q.priority p <;> simp [hp]

/-- Priority after `IncrPriorityCV`. -/
theorem MGQueue.priority_IncrPriorityCV (q : MGQueue) (id p : Nat) :
    (q.IncrPriorityCV id).priority p =
      if p = id then (q.priority id).map (fun pr => pr + 1) else q.priority p := by
  unfold MGQueue.IncrPriorityCV
  cases h : q.priority id with
  | none =>
    simp only
    by_cases hp : p = id
    · subst hp
      rw [if_pos rfl, h]
      rfl
    · rw [if_neg hp]
  | some pr =>
    simp only
    rw [MGQueue.priority_append]
    have hr := MGQueue.priority_RemoveCV q id p
    by_cases hp : p = id
    · subst hp
      rw [if_pos rfl] at hr
      rw [hr, if_pos rfl]
      simp
    · rw [if_neg hp] at hr
      rw [hr, if_neg hp]
      cases q.priority p <;> simp [hp]

/-- Priority after incrementing along a list of points: a point that is present gains one for
every occurrence in the list. -/
theorem MGQueue.priority_incrAll (l : List Nat) (q : MGQueue) (p : Nat) :
    (l.foldl (fun q2 jPoint => q2.IncrPriorityCV jPoint) q).priority p =
      (q.priority p).map (fun pr => pr + (l.count p : Int)) := by
  induction l generalizing q with
  | nil =>
    cases h : q.priority p <;> simp [h]
  | cons j l ih =>
    rw [List.foldl_cons, ih, MGQueue.priority_IncrPriorityCV]
    by_cases hp : p = j
    · subst hp
      rw [if_pos rfl, List.count_cons_self]
      cases q.priority p with
      | none => rfl
      | some x =>
        simp only [Option.map_some', Nat.cast_add, Nat.cast_one]
        congr 1
        ring
    · rw [if_neg hp, List.count_cons_of_ne hp]

/-- Priority after `Update`: the point is removed, and a point that is present gains one for
every occurrence in the adjacency list of the removed point. -/
theorem MGQueue.priority_Update (q : MGQueue) (x : Nat) (fg : FineGrid) (p : Nat) :
    (q.Update x fg).priority p =
      if p = x then none else (q.priority p).map (fun pr => pr + ((fg.Point x).count p : Int))
    := by
  unfold MGQueue.Update
  rw [MGQueue.priority_incrAll, MGQueue.priority_RemoveCV]
  by_cases hp : p = x
  · rw [if_pos hp, if_pos hp]
    rfl
  · rw [if_neg hp, if_neg hp]

/-! ## The number of agglomerated neighbours -/

/-- The counting loop of lines 237-243 as a count. -/
theorem countLoop_eq (f : Nat → Bool) (l : List Nat) (n : Nat) :
    l.foldl (fun pr jPoint => if f jPoint = true then pr + 1 else pr) n = n + l.countP f := by
  induction l generalizing n with
  | nil => simp
  | cons j l ih =>
    rw [List.foldl_cons, ih]
    cases hj : f j with
    | true =>
      rw [List.countP_cons_of_pos _ _ hj]
      simp only [if_true]
      omega
    | false =>
      rw [List.countP_cons_of_neg _ _ (by rw [hj]; exact Bool.false_ne_true)]
      simp

/-- Flagging one more point adds its occurrences to the count. -/
theorem countP_update (f : Nat → Bool) (x : Nat) (hx : f x = false) (l : List Nat) :
    l.countP (Function.update f x true) = l.countP f + l.count x := by
  induction l with
  | nil => simp
  | cons j l ih =>
    by_cases hj : j = x
    · subst hj
      rw [List.countP_cons_of_pos _ _ (by rw [Function.update_same]),
        List.countP_cons_of_neg _ _ (by rw [hx]; exact Bool.false_ne_true),
        List.count_cons_self, ih]
      omega
    · rw [List.count_cons_of_ne (fun h => hj h.symm)]
      cases hf : f j with
      | true =>
        rw [List.countP_cons_of_pos _ _ (by rw [Function.update_noteq hj, hf]),
          List.countP_cons_of_pos _ _ hf, ih]
        omega
      | false =>
        rw [List.countP_cons_of_neg _ _
            (by rw [Function.update_noteq hj, hf]; exact Bool.false_ne_true),
          List.countP_cons_of_neg _ _ (by rw [hf]; exact Bool.false_ne_true), ih]

/-- The number of agglomerated neighbours of `p` after a point `x` that was unagglomerated is
agglomerated. -/
theorem agglomeratedNeighbors_absorb (fg : FineGrid) (st st2 : MGState) (x p : Nat)
    (hx : st.fAgglomerate x = false)
    (h2 : st2.fAgglomerate = Function.update st.fAgglomerate x true) :
    agglomeratedNeighbors fg st2 p = agglomeratedNeighbors fg st p + (fg.Point p).count x := by
  unfold agglomeratedNeighbors
  rw [countLoop_eq, countLoop_eq, h2, countP_update _ x hx]
  omega

/-- The invariant on the priorities reads the agglomeration flags only. -/
theorem PriorityInv.of_flags {fg : FineGrid} {st st2 : MGState} {q : MGQueue} {D : List Nat}
    (h : PriorityInv fg st q D) (hA : st2.fAgglomerate = st.fAgglomerate) :
    PriorityInv fg st2 q D := by
  intro p pr hp hD
  have := h p pr hp hD
  unfold agglomeratedNeighbors at this ⊢
  rw [hA]
  exact this

/-- Absorbing an unagglomerated point and updating the queue with it keeps the priorities equal
to the numbers of agglomerated neighbours, on a fine grid in which `x` is listed by `p` as often
as `p` by `x`. -/
theorem PriorityInv.absorbed {fg : FineGrid} {st st2 : MGState} {q : MGQueue} {D : List Nat}
    (hsym : ∀ p x, (fg.Point p).count x = (fg.Point x).count p)
    (h : PriorityInv fg st q D) (x : Nat) (hx : st.fAgglomerate x = false)
    (h2 : st2.fAgglomerate = Function.update st.fAgglomerate x true) :
    PriorityInv fg st2 (q.Update x fg) D := by
  intro p pr hp hD
  rw [MGQueue.priority_Update] at hp
  by_cases hpx : p = x
  · rw [if_pos hpx] at hp
    exact Option.noConfusion hp
  · rw [if_neg hpx] at hp
    cases hq : q.priority p with
    | none =>
      rw [hq] at hp
      exact Option.noConfusion hp
    | some pr0 =>
      rw [hq] at hp
      simp only [Option.map_some', Option.some.injEq] at hp
      rw [agglomeratedNeighbors_absorb fg st st2 x p hx h2, ← hp, h p pr0 hq hD, hsym p x]
      push_cast
      rfl

/-- Demoting a point keeps the invariant, with the point added to the record. -/
theorem PriorityInv.demote {fg : FineGrid} {st : MGState} {q : MGQueue} {D : List Nat}
    (h : PriorityInv fg st q D) (x : Nat) (v : Int) :
    PriorityInv fg st (q.MoveCV x v) (D ++ [x]) := by
  intro p pr hp hD
  rw [MGQueue.priority_MoveCV] at hp
  by_cases hpx : p = x
  · subst hpx
    exact absurd (List.mem_append_right D (List.mem_singleton_self p)) hD
  · rw [if_neg hpx] at hp
    exact h p pr hp (fun hm => hD (List.mem_append_left _ hm))

/-- The body of the interior loop keeps the invariant on the priorities. -/
theorem interiorBody_priorities {fg : FineGrid}
    (hsym : ∀ p x, (fg.Point p).count x = (fg.Point x).count p)
    (sq : MGState × MGQueue) (D : List Nat) (h : PriorityInv fg sq.1 sq.2 D) :
    PriorityInv fg (interiorBody fg sq).1 (interiorBody fg sq).2
      (if seedAccepted fg sq.1 sq.2.NextCV then D else D ++ [sq.2.NextCV]) := by
  unfold interiorBody seedAccepted
  simp only
  split
  · rename_i hcond
    have hp : sq.1.fAgglomerate sq.2.NextCV = false := by
      cases hA : sq.1.fAgglomerate sq.2.NextCV with
      | false => rfl
      | true => simp [hA] at hcond
    have h1 : PriorityInv fg
        ((sq.1.SetParent_CV sq.2.NextCV sq.1.Index_CoarseCV).SetChildren_CV
          sq.1.Index_CoarseCV 0 sq.2.NextCV) (sq.2.Update sq.2.NextCV fg) D :=
      h.absorbed hsym sq.2.NextCV hp rfl
    have h3 : ∀ l : List Nat,
        (fun acc : MGState × MGQueue × Nat => PriorityInv fg acc.1 acc.2.1 D)
        (l.foldl (interiorIndirectStep fg) ((fg.Point sq.2.NextCV).foldl (interiorDirectStep fg)
          ((sq.1.SetParent_CV sq.2.NextCV sq.1.Index_CoarseCV).SetChildren_CV
            sq.1.Index_CoarseCV 0 sq.2.NextCV, sq.2.Update sq.2.NextCV fg, 1))) := by
      intro l
      refine foldl_inv (fun acc : MGState × MGQueue × Nat => PriorityInv fg acc.1 acc.2.1 D)
        (interiorIndirectStep fg) l _
        (foldl_inv (fun acc : MGState × MGQueue × Nat => PriorityInv fg acc.1 acc.2.1 D)
          (interiorDirectStep fg) (fg.Point sq.2.NextCV) _ h1 ?_) ?_
      · intro acc x _ hacc
        unfold interiorDirectStep
        split
        · rename_i hc
          have hx : acc.1.fAgglomerate x = false := by
            cases hA : acc.1.fAgglomerate x with
            | false => rfl
            | true => simp [hA] at hc
          exact PriorityInv.absorbed hsym hacc x hx rfl
        · exact hacc
      · intro acc x _ hacc
        unfold interiorIndirectStep
        split
        · rename_i hc
          have hx : acc.1.fAgglomerate x = false := by
            cases hA : acc.1.fAgglomerate x with
            | false => rfl
            | true => simp [hA] at hc
          by_cases hi : (acc.1.SetParent_CV x acc.1.Index_CoarseCV).fIndirect x = true
          · simp only [hi, if_true]
            exact PriorityInv.absorbed hsym hacc x hx rfl
          · simp only [hi, if_false]
            exact PriorityInv.absorbed hsym hacc x hx rfl
        · exact hacc
    have fin : ∀ acc : MGState × MGQueue × Nat,
        PriorityInv fg acc.1 acc.2.1 D →
        PriorityInv fg ({ acc.1.SetnChildren_CV acc.1.Index_CoarseCV acc.2.2 with
          Index_CoarseCV := (acc.1.SetnChildren_CV acc.1.Index_CoarseCV acc.2.2).Index_CoarseCV
            + 1 } : MGState) acc.2.1 D :=
      fun acc hacc => hacc.of_flags rfl
    split
    · exact fin _ (h3 _)
    · exact fin _ (h3 [])
  · exact h.demote _ _

/-- The loop run with the record of demoted points is the interior loop, and it keeps the
invariant on the priorities, whatever the number of iterations. -/
theorem interiorLoop_demoted_inv {fg : FineGrid}
    (hsym : ∀ p x, (fg.Point p).count x = (fg.Point x).count p) (fuel : Nat)
    (a : (MGState × MGQueue) × List Nat) (h : PriorityInv fg a.1.1 a.1.2 a.2) :
    (interiorLoop_demoted fg fuel a).1 = interiorLoop fg fuel a.1 ∧
    PriorityInv fg (interiorLoop_demoted fg fuel a).1.1 (interiorLoop_demoted fg fuel a).1.2
      (interiorLoop_demoted fg fuel a).2 := by
  induction fuel generalizing a with
  | zero => exact ⟨rfl, h⟩
  | succ fuel ih =>
    unfold interiorLoop_demoted interiorLoop
    cases hq : a.1.2.EmptyQueue with
    | true => exact ⟨rfl, h⟩
    | false =>
      simp only [Bool.false_eq_true, if_false]
      exact ih _ (interiorBody_priorities hsym a.1 a.2 h)

/-! ## The queue when interior seeding starts -/

/-- Lookup of a point in the entries of the new queue. -/
theorem MGQueue.priority_init (n p : Nat) :
    (MGQueue.init n).priority p = if p < n then some 0 else none := by
  unfold MGQueue.init MGQueue.priority
  simp only
  induction n with
  | zero => simp
  | succ n ih =>
    rw [List.range_succ, List.map_append, List.find?_append]
    by_cases hp : p < n
    · rw [if_pos hp] at ih
      rw [if_pos (by omega)]
      cases hf : List.find? (fun e => e.1 == p) (List.map (fun iPoint => (iPoint, (0 : Int)))
          (List.range n)) with
      | none => rw [hf] at ih; exact Option.noConfusion ih
      | some e =>
        rw [hf] at ih
        simpa using ih
    · rw [if_neg hp] at ih
      cases hf : List.find? (fun e => e.1 == p) (List.map (fun iPoint => (iPoint, (0 : Int)))
          (List.range n)) with
      | some e => rw [hf] at ih; exact Option.noConfusion ih
      | none =>
        by_cases hpn : p = n
        · subst hpn
          simp
        · have : (n == p) = false := by
            simp only [beq_eq_false_iff_ne, ne_eq]
            exact fun h => hpn h.symm
          rw [if_neg (by omega)]
          simp [List.find?, this]

/-- The priorities after the queue seeding of lines 226-246. -/
theorem seedQueue_priority (fg : FineGrid) (st : MGState) (p : Nat) :
    (seedQueue fg st (MGQueue.init fg.nPoint)).priority p =
      if p < fg.nPoint ∧ st.fAgglomerate p = false then
        some (agglomeratedNeighbors fg st p : Int)
      else none := by
  unfold seedQueue
  have key := foldl_range_inv
    (fun k (q : MGQueue) => ∀ p, q.priority p =
      if p < k then
        (if p < fg.nPoint ∧ st.fAgglomerate p = false then
          some (agglomeratedNeighbors fg st p : Int) else none)
      else (MGQueue.init fg.nPoint).priority p)
    (fun q2 iPoint =>
      if st.fAgglomerate iPoint = true then q2.RemoveCV iPoint
      else
        let priority := (fg.Point iPoint).foldl (fun pr jPoint =>
          if st.fAgglomerate jPoint = true then pr + 1 else pr) (0 : Nat)
        q2.MoveCV iPoint (priority : Int))
    fg.nPoint (MGQueue.init fg.nPoint) (fun p => by rw [if_neg (Nat.not_lt_zero p)]) ?_
  · rw [key p]
    by_cases hp : p < fg.nPoint
    · rw [if_pos hp]
    · rw [if_neg hp, MGQueue.priority_init, if_neg hp, if_neg (fun h => hp h.1)]
  · intro k q hk hq p
    dsimp only
    by_cases hpk : p = k
    · subst hpk
      rw [if_pos (Nat.lt_succ_self p)]
      cases hA : st.fAgglomerate p with
      | true =>
        simp only [if_true]
        rw [MGQueue.priority_RemoveCV, if_pos rfl, if_neg]
        rintro ⟨_, h⟩
        exact Bool.noConfusion h
      | false =>
        simp only [Bool.false_eq_true, if_false]
        rw [MGQueue.priority_MoveCV, if_pos rfl, hq p, if_neg (Nat.lt_irrefl p),
          MGQueue.priority_init, if_pos hk, if_pos ⟨hk, trivial⟩]
        rfl
    · have hlt : p < k + 1 ↔ p < k := by omega
      have hold : (if st.fAgglomerate k = true then q.RemoveCV k
          else q.MoveCV k (((fg.Point k).foldl (fun pr jPoint =>
            if st.fAgglomerate jPoint = true then pr + 1 else pr) (0 : Nat) : Nat) : Int)
          ).priority p = q.priority p := by
        split
        · rw [MGQueue.priority_RemoveCV, if_neg hpk]
        · rw [MGQueue.priority_MoveCV, if_neg hpk]
      rw [hold, hq p]
      simp only [hlt]

/-- Each point of the three-point row is listed by another as often as it lists it. -/
theorem pathGrid_counts (p x : Nat) :
    (pathGrid.Point p).count x = (pathGrid.Point x).count p := by
  have hsmall : ∀ p, p < 3 → ∀ x, x < 3 →
      (pathGrid.Point p).count x = (pathGrid.Point x).count p := by decide
  have hnil : ∀ p, 3 ≤ p → pathGrid.Point p = [] := by
    intro p hp
    have h0 : p ≠ 0 := by omega
    have h1 : p ≠ 1 := by omega
    have h2 : p ≠ 2 := by omega
    simp [pathGrid, h0, h1, h2]
  have hmem : ∀ p, p < 3 → ∀ q, q ∈ pathGrid.Point p → q < 3 := by decide
  by_cases hp : p < 3
  · by_cases hx : x < 3
    · exact hsmall p hp x hx
    · rw [hnil x (by omega), List.count_nil, List.count_eq_zero]
      intro hm
      exact hx (hmem p hp x hm)
  · rw [hnil p (by omega), List.count_nil]
    symm
    rw [List.count_eq_zero]
    intro hm
    by_cases hx : x < 3
    · exact hp (hmem x hx p hm)
    · rw [hnil x (by omega)] at hm
      exact absurd hm (List.not_mem_nil p)

/-! ## Claim on the priorities of the queue -/

/-- C35: when interior seeding starts from the state `st`, with the queue seeded by lines
226-246, a fine point that is agglomerated is not in the queue, and an unagglomerated fine point
below `nPoint` is in the queue with priority the number of its agglomerated neighbours. On a
fine grid in which every point is listed by a neighbour as often as it lists that neighbour,
after any number of iterations of the interior loop every point that is in the queue and has
not been demoted has priority the number of its agglomerated neighbours; and each absorption of
an unagglomerated point followed by the update of the queue with that point keeps this. -/
theorem queue_priorities (fg : FineGrid) (st : MGState)
    (hsym : ∀ p x, (fg.Point p).count x = (fg.Point x).count p) :
    (∀ p, st.fAgglomerate p = true →
      (seedQueue fg st (MGQueue.init fg.nPoint)).priority p = none) ∧
    (∀ p, p < fg.nPoint → st.fAgglomerate p = false →
      (seedQueue fg st (MGQueue.init fg.nPoint)).priority p =
        some (agglomeratedNeighbors fg st p : Int)) ∧
    (∀ fuel,
      (interiorLoop_demoted fg fuel
        ((st, seedQueue fg st (MGQueue.init fg.nPoint)), [])).1 =
        interiorLoop fg fuel (st, seedQueue fg st (MGQueue.init fg.nPoint)) ∧
      ∀ p pr,
        (interiorLoop_demoted fg fuel
          ((st, seedQueue fg st (MGQueue.init fg.nPoint)), [])).1.2.priority p = some pr →
        p ∉ (interiorLoop_demoted fg fuel
          ((st, seedQueue fg st (MGQueue.init fg.nPoint)), [])).2 →
        pr = (agglomeratedNeighbors fg (interiorLoop_demoted fg fuel
          ((st, seedQueue fg st (MGQueue.init fg.nPoint)), [])).1.1 p : Int)) ∧
    (∀ (s : MGState) (q : MGQueue) (D : List Nat) (x c : Nat),
      PriorityInv fg s q D → s.fAgglomerate x = false →
      PriorityInv fg (s.SetParent_CV x c) (q.Update x fg) D) := by
  have h0 : PriorityInv fg st (seedQueue fg st (MGQueue.init fg.nPoint)) [] := by
    intro p pr hp _
    rw [seedQueue_priority] at hp
    split at hp
    · exact (Option.some.inj hp).symm
    · exact Option.noConfusion hp
  refine ⟨?_, ?_, ?_, ?_⟩
  · intro p hp
    rw [seedQueue_priority, if_neg]
    rintro ⟨_, h⟩
    rw [hp] at h
    exact Bool.noConfusion h
  · intro p hp hA
    rw [seedQueue_priority, if_pos ⟨hp, hA⟩]
  · intro fuel
    exact interiorLoop_demoted_inv hsym fuel
      ((st, seedQueue fg st (MGQueue.init fg.nPoint)), []) h0
  · intro s q D x c h hx
    exact h.absorbed hsym x hx rfl

/-- Witness of C35: on three fine points in a row, none agglomerated when interior seeding
starts, point 1 is in the queue with priority 0, and after one iteration of the interior loop,
which agglomerates the points 0 and 1, point 2 is in the queue with priority 1, the number of
its agglomerated neighbours. -/
theorem queue_priorities_witness :
    (seedQueue pathGrid (initState pathGrid (plainConfig 0) 1)
      (MGQueue.init pathGrid.nPoint)).priority 1 =
      some (agglomeratedNeighbors pathGrid (initState pathGrid (plainConfig 0) 1) 1 : Int) ∧
    (interiorLoop_demoted pathGrid 1 ((initState pathGrid (plainConfig 0) 1,
      seedQueue pathGrid (initState pathGrid (plainConfig 0) 1)
        (MGQueue.init pathGrid.nPoint)), [])).1.2.priority 2 = some 1 ∧
    (1 : Int) = (agglomeratedNeighbors pathGrid (interiorLoop_demoted pathGrid 1
      ((initState pathGrid (plainConfig 0) 1,
        seedQueue pathGrid (initState pathGrid (plainConfig 0) 1)
          (MGQueue.init pathGrid.nPoint)), [])).1.1 2 : Int) :=
  ⟨(queue_priorities pathGrid (initState pathGrid (plainConfig 0) 1) pathGrid_counts).2.1 1
      (by decide) (by decide),
    by decide,
    ((queue_priorities pathGrid (initState pathGrid (plainConfig 0) 1) pathGrid_counts).2.2.1
      1).2 2 1 (by decide) (by decide)⟩

/-! ## The reconciliation within the array `node` -/

/-- When every local coarse index is below the number of fine points, placing the received
vertices with the index checked is placing them. -/
theorem finalStructure_checked_eq (n : Nat) (pcs : List (Nat × Nat))
    (acc : MGState × (Nat → Nat)) (h : ∀ pc, pc ∈ pcs → pc.1 < n) :
    pcs.foldl (finalStructureStep_checked n) (some acc) =
      some (pcs.foldl finalStructureStep acc) := by
  induction pcs generalizing acc with
  | nil => rfl
  | cons pc pcs ih =>
    rw [List.foldl_cons, List.foldl_cons]
    have h1 : finalStructureStep_checked n (some acc) pc = some (finalStructureStep acc pc) := by
      unfold finalStructureStep_checked
      simp only
      rw [if_pos (h pc (List.mem_cons_self _ _))]
    rw [h1]
    exact ih _ (fun pc2 h2 => h pc2 (List.mem_cons_of_mem _ h2))

/-- Once an index was out of the array, the checked placing has no result. -/
theorem finalStructure_checked_none (n : Nat) (pcs : List (Nat × Nat)) :
    pcs.foldl (finalStructureStep_checked n) none = none := by
  induction pcs with
  | nil => rfl
  | cons pc pcs ih =>
    rw [List.foldl_cons]
    exact ih

/-- The checked placing has a result only when every local coarse index is below the number of
fine points. -/
theorem finalStructure_checked_some (n : Nat) (pcs : List (Nat × Nat))
    (acc : MGState × (Nat → Nat))
    (h : (pcs.foldl (finalStructureStep_checked n) (some acc)).isSome = true) :
    ∀ pc, pc ∈ pcs → pc.1 < n := by
  induction pcs generalizing acc with
  | nil =>
    intro pc hpc
    exact absurd hpc (List.not_mem_nil _)
  | cons pc pcs ih =>
    rw [List.foldl_cons] at h
    by_cases hlt : pc.1 < n
    · have h1 : finalStructureStep_checked n (some acc) pc =
          some (finalStructureStep acc pc) := by
        unfold finalStructureStep_checked
        simp only
        rw [if_pos hlt]
      rw [h1] at h
      intro pc2 h2
      rcases List.mem_cons.mp h2 with rfl | h3
      · exact hlt
      · exact ih _ h pc2 h3
    · have h1 : finalStructureStep_checked n (some acc) pc = none := by
        unfold finalStructureStep_checked
        simp only
        rw [if_neg hlt]
      rw [h1, finalStructure_checked_none] at h
      exact absurd h (by simp)

/-- The reconciliation of one marker pair with one received parent per receive vertex stays
within the array `node` exactly when the new value of the coarse index counter is at most the
number of fine points (or the receive marker has no vertex), and then it is the reconciliation
of the pair. -/
theorem reconcileWith_checked_eq (fg : FineGrid) (MarkerR : Nat) (R : List Nat) (st : MGState)
    (hR : R.length = (fg.vertex MarkerR).length) :
    (st.Index_CoarseCV + (Aux_Parent R).length ≤ fg.nPoint →
      reconcileWith_checked fg MarkerR R st = some (reconcileWith fg MarkerR R st)) ∧
    ((reconcileWith_checked fg MarkerR R st).isSome = true → R ≠ [] →
      st.Index_CoarseCV + (Aux_Parent R).length ≤ fg.nPoint) := by
  have hmem := fun c => mem_Parent_Local fg MarkerR R st.Index_CoarseCV c hR
  constructor
  · intro hfit
    unfold reconcileWith_checked reconcileWith
    dsimp only
    rw [finalStructure_checked_eq]
    · rfl
    · intro pc hpc
      have := (hmem pc.1).mp (List.mem_map_of_mem Prod.fst hpc)
      omega
  · intro hs hne
    unfold reconcileWith_checked at hs
    dsimp only at hs
    rw [Option.isSome_map'] at hs
    have hall := finalStructure_checked_some _ _ _ hs
    have hpos : 0 < (Aux_Parent R).length := by
      rcases R with _ | ⟨a, t⟩
      · exact absurd rfl hne
      · exact List.length_pos_of_mem ((mem_Aux_Parent _ a).mpr (List.mem_cons_self _ _))
    have hlast := (hmem (st.Index_CoarseCV + (Aux_Parent R).length - 1)).mpr
      ⟨by omega, by omega⟩
    obtain ⟨pc, hpc, he⟩ := List.mem_map.mp hlast
    have := hall pc hpc
    omega

/-- The coarse index counter does not go down in the marker loop. -/
theorem reconcileFold_Index_le (fg : FineGrid) (cfg : Config) (l : List Nat) (st : MGState) :
    st.Index_CoarseCV ≤ (l.foldl (reconcileMarker fg cfg) st).Index_CoarseCV := by
  induction l generalizing st with
  | nil => exact le_refl _
  | cons m l ih =>
    rw [List.foldl_cons]
    exact Nat.le_trans (reconcileMarker_frame fg cfg st m).1 (ih _)

/-- The body of the marker loop with the array accesses checked is the body of the marker loop,
when the receive buffer is at most as long as the send buffer and the new value of the coarse
index counter is at most the number of fine points. -/
theorem reconcileMarker_checked_eq (fg : FineGrid) (cfg : Config) (st : MGState) (m : Nat)
    (hs : cfg.Marker_All_KindBC m = cfg.SEND_RECEIVE → cfg.Marker_All_SendRecv m > 0 →
      (fg.vertex (m + 1)).length ≤ (fg.vertex m).length)
    (hfit : (reconcileMarker fg cfg st m).Index_CoarseCV ≤ fg.nPoint) :
    reconcileMarker_checked fg cfg (some st) m = some (reconcileMarker fg cfg st m) := by
  unfold reconcileMarker_checked
  unfold reconcileMarker at hfit ⊢
  dsimp only
  split
  · rename_i hact
    rw [if_pos hact] at hfit
    rw [serialExchange_eq fg st m (m + 1) (hs hact.1 hact.2)]
    dsimp only
    apply (reconcileWith_checked_eq fg (m + 1) _ st
      (Buffer_Receive_Parent_length fg st m (m + 1))).1
    unfold reconcileWith at hfit
    dsimp only at hfit
    rw [finalStructure_Index] at hfit
    exact hfit
  · rfl

/-- The marker loop with the array accesses checked is the marker loop, when every receive
buffer is at most as long as its send buffer and the final value of the coarse index counter is
at most the number of fine points. -/
theorem reconcileFold_checked_eq (fg : FineGrid) (cfg : Config) (l : List Nat) (st : MGState)
    (hs : ∀ m, m ∈ l → cfg.Marker_All_KindBC m = cfg.SEND_RECEIVE →
      cfg.Marker_All_SendRecv m > 0 → (fg.vertex (m + 1)).length ≤ (fg.vertex m).length)
    (hfit : (l.foldl (reconcileMarker fg cfg) st).Index_CoarseCV ≤ fg.nPoint) :
    l.foldl (reconcileMarker_checked fg cfg) (some st) =
      some (l.foldl (reconcileMarker fg cfg) st) := by
  induction l generalizing st with
  | nil => rfl
  | cons m l ih =>
    rw [List.foldl_cons, List.foldl_cons] at *
    rw [reconcileMarker_checked_eq fg cfg st m (hs m (List.mem_cons_self _ _))
      (Nat.le_trans (reconcileFold_Index_le fg cfg l _) hfit)]
    exact ih _ (fun m2 h2 => hs m2 (List.mem_cons_of_mem _ h2)) hfit

/-- With every read within the send buffers and the coarse point count within the number of
fine points, the checked reconciliation is the reconciliation. -/
theorem PartitionReconciliation_checked_eq (fg : FineGrid) (cfg : Config) (st : MGState)
    (h : ∀ m, m < cfg.nMarker_All → cfg.Marker_All_KindBC m = cfg.SEND_RECEIVE →
      cfg.Marker_All_SendRecv m > 0 → (fg.vertex (m + 1)).length ≤ (fg.vertex m).length)
    (hfit : (PartitionReconciliation fg cfg st).nPoint ≤ fg.nPoint) :
    PartitionReconciliation_checked fg cfg st = some (PartitionReconciliation fg cfg st) := by
  unfold PartitionReconciliation_checked
  unfold PartitionReconciliation at hfit ⊢
  rw [reconcileFold_checked_eq fg cfg _ st (fun m hm => h m (List.mem_range.mp hm)) hfit]
  rfl

/-! ## Claim on the parents of the received points -/

/-- C20: in the reconciliation of one marker pair with one received parent per vertex of the
receive marker, when the nodes of the vertices of the receive marker are distinct and the new
value of the coarse index counter is at most the number of fine points (the size of the array
`node`), the reconciliation stays within the array, and afterwards the parent of the node of
every vertex of the receive marker is the local coarse index given to the parent received for
that vertex, whatever its parent was before; that index is one of the coarse CVs appended; the
node is marked agglomerated and is in the children list of that coarse CV below its child
count. -/
theorem reconcile_receive_parent (fg : FineGrid) (MarkerR : Nat) (R : List Nat) (st : MGState)
    (hR : R.length = (fg.vertex MarkerR).length)
    (hfit : st.Index_CoarseCV + (Aux_Parent R).length ≤ fg.nPoint)
    (hX : (fg.vertex MarkerR).Nodup) (i : Nat) (hi : i < (fg.vertex MarkerR).length) :
    ∃ s, reconcileWith_checked fg MarkerR R st = some s ∧
      s.Index_CoarseCV = st.Index_CoarseCV + (Aux_Parent R).length ∧
      s.fParent_CV ((fg.vertex MarkerR).getD i 0) =
        Parent_Local (Aux_Parent R) st.Index_CoarseCV (R.getD i 0) ∧
      st.Index_CoarseCV ≤ Parent_Local (Aux_Parent R) st.Index_CoarseCV (R.getD i 0) ∧
      Parent_Local (Aux_Parent R) st.Index_CoarseCV (R.getD i 0) < s.Index_CoarseCV ∧
      s.fAgglomerate ((fg.vertex MarkerR).getD i 0) = true ∧
      ∃ j, j < s.nChildren_CV (Parent_Local (Aux_Parent R) st.Index_CoarseCV (R.getD i 0)) ∧
        s.Children_CV (Parent_Local (Aux_Parent R) st.Index_CoarseCV (R.getD i 0)) j =
          (fg.vertex MarkerR).getD i 0 := by
  refine ⟨reconcileWith fg MarkerR R st, (reconcileWith_checked_eq fg MarkerR R st hR).1 hfit,
    ?_⟩
  have hI : (reconcileWith fg MarkerR R st).Index_CoarseCV =
      st.Index_CoarseCV + (Aux_Parent R).length := by
    unfold reconcileWith
    dsimp only
    rw [finalStructure_Index]
  have hpl := (mem_Parent_Local fg MarkerR R st.Index_CoarseCV
    (Parent_Local (Aux_Parent R) st.Index_CoarseCV (R.getD i 0)) hR).mp
    (List.mem_map.mpr ⟨_, List.mem_map.mpr ⟨i, List.mem_range.mpr hi, rfl⟩, rfl⟩)
  have key : (reconcileWith fg MarkerR R st).fParent_CV ((fg.vertex MarkerR).getD i 0) =
        Parent_Local (Aux_Parent R) st.Index_CoarseCV (R.getD i 0) ∧
      (reconcileWith fg MarkerR R st).fAgglomerate ((fg.vertex MarkerR).getD i 0) = true ∧
      ∃ j, j < (reconcileWith fg MarkerR R st).nChildren_CV
            (Parent_Local (Aux_Parent R) st.Index_CoarseCV (R.getD i 0)) ∧
        (reconcileWith fg MarkerR R st).Children_CV
            (Parent_Local (Aux_Parent R) st.Index_CoarseCV (R.getD i 0)) j =
          (fg.vertex MarkerR).getD i 0 := by
    unfold reconcileWith
    dsimp only
    rw [List.foldl_map]
    exact finalStructure_placed (fg.vertex MarkerR) hX
      (fun iVertex => Parent_Local (Aux_Parent R) st.Index_CoarseCV (R.getD iVertex 0))
      { st with Index_CoarseCV := st.Index_CoarseCV + (Aux_Parent R).length }
      (fg.vertex MarkerR).length (le_refl _) i hi
  exact ⟨hI, key.1, hpl.1, by rw [hI]; exact hpl.2, key.2.1, key.2.2⟩

/-- Witness of C20: the receive marker 1 of the two-point partitioned grid, after the three
passes and the repair have made the coarse CV 0 of the domain-owned point 0; the halo point 1
gets the parent 1, within the array `node` of two entries. -/
theorem reconcile_receive_parent_witness :
    ∃ s, reconcileWith_checked haloGrid 1 [0] (repaired haloGrid interfaceConfig 1) = some s ∧
      s.Index_CoarseCV = (repaired haloGrid interfaceConfig 1).Index_CoarseCV +
        (Aux_Parent [0]).length ∧
      s.fParent_CV ((haloGrid.vertex 1).getD 0 0) =
        Parent_Local (Aux_Parent [0]) (repaired haloGrid interfaceConfig 1).Index_CoarseCV
          (([0] : List Nat).getD 0 0) ∧
      (repaired haloGrid interfaceConfig 1).Index_CoarseCV ≤
        Parent_Local (Aux_Parent [0]) (repaired haloGrid interfaceConfig 1).Index_CoarseCV
          (([0] : List Nat).getD 0 0) ∧
      Parent_Local (Aux_Parent [0]) (repaired haloGrid interfaceConfig 1).Index_CoarseCV
          (([0] : List Nat).getD 0 0) < s.Index_CoarseCV ∧
      s.fAgglomerate ((haloGrid.vertex 1).getD 0 0) = true ∧
      ∃ j, j < s.nChildren_CV
            (Parent_Local (Aux_Parent [0]) (repaired haloGrid interfaceConfig 1).Index_CoarseCV
              (([0] : List Nat).getD 0 0)) ∧
        s.Children_CV
            (Parent_Local (Aux_Parent [0]) (repaired haloGrid interfaceConfig 1).Index_CoarseCV
              (([0] : List Nat).getD 0 0)) j =
          (haloGrid.vertex 1).getD 0 0 :=
  reconcile_receive_parent haloGrid 1 [0] (repaired haloGrid interfaceConfig 1)
    (by decide) (by decide) (by decide) 0 (by decide)

/-! ## Claims on the reconciliation as a whole -/

/-- C21: when every processed receive marker has at most as many vertices as its send marker
and the coarse point count is at most the number of fine points (the size of the array `node`),
the construction stays within its arrays; the reconciliation leaves `nPointDomain` alone; every
coarse CV it creates (index from `nPointDomain` up to the final point count) is marked as not
domain-owned; and every coarse CV with index below `nPointDomain` has the domain flag it had
before the reconciliation. -/
theorem reconciliation_domain_flags (fg : FineGrid) (cfg : Config) (iMesh : Nat)
    (hs : ∀ m, m < cfg.nMarker_All → cfg.Marker_All_KindBC m = cfg.SEND_RECEIVE →
      cfg.Marker_All_SendRecv m > 0 → (fg.vertex (m + 1)).length ≤ (fg.vertex m).length)
    (hfit : (GEOM_GeometryMultigrid fg cfg iMesh).nPoint ≤ fg.nPoint) :
    ∃ s, GEOM_GeometryMultigrid_checked fg cfg iMesh = some s ∧
      s.nPointDomain = (repaired fg cfg iMesh).nPointDomain ∧
      (∀ c, s.nPointDomain ≤ c → c < s.nPoint → s.cDomain c = false) ∧
      (∀ c, c < s.nPointDomain → s.cDomain c = (repaired fg cfg iMesh).cDomain c) := by
  refine ⟨GEOM_GeometryMultigrid fg cfg iMesh,
    PartitionReconciliation_checked_eq fg cfg (repaired fg cfg iMesh) hs hfit, ?_⟩
  obtain ⟨_, k2, k3, k4, k5, _, _⟩ := PartitionReconciliation_frame fg cfg (repaired fg cfg iMesh)
  have hI : (repaired fg cfg iMesh).nPointDomain = (repaired fg cfg iMesh).Index_CoarseCV := by
    rw [repaired_nPointDomain, repaired_Index]
  unfold GEOM_GeometryMultigrid
  rw [k3, k2, hI]
  exact ⟨rfl, k5, k4⟩

/-- Witness of C21: on the two-point partitioned grid the reconciliation appends the coarse
CV 1 for the halo point. -/
theorem reconciliation_domain_flags_witness :
    ∃ s, GEOM_GeometryMultigrid_checked haloGrid interfaceConfig 1 = some s ∧
      s.nPointDomain = (repaired haloGrid interfaceConfig 1).nPointDomain ∧
      (∀ c, s.nPointDomain ≤ c → c < s.nPoint → s.cDomain c = false) ∧
      (∀ c, c < s.nPointDomain → s.cDomain c = (repaired haloGrid interfaceConfig 1).cDomain c) :=
  reconciliation_domain_flags haloGrid interfaceConfig 1
    (by
      intro m hm _ hs
      have hm2 : m < 2 := hm
      interval_cases m
      · decide
      · revert hs
        decide)
    (by decide)

/-! ## Claim on mismatched buffer sizes -/

/-- C23 (as stated, refuted): on the three-point partitioned grid, whose send marker has two
vertices and whose receive marker has one, the construction does not stop: no read of the send
buffer is past its end and no access of the array `node` is out of bounds; the serial exchange
copies the first entry of the send buffer and the reconciliation appends one coarse CV to the
one CV of the passes. -/
theorem mismatched_buffers_no_abort :
    (mismatchGrid.vertex 0).length = 2 ∧ (mismatchGrid.vertex 1).length = 1 ∧
    (GEOM_GeometryMultigrid_checked mismatchGrid interfaceConfig 1).isSome = true ∧
    (GEOM_GeometryMultigrid_checked mismatchGrid interfaceConfig 1).map (fun s => s.nPointDomain) =
      some 1 ∧
    (GEOM_GeometryMultigrid_checked mismatchGrid interfaceConfig 1).map (fun s => s.nPoint) =
      some 2 ∧
    (GEOM_GeometryMultigrid_checked mismatchGrid interfaceConfig 1).map
      (fun s => s.fParent_CV 2) = some 1 := by
  decide

/-- C23 (amended): the source has no test of the send vertex count against the receive vertex
count. When every processed marker pair has at most as many receive vertices as send vertices,
every read of the serial exchange is at an index below the send vertex count and the exchange
yields the first `nVertexR` entries of the send buffer; when moreover the coarse point count is
at most the number of fine points, the construction stays within its arrays and yields the
coarse grid of the reconciliation, equal counts or not. -/
theorem serialExchange_within_send_buffer (fg : FineGrid) (cfg : Config) (st : MGState)
    (h : ∀ m, m < cfg.nMarker_All → cfg.Marker_All_KindBC m = cfg.SEND_RECEIVE →
      cfg.Marker_All_SendRecv m > 0 → (fg.vertex (m + 1)).length ≤ (fg.vertex m).length) :
    (∀ m s, m < cfg.nMarker_All → cfg.Marker_All_KindBC m = cfg.SEND_RECEIVE →
      cfg.Marker_All_SendRecv m > 0 →
      serialExchange fg s m (m + 1) =
        some ((Buffer_Send_Parent fg s m).take (fg.vertex (m + 1)).length)) ∧
    ((PartitionReconciliation fg cfg st).nPoint ≤ fg.nPoint →
      PartitionReconciliation_checked fg cfg st = some (PartitionReconciliation fg cfg st)) := by
  refine ⟨?_, PartitionReconciliation_checked_eq fg cfg st h⟩
  intro m s hm h1 h2
  rw [serialExchange_eq fg s m (m + 1) (h m hm h1 h2),
    Buffer_Receive_Parent_take fg s m (m + 1) (h m hm h1 h2)]

/-- Witness of C23 (amended): the grid with two send vertices and one receive vertex. -/
theorem serialExchange_within_send_buffer_witness :
    PartitionReconciliation_checked mismatchGrid interfaceConfig
        (repaired mismatchGrid interfaceConfig 1) =
      some (PartitionReconciliation mismatchGrid interfaceConfig
        (repaired mismatchGrid interfaceConfig 1)) :=
  (serialExchange_within_send_buffer mismatchGrid interfaceConfig
    (repaired mismatchGrid interfaceConfig 1) (by
      intro m hm _ hs
      have hm2 : m < 2 := hm
      interval_cases m
      · decide
      · revert hs
        decide)).2 (by decide)

/-! ## The passes agglomerate domain-owned points only -/

theorem Owned.initial (fg : FineGrid) (st : MGState) : Owned fg st st := fun _ h => Or.inl h

/-- A state with the same agglomeration flags. -/
theorem Owned.same {fg : FineGrid} {st0 s s2 : MGState} (h : Owned fg st0 s)
    (hA : s2.fAgglomerate = s.fAgglomerate) : Owned fg st0 s2 := by
  intro p hp
  rw [hA] at hp
  exact h p hp

/-- Marking a domain-owned point agglomerated. -/
theorem Owned.mark {fg : FineGrid} {st0 s s2 : MGState} (h : Owned fg st0 s) (x : Nat)
    (hx : fg.Domain x = true)
    (hA : s2.fAgglomerate = Function.update s.fAgglomerate x true) : Owned fg st0 s2 := by
  intro p hp
  rw [hA] at hp
  by_cases hpx : p = x
  · subst hpx
    exact Or.inr hx
  · rw [Function.update_noteq hpx] at hp
    exact h p hp

/-- A candidate accepted by `SetBoundAgglomeration` is domain-owned. -/
theorem SetBoundAgglomeration_domain {fg : FineGrid} {cfg : Config} {st : MGState}
    {p seed : Nat} (h : SetBoundAgglomeration fg cfg st p seed = true) :
    fg.Domain p = true := by
  unfold SetBoundAgglomeration at h
  cases hD : fg.Domain p with
  | true => rfl
  | false => simp [hD] at h

theorem boundDirectStep_owned {fg : FineGrid} {cfg : Config} {st0 : MGState} {seed : Nat}
    (acc : MGState × Nat) (x : Nat) (h : Owned fg st0 acc.1) :
    Owned fg st0 (boundDirectStep fg cfg seed acc x).1 := by
  unfold boundDirectStep
  split
  · rename_i hacc
    exact h.mark x (SetBoundAgglomeration_domain hacc) rfl
  · exact h

theorem boundIndirectStep_owned {fg : FineGrid} {cfg : Config} {st0 : MGState} {seed : Nat}
    (acc : MGState × Nat) (x : Nat) (h : Owned fg st0 acc.1) :
    Owned fg st0 (boundIndirectStep fg cfg seed acc x).1 := by
  unfold boundIndirectStep
  split
  · rename_i hacc
    by_cases hi : (acc.1.SetParent_CV x acc.1.Index_CoarseCV).fIndirect x = true
    · simp only [hi, if_true]
      exact h.mark x (SetBoundAgglomeration_domain hacc) rfl
    · simp only [hi, if_false]
      exact h.mark x (SetBoundAgglomeration_domain hacc) rfl
  · exact h

/-- The seed test of the first boundary pass and of the interior pass holds of domain-owned
points only. -/
theorem seedTest_domain {fg : FineGrid} {st : MGState} {p : Nat}
    (h : (st.fAgglomerate p == false && fg.Domain p && fg.GeometricalCheck p) = true) :
    fg.Domain p = true := by
  cases hD : fg.Domain p with
  | true => rfl
  | false => simp [hD] at h

/-- The seed test of the second boundary pass and of the leftover sweep holds of domain-owned
points only. -/
theorem singletonTest_domain {fg : FineGrid} {st : MGState} {p : Nat}
    (h : (st.fAgglomerate p == false && fg.Domain p) = true) :
    fg.Domain p = true := by
  cases hD : fg.Domain p with
  | true => rfl
  | false => simp [hD] at h

theorem boundSeed_owned {fg : FineGrid} {cfg : Config} {st0 : MGState} (st : MGState)
    (iMarker iPoint : Nat) (h : Owned fg st0 st) :
    Owned fg st0 (boundSeed fg cfg iMarker st iPoint) := by
  unfold boundSeed
  split
  · rename_i hcond
    have h1 : Owned fg st0 ((st.SetParent_CV iPoint st.Index_CoarseCV).SetChildren_CV
        st.Index_CoarseCV 0 iPoint) := h.mark iPoint (seedTest_domain hcond) rfl
    have h3 : ∀ (l : List Nat) (acc : MGState × Nat), Owned fg st0 acc.1 →
        Owned fg st0 (l.foldl (boundIndirectStep fg cfg iMarker) acc).1 := by
      intro l acc hacc
      exact foldl_inv (fun a : MGState × Nat => Owned fg st0 a.1) _ l acc hacc
        (fun a x _ ha => boundIndirectStep_owned a x ha)
    have h2 : Owned fg st0 ((fg.Point iPoint).foldl (boundDirectStep fg cfg iMarker)
        ((st.SetParent_CV iPoint st.Index_CoarseCV).SetChildren_CV
          st.Index_CoarseCV 0 iPoint, 1)).1 :=
      foldl_inv (fun a : MGState × Nat => Owned fg st0 a.1) _ _ _ h1
        (fun a x _ ha => boundDirectStep_owned a x ha)
    dsimp only
    split
    · exact (h3 _ _ h2).same rfl
    · exact h1.same rfl
  · exact h

theorem singletonSeed_owned {fg : FineGrid} {st0 : MGState} (st : MGState) (iPoint : Nat)
    (h : Owned fg st0 st) : Owned fg st0 (singletonSeed fg st iPoint) := by
  unfold singletonSeed
  split
  · rename_i hcond
    exact h.mark iPoint (singletonTest_domain hcond) rfl
  · exact h

theorem leftoverStep_owned {fg : FineGrid} {st0 : MGState} (st : MGState) (iPoint : Nat)
    (h : Owned fg st0 st) : Owned fg st0 (leftoverStep fg st iPoint) := by
  unfold leftoverStep
  split
  · rename_i hcond
    by_cases hi : (st.SetParent_CV iPoint st.Index_CoarseCV).fIndirect iPoint = true
    · simp only [hi, if_true]
      exact h.mark iPoint (singletonTest_domain hcond) rfl
    · simp only [hi, if_false]
      exact h.mark iPoint (singletonTest_domain hcond) rfl
  · exact h

theorem interiorDirectStep_owned {fg : FineGrid} {st0 : MGState}
    (acc : MGState × MGQueue × Nat) (x : Nat) (h : Owned fg st0 acc.1) :
    Owned fg st0 (interiorDirectStep fg acc x).1 := by
  unfold interiorDirectStep
  split
  · rename_i hcond
    exact h.mark x (seedTest_domain hcond) rfl
  · exact h

theorem interiorIndirectStep_owned {fg : FineGrid} {st0 : MGState}
    (acc : MGState × MGQueue × Nat) (x : Nat) (h : Owned fg st0 acc.1) :
    Owned fg st0 (interiorIndirectStep fg acc x).1 := by
  unfold interiorIndirectStep
  split
  · rename_i hcond
    by_cases hi : (acc.1.SetParent_CV x acc.1.Index_CoarseCV).fIndirect x = true
    · simp only [hi, if_true]
      exact h.mark x (singletonTest_domain hcond) rfl
    · simp only [hi, if_false]
      exact h.mark x (singletonTest_domain hcond) rfl
  · exact h

theorem interiorBody_owned {fg : FineGrid} {st0 : MGState} (sq : MGState × MGQueue)
    (h : Owned fg st0 sq.1) : Owned fg st0 (interiorBody fg sq).1 := by
  unfold interiorBody
  simp only
  split
  · rename_i hcond
    have h1 : Owned fg st0 ((sq.1.SetParent_CV sq.2.NextCV sq.1.Index_CoarseCV).SetChildren_CV
        sq.1.Index_CoarseCV 0 sq.2.NextCV) := h.mark _ (seedTest_domain hcond) rfl
    have h2 := foldl_inv (fun a : MGState × MGQueue × Nat => Owned fg st0 a.1)
      (interiorDirectStep fg) (fg.Point sq.2.NextCV)
      ((sq.1.SetParent_CV sq.2.NextCV sq.1.Index_CoarseCV).SetChildren_CV
        sq.1.Index_CoarseCV 0 sq.2.NextCV, sq.2.Update sq.2.NextCV fg, 1) h1
      (fun a x _ ha => interiorDirectStep_owned a x ha)
    have h3 : ∀ (l : List Nat) (acc : MGState × MGQueue × Nat), Owned fg st0 acc.1 →
        Owned fg st0 (l.foldl (interiorIndirectStep fg) acc).1 := by
      intro l acc hacc
      exact foldl_inv (fun a : MGState × MGQueue × Nat => Owned fg st0 a.1) _ l acc hacc
        (fun a x _ ha => interiorIndirectStep_owned a x ha)
    exact (h3 _ _ h2).same rfl
  · exact h

theorem interiorLoop_owned {fg : FineGrid} {st0 : MGState} (fuel : Nat)
    (sq : MGState × MGQueue) (h : Owned fg st0 sq.1) :
    Owned fg st0 (interiorLoop fg fuel sq).1 := by
  induction fuel generalizing sq with
  | zero => exact h
  | succ fuel ih =>
    unfold interiorLoop
    split
    · exact h
    · exact ih _ (interiorBody_owned sq h)

/-- After the three passes every agglomerated point was agglomerated on entry or is
domain-owned. -/
theorem agglomerationPasses_owned (fg : FineGrid) (cfg : Config) (iMesh : Nat) :
    Owned fg (initState fg cfg iMesh) (agglomerationPasses fg cfg iMesh) := by
  unfold agglomerationPasses
  have h1 : Owned fg (initState fg cfg iMesh) (BoundarySeeding fg cfg (initState fg cfg iMesh)) :=
    markerFold_inv fg (Owned fg (initState fg cfg iMesh)) (boundSeed fg cfg) _
      (Owned.initial fg _) (fun s m p _ _ hs => boundSeed_owned s m p hs)
  have h2 : Owned fg (initState fg cfg iMesh)
      (BoundarySingletons fg (BoundarySeeding fg cfg (initState fg cfg iMesh))) :=
    markerFold_inv fg (Owned fg (initState fg cfg iMesh)) (fun _ => singletonSeed fg) _ h1
      (fun s _ p _ _ hs => singletonSeed_owned s p hs)
  have h3 : Owned fg (initState fg cfg iMesh) (InteriorSeeding fg
      (BoundarySingletons fg (BoundarySeeding fg cfg (initState fg cfg iMesh)))) :=
    interiorLoop_owned _ _ h2
  exact foldl_inv (Owned fg (initState fg cfg iMesh)) (leftoverStep fg) _ _ h3
    (fun s p _ hs => leftoverStep_owned s p hs)

/-- After the repair on a fresh fine grid every agglomerated point is domain-owned. -/
theorem repaired_owned {fg : FineGrid} (cfg : Config) (iMesh : Nat) (hf : Fresh fg) (p : Nat)
    (h : (repaired fg cfg iMesh).fAgglomerate p = true) : fg.Domain p = true := by
  obtain ⟨h1, _⟩ := agglomerationPasses_inv cfg iMesh hf
  have hA : (repaired fg cfg iMesh).fAgglomerate =
      (agglomerationPasses fg cfg iMesh).fAgglomerate := (HangingNodeRepair_inv h1).2.1
  rw [hA] at h
  rcases agglomerationPasses_owned fg cfg iMesh p h with h0 | h0
  · have : fg.Agglomerate p = true := h0
    rw [hf.agg p] at this
    exact absurd this (by simp)
  · exact h0

/-! ## The children lists filled by the reconciliation -/

/-- Placing a received vertex whose node has not been placed before adds one child slot, which
holds the node. -/
theorem finalStructureStep_slots {I0 : Nat} {V : List Nat} (acc : MGState × (Nat → Nat))
    (pc : Nat × Nat) (h : NewSlots I0 V acc.1) (h1 : I0 ≤ pc.1) (hx : pc.2 ∉ V)
    (hcnt : acc.2 pc.1 = acc.1.nChildren_CV pc.1) :
    NewSlots I0 (V ++ [pc.2]) (finalStructureStep acc pc).1 := by
  obtain ⟨a1, a2, a3⟩ := h
  have hC : ∀ c j, (finalStructureStep acc pc).1.Children_CV c j =
      if c = pc.1 ∧ j = acc.1.nChildren_CV pc.1 then pc.2 else acc.1.Children_CV c j := by
    intro c j
    show Function.update acc.1.Children_CV pc.1
      (Function.update (acc.1.Children_CV pc.1) (acc.2 pc.1) pc.2) c j = _
    rw [hcnt]
    by_cases hc : c = pc.1
    · rw [hc, Function.update_same]
      by_cases hj : j = acc.1.nChildren_CV pc.1
      · rw [hj, Function.update_same, if_pos ⟨rfl, rfl⟩]
      · rw [Function.update_noteq hj, if_neg (fun hh => hj hh.2)]
    · rw [Function.update_noteq hc, if_neg (fun hh => hc hh.1)]
  have hN : ∀ c, (finalStructureStep acc pc).1.nChildren_CV c =
      if c = pc.1 then acc.1.nChildren_CV pc.1 + 1 else acc.1.nChildren_CV c := by
    intro c
    show Function.update acc.1.nChildren_CV pc.1
      (Function.update acc.2 pc.1 (acc.2 pc.1 + 1) pc.1) c = _
    rw [Function.update_same, hcnt]
    by_cases hc : c = pc.1
    · rw [hc, Function.update_same, if_pos rfl]
    · rw [Function.update_noteq hc, if_neg hc]
  have hlive : ∀ c j, j < (finalStructureStep acc pc).1.nChildren_CV c →
      (c = pc.1 ∧ j = acc.1.nChildren_CV pc.1) ∨
        (¬ (c = pc.1 ∧ j = acc.1.nChildren_CV pc.1) ∧ j < acc.1.nChildren_CV c) := by
    intro c j hj
    rw [hN] at hj
    by_cases hc : c = pc.1
    · rw [if_pos hc] at hj
      by_cases hj2 : j = acc.1.nChildren_CV pc.1
      · exact Or.inl ⟨hc, hj2⟩
      · refine Or.inr ⟨fun hh => hj2 hh.2, ?_⟩
        rw [hc]
        omega
    · rw [if_neg hc] at hj
      exact Or.inr ⟨fun hh => hc hh.1, hj⟩
  refine ⟨?_, ?_, ?_⟩
  · intro c j hc hj
    rw [hC]
    rcases hlive c j hj with hn | ⟨hn, hj2⟩
    · rw [if_pos hn]
      exact List.mem_append_right _ (List.mem_singleton_self _)
    · rw [if_neg hn]
      exact List.mem_append_left _ (a1 c j hc hj2)
  · intro c j c2 j2 hc hc2 hj hj2 he
    rw [hC, hC] at he
    rcases hlive c j hj with hn | ⟨hn, hjo⟩
    · rcases hlive c2 j2 hj2 with hn2 | ⟨hn2, hjo2⟩
      · exact ⟨hn.1.trans hn2.1.symm, hn.2.trans hn2.2.symm⟩
      · rw [if_pos hn, if_neg hn2] at he
        exact absurd (he ▸ a1 c2 j2 hc2 hjo2) hx
    · rcases hlive c2 j2 hj2 with hn2 | ⟨hn2, hjo2⟩
      · rw [if_neg hn, if_pos hn2] at he
        exact absurd (he ▸ a1 c j hc hjo) hx
      · rw [if_neg hn, if_neg hn2] at he
        exact a2 c j c2 j2 hc hc2 hjo hjo2 he
  · intro x hxm
    rcases List.mem_append.mp hxm with hv | hv
    · obtain ⟨c, j, hc, hj, he⟩ := a3 x hv
      refine ⟨c, j, hc, ?_, ?_⟩
      · rw [hN]
        by_cases hcp : c = pc.1
        · rw [if_pos hcp]
          rw [hcp] at hj
          omega
        · rw [if_neg hcp]
          exact hj
      · rw [hC, if_neg]
        · exact he
        · rintro ⟨hcp, hjp⟩
          rw [hcp] at hj
          omega
    · rw [List.mem_singleton] at hv
      subst hv
      refine ⟨pc.1, acc.1.nChildren_CV pc.1, h1, ?_, ?_⟩
      · rw [hN, if_pos rfl]
        omega
      · rw [hC, if_pos ⟨rfl, rfl⟩]

/-- The reconciliation of one marker pair whose receive nodes are distinct and have not been
placed before adds one child slot for each of them, in coarse points from the old coarse index
counter on, and leaves the coarse points from the new counter on empty. -/
theorem reconcileWith_slots (fg : FineGrid) (MarkerR : Nat) (R : List Nat) (st : MGState)
    (hR : R.length = (fg.vertex MarkerR).length) {I0 : Nat} {V : List Nat}
    (h : NewSlots I0 V st) (hI : I0 ≤ st.Index_CoarseCV)
    (habove : ∀ c, st.Index_CoarseCV ≤ c → st.nChildren_CV c = 0)
    (hnd : (V ++ fg.vertex MarkerR).Nodup) :
    NewSlots I0 (V ++ fg.vertex MarkerR) (reconcileWith fg MarkerR R st) ∧
    (∀ c, (reconcileWith fg MarkerR R st).Index_CoarseCV ≤ c →
      (reconcileWith fg MarkerR R st).nChildren_CV c = 0) := by
  have hIdx : (reconcileWith fg MarkerR R st).Index_CoarseCV =
      st.Index_CoarseCV + (Aux_Parent R).length := by
    unfold reconcileWith
    dsimp only
    rw [finalStructure_Index]
  rw [hIdx]
  unfold reconcileWith
  dsimp only
  rw [List.foldl_map]
  have key := foldl_range_inv
    (fun t (acc : MGState × (Nat → Nat)) =>
      NewSlots I0 (V ++ (fg.vertex MarkerR).take t) acc.1 ∧
      (∀ c, st.Index_CoarseCV ≤ c → acc.2 c = acc.1.nChildren_CV c) ∧
      (∀ c, st.Index_CoarseCV + (Aux_Parent R).length ≤ c → acc.1.nChildren_CV c = 0))
    (fun acc iVertex => finalStructureStep acc
      (Parent_Local (Aux_Parent R) st.Index_CoarseCV (R.getD iVertex 0),
        (fg.vertex MarkerR).getD iVertex 0))
    (fg.vertex MarkerR).length
    ({ st with Index_CoarseCV := st.Index_CoarseCV + (Aux_Parent R).length }, fun _ => 0)
    ⟨by rw [List.take_zero, List.append_nil]; exact h,
      fun c hc => (habove c hc).symm, fun c hc => habove c (by omega)⟩ ?_
  · dsimp only at key
    rw [List.take_length] at key
    exact ⟨key.1, key.2.2⟩
  · intro t acc ht ⟨b1, b2, b3⟩
    have hmemR : R.getD t 0 ∈ Aux_Parent R := by
      rw [mem_Aux_Parent, List.getD_eq_getElem _ 0 (by omega)]
      exact List.getElem_mem _
    have hpl := List.indexOf_lt_length.mpr hmemR
    have hge : st.Index_CoarseCV ≤ Parent_Local (Aux_Parent R) st.Index_CoarseCV (R.getD t 0) := by
      unfold Parent_Local
      omega
    have hlt : Parent_Local (Aux_Parent R) st.Index_CoarseCV (R.getD t 0) <
        st.Index_CoarseCV + (Aux_Parent R).length := by
      unfold Parent_Local
      omega
    have hxe : (fg.vertex MarkerR).getD t 0 = (fg.vertex MarkerR)[t] :=
      List.getD_eq_getElem _ 0 ht
    have htake : (fg.vertex MarkerR).take (t + 1) =
        (fg.vertex MarkerR).take t ++ [(fg.vertex MarkerR).getD t 0] := by
      rw [List.take_succ, List.getElem?_eq_getElem ht, hxe]
      rfl
    have hnew : (fg.vertex MarkerR).getD t 0 ∉ V ++ (fg.vertex MarkerR).take t := by
      intro hmem
      have hnd2 : (V ++ ((fg.vertex MarkerR).take t ++ [(fg.vertex MarkerR).getD t 0])).Nodup := by
        rw [← htake]
        exact hnd.sublist (List.Sublist.append (List.Sublist.refl V)
          (List.take_sublist _ _))
      rw [← List.append_assoc] at hnd2
      exact (List.disjoint_of_nodup_append hnd2) hmem (List.mem_singleton_self _)
    refine ⟨?_, ?_, ?_⟩
    · rw [htake, ← List.append_assoc]
      exact finalStructureStep_slots acc _ b1 (Nat.le_trans hI hge) hnew (b2 _ hge)
    · intro c hc
      show Function.update acc.2 _ (acc.2 _ + 1) c =
        Function.update acc.1.nChildren_CV _ (Function.update acc.2 _ (acc.2 _ + 1) _) c
      rw [Function.update_same]
      by_cases hcp : c = Parent_Local (Aux_Parent R) st.Index_CoarseCV (R.getD t 0)
      · rw [hcp, Function.update_same, Function.update_same]
      · rw [Function.update_noteq hcp, Function.update_noteq hcp]
        exact b2 c hc
    · intro c hc
      show Function.update acc.1.nChildren_CV _ (Function.update acc.2 _ (acc.2 _ + 1) _) c = 0
      have hcp : c ≠ Parent_Local (Aux_Parent R) st.Index_CoarseCV (R.getD t 0) := by omega
      rw [Function.update_noteq hcp]
      exact b3 c hc

/-- The receive nodes of the markers below `k + 1` are those of the markers below `k` followed
by those of marker `k`. -/
theorem receiveNodes_succ (fg : FineGrid) (cfg : Config) (k : Nat) :
    receiveNodes fg cfg (k + 1) = receiveNodes fg cfg k ++
      (if cfg.Marker_All_KindBC k = cfg.SEND_RECEIVE ∧ cfg.Marker_All_SendRecv k > 0
        then fg.vertex (k + 1) else []) := by
  unfold receiveNodes
  rw [List.range_succ, List.map_append, List.flatten_append]
  simp

/-- The receive nodes of the first markers are among those of all markers, in the same order. -/
theorem receiveNodes_sublist (fg : FineGrid) (cfg : Config) (k n : Nat) (h : k ≤ n) :
    (receiveNodes fg cfg k).Sublist (receiveNodes fg cfg n) := by
  induction n with
  | zero =>
    have : k = 0 := by omega
    subst this
    exact List.Sublist.refl _
  | succ n ih =>
    rcases Nat.eq_or_lt_of_le h with he | hlt
    · subst he
      exact List.Sublist.refl _
    · rw [receiveNodes_succ]
      exact (ih (by omega)).trans (List.sublist_append_left _ _)

/-- When the nodes of the vertices of the processed receive markers are distinct, the
reconciliation fills the coarse points it appends with exactly these nodes, each in one child
slot, and leaves the coarse points from the new coarse index counter on empty. -/
theorem PartitionReconciliation_slots (fg : FineGrid) (cfg : Config) (st : MGState)
    (habove : ∀ c, st.Index_CoarseCV ≤ c → st.nChildren_CV c = 0)
    (hnd : (receiveNodes fg cfg cfg.nMarker_All).Nodup) :
    NewSlots st.Index_CoarseCV (receiveNodes fg cfg cfg.nMarker_All)
      (PartitionReconciliation fg cfg st) ∧
    (∀ c, (PartitionReconciliation fg cfg st).Index_CoarseCV ≤ c →
      (PartitionReconciliation fg cfg st).nChildren_CV c = 0) := by
  unfold PartitionReconciliation
  have key := foldl_range_inv
    (fun k (s : MGState) =>
      NewSlots st.Index_CoarseCV (receiveNodes fg cfg k) s ∧
      st.Index_CoarseCV ≤ s.Index_CoarseCV ∧
      (∀ c, s.Index_CoarseCV ≤ c → s.nChildren_CV c = 0))
    (reconcileMarker fg cfg) cfg.nMarker_All st
    ⟨⟨fun c j hc hj => by rw [habove c hc] at hj; exact absurd hj (Nat.not_lt_zero j),
        fun c j c2 j2 hc _ hj _ _ => by
          rw [habove c hc] at hj; exact absurd hj (Nat.not_lt_zero j),
        fun x hx => absurd hx (List.not_mem_nil x)⟩, le_refl _, habove⟩ ?_
  · exact ⟨key.1, key.2.2⟩
  · intro k s hk ⟨b1, b2, b3⟩
    have hpre : (receiveNodes fg cfg (k + 1)).Nodup :=
      hnd.sublist (receiveNodes_sublist fg cfg (k + 1) cfg.nMarker_All (by omega))
    rw [receiveNodes_succ] at hpre ⊢
    unfold reconcileMarker
    by_cases hact : cfg.Marker_All_KindBC k = cfg.SEND_RECEIVE ∧ cfg.Marker_All_SendRecv k > 0
    · rw [if_pos hact] at hpre ⊢
      rw [if_pos hact]
      obtain ⟨r1, r2⟩ := reconcileWith_slots fg (k + 1) (Buffer_Receive_Parent fg s k (k + 1)) s
        (Buffer_Receive_Parent_length fg s k (k + 1)) b1 b2 b3 hpre
      refine ⟨r1, ?_, r2⟩
      have := (reconcileMarker_frame fg cfg s k).1
      unfold reconcileMarker at this
      rw [if_pos hact] at this
      omega
    · rw [if_neg hact, if_neg hact, List.append_nil]
      exact ⟨b1, b2, b3⟩

/-- The two-point partitioned grid is handed over fresh. -/
theorem haloGrid_fresh : Fresh haloGrid := ⟨fun _ => rfl, fun _ => rfl⟩

/-! ## A second construction on the fine grid left by the first -/

/-- The nodes of the marker vertices of the two-point partitioned grid are fine points. -/
theorem haloGrid_vertices : ∀ m p, m < haloGrid.nMarker → p ∈ haloGrid.vertex m →
    p < haloGrid.nPoint := by
  intro m p hm hp
  have hm2 : m < 2 := hm
  show p < 2
  interval_cases m
  · have : p ∈ [0] := hp
    simp only [List.mem_singleton] at this
    omega
  · have : p ∈ [1] := hp
    simp only [List.mem_singleton] at this
    omega

/-! ## Claim on a second run of the reconciliation -/

/-- The reconciliation appends at most one coarse point per vertex of a processed receive
marker. -/
theorem PartitionReconciliation_count (fg : FineGrid) (cfg : Config) (st : MGState) :
    (PartitionReconciliation fg cfg st).nPoint ≤
      st.Index_CoarseCV + (receiveNodes fg cfg cfg.nMarker_All).length := by
  unfold PartitionReconciliation
  show ((List.range cfg.nMarker_All).foldl (reconcileMarker fg cfg) st).Index_CoarseCV ≤ _
  apply foldl_range_inv
    (fun k (s : MGState) => s.Index_CoarseCV ≤ st.Index_CoarseCV + (receiveNodes fg cfg k).length)
    (reconcileMarker fg cfg) cfg.nMarker_All st (Nat.le_add_right _ _)
  intro k s _ hs
  rw [receiveNodes_succ, List.length_append]
  unfold reconcileMarker
  split
  · unfold reconcileWith
    dsimp only
    rw [finalStructure_Index]
    have h1 : (Aux_Parent (Buffer_Receive_Parent fg s k (k + 1))).length ≤
        (fg.vertex (k + 1)).length := by
      rw [Aux_Parent_length, ← Buffer_Receive_Parent_length fg s k (k + 1)]
      exact List.toFinset_card_le _
    show s.Index_CoarseCV + _ ≤ _
    omega
  · rw [List.length_nil]
    exact hs

/-- When the nodes of the vertices of the processed receive markers are distinct fine points
that are not domain-owned, they and the domain-owned points together are at most the fine
points. -/
theorem receiveNodes_count (fg : FineGrid) (cfg : Config)
    (hnd : (receiveNodes fg cfg cfg.nMarker_All).Nodup)
    (hhalo : ∀ p, p ∈ receiveNodes fg cfg cfg.nMarker_All →
      p < fg.nPoint ∧ fg.Domain p = false) :
    nDomainOwned fg + (receiveNodes fg cfg cfg.nMarker_All).length ≤ fg.nPoint := by
  have h1 : (receiveNodes fg cfg cfg.nMarker_All).length ≤
      ((Finset.range fg.nPoint).filter (fun p => ¬ fg.Domain p = true)).card := by
    rw [← List.toFinset_card_of_nodup hnd]
    apply Finset.card_le_card
    intro p hp
    rw [List.mem_toFinset] at hp
    rw [Finset.mem_filter, Finset.mem_range]
    obtain ⟨a, b⟩ := hhalo p hp
    exact ⟨a, by rw [b]; simp⟩
  have h2 := Finset.filter_card_add_filter_neg_card_eq_card (s := Finset.range fg.nPoint)
    (fun p => fg.Domain p = true)
  rw [Finset.card_range] at h2
  unfold nDomainOwned
  omega

/-- On a fresh fine grid whose stored point indices are below its point count and whose
processed receive vertices have distinct nodes that are not domain-owned, the coarse grid has
at most as many points as the fine grid: every index into the array `node` is within it. -/
theorem construction_fits (fg : FineGrid) (cfg : Config) (iMesh : Nat) (hw : WFR fg)
    (hnd : (receiveNodes fg cfg cfg.nMarker_All).Nodup)
    (hhalo : ∀ p, p ∈ receiveNodes fg cfg cfg.nMarker_All →
      p < fg.nPoint ∧ fg.Domain p = false) :
    (GEOM_GeometryMultigrid fg cfg iMesh).nPoint ≤ fg.nPoint := by
  have h1 := PartitionReconciliation_count fg cfg (repaired fg cfg iMesh)
  have h2 := receiveNodes_count fg cfg hnd hhalo
  have h3 := agglomerationPasses_counted fg cfg iMesh hw
  have h4 := (nAgglomerated_le fg (agglomerationPasses fg cfg iMesh)).1
  rw [repaired_Index] at h1
  unfold GEOM_GeometryMultigrid
  omega

/-- The stored point indices of the two-point partitioned grid are below its point count. -/
theorem haloGrid_wfr : WFR haloGrid := by
  refine ⟨?_, haloGrid_vertices⟩
  intro p q hq
  show q < 2
  by_cases h0 : p = 0
  · subst h0
    have : q ∈ [1] := hq
    simp only [List.mem_singleton] at this
    omega
  · by_cases h1 : p = 1
    · subst h1
      have : q ∈ [0] := hq
      simp only [List.mem_singleton] at this
      omega
    · have : q ∈ ([] : List Nat) := by
        have h := hq
        simp only [haloGrid, h0, h1, if_false] at h
        exact h
      exact absurd this (List.not_mem_nil q)

/-! ## Claim on the children lists of the finished coarse grid -/

/-- C1: on a fresh partitioned fine grid whose stored point indices are below its point count,
where the nodes of the vertices of the processed receive markers are distinct and are exactly
the fine points that are not domain-owned, and where every processed receive marker has at most
as many vertices as its send marker, the construction stays within its arrays (the coarse point
count is at most the number of fine points, the size of the array `node`), and in the coarse
grid it yields every fine point is in exactly one child slot: there is exactly one pair `(c, i)`
with `c < nPoint`, `i < nChildren_CV c` and `Children_CV c i = p`. -/
theorem construction_partition (fg : FineGrid) (cfg : Config) (iMesh : Nat) (hf : Fresh fg)
    (hw : WFR fg) (hnd : (receiveNodes fg cfg cfg.nMarker_All).Nodup)
    (hhalo : ∀ p, p ∈ receiveNodes fg cfg cfg.nMarker_All ↔
      p < fg.nPoint ∧ fg.Domain p = false)
    (hs : ∀ m, m < cfg.nMarker_All → cfg.Marker_All_KindBC m = cfg.SEND_RECEIVE →
      cfg.Marker_All_SendRecv m > 0 → (fg.vertex (m + 1)).length ≤ (fg.vertex m).length) :
    ∃ s, GEOM_GeometryMultigrid_checked fg cfg iMesh = some s ∧ s.nPoint ≤ fg.nPoint ∧
      ∀ p, p < fg.nPoint →
        ∃! ci : Nat × Nat, ci.1 < s.nPoint ∧ ci.2 < s.nChildren_CV ci.1 ∧
          s.Children_CV ci.1 ci.2 = p := by
  have hfit := construction_fits fg cfg iMesh hw hnd (fun p hp => (hhalo p).mp hp)
  refine ⟨GEOM_GeometryMultigrid fg cfg iMesh,
    PartitionReconciliation_checked_eq fg cfg (repaired fg cfg iMesh) hs hfit, hfit, ?_⟩
  obtain ⟨r1, r2, _⟩ := repaired_inv cfg iMesh hf
  obtain ⟨⟨q1, q2, _⟩, q4⟩ := PartitionReconciliation_inv cfg r1
  obtain ⟨⟨n1, n2, n3⟩, nab⟩ := PartitionReconciliation_slots fg cfg (repaired fg cfg iMesh)
    r1.above hnd
  unfold GEOM_GeometryMultigrid
  have hbelow : ∀ c, c < (repaired fg cfg iMesh).Index_CoarseCV →
      ∀ i, i < (PartitionReconciliation fg cfg (repaired fg cfg iMesh)).nChildren_CV c →
      fg.Domain ((PartitionReconciliation fg cfg (repaired fg cfg iMesh)).Children_CV c i)
        = true := by
    intro c hc i hi
    rw [(q2 c hc).1] at hi
    rw [(q2 c hc).2]
    exact repaired_owned cfg iMesh hf _ (r1.ginv.child c i hi).1
  have hlive : ∀ c i, i < (PartitionReconciliation fg cfg (repaired fg cfg iMesh)).nChildren_CV c →
      c < (PartitionReconciliation fg cfg (repaired fg cfg iMesh)).nPoint := by
    intro c i hi
    rw [q4]
    by_contra hge
    rw [nab c (Nat.le_of_not_lt hge)] at hi
    exact absurd hi (Nat.not_lt_zero i)
  intro p hp
  cases hd : fg.Domain p with
  | true =>
    have hagg := r2 p hp hd
    obtain ⟨i0, hi0, hc0⟩ := r1.ginv.parent p hagg
    have hlt : (repaired fg cfg iMesh).fParent_CV p < (repaired fg cfg iMesh).Index_CoarseCV := by
      by_contra hge
      have := r1.above _ (Nat.le_of_not_lt hge)
      omega
    refine ⟨((repaired fg cfg iMesh).fParent_CV p, i0), ⟨?_, ?_, ?_⟩, ?_⟩
    · rw [q4]
      exact Nat.lt_of_lt_of_le hlt q1
    · rw [(q2 _ hlt).1]
      exact hi0
    · rw [(q2 _ hlt).2]
      exact hc0
    · rintro ⟨c, i⟩ ⟨_, h2, h3⟩
      simp only at h2 h3
      by_cases hc : c < (repaired fg cfg iMesh).Index_CoarseCV
      · rw [(q2 c hc).1] at h2
        rw [(q2 c hc).2] at h3
        obtain ⟨e1, e2⟩ := r1.ginv.slot_unique h2 hi0 (h3.trans hc0.symm)
        rw [e1, e2]
      · exfalso
        have hm := n1 c i (Nat.le_of_not_lt hc) h2
        rw [h3] at hm
        have := ((hhalo p).mp hm).2
        rw [hd] at this
        exact absurd this (by simp)
  | false =>
    obtain ⟨c0, j0, hc0, hj0, he0⟩ := n3 p ((hhalo p).mpr ⟨hp, hd⟩)
    refine ⟨(c0, j0), ⟨hlive c0 j0 hj0, hj0, he0⟩, ?_⟩
    rintro ⟨c, i⟩ ⟨_, h2, h3⟩
    simp only at h2 h3
    by_cases hc : c < (repaired fg cfg iMesh).Index_CoarseCV
    · exfalso
      have := hbelow c hc i h2
      rw [h3, hd] at this
      exact absurd this (by simp)
    · obtain ⟨e1, e2⟩ := n2 c i c0 j0 (Nat.le_of_not_lt hc) hc0 h2 hj0 (h3.trans he0.symm)
      rw [e1, e2]

/-- Witness of C1: the two-point partitioned grid, whose domain-owned point 0 is the child of
coarse CV 0 and whose halo point 1 is the child of coarse CV 1. -/
theorem construction_partition_witness :
    ∃ s, GEOM_GeometryMultigrid_checked haloGrid interfaceConfig 1 = some s ∧
      s.nPoint ≤ haloGrid.nPoint ∧
      ∀ p, p < haloGrid.nPoint →
        ∃! ci : Nat × Nat, ci.1 < s.nPoint ∧ ci.2 < s.nChildren_CV ci.1 ∧
          s.Children_CV ci.1 ci.2 = p :=
  construction_partition haloGrid interfaceConfig 1 haloGrid_fresh haloGrid_wfr (by decide)
    (by
      intro p
      have hr : receiveNodes haloGrid interfaceConfig interfaceConfig.nMarker_All = [1] := by
        decide
      rw [hr, List.mem_singleton]
      show p = 1 ↔ p < 2 ∧ decide (p = 0) = false
      constructor
      · rintro rfl
        exact ⟨by decide, by decide⟩
      · rintro ⟨h1, h2⟩
        interval_cases p
        · exact absurd h2 (by decide)
        · rfl)
    (by
      intro m hm _ hs
      have hm2 : m < 2 := hm
      interval_cases m
      · decide
      · revert hs
        decide)

end ARIES
